import Mathlib

/-!
# tsvector_op.c : lexeme comparison, lexeme search, query matching, vector operations

A shallow embedding of `src/backend/utils/adt/tsvector_op.c`.

* A lexeme is the byte string addressed by a `(pointer, length)` pair in the
  source; here it is a `List Nat` of unsigned byte values whose length is the
  C length argument.
* A `TSVector` is the array of its `WordEntry` items; each entry carries the
  bytes its `(pos, len)` pair addresses and, when `haspos` is set, the
  `WordEntryPosVector` stored behind them.
* Loops that walk an array by pointer are recursions over the remaining list;
  the two binary searches are recursions over a fuel counter and return
  `none` when the fuel is exhausted or an array access is out of bounds
  (neither happens: see `tsvector_bsearch_loop_spec` and
  `checkcondition_str_bsearch_total`).  The index arithmetic of the searches
  stays far below `2^31`, the entry count being bounded by the size of a
  vector, so it is done in `Nat`.
* A query is a tree of `QueryItem`; the leaf check is a function that may fail
  to return, so `TS_execute` and `TS_phrase_execute` return an `Option`.
* `tsvector_concat` writes entries into an output area; the model keeps, for
  each entry written, the value of its `pos` field, the offset of its lexeme and
  its position vector, and threads `dataoff` through the merge (a recursion
  over a fuel counter, see `concat_loop_offsets`).  `MAXSTRPOS` is a parameter.
* `tsvector_strip`, `tsvector_filter`, `tsvector_delete_by_indices` and
  `array_to_tsvector` write their result the same way; the largest value of the
  field `len` is a parameter of `array_to_tsvector`, which assigns a length to
  that field.  The `"char"` arguments are the byte of the
  character; an array argument is a list whose element `none` is an SQL null; an
  `ereport`/`elog` at level `ERROR` is the value `Except.error`, and a failed
  `Assert` is the value `none`.
* `silly_cmp_tsvector` reads `VARSIZE` and the entry array; a vector is given to
  it as a `TSVectorData`.
* `ts_match_vq` takes the query as its root item, `none` being the query without
  items.
-/

namespace TsvectorOp

/-! ## Data model -/

/-- Modelled from the spec: `WordEntryPos` is declared in `ts_type.h`, which is
not among the sources.  It is one 16-bit unit packing a weight class (2 bits,
the high ones) and a position (14 bits, the low ones). -/
abbrev WordEntryPos := Nat

/-- Modelled from the spec: the macro `WEP_GETWEIGHT` of `ts_type.h` (the weight
class is the upper 2 bits of the 16-bit unit). -/
def WEP_GETWEIGHT (x : WordEntryPos) : Nat := x / 16384

/-- Modelled from the spec: the macro `WEP_GETPOS` of `ts_type.h` (the position
is the lower 14 bits of the 16-bit unit). -/
def WEP_GETPOS (x : WordEntryPos) : Nat := x % 16384

/-- One item of the entry array.  `lexeme` is the byte range
`STRPTR(v) + pos .. + len`; `posvec` is the content of the entry's
`WordEntryPosVector` (`npos` is its length), meaningful only if `haspos`. -/
structure WordEntry where
  lexeme : List Nat
  haspos : Bool
  posvec : List WordEntryPos
deriving DecidableEq, Repr

/-- The entry array `ARRPTR(v)[0 .. v->size)`. -/
abbrev TSVector := List WordEntry

/-- Modelled from the spec: the macro `POSDATALEN`/`POSDATAPTR` of `ts_type.h`:
the position list of an entry, empty when the entry has no position data. -/
def POSDATA (e : WordEntry) : List WordEntryPos :=
  if e.haspos then e.posvec else []

/-- A value leaf of a query (`QueryOperand`): the weight mask, the prefix flag
and the operand bytes `operand + distance .. + length`. -/
structure QueryOperand where
  weight : Nat
  pfx : Bool
  lexeme : List Nat
deriving DecidableEq, Repr

/-- The position buffer handed to a leaf check (`ExecPhraseData`):
`pos[0 .. npos)` are the reported positions. -/
structure ExecPhraseData where
  npos : Nat
  allocated : Bool
  pos : List WordEntryPos
deriving DecidableEq, Repr

/-- The initialiser `{0, false, NULL}` that `TS_phrase_execute` gives to
`Ldata` and `Rdata` before a leaf check fills them. -/
def ExecPhraseData.init : ExecPhraseData := ⟨0, false, []⟩

/-- The positions a caller reads out of the buffer: `pos[0 .. npos)`. -/
def ExecPhraseData.positions (d : ExecPhraseData) : List WordEntryPos :=
  d.pos.take d.npos

/-! ## tsCompareString -/

/-- The libc `memcmp` on the first `n` bytes: zero when they agree, otherwise
the difference of the first pair of differing bytes, read as unsigned. -/
def memcmp : List Nat → List Nat → Nat → Int
  | x :: xs, y :: ys, n + 1 =>
      if x = y then memcmp xs ys n else (x : Int) - (y : Int)
  | _, _, _ => 0

/-- Source: `tsCompareString(a, lena, b, lenb, prefix)`. -/
def tsCompareString (a b : List Nat) (pfx : Bool) : Int :=
  if a.length = 0 then
    if pfx then 0
    else (if b.length > 0 then -1 else 0)
  else if b.length = 0 then
    (if a.length > 0 then 1 else 0)
  else
    let cmp := memcmp a b (min a.length b.length)
    if pfx then
      if cmp = 0 ∧ a.length > b.length then 1 else cmp
    else if cmp = 0 ∧ a.length ≠ b.length then
      (if a.length < b.length then -1 else 1)
    else cmp

/-- Reference order of the specification: lexicographic comparison of two
sequences of unsigned bytes, a proper prefix being less than its extensions. -/
def lexCompareBytes : List Nat → List Nat → Ordering
  | [], [] => Ordering.eq
  | [], _ :: _ => Ordering.lt
  | _ :: _, [] => Ordering.gt
  | x :: xs, y :: ys =>
      if x < y then Ordering.lt
      else if y < x then Ordering.gt
      else lexCompareBytes xs ys

/-! ## tsvector_bsearch -/

/-- Source: the macro `compareEntry`, read as "entry `a` sorts before `b`":
`tsCompareString(a, b, false) < 0`. -/
def entryLt (a b : WordEntry) : Prop :=
  tsCompareString a.lexeme b.lexeme false < 0

instance entryLt_decidable (a b : WordEntry) : Decidable (entryLt a b) :=
  inferInstanceAs (Decidable (tsCompareString a.lexeme b.lexeme false < 0))

/-- The vector invariant: consecutive entries are strictly increasing under
`tsCompareString(.., false)`. -/
def StrictSorted (v : TSVector) : Prop := List.Chain' entryLt v

/-- Executable check of `StrictSorted`. -/
def strictSortedB : TSVector → Bool
  | [] => true
  | [_] => true
  | a :: b :: rest => decide (entryLt a b) && strictSortedB (b :: rest)

instance StrictSorted_decidable (v : TSVector) : Decidable (StrictSorted v) :=
  decidable_of_iff (strictSortedB v = true) (by
    unfold StrictSorted
    induction v with
    | nil => simp [strictSortedB]
    | cons a rest ih =>
      cases rest with
      | nil => simp [strictSortedB]
      | cons b rest => simp [strictSortedB, List.chain'_cons, ih])

/-- The `while (StopLow < StopHigh)` loop of `tsvector_bsearch`; `none` stands
for running out of fuel or reading outside the entry array. -/
def tsvector_bsearch_loop (arrin : TSVector) (lexeme : List Nat) :
    Nat → Nat → Nat → Option Int
  | 0, StopLow, StopHigh => if StopLow < StopHigh then none else some (-1)
  | fuel + 1, StopLow, StopHigh =>
    if StopLow < StopHigh then
      let StopMiddle := (StopLow + StopHigh) / 2
      match arrin[StopMiddle]? with
      | none => none
      | some e =>
        let cmp := tsCompareString lexeme e.lexeme false
        if cmp < 0 then tsvector_bsearch_loop arrin lexeme fuel StopLow StopMiddle
        else if cmp > 0 then tsvector_bsearch_loop arrin lexeme fuel (StopMiddle + 1) StopHigh
        else some (StopMiddle : Int)
    else some (-1)

/-- Source: `tsvector_bsearch(tsv, lexeme, lexeme_len)`; the loop halves an
interval of `tsv->size` entries, so `tsv->size` iterations are enough. -/
def tsvector_bsearch (tsv : TSVector) (lexeme : List Nat) : Option Int :=
  tsvector_bsearch_loop tsv lexeme tsv.length 0 tsv.length

/-! ## checkclass_str, uniqueLongPos, checkcondition_str -/

/-- The test `val->weight & (1 << WEP_GETWEIGHT(*posvec_iter))`. -/
def weightBitSet (weight : Nat) (p : WordEntryPos) : Bool :=
  weight &&& (1 <<< WEP_GETWEIGHT p) != 0

/-- The loop of `checkclass_str` that filters by weight into `data->pos`:
every position whose weight bit is in the mask is appended as
`WEP_GETPOS(*posvec_iter)`. -/
def checkclass_filter (weight : Nat) : List WordEntryPos → List WordEntryPos
  | [] => []
  | p :: ps =>
    if weightBitSet weight p then WEP_GETPOS p :: checkclass_filter weight ps
    else checkclass_filter weight ps

/-- The loop of `checkclass_str` that only looks for one position with a
matching weight and leaves at the first hit. -/
def checkclass_any (weight : Nat) : List WordEntryPos → Bool
  | [] => false
  | p :: ps => if weightBitSet weight p then true else checkclass_any weight ps

/-- Source: `checkclass_str(chkval, entry, val, data)`; `data = none` is the
`NULL` pointer.  Returns the result and the buffer as the call leaves it. -/
def checkclass_str (entry : WordEntry) (val : QueryOperand)
    (data : Option ExecPhraseData) : Bool × Option ExecPhraseData :=
  if entry.haspos && (val.weight != 0 || data.isSome) then
    match val.weight != 0, data with
    | true, some _ =>
      let dpos := checkclass_filter val.weight entry.posvec
      (decide (dpos.length > 0),
        some { npos := dpos.length, allocated := true, pos := dpos })
    | true, none => (checkclass_any val.weight entry.posvec, none)
    | false, some _ =>
      (true, some { npos := entry.posvec.length, allocated := false, pos := entry.posvec })
    | false, none => (false, none)
  else
    (true, data)

/-- Modelled from the spec: `compareWordEntryPos` is defined in `tsvector.c`,
which is not among the sources; positions are sorted "by position value". -/
def compareWordEntryPos (a b : WordEntryPos) : Int :=
  if WEP_GETPOS a = WEP_GETPOS b then 0
  else if WEP_GETPOS a > WEP_GETPOS b then 1 else -1

/-- Insertion of one element into a list ordered by `cmp`. -/
def qsort_insert (cmp : WordEntryPos → WordEntryPos → Int) (x : WordEntryPos) :
    List WordEntryPos → List WordEntryPos
  | [] => [x]
  | y :: ys => if cmp x y ≤ 0 then x :: y :: ys else y :: qsort_insert cmp x ys

/-- The libc `qsort`, as an insertion sort with the given comparison. -/
def qsort (cmp : WordEntryPos → WordEntryPos → Int) :
    List WordEntryPos → List WordEntryPos
  | [] => []
  | x :: xs => qsort_insert cmp x (qsort cmp xs)

/-- The loop of `uniqueLongPos`: `r` is `*result`, the list is what `pos_iter`
has still to read; the value is the array from the slot of `result` on. -/
def uniqueLongPos_loop : WordEntryPos → List WordEntryPos → List WordEntryPos
  | r, [] => [r]
  | r, p :: ps =>
    if WEP_GETPOS p ≠ WEP_GETPOS r then r :: uniqueLongPos_loop (WEP_GETPOS p) ps
    else uniqueLongPos_loop r ps

/-- Source: `uniqueLongPos(pos, npos)`.  The argument is `pos[0 .. npos)`; the
value is the array prefix `pos[0 .. n)` the call leaves behind, `n` being the
returned length. -/
def uniqueLongPos (pos : List WordEntryPos) : List WordEntryPos :=
  if pos.length ≤ 1 then pos
  else
    match qsort compareWordEntryPos pos with
    | [] => []
    | r :: rest => uniqueLongPos_loop r rest

/-- The local variables of `checkcondition_str` after its binary search. -/
structure SearchState where
  StopLow : Nat
  StopHigh : Nat
  StopMiddle : Nat
  res : Bool
  data : Option ExecPhraseData
deriving DecidableEq, Repr

/-- The binary search loop of `checkcondition_str` over `arrb .. arre`; entry
pointers are indices from `arrb`.  `none` stands for running out of fuel or
reading outside the array. -/
def checkcondition_str_bsearch (chkval : TSVector) (val : QueryOperand)
    (data : Option ExecPhraseData) : Nat → Nat → Nat → Nat → Option SearchState
  | 0, StopLow, StopHigh, StopMiddle =>
    if StopLow < StopHigh then none
    else some ⟨StopLow, StopHigh, StopMiddle, false, data⟩
  | fuel + 1, StopLow, StopHigh, StopMiddle =>
    if StopLow < StopHigh then
      let StopMiddle := StopLow + (StopHigh - StopLow) / 2
      match chkval[StopMiddle]? with
      | none => none
      | some e =>
        let difference := tsCompareString val.lexeme e.lexeme false
        if difference = 0 then
          let r := checkclass_str e val data
          some ⟨StopLow, StopHigh, StopMiddle, r.1, r.2⟩
        else if difference > 0 then
          checkcondition_str_bsearch chkval val data fuel (StopMiddle + 1) StopHigh StopMiddle
        else
          checkcondition_str_bsearch chkval val data fuel StopLow StopMiddle StopMiddle
    else some ⟨StopLow, StopHigh, StopMiddle, false, data⟩

/-- The forward scan of `checkcondition_str` for prefix matches.  The list is
the entries from `StopMiddle` to `arre`; `allpos` is `allpos[0 .. npos)`.
The capacity `totalpos` of the buffer is not modelled. -/
def checkcondition_str_scan (val : QueryOperand) :
    List WordEntry → Bool → Option ExecPhraseData → List WordEntryPos →
      Bool × Option ExecPhraseData × List WordEntryPos
  | [], res, data, allpos => (res, data, allpos)
  | e :: rest, res, data, allpos =>
    if (!res || data.isSome) && decide (tsCompareString val.lexeme e.lexeme true = 0) then
      match data with
      | some _ =>
        let r := checkclass_str e val data
        if r.1 then
          match r.2 with
          | some d => checkcondition_str_scan val rest r.1 r.2 (allpos ++ d.pos.take d.npos)
          | none => checkcondition_str_scan val rest r.1 r.2 allpos
        else checkcondition_str_scan val rest r.1 r.2 allpos
      | none =>
        let r := checkclass_str e val none
        checkcondition_str_scan val rest r.1 none allpos
    else (res, data, allpos)

/-- Source: `checkcondition_str(checkval, val, data)`: the result and the
buffer `data` as the call leaves it. -/
def checkcondition_str (chkval : TSVector) (val : QueryOperand)
    (data : Option ExecPhraseData) : Option (Bool × Option ExecPhraseData) :=
  match checkcondition_str_bsearch chkval val data chkval.length 0 chkval.length
      chkval.length with
  | none => none
  | some st =>
    if (!st.res || st.data.isSome) && val.pfx then
      let StopMiddle := if st.StopLow ≥ st.StopHigh then st.StopHigh else st.StopMiddle
      let r := checkcondition_str_scan val (chkval.drop StopMiddle) st.res st.data []
      if r.1 && r.2.1.isSome then
        let u := uniqueLongPos r.2.2
        some (r.1, some { npos := u.length, allocated := true, pos := u })
      else some (r.1, r.2.1)
    else some (st.res, st.data)

/-- The entry at which the forward scan of `checkcondition_str` starts:
`if (StopLow >= StopHigh) StopMiddle = StopHigh;`. -/
def scanStart (st : SearchState) : Nat :=
  if st.StopLow ≥ st.StopHigh then st.StopHigh else st.StopMiddle

/-- What the binary search of `checkcondition_str` establishes on a sorted
array: it ends, the scan start splits the array into entries below the operand
and entries not below it, and either the operand was found there (and
`checkclass_str` was run on that entry) or it occurs nowhere. -/
def BsearchPost (v : TSVector) (val : QueryOperand) (data : Option ExecPhraseData)
    (st : SearchState) : Prop :=
  scanStart st ≤ v.length ∧
  (∀ i e, i < scanStart st → v[i]? = some e →
    0 < tsCompareString val.lexeme e.lexeme false) ∧
  (∀ i e, scanStart st ≤ i → v[i]? = some e →
    tsCompareString val.lexeme e.lexeme false ≤ 0) ∧
  ((∃ e, v[scanStart st]? = some e ∧ e.lexeme = val.lexeme ∧
      st.res = (checkclass_str e val data).1 ∧ st.data = (checkclass_str e val data).2) ∨
   ((∀ e ∈ v, e.lexeme ≠ val.lexeme) ∧ st.res = false ∧ st.data = data))

/-- The loop test of the forward scan: `tsCompareString(operand, entry, true) == 0`. -/
def prefixMatch (val : QueryOperand) (e : WordEntry) : Bool :=
  decide (tsCompareString val.lexeme e.lexeme true = 0)

/-- Reference notion of the specification: the entry's text has `t` as a
byte-prefix. -/
def hasPrefix (t : List Nat) (e : WordEntry) : Prop :=
  t.length ≤ e.lexeme.length ∧ e.lexeme.take t.length = t

instance hasPrefix_decidable (t : List Nat) (e : WordEntry) : Decidable (hasPrefix t e) :=
  inferInstanceAs (Decidable (t.length ≤ e.lexeme.length ∧ e.lexeme.take t.length = t))

/-- Reference notion of the specification: a position passes the weight filter
of a leaf when the leaf has no weight mask or the position's weight bit
`1 << weight` is in the mask. -/
def selected (weight : Nat) (p : WordEntryPos) : Bool :=
  weight == 0 || weightBitSet weight p

/-- Reference notion of the specification: the position values an entry
contributes to a leaf with the given weight mask. -/
def contribution (weight : Nat) (e : WordEntry) : List Nat :=
  ((POSDATA e).filter (selected weight)).map WEP_GETPOS

/-- The result of `checkclass_str` on an entry, which does not depend on the
buffer: an entry without positions passes, an entry with positions passes when
there is no weight mask or one of its positions has its weight in the mask. -/
def entryMatches (val : QueryOperand) (e : WordEntry) : Bool :=
  !e.haspos || val.weight == 0 || checkclass_any val.weight e.posvec

/-- The example of the specification: the entries `"cat"`, `"catalog"`, `"dog"`.
`"cat"` holds position 1 with class A and position 5 with class D, `"catalog"`
holds positions 3 and 5 with class D, `"dog"` holds positions 2 and 7. -/
def catVector : TSVector :=
  [⟨[99, 97, 116], true, [49153, 5]⟩,
   ⟨[99, 97, 116, 97, 108, 111, 103], true, [3, 5]⟩,
   ⟨[100, 111, 103], true, [2, 7]⟩]

/-- The query lexeme `"cat"` with the prefix flag and the given weight mask. -/
def catLeaf (weight : Nat) : QueryOperand := ⟨weight, true, [99, 97, 116]⟩

/-- The sign of an `Ordering`. -/
def ordSign : Ordering → Int
  | Ordering.lt => -1
  | Ordering.eq => 0
  | Ordering.gt => 1

/-! ## The query tree, TS_phrase_execute, TS_execute, tsquery_requires_match -/

/-- A query tree (`QueryItem`).  In the source the tree is an array in which the
operand `curitem + curitem->qoperator.left` is the left one and `curitem + 1`
the right one (the only one of `OP_NOT`); here the operands are subtrees.  The
operator tag ranges over the four operators `OP_NOT`, `OP_AND`, `OP_OR`,
`OP_PHRASE`, so the `default:` branches of the source, which report an
unrecognized operator, are not reachable.  `check_stack_depth()` depends on the
run-time stack and is not modelled. -/
inductive QueryItem where
  | val : QueryOperand → QueryItem
  | not : QueryItem → QueryItem
  | and : QueryItem → QueryItem → QueryItem
  | or : QueryItem → QueryItem → QueryItem
  | phrase : QueryItem → QueryItem → Nat → QueryItem
deriving DecidableEq, Repr

/-- The callback `chkcond(checkval, val, data)` with `checkval` fixed: the
result and the buffer as the call leaves it; `none` when the callback does not
return a result. -/
abbrev ChkCond := QueryOperand → Option ExecPhraseData → Option (Bool × Option ExecPhraseData)

/-- The inner `while (Lpos < Ldata.pos + Ldata.npos)` loop of
`TS_phrase_execute` for one `*Rpos`: whether a match was found, and the cursor
`Lpos` as the loop leaves it. -/
def TS_phrase_execute_inner (distance : Nat) (Rpos : WordEntryPos) :
    List WordEntryPos → Bool × List WordEntryPos
  | [] => (false, [])
  | Lpos :: Lrest =>
    if WEP_GETPOS Lpos ≤ WEP_GETPOS Rpos then
      if WEP_GETPOS Rpos - WEP_GETPOS Lpos ≤ distance then (true, Lpos :: Lrest)
      else TS_phrase_execute_inner distance Rpos Lrest
    else (false, Lpos :: Lrest)

/-- The outer `while (Rpos < Rdata.pos + Rdata.npos)` loop of
`TS_phrase_execute`.  The arguments are the positions from `Rpos` and from
`Lpos` on.  The value is whether the loop left by `return true` (only when
`data` is `NULL`), and the positions written through `pos_iter`.  When
`data->pos` is `Rdata.pos` itself, a write never goes beyond the slot `Rpos`
reads, and that slot is not read again, so the writes do not disturb the reads. -/
def TS_phrase_execute_loop (distance : Nat) (hasData : Bool) :
    List WordEntryPos → List WordEntryPos → Bool × List WordEntryPos
  | [], _ => (false, [])
  | Rpos :: Rrest, Lcur =>
    let r := TS_phrase_execute_inner distance Rpos Lcur
    if r.1 then
      if hasData then
        let t := TS_phrase_execute_loop distance hasData Rrest r.2
        (t.1, WEP_GETPOS Rpos :: t.2)
      else (true, [])
    else TS_phrase_execute_loop distance hasData Rrest r.2

/-- Source: `TS_phrase_execute(curitem, checkval, calcnot, data, chkcond)`.  A
node that is neither a value nor `OP_PHRASE` violates the `Assert` of the source
and yields no result. -/
def TS_phrase_execute (chkcond : ChkCond) (calcnot : Bool) :
    QueryItem → Option ExecPhraseData → Option (Bool × Option ExecPhraseData)
  | QueryItem.val v, data => chkcond v data
  | QueryItem.phrase left right distance, data =>
    match TS_phrase_execute chkcond calcnot left (some ExecPhraseData.init) with
    | none => none
    | some (false, _) => some (false, data)
    | some (true, Lres) =>
      match TS_phrase_execute chkcond calcnot right (some ExecPhraseData.init) with
      | none => none
      | some (false, _) => some (false, data)
      | some (true, Rres) =>
        let Ldata := Lres.getD ExecPhraseData.init
        let Rdata := Rres.getD ExecPhraseData.init
        if Ldata.npos = 0 ∨ Rdata.npos = 0 then some (true, data)
        else
          let m := TS_phrase_execute_loop distance data.isSome Rdata.positions Ldata.positions
          match data with
          | some _ =>
            some (decide (m.2.length > 0), some { npos := m.2.length, allocated := true, pos := m.2 })
          | none => some (m.1, none)
  | _, _ => none

/-- Source: `TS_execute(curitem, checkval, calcnot, chkcond)`. -/
def TS_execute (chkcond : ChkCond) (calcnot : Bool) : QueryItem → Option Bool
  | QueryItem.val v => (chkcond v none).map Prod.fst
  | QueryItem.not c =>
    if calcnot then (TS_execute chkcond calcnot c).map (fun b => !b) else some true
  | QueryItem.and left right =>
    match TS_execute chkcond calcnot left with
    | none => none
    | some true => TS_execute chkcond calcnot right
    | some false => some false
  | QueryItem.or left right =>
    match TS_execute chkcond calcnot left with
    | none => none
    | some true => some true
    | some false => TS_execute chkcond calcnot right
  | QueryItem.phrase left right distance =>
    (TS_phrase_execute chkcond calcnot (QueryItem.phrase left right distance) none).map Prod.fst

/-- Source: `tsquery_requires_match(curitem)`. -/
def tsquery_requires_match : QueryItem → Bool
  | QueryItem.val _ => true
  | QueryItem.not _ => false
  | QueryItem.phrase left right _ =>
    if tsquery_requires_match left then true else tsquery_requires_match right
  | QueryItem.and left right =>
    if tsquery_requires_match left then true else tsquery_requires_match right
  | QueryItem.or left right =>
    if tsquery_requires_match left then tsquery_requires_match right else false

/-- Reference notion of the specification: a query tree built from value leaves
and NOT, AND, OR nodes only. -/
inductive BoolQuery where
  | val : QueryOperand → BoolQuery
  | not : BoolQuery → BoolQuery
  | and : BoolQuery → BoolQuery → BoolQuery
  | or : BoolQuery → BoolQuery → BoolQuery
deriving DecidableEq, Repr

/-- The query tree a `BoolQuery` stands for. -/
def BoolQuery.toQueryItem : BoolQuery → QueryItem
  | BoolQuery.val v => QueryItem.val v
  | BoolQuery.not c => QueryItem.not c.toQueryItem
  | BoolQuery.and l r => QueryItem.and l.toQueryItem r.toQueryItem
  | BoolQuery.or l r => QueryItem.or l.toQueryItem r.toQueryItem

/-- Reference evaluation of the specification: `evaluate(node, vector, honorNot)`
on NOT/AND/OR trees, `leaf` being the result of the leaf check. -/
def BoolQuery.eval (leaf : QueryOperand → Bool) (honorNot : Bool) : BoolQuery → Bool
  | BoolQuery.val v => leaf v
  | BoolQuery.not c => if honorNot then !(c.eval leaf honorNot) else true
  | BoolQuery.and l r => l.eval leaf honorNot && r.eval leaf honorNot
  | BoolQuery.or l r => l.eval leaf honorNot || r.eval leaf honorNot

/-- Reference of the specification for `queryRequiresMatch`. -/
def requiresMatchRef : QueryItem → Bool
  | QueryItem.val _ => true
  | QueryItem.not _ => false
  | QueryItem.and l r => requiresMatchRef l || requiresMatchRef r
  | QueryItem.phrase l r _ => requiresMatchRef l || requiresMatchRef r
  | QueryItem.or l r => requiresMatchRef l && requiresMatchRef r

/-- The value leaves of a query tree. -/
def QueryItem.leaves : QueryItem → List QueryOperand
  | QueryItem.val v => [v]
  | QueryItem.not c => c.leaves
  | QueryItem.and l r => l.leaves ++ r.leaves
  | QueryItem.or l r => l.leaves ++ r.leaves
  | QueryItem.phrase l r _ => l.leaves ++ r.leaves

/-- A tree made of value leaves and `OP_PHRASE` nodes only, as the `Assert` of
`TS_phrase_execute` demands of the operands of a phrase. -/
def QueryItem.phraseOnly : QueryItem → Bool
  | QueryItem.val _ => true
  | QueryItem.phrase l r _ => l.phraseOnly && r.phraseOnly
  | _ => false

/-- Every `OP_PHRASE` node of the tree has only values and phrases below it. -/
def QueryItem.wellFormed : QueryItem → Bool
  | QueryItem.val _ => true
  | QueryItem.not c => c.wellFormed
  | QueryItem.and l r => l.wellFormed && r.wellFormed
  | QueryItem.or l r => l.wellFormed && r.wellFormed
  | QueryItem.phrase l r _ => l.phraseOnly && r.phraseOnly

/-! ## tsvector_concat -/

/-- Modelled from the spec: the constant `MAXNUMPOS` of `ts_type.h`, the cap of
256 positions per lexeme. -/
def MAXNUMPOS : Nat := 256

/-- Modelled from the spec: the constant `MAXENTRYPOS` of `ts_type.h`; positions
are 14-bit values, the largest being `MAXENTRYPOS - 1 = 16383`. -/
def MAXENTRYPOS : Nat := 16384

/-- Modelled from the spec: the macro `LIMITPOS` of `ts_type.h`, which clamps a
position to the largest representable one. -/
def LIMITPOS (x : Nat) : Nat := if x ≥ MAXENTRYPOS then MAXENTRYPOS - 1 else x

/-- Modelled from the spec: the macro `SHORTALIGN` of `c.h`, rounding an offset
up to the next multiple of 2. -/
def SHORTALIGN (x : Nat) : Nat := (x + 1) / 2 * 2

/-- Modelled from the spec: `WEP_SETWEIGHT(x, w)` followed by `WEP_SETPOS(x, v)`
of `ts_type.h`, which leave the 16-bit unit with weight class `w` in the upper
2 bits and `v` in the lower 14 bits, whatever it held before. -/
def WEP_SET (w v : Nat) : WordEntryPos := w * 16384 + v % 16384

/-- The errors raised in this file.  `programLimitExceeded` is the `ereport` of
`tsvector_concat`, with the data size it reports; `unrecognizedWeight` is the
`elog(ERROR, "unrecognized weight: ...")` of the two `setweight` functions, with
the offending byte; `lexemeArrayNull` is "lexeme array may not contain nulls";
`weightArrayNull` is "weight array may not contain nulls";
`unrecognizedWeightParam` is the `ereport` "unrecognized weight" of
`tsvector_filter`. -/
inductive TsError where
  | programLimitExceeded : Nat → TsError
  | unrecognizedWeight : Nat → TsError
  | lexemeArrayNull : TsError
  | weightArrayNull : TsError
  | unrecognizedWeightParam : Nat → TsError
deriving DecidableEq, Repr

/-- The SQLSTATE classes of the errors of this file. -/
inductive ErrCode where
  | programLimitExceeded : ErrCode
  | invalidParameterValue : ErrCode
  | internalError : ErrCode
deriving DecidableEq, Repr

/-- The `errcode(...)` each error is reported with.  The `elog` of the `setweight`
functions gives none: the source marks it `/* internal error */`. -/
def TsError.errcode : TsError → ErrCode
  | TsError.programLimitExceeded _ => ErrCode.programLimitExceeded
  | TsError.unrecognizedWeight _ => ErrCode.internalError
  | TsError.lexemeArrayNull => ErrCode.invalidParameterValue
  | TsError.weightArrayNull => ErrCode.invalidParameterValue
  | TsError.unrecognizedWeightParam _ => ErrCode.invalidParameterValue

/-- An entry of the output array together with what was written for it.  `pos` is
the field `ptr->pos`; `lexemeAt` is not a field of the source: it records the
offset `dataoff` at which `memcpy` put the lexeme bytes; `entry` holds the
lexeme, the `haspos` flag and the position vector written behind the lexeme. -/
structure OutEntry where
  pos : Nat
  lexemeAt : Nat
  entry : WordEntry
deriving DecidableEq, Repr

/-- The inner loop `while (j--)` of the search for the largest position of `in1`. -/
def concat_maxpos_entry (maxpos : Nat) : List WordEntryPos → Nat
  | [] => maxpos
  | p :: ps =>
    concat_maxpos_entry (if WEP_GETPOS p > maxpos then WEP_GETPOS p else maxpos) ps

/-- The outer loop `while (i--)` of the search for the largest position of `in1`. -/
def concat_maxpos (maxpos : Nat) : List WordEntry → Nat
  | [] => maxpos
  | e :: es =>
    concat_maxpos
      (if (POSDATA e).length ≠ 0 then concat_maxpos_entry maxpos (POSDATA e) else maxpos) es

/-- The `for` loop of `add_pos`: the first list is `spos[i ..]`, the second is
`dpos[0 .. *clen)`. -/
def add_pos_loop (maxpos : Nat) : List WordEntryPos → List WordEntryPos → List WordEntryPos
  | [], dpos => dpos
  | s :: srest, dpos =>
    if dpos.length < MAXNUMPOS ∧
        (dpos.length = 0 ∨ WEP_GETPOS (dpos.getLastD 0) ≠ MAXENTRYPOS - 1) then
      add_pos_loop maxpos srest
        (dpos ++ [WEP_SET (WEP_GETWEIGHT s) (LIMITPOS (WEP_GETPOS s + maxpos))])
    else dpos

/-- Source: `add_pos(src, srcptr, dest, destptr, maxpos)`.  `destHaspos` is
`destptr->haspos` and `dpos` the position vector found at the place of the
destination entry (`*clen` is its length).  The value is `destptr->haspos`
and the position vector after the call, and the returned count. -/
def add_pos (srcptr : WordEntry) (destHaspos : Bool) (dpos : List WordEntryPos)
    (maxpos : Nat) : Bool × List WordEntryPos × Nat :=
  let start := if !destHaspos then [] else dpos
  let out := add_pos_loop maxpos (POSDATA srcptr) start
  (if out.length ≠ start.length then true else destHaspos, out, out.length - start.length)

/-- The body shared by the branch `cmp < 0` and the loop `while (i1)` of
`tsvector_concat`: the entry of `in1` is copied with its position vector.  The
value is the entry written and the new `dataoff`.  `M` is `MAXSTRPOS`: the field
`pos` holds offsets up to `M`. -/
def concat_in1 (M : Nat) (ptr1 : WordEntry) (dataoff : Nat) : OutEntry × Nat :=
  let d1 := dataoff + ptr1.lexeme.length
  if ptr1.haspos then
    (⟨dataoff % (M + 1), dataoff, ⟨ptr1.lexeme, true, ptr1.posvec⟩⟩,
      SHORTALIGN d1 + ((POSDATA ptr1).length * 2 + 2))
  else (⟨dataoff % (M + 1), dataoff, ⟨ptr1.lexeme, false, []⟩⟩, d1)

/-- The body shared by the branch `cmp > 0` and the loop `while (i2)` of
`tsvector_concat`: the entry of `in2` is copied, its positions through `add_pos`
into the zeroed output area.  The count `*clen` that `add_pos` reads is the
zeroed slot behind the lexeme as long as `ptr->pos` is `dataoff`, that is while
`dataoff` is at most `M`; past `M` the call ends in the error of
`tsvector_concat`, and of the model only the size reported with that error
relies on the slot being the zeroed one. -/
def concat_in2 (M maxpos : Nat) (ptr2 : WordEntry) (dataoff : Nat) : OutEntry × Nat :=
  let d1 := dataoff + ptr2.lexeme.length
  if ptr2.haspos then
    let r := add_pos ptr2 true [] maxpos
    if r.2.2 = 0 then (⟨dataoff % (M + 1), dataoff, ⟨ptr2.lexeme, false, r.2.1⟩⟩, d1)
    else
      (⟨dataoff % (M + 1), dataoff, ⟨ptr2.lexeme, r.1, r.2.1⟩⟩,
        SHORTALIGN d1 + (r.2.2 * 2 + 2))
  else (⟨dataoff % (M + 1), dataoff, ⟨ptr2.lexeme, false, []⟩⟩, d1)

/-- The branch `cmp == 0` of `tsvector_concat`: both inputs hold the lexeme.  As
in `concat_in2`, the positions of `in2` are added behind those of `in1` at the
place of the entry, which is where `memcpy` wrote while `dataoff` is at most
`M`. -/
def concat_both (M maxpos : Nat) (ptr1 ptr2 : WordEntry) (dataoff : Nat) : OutEntry × Nat :=
  let d1 := dataoff + ptr1.lexeme.length
  if ptr1.haspos || ptr2.haspos then
    if ptr1.haspos then
      let d2 := SHORTALIGN d1 + ((POSDATA ptr1).length * 2 + 2)
      if ptr2.haspos then
        let r := add_pos ptr2 true ptr1.posvec maxpos
        (⟨dataoff % (M + 1), dataoff, ⟨ptr1.lexeme, r.1, r.2.1⟩⟩, d2 + r.2.2 * 2)
      else (⟨dataoff % (M + 1), dataoff, ⟨ptr1.lexeme, true, ptr1.posvec⟩⟩, d2)
    else
      let r := add_pos ptr2 true [] maxpos
      if r.2.2 = 0 then (⟨dataoff % (M + 1), dataoff, ⟨ptr1.lexeme, false, r.2.1⟩⟩, d1)
      else
        (⟨dataoff % (M + 1), dataoff, ⟨ptr1.lexeme, r.1, r.2.1⟩⟩,
          SHORTALIGN d1 + (r.2.2 * 2 + 2))
  else (⟨dataoff % (M + 1), dataoff, ⟨ptr1.lexeme, false, []⟩⟩, d1)

/-- The loop `while (i1)` of `tsvector_concat`. -/
def concat_tail1 (M : Nat) : List WordEntry → Nat → List OutEntry × Nat
  | [], dataoff => ([], dataoff)
  | ptr1 :: rest, dataoff =>
    let r := concat_in1 M ptr1 dataoff
    let t := concat_tail1 M rest r.2
    (r.1 :: t.1, t.2)

/-- The loop `while (i2)` of `tsvector_concat`. -/
def concat_tail2 (M maxpos : Nat) : List WordEntry → Nat → List OutEntry × Nat
  | [], dataoff => ([], dataoff)
  | ptr2 :: rest, dataoff =>
    let r := concat_in2 M maxpos ptr2 dataoff
    let t := concat_tail2 M maxpos rest r.2
    (r.1 :: t.1, t.2)

/-- The two loops `while (i1)` and `while (i2)` one after the other. -/
def concat_tails (M maxpos : Nat) (in1 in2 : List WordEntry) (dataoff : Nat) :
    List OutEntry × Nat :=
  let t1 := concat_tail1 M in1 dataoff
  let t2 := concat_tail2 M maxpos in2 t1.2
  (t1.1 ++ t2.1, t2.2)

/-- The loop `while (i1 && i2)` of `tsvector_concat` followed by the two loops
over what is left.  The lists are the entries from `ptr1` and from `ptr2` on;
the value is the entries written and the final `dataoff`; `none` stands for
running out of fuel. -/
def concat_loop (M maxpos : Nat) :
    Nat → List WordEntry → List WordEntry → Nat → Option (List OutEntry × Nat)
  | 0, _ :: _, _ :: _, _ => none
  | fuel + 1, ptr1 :: rest1, ptr2 :: rest2, dataoff =>
    let cmp := tsCompareString ptr1.lexeme ptr2.lexeme false
    if cmp < 0 then
      let r := concat_in1 M ptr1 dataoff
      (concat_loop M maxpos fuel rest1 (ptr2 :: rest2) r.2).map
        (fun t => (r.1 :: t.1, t.2))
    else if cmp > 0 then
      let r := concat_in2 M maxpos ptr2 dataoff
      (concat_loop M maxpos fuel (ptr1 :: rest1) rest2 r.2).map
        (fun t => (r.1 :: t.1, t.2))
    else
      let r := concat_both M maxpos ptr1 ptr2 dataoff
      (concat_loop M maxpos fuel rest1 rest2 r.2).map (fun t => (r.1 :: t.1, t.2))
  | _, in1, in2, dataoff => some (concat_tails M maxpos in1 in2 dataoff)

/-- Source: `tsvector_concat(in1, in2)`.  `M` is `MAXSTRPOS`.  The value is the
error raised, or the entries of the result with the size `dataoff` of its data
area; `none` stands for running out of fuel, which does not happen with the
`in1->size + in2->size` iterations the merge can take. -/
def tsvector_concat (M : Nat) (in1 in2 : TSVector) :
    Option (Except TsError (List OutEntry × Nat)) :=
  let maxpos := concat_maxpos 0 in1
  match concat_loop M maxpos (in1.length + in2.length) in1 in2 0 with
  | none => none
  | some (out, dataoff) =>
    if dataoff > M then some (Except.error (TsError.programLimitExceeded dataoff))
    else some (Except.ok (out, dataoff))

/-- The entries of a result, as a vector that can be an input again. -/
def OutEntry.toTSVector (out : List OutEntry) : TSVector := out.map OutEntry.entry

/-- The entry of a vector holding the lexeme `x`, if there is one. -/
def lookupEntry (v : TSVector) (x : List Nat) : Option WordEntry :=
  v.find? (fun e => decide (e.lexeme = x))

/-- The position list a vector holds for the lexeme `x`: empty when the lexeme is
absent or has no positions. -/
def posOf (v : TSVector) (x : List Nat) : List WordEntryPos :=
  match lookupEntry v x with
  | some e => POSDATA e
  | none => []

/-- Whether a vector holds the lexeme `x` with the `haspos` flag set. -/
def hasposOf (v : TSVector) (x : List Nat) : Bool :=
  match lookupEntry v x with
  | some e => e.haspos
  | none => false

/-- What `tsvector_concat` writes for a lexeme `x` that has the flag `h1` and
the positions `l1` in `in1` and the positions `l2` in `in2`: the positions of
`in1` followed by what `add_pos` appends from `in2`. -/
def mergedEntry (maxpos : Nat) (x : List Nat) (h1 : Bool) (l1 l2 : List WordEntryPos) :
    WordEntry :=
  ⟨x, h1 || decide ((add_pos_loop maxpos l2 l1).length ≠ 0), add_pos_loop maxpos l2 l1⟩

/-- What the merge of `tsvector_concat` establishes for the entries `out` it
writes from the offset `d` on, `d2` being the final offset. -/
structure ConcatGood (M maxpos : Nat) (in1 in2 : List WordEntry) (d : Nat)
    (out : List OutEntry) (d2 : Nat) : Prop where
  source : ∀ o ∈ out, (∃ e ∈ in1, e.lexeme = o.entry.lexeme) ∨
    (∃ e ∈ in2, e.lexeme = o.entry.lexeme)
  left : ∀ e ∈ in1, ∃ o ∈ out, o.entry.lexeme = e.lexeme
  right : ∀ e ∈ in2, ∃ o ∈ out, o.entry.lexeme = e.lexeme
  sorted : List.Pairwise (fun a b => entryLt a.entry b.entry) out
  entries : ∀ o ∈ out, o.entry = mergedEntry maxpos o.entry.lexeme
    (hasposOf in1 o.entry.lexeme) (posOf in1 o.entry.lexeme) (posOf in2 o.entry.lexeme)
  mono : d ≤ d2
  offsets : ∀ o ∈ out, d ≤ o.lexemeAt ∧ o.lexemeAt ≤ d2 ∧ o.pos = o.lexemeAt % (M + 1)

/-- Reference notion of the specification: a well-formed vector.  Its entries are
strictly sorted; a position list is non-empty where present, has at most 256
entries, is strictly ascending by position value, and each of its units holds a
position in `[1, 16383]` and a weight class in `{0, 1, 2, 3}`. -/
def WellFormed (v : TSVector) : Prop :=
  StrictSorted v ∧
  ∀ e ∈ v, (e.haspos = true → e.posvec ≠ []) ∧
    (POSDATA e).length ≤ MAXNUMPOS ∧
    (∀ p ∈ POSDATA e, 1 ≤ WEP_GETPOS p ∧ WEP_GETWEIGHT p ≤ 3) ∧
    List.Sorted (· < ·) ((POSDATA e).map WEP_GETPOS)

instance WellFormed_decidable (v : TSVector) : Decidable (WellFormed v) :=
  inferInstanceAs (Decidable (StrictSorted v ∧
    ∀ e ∈ v, (e.haspos = true → e.posvec ≠ []) ∧
      (POSDATA e).length ≤ MAXNUMPOS ∧
      (∀ p ∈ POSDATA e, 1 ≤ WEP_GETPOS p ∧ WEP_GETWEIGHT p ≤ 3) ∧
      List.Sorted (· < ·) ((POSDATA e).map WEP_GETPOS)))

/-- Reference notion of the specification: `maxpos`, the largest position value
anywhere in a vector, `0` when it holds no position. -/
def maxposRef (v : TSVector) : Nat :=
  (((v.map POSDATA).flatten).map WEP_GETPOS).foldr max 0

/-- Reference notion of the specification: a position of `in2` as it appears in
the concatenation: its value is `min(p + maxpos, 16383)`, its weight class is
preserved. -/
def shiftRef (maxpos : Nat) (p : WordEntryPos) : WordEntryPos :=
  WEP_GETWEIGHT p * 16384 + min (WEP_GETPOS p + maxpos) 16383

/-- Reference notion of the specification: a position list can take one more
position: it has fewer than 256 entries and its last position, if any, is not
16383. -/
def canAdd (acc : List WordEntryPos) : Prop :=
  acc.length < 256 ∧ (acc = [] ∨ WEP_GETPOS (acc.getLastD 0) ≠ 16383)

instance canAdd_decidable (acc : List WordEntryPos) : Decidable (canAdd acc) :=
  inferInstanceAs (Decidable (acc.length < 256 ∧
    (acc = [] ∨ WEP_GETPOS (acc.getLastD 0) ≠ 16383)))

/-- The order of lexemes: `tsCompareString(a, b, false) < 0`. -/
def lexLt (a b : List Nat) : Prop := tsCompareString a b false < 0

/-- An example first operand of a concatenation: `"a"` at position 1 (class D)
and position 3 (class A), and `"c"` without positions. -/
def exIn1 : TSVector := [⟨[97], true, [1, 49155]⟩, ⟨[99], false, []⟩]

/-- An example second operand: `"a"` at position 2, `"b"` at positions 5 and
16383, and `"d"` without positions. -/
def exIn2 : TSVector := [⟨[97], true, [2]⟩, ⟨[98], true, [5, 16383]⟩, ⟨[100], false, []⟩]

/-- An example third operand: `"b"` at position 7 and `"e"` without positions. -/
def exIn3 : TSVector := [⟨[98], true, [7]⟩, ⟨[101], false, []⟩]

/-- The entries of the concatenation of `exIn1` and `exIn2`. -/
def exOut12 : List OutEntry :=
  [⟨0, 0, ⟨[97], true, [1, 49155, 5]⟩⟩, ⟨10, 10, ⟨[98], true, [8, 16383]⟩⟩,
    ⟨18, 18, ⟨[99], false, []⟩⟩, ⟨19, 19, ⟨[100], false, []⟩⟩]

/-- The entries of the concatenation of `exIn2` and `exIn3`. -/
def exOut23 : List OutEntry :=
  [⟨0, 0, ⟨[97], true, [2]⟩⟩, ⟨6, 6, ⟨[98], true, [5, 16383]⟩⟩,
    ⟨14, 14, ⟨[100], false, []⟩⟩, ⟨15, 15, ⟨[101], false, []⟩⟩]

/-- The entries of the concatenation of the three example vectors. -/
def exOut123 : List OutEntry :=
  [⟨0, 0, ⟨[97], true, [1, 49155, 5]⟩⟩, ⟨10, 10, ⟨[98], true, [8, 16383]⟩⟩,
    ⟨18, 18, ⟨[99], false, []⟩⟩, ⟨19, 19, ⟨[100], false, []⟩⟩,
    ⟨20, 20, ⟨[101], false, []⟩⟩]

/-- What the merge of `tsvector_concat` establishes for the offsets, whatever
the inputs: the entries written from `d` on lie between `d` and the final offset
`d2`, and the field `pos` is the offset reduced to the width of the field. -/
def ConcatOffsets (M d : Nat) (out : List OutEntry) (d2 : Nat) : Prop :=
  d ≤ d2 ∧ ∀ o ∈ out, d ≤ o.lexemeAt ∧ o.lexemeAt ≤ d2 ∧ o.pos = o.lexemeAt % (M + 1)

/-! ## tsvector_strip, tsvector_setweight, tsvector_setweight_by_filter -/

/-- The first loop of `tsvector_strip`: `len += arrin[i].len`. -/
def strip_len : List WordEntry → Nat → Nat
  | [], len => len
  | e :: rest, len => strip_len rest (len + e.lexeme.length)

/-- The second loop of `tsvector_strip`; `cur` is `cur - STRPTR(out)`.  Each
entry is written with `haspos = 0` and nothing behind its lexeme.  `M` is
`MAXSTRPOS`: the field `pos` holds offsets up to `M`. -/
def strip_loop (M : Nat) : List WordEntry → Nat → List OutEntry
  | [], _ => []
  | e :: rest, cur =>
    ⟨cur % (M + 1), cur, ⟨e.lexeme, false, []⟩⟩ :: strip_loop M rest (cur + e.lexeme.length)

/-- Source: `tsvector_strip(in)`.  The value is the entries of the result and the
length `len` of its data area as the first loop computes it. -/
def tsvector_strip (M : Nat) (tsin : TSVector) : List OutEntry × Nat :=
  (strip_loop M tsin 0, strip_len tsin 0)

/-- Modelled from the spec: the macro `WEP_SETWEIGHT(x, v)` of `ts_type.h`, which
overwrites the weight class (the upper 2 bits) of a unit and leaves its position
(the lower 14 bits). -/
def WEP_SETWEIGHT (x : WordEntryPos) (v : Nat) : WordEntryPos := v * 16384 + x % 16384

/-- The `switch (cw)` of `tsvector_setweight` and of
`tsvector_setweight_by_filter`; the argument is the byte of the `"char"`
(`'A'` is 65, `'a'` is 97, and so on). -/
def setweight_switch (cw : Nat) : Except TsError Nat :=
  if cw = 65 ∨ cw = 97 then Except.ok 3
  else if cw = 66 ∨ cw = 98 then Except.ok 2
  else if cw = 67 ∨ cw = 99 then Except.ok 1
  else if cw = 68 ∨ cw = 100 then Except.ok 0
  else Except.error (TsError.unrecognizedWeight cw)

/-- The loop `while (j--)` of the `setweight` functions: `WEP_SETWEIGHT` on every
position of one entry. -/
def setweight_positions (w : Nat) : List WordEntryPos → List WordEntryPos
  | [] => []
  | p :: ps => WEP_SETWEIGHT p w :: setweight_positions w ps

/-- The body of the loop `while (i--)` of `tsvector_setweight`. -/
def setweight_entry (w : Nat) (entry : WordEntry) : WordEntry :=
  if (POSDATA entry).length ≠ 0 then
    ⟨entry.lexeme, entry.haspos, setweight_positions w (POSDATA entry)⟩
  else entry

/-- The loop `while (i--)` of `tsvector_setweight` over the copy of the input. -/
def setweight_entries (w : Nat) : List WordEntry → List WordEntry
  | [] => []
  | entry :: rest => setweight_entry w entry :: setweight_entries w rest

/-- Source: `tsvector_setweight(in, cw)`. -/
def tsvector_setweight (tsin : TSVector) (cw : Nat) : Except TsError TSVector :=
  match setweight_switch cw with
  | Except.error err => Except.error err
  | Except.ok w => Except.ok (setweight_entries w tsin)

/-- The loop `for (i = 0; i < nlexemes; i++)` of `tsvector_setweight_by_filter`.
An element `none` of the array is an SQL null; `tsout` is the copy of the input
as the loop has changed it so far; `none` as value stands for a search that
does not return or an index outside the entry array. -/
def setweight_filter_loop (weight : Nat) :
    List (Option (List Nat)) → TSVector → Option (Except TsError TSVector)
  | [], tsout => some (Except.ok tsout)
  | none :: _, _ => some (Except.error TsError.lexemeArrayNull)
  | some lex :: rest, tsout =>
    match tsvector_bsearch tsout lex with
    | none => none
    | some lex_pos =>
      if lex_pos ≥ 0 then
        match tsout[lex_pos.toNat]? with
        | none => none
        | some entry =>
          if (POSDATA entry).length ≠ 0 then
            setweight_filter_loop weight rest
              (tsout.set lex_pos.toNat
                ⟨entry.lexeme, entry.haspos, setweight_positions weight (POSDATA entry)⟩)
          else setweight_filter_loop weight rest tsout
      else setweight_filter_loop weight rest tsout

/-- Source: `tsvector_setweight_by_filter(tsin, char_weight, lexemes)`. -/
def tsvector_setweight_by_filter (tsin : TSVector) (char_weight : Nat)
    (lexemes : List (Option (List Nat))) : Option (Except TsError TSVector) :=
  match setweight_switch char_weight with
  | Except.error err => some (Except.error err)
  | Except.ok weight => setweight_filter_loop weight lexemes tsin

/-- Reference notion of the specification: the weight letters and their classes
(`A`/`a` is class 3, `B`/`b` class 2, `C`/`c` class 1, `D`/`d` class 0), as
pairs of the byte of the letter and the class. -/
def weightLetters : List (Nat × Nat) :=
  [(65, 3), (97, 3), (66, 2), (98, 2), (67, 1), (99, 1), (68, 0), (100, 0)]

/-! ## tsvector_filter -/

/-- The loop over the weights array of `tsvector_filter`; an element `none` is an
SQL null, `some c` the byte of a `"char"`; `mask` is the local of that name. -/
def filter_mask : List (Option Nat) → Nat → Except TsError Nat
  | [], mask => Except.ok mask
  | none :: _, _ => Except.error TsError.weightArrayNull
  | some char_weight :: rest, mask =>
    if char_weight = 65 ∨ char_weight = 97 then filter_mask rest (mask ||| 8)
    else if char_weight = 66 ∨ char_weight = 98 then filter_mask rest (mask ||| 4)
    else if char_weight = 67 ∨ char_weight = 99 then filter_mask rest (mask ||| 2)
    else if char_weight = 68 ∨ char_weight = 100 then filter_mask rest (mask ||| 1)
    else Except.error (TsError.unrecognizedWeightParam char_weight)

/-- The loop `for (k = 0; k < posvin->npos; k++)` of `tsvector_filter`: the
positions copied to `posvout->pos[0 .. npos)`. -/
def filter_positions (mask : Nat) : List WordEntryPos → List WordEntryPos
  | [] => []
  | p :: ps =>
    if weightBitSet mask p then p :: filter_positions mask ps
    else filter_positions mask ps

/-- The loop `for (i = j = 0; i < tsin->size; i++)` of `tsvector_filter`.  The
value is the entries written and the final `cur_pos`.  The position vector of an
entry is written at `SHORTALIGN(cur_pos + len)` and `cur_pos` moves on by
`SHORTALIGN(len)`; the two agree because `cur_pos` stays even
(`filter_loop_even`). -/
def filter_loop (M mask : Nat) : List WordEntry → Nat → List OutEntry × Nat
  | [], cur_pos => ([], cur_pos)
  | e :: rest, cur_pos =>
    if !e.haspos then filter_loop M mask rest cur_pos
    else
      let posvout := filter_positions mask e.posvec
      if posvout.length = 0 then filter_loop M mask rest cur_pos
      else
        let t := filter_loop M mask rest
          (cur_pos + SHORTALIGN e.lexeme.length + (posvout.length * 2 + 2))
        (⟨cur_pos % (M + 1), cur_pos, ⟨e.lexeme, true, posvout⟩⟩ :: t.1, t.2)

/-- Source: `tsvector_filter(tsin, weights)`.  The value is the error raised, or
the entries of the result with the size `cur_pos` of its data area. -/
def tsvector_filter (M : Nat) (tsin : TSVector) (weights : List (Option Nat)) :
    Except TsError (List OutEntry × Nat) :=
  match filter_mask weights 0 with
  | Except.error err => Except.error err
  | Except.ok mask => Except.ok (filter_loop M mask tsin 0)

/-- An example vector in which every entry has positions: `"a"` at position 1
(class D) and 3 (class A), `"b"` at position 5 (class C) and 7 (class B). -/
def exPos : TSVector := [⟨[97], true, [1, 49155]⟩, ⟨[98], true, [16389, 32775]⟩]

/-! ## tsvector_delete_by_indices, tsvector_delete_str, tsvector_delete_arr -/

/-- Source: `compareint(va, vb)`. -/
def compareint (a b : Int) : Int :=
  if a = b then 0 else if a > b then 1 else -1

/-- Insertion of one index into a list ordered by `cmp`. -/
def qsort_int_insert (cmp : Int → Int → Int) (x : Int) : List Int → List Int
  | [] => [x]
  | y :: ys => if cmp x y ≤ 0 then x :: y :: ys else y :: qsort_int_insert cmp x ys

/-- The libc `qsort` on an array of `int`, as an insertion sort with the given
comparison. -/
def qsort_int (cmp : Int → Int → Int) : List Int → List Int
  | [] => []
  | x :: xs => qsort_int_insert cmp x (qsort_int cmp xs)

/-- The loop `for (i = j = k = 0; i < tsv->size; i++)` of
`tsvector_delete_by_indices`.  The list is `arrin[i ..]`; the value is the
entries written to `arrout`, the final `k` and the final `curoff`. -/
def delete_loop (M : Nat) (indices_to_delete : List Int) :
    List WordEntry → Nat → Nat → Nat → List OutEntry × Nat × Nat
  | [], _, k, curoff => ([], k, curoff)
  | e :: rest, i, k, curoff =>
    if k < indices_to_delete.length ∧ indices_to_delete[k]? = some (i : Int) then
      delete_loop M indices_to_delete rest (i + 1) (k + 1) curoff
    else
      let c := curoff + e.lexeme.length
      let curoff2 := if e.haspos then SHORTALIGN c + ((POSDATA e).length * 2 + 2) else c
      let t := delete_loop M indices_to_delete rest (i + 1) k curoff2
      (⟨curoff % (M + 1), curoff, ⟨e.lexeme, e.haspos, POSDATA e⟩⟩ :: t.1, t.2)

/-- The vector `tsvector_delete_by_indices` builds: the field `tsout->size`, the
entries written to `arrout` and the size `curoff` of the data area. -/
structure DeleteOut where
  size : Int
  arrout : List OutEntry
  curoff : Nat
deriving DecidableEq, Repr

/-- The part of `tsvector_delete_by_indices` before its `Assert`: the vector as
built, and the final value of `k`. -/
def delete_by_indices_pass (M : Nat) (tsv : TSVector) (indices_to_delete : List Int) :
    DeleteOut × Nat :=
  let size : Int := (tsv.length : Int) - (indices_to_delete.length : Int)
  let sorted :=
    if indices_to_delete.length > 1 then qsort_int compareint indices_to_delete
    else indices_to_delete
  let r := delete_loop M sorted tsv 0 0 0
  (⟨size, r.1, r.2.2⟩, r.2.1)

/-- Source: `tsvector_delete_by_indices(tsv, indices_to_delete, indices_count)`;
`none` stands for the failure of `Assert(k == indices_count)`. -/
def tsvector_delete_by_indices (M : Nat) (tsv : TSVector) (indices_to_delete : List Int) :
    Option DeleteOut :=
  let r := delete_by_indices_pass M tsv indices_to_delete
  if r.2 = indices_to_delete.length then some r.1 else none

/-- What `tsvector_delete_str` returns: its argument `tsin` itself, or a vector
built by `tsvector_delete_by_indices`. -/
inductive DeleteResult where
  | input : TSVector → DeleteResult
  | built : DeleteOut → DeleteResult
deriving DecidableEq, Repr

/-- Source: `tsvector_delete_str(tsin, tlexeme)`; `none` stands for a search that
does not return or a failed `Assert`. -/
def tsvector_delete_str (M : Nat) (tsin : TSVector) (lexeme : List Nat) :
    Option DeleteResult :=
  match tsvector_bsearch tsin lexeme with
  | none => none
  | some skip_index =>
    if skip_index = -1 then some (DeleteResult.input tsin)
    else (tsvector_delete_by_indices M tsin [skip_index]).map DeleteResult.built

/-- The loop `for (i = skip_count = 0; i < nlex; i++)` of `tsvector_delete_arr`;
the second argument is `skip_indices[0 .. skip_count)`. -/
def delete_arr_loop (tsin : TSVector) :
    List (Option (List Nat)) → List Int → Option (Except TsError (List Int))
  | [], skip_indices => some (Except.ok skip_indices)
  | none :: _, _ => some (Except.error TsError.lexemeArrayNull)
  | some lex :: rest, skip_indices =>
    match tsvector_bsearch tsin lex with
    | none => none
    | some lex_pos =>
      if lex_pos ≥ 0 then delete_arr_loop tsin rest (skip_indices ++ [lex_pos])
      else delete_arr_loop tsin rest skip_indices

/-- Source: `tsvector_delete_arr(tsin, lexemes)`. -/
def tsvector_delete_arr (M : Nat) (tsin : TSVector) (lexemes : List (Option (List Nat))) :
    Option (Except TsError DeleteOut) :=
  match delete_arr_loop tsin lexemes [] with
  | none => none
  | some (Except.error err) => some (Except.error err)
  | some (Except.ok skip_indices) =>
    (tsvector_delete_by_indices M tsin skip_indices).map Except.ok

/-- An example vector `"a" < "b" < "c"`, the second entry with one position. -/
def exAbc : TSVector := [⟨[97], false, []⟩, ⟨[98], true, [1]⟩, ⟨[99], false, []⟩]

/-! ## silly_cmp_tsvector and the comparison operators -/

/-- A vector as `silly_cmp_tsvector` reads it: `VARSIZE` and the entry array,
whose length is the field `size`. -/
structure TSVectorData where
  varsize : Nat
  entries : TSVector
deriving DecidableEq, Repr

/-- The body of the loop over the positions in `silly_cmp_tsvector`: the value
returned, or `0` when the body goes on to the next position (the body itself
returns only `-1` and `1`). -/
def silly_cmp_pos (ap bp : WordEntryPos) : Int :=
  if WEP_GETPOS ap ≠ WEP_GETPOS bp then
    (if WEP_GETPOS ap > WEP_GETPOS bp then -1 else 1)
  else if WEP_GETWEIGHT ap ≠ WEP_GETWEIGHT bp then
    (if WEP_GETWEIGHT ap > WEP_GETWEIGHT bp then -1 else 1)
  else 0

/-- The loop `for (j = 0; j < POSDATALEN(a, aptr); j++)` of `silly_cmp_tsvector`,
entered with position lists of equal length: the value returned, or `0` when the
loop ends. -/
def silly_cmp_positions : List WordEntryPos → List WordEntryPos → Int
  | ap :: arest, bp :: brest =>
    if silly_cmp_pos ap bp ≠ 0 then silly_cmp_pos ap bp
    else silly_cmp_positions arest brest
  | _, _ => 0

/-- The body of the loop over the entries in `silly_cmp_tsvector`: the value
returned, or `0` when the body goes on to the next entry (every `return` of the
body gives a value other than `0`). -/
def silly_cmp_entry (aptr bptr : WordEntry) : Int :=
  if aptr.haspos ≠ bptr.haspos then
    (if aptr.haspos > bptr.haspos then -1 else 1)
  else if tsCompareString aptr.lexeme bptr.lexeme false ≠ 0 then
    tsCompareString aptr.lexeme bptr.lexeme false
  else if aptr.haspos then
    if (POSDATA aptr).length ≠ (POSDATA bptr).length then
      (if (POSDATA aptr).length > (POSDATA bptr).length then -1 else 1)
    else silly_cmp_positions (POSDATA aptr) (POSDATA bptr)
  else 0

/-- The loop `for (i = 0; i < a->size; i++)` of `silly_cmp_tsvector`, entered with
entry arrays of equal size: the value returned, or `0` when the loop ends. -/
def silly_cmp_entries : List WordEntry → List WordEntry → Int
  | aptr :: arest, bptr :: brest =>
    if silly_cmp_entry aptr bptr ≠ 0 then silly_cmp_entry aptr bptr
    else silly_cmp_entries arest brest
  | _, _ => 0

/-- Source: `silly_cmp_tsvector(a, b)`. -/
def silly_cmp_tsvector (a b : TSVectorData) : Int :=
  if a.varsize < b.varsize then -1
  else if a.varsize > b.varsize then 1
  else if a.entries.length < b.entries.length then -1
  else if a.entries.length > b.entries.length then 1
  else silly_cmp_entries a.entries b.entries

/-- Source: `TSVECTORCMPFUNC(lt, <, BOOL)`. -/
def tsvector_lt (a b : TSVectorData) : Bool := decide (silly_cmp_tsvector a b < 0)

/-- Source: `TSVECTORCMPFUNC(le, <=, BOOL)`. -/
def tsvector_le (a b : TSVectorData) : Bool := decide (silly_cmp_tsvector a b ≤ 0)

/-- Source: `TSVECTORCMPFUNC(eq, ==, BOOL)`. -/
def tsvector_eq (a b : TSVectorData) : Bool := decide (silly_cmp_tsvector a b = 0)

/-- Source: `TSVECTORCMPFUNC(ge, >=, BOOL)`. -/
def tsvector_ge (a b : TSVectorData) : Bool := decide (silly_cmp_tsvector a b ≥ 0)

/-- Source: `TSVECTORCMPFUNC(gt, >, BOOL)`. -/
def tsvector_gt (a b : TSVectorData) : Bool := decide (silly_cmp_tsvector a b > 0)

/-- Source: `TSVECTORCMPFUNC(ne, !=, BOOL)`. -/
def tsvector_ne (a b : TSVectorData) : Bool := decide (silly_cmp_tsvector a b ≠ 0)

/-- Source: `TSVECTORCMPFUNC(cmp, +, INT32)`. -/
def tsvector_cmp (a b : TSVectorData) : Int := silly_cmp_tsvector a b + 0

/-- Reference notion of the specification: two entries match exactly: the same
`hasPositions` flag, the same lexeme bytes and, when positions are present, the
same position values and weight classes in the same order. -/
def entriesMatch (a b : WordEntry) : Prop :=
  a.haspos = b.haspos ∧ a.lexeme = b.lexeme ∧
  (a.haspos = true →
    (POSDATA a).map WEP_GETPOS = (POSDATA b).map WEP_GETPOS ∧
    (POSDATA a).map WEP_GETWEIGHT = (POSDATA b).map WEP_GETWEIGHT)

instance entriesMatch_decidable (a b : WordEntry) : Decidable (entriesMatch a b) :=
  inferInstanceAs (Decidable (a.haspos = b.haspos ∧ a.lexeme = b.lexeme ∧
    (a.haspos = true →
      (POSDATA a).map WEP_GETPOS = (POSDATA b).map WEP_GETPOS ∧
      (POSDATA a).map WEP_GETWEIGHT = (POSDATA b).map WEP_GETWEIGHT)))

/-- A three-way comparison that goes through a list pair by pair with `c` and
gives the first value other than `0`. -/
def lexList {α : Type} (c : α → α → Int) : List α → List α → Int
  | a :: arest, b :: brest => if c a b ≠ 0 then c a b else lexList c arest brest
  | _, _ => 0

/-- A three-way comparison `c` describes a total preorder: the sign is reversed
when the arguments are swapped, and "not greater" is transitive. -/
structure ThreeWay {α : Type} (c : α → α → Int) : Prop where
  anti : ∀ a b, c a b < 0 ↔ 0 < c b a
  trans : ∀ a b d, c a b ≤ 0 → c b d ≤ 0 → c a d ≤ 0

/-! ## array_to_tsvector, ts_match_vq, and further reference notions -/

/-- The first loop of `array_to_tsvector`: the error for an SQL null (an element
`none`), or the sum `datalen` of the lengths of the lexemes. -/
def array_to_tsvector_datalen : List (Option (List Nat)) → Nat → Except TsError Nat
  | [], datalen => Except.ok datalen
  | none :: _, _ => Except.error TsError.lexemeArrayNull
  | some lex :: rest, datalen => array_to_tsvector_datalen rest (datalen + lex.length)

/-- The second loop of `array_to_tsvector`; `cur` is `cur - STRPTR(tsout)`.  An
element `none` is not met here: the first loop has raised the error for it.
`M` is `MAXSTRPOS`: the field `pos` holds offsets up to `M`.  `L` is the largest
value of the field `len`: the assignment `arrout[i].len = lex_len` keeps
`lex_len` modulo `L + 1`, so the entry addresses that many of the bytes copied
to `cur`, while `cur` advances by the whole `lex_len`. -/
def array_to_tsvector_loop (M L : Nat) : List (Option (List Nat)) → Nat → List OutEntry
  | [], _ => []
  | none :: rest, cur => array_to_tsvector_loop M L rest cur
  | some lex :: rest, cur =>
    ⟨cur % (M + 1), cur, ⟨lex.take (lex.length % (L + 1)), false, []⟩⟩ ::
      array_to_tsvector_loop M L rest (cur + lex.length)

/-- Source: `array_to_tsvector(v)`.  `M` is `MAXSTRPOS` and `L` the largest value
of the field `len`.  The value is the error raised, or the entries of the result
with the length `datalen` of its data area. -/
def array_to_tsvector (M L : Nat) (v : List (Option (List Nat))) :
    Except TsError (List OutEntry × Nat) :=
  match array_to_tsvector_datalen v 0 with
  | Except.error err => Except.error err
  | Except.ok datalen => Except.ok (array_to_tsvector_loop M L v 0, datalen)

/-- Source: `ts_match_vq(val, query)`.  A query of `size` 0 is `none`; otherwise
the query is given by its root item `GETQUERY(query)`. -/
def ts_match_vq (val : TSVector) (query : Option QueryItem) : Option Bool :=
  if val.length = 0 ∨ query.isNone then some false
  else
    match query with
    | some root => TS_execute (checkcondition_str val) true root
    | none => some false

/-- The number of slots `TS_phrase_execute` allocates for `data->pos` when
`Rdata.allocated` is false: `palloc(sizeof(WordEntryPos) * Min(Ldata.npos,
Rdata.npos))`. -/
def TS_phrase_execute_palloc (Ldata Rdata : ExecPhraseData) : Nat :=
  min Ldata.npos Rdata.npos

/-- An example vector: `"a"` at position 1, `"b"` at positions 2 and 3. -/
def exPhrase : TSVector := [⟨[97], true, [1]⟩, ⟨[98], true, [2, 3]⟩]

/-- Reference notion of the specification: the invariant of a position list: it
is strictly ascending by position value, has at most 256 entries, and every
position value lies in `[1, 16383]`. -/
def PosListOK (l : List WordEntryPos) : Prop :=
  List.Sorted (· < ·) (l.map WEP_GETPOS) ∧ l.length ≤ 256 ∧
  ∀ p ∈ l, 1 ≤ WEP_GETPOS p ∧ WEP_GETPOS p ≤ 16383

instance PosListOK_decidable (l : List WordEntryPos) : Decidable (PosListOK l) :=
  inferInstanceAs (Decidable (List.Sorted (· < ·) (l.map WEP_GETPOS) ∧ l.length ≤ 256 ∧
    ∀ p ∈ l, 1 ≤ WEP_GETPOS p ∧ WEP_GETPOS p ≤ 16383))

/-- What the merge of `tsvector_concat` establishes on any two inputs about the
position list of each entry it writes: it is what `add_pos` makes of a position
list of `in1` (or none) and a position list of `in2` (or none). -/
def ConcatSources (maxpos : Nat) (in1 in2 : List WordEntry) (out : List OutEntry) : Prop :=
  ∀ o ∈ out, ∃ (l1 l2 : List WordEntryPos),
    (l1 = [] ∨ ∃ e ∈ in1, l1 = POSDATA e) ∧ (l2 = [] ∨ ∃ e ∈ in2, l2 = POSDATA e) ∧
    POSDATA o.entry = add_pos_loop maxpos l2 l1

/-- Reference notion of the specification: an entry is a hit for a value leaf: it
holds the leaf's lexeme (as a byte-prefix when the leaf has the prefix flag) and
passes the weight test of the leaf. -/
def leafHit (val : QueryOperand) (e : WordEntry) : Prop :=
  (if val.pfx then hasPrefix val.lexeme e else e.lexeme = val.lexeme) ∧
  entryMatches val e = true

instance leafHit_decidable (val : QueryOperand) (e : WordEntry) : Decidable (leafHit val e) :=
  inferInstanceAs (Decidable
    ((if val.pfx then hasPrefix val.lexeme e else e.lexeme = val.lexeme) ∧
      entryMatches val e = true))

/-- Reference notion of the specification: the size of the data area of a vector
whose entries are stored one behind the other from offset `d`, each with its
lexeme bytes and, when it has positions, at the next 2-byte aligned offset a
16-bit count followed by one 16-bit unit for each position. -/
def dataSizeFrom : List WordEntry → Nat → Nat
  | [], d => d
  | e :: rest, d =>
    if e.haspos then
      dataSizeFrom rest (SHORTALIGN (d + e.lexeme.length) + (2 + 2 * (POSDATA e).length))
    else dataSizeFrom rest (d + e.lexeme.length)

/-- Reference notion of the specification: the size of the data area of the
vector `v` stored without gaps from offset 0. -/
def dataSize (v : TSVector) : Nat := dataSizeFrom v 0

/-! ## Lemmas on memcmp and tsCompareString -/

theorem memcmp_eq_zero_iff (a b : List Nat) (n : Nat)
    (ha : n ≤ a.length) (hb : n ≤ b.length) :
    memcmp a b n = 0 ↔ a.take n = b.take n := by
  induction n generalizing a b with
  | zero => cases a <;> cases b <;> simp [memcmp]
  | succ n ih =>
    cases a with
    | nil => simp at ha
    | cons x xs =>
      cases b with
      | nil => simp at hb
      | cons y ys =>
        simp only [List.length_cons, Nat.add_le_add_iff_right] at ha hb
        by_cases hxy : x = y
        · subst hxy
          simp [memcmp, ih xs ys ha hb]
        · have : (x : Int) - (y : Int) ≠ 0 := by omega
          simp [memcmp, hxy, this]

theorem tsCompareString_nil_left (b : List Nat) (p : Bool) :
    tsCompareString [] b p = if p then 0 else (if b.length > 0 then -1 else 0) := by
  simp [tsCompareString]

theorem tsCompareString_cons_nil (x : Nat) (xs : List Nat) (p : Bool) :
    tsCompareString (x :: xs) [] p = 1 := by
  simp [tsCompareString]

/-- Both comparison modes, unfolded by one byte. -/
theorem tsCompareString_cons_cons (x y : Nat) (xs ys : List Nat) (p : Bool) :
    tsCompareString (x :: xs) (y :: ys) p =
      if x = y then tsCompareString xs ys p else (x : Int) - (y : Int) := by
  by_cases hxy : x = y
  · subst hxy
    cases xs with
    | nil =>
      cases ys with
      | nil => cases p <;> simp [tsCompareString, memcmp]
      | cons y ys => cases p <;> simp [tsCompareString, memcmp]
    | cons x2 xs =>
      cases ys with
      | nil => cases p <;> simp [tsCompareString, memcmp]
      | cons y2 ys =>
        cases p <;>
          simp [tsCompareString, memcmp, Nat.succ_min_succ, Nat.add_lt_add_iff_right]
  · have h0 : (x : Int) - (y : Int) ≠ 0 := by omega
    cases p <;> simp [tsCompareString, memcmp, hxy, h0, Nat.succ_min_succ]

theorem tsCompareString_false_sign (a b : List Nat) :
    Int.sign (tsCompareString a b false) = ordSign (lexCompareBytes a b) := by
  induction a generalizing b with
  | nil =>
    cases b with
    | nil => simp [tsCompareString, lexCompareBytes, ordSign]
    | cons y ys => simp [tsCompareString, lexCompareBytes, ordSign]
  | cons x xs ih =>
    cases b with
    | nil => simp [tsCompareString, lexCompareBytes, ordSign]
    | cons y ys =>
      rw [tsCompareString_cons_cons]
      rcases Nat.lt_trichotomy x y with h | h | h
      · have h1 : x ≠ y := by omega
        have h2 : (x : Int) - (y : Int) < 0 := by omega
        simp [lexCompareBytes, h, h1, ordSign, Int.sign_eq_neg_one_of_neg h2]
      · subst h
        simp [lexCompareBytes, ih]
      · have h1 : x ≠ y := by omega
        have h2 : (0 : Int) < (x : Int) - (y : Int) := by omega
        have h3 : ¬ x < y := by omega
        simp [lexCompareBytes, h, h1, h3, ordSign, Int.sign_eq_one_of_pos h2]

theorem lexCompareBytes_eq_iff (a b : List Nat) :
    lexCompareBytes a b = Ordering.eq ↔ a = b := by
  induction a generalizing b with
  | nil => cases b <;> simp [lexCompareBytes]
  | cons x xs ih =>
    cases b with
    | nil => simp [lexCompareBytes]
    | cons y ys =>
      rcases Nat.lt_trichotomy x y with h | h | h
      · have h1 : x ≠ y := by omega
        simp [lexCompareBytes, h, h1]
      · subst h
        simp [lexCompareBytes, ih]
      · have h1 : x ≠ y := by omega
        have h3 : ¬ x < y := by omega
        simp [lexCompareBytes, h, h1, h3]

theorem tsCompareString_false_eq_zero_iff (a b : List Nat) :
    tsCompareString a b false = 0 ↔ a = b := by
  rw [← lexCompareBytes_eq_iff, ← Int.sign_eq_zero_iff_zero, tsCompareString_false_sign]
  cases lexCompareBytes a b <;> simp [ordSign]

theorem tsCompareString_true_eq_zero_iff (a b : List Nat) :
    tsCompareString a b true = 0 ↔ a.length ≤ b.length ∧ b.take a.length = a := by
  induction a generalizing b with
  | nil => simp [tsCompareString]
  | cons x xs ih =>
    cases b with
    | nil => simp [tsCompareString]
    | cons y ys =>
      rw [tsCompareString_cons_cons]
      by_cases hxy : x = y
      · subst hxy
        simp [ih]
      · have h0 : (x : Int) - (y : Int) ≠ 0 := by omega
        have hyx : ¬ y = x := fun h => hxy h.symm
        simp [hxy, h0, hyx]

/-! ## Order lemmas -/

theorem tsCompareString_false_trans (a b c : List Nat)
    (hab : tsCompareString a b false < 0) (hbc : tsCompareString b c false < 0) :
    tsCompareString a c false < 0 := by
  induction a generalizing b c with
  | nil =>
    cases c with
    | nil =>
      cases b with
      | nil => simp [tsCompareString] at hab
      | cons y ys => simp [tsCompareString] at hbc
    | cons z zs => simp [tsCompareString]
  | cons x xs ih =>
    cases b with
    | nil => simp [tsCompareString] at hab
    | cons y ys =>
      cases c with
      | nil => simp [tsCompareString] at hbc
      | cons z zs =>
        rw [tsCompareString_cons_cons] at hab hbc ⊢
        by_cases hxy : x = y
        · subst hxy
          by_cases hxz : x = z
          · subst hxz
            simp only [if_true] at hab hbc ⊢
            exact ih ys zs hab hbc
          · simp only [if_true, hxz, if_false] at hab hbc ⊢
            exact hbc
        · by_cases hyz : y = z
          · subst hyz
            simp only [hxy, if_false] at hab ⊢
            exact hab
          · simp only [hxy, hyz, if_false] at hab hbc
            have hxz : x ≠ z := by omega
            simp only [hxz, if_false]
            omega

theorem tsCompareString_false_swap (a b : List Nat) :
    0 < tsCompareString a b false ↔ tsCompareString b a false < 0 := by
  induction a generalizing b with
  | nil => cases b <;> simp [tsCompareString]
  | cons x xs ih =>
    cases b with
    | nil => simp [tsCompareString]
    | cons y ys =>
      rw [tsCompareString_cons_cons, tsCompareString_cons_cons]
      by_cases hxy : x = y
      · subst hxy
        simpa using ih ys
      · have hyx : ¬ y = x := fun h => hxy h.symm
        simp only [hxy, hyx, if_false]
        omega

theorem tsCompareString_false_self (a : List Nat) : tsCompareString a a false = 0 :=
  (tsCompareString_false_eq_zero_iff a a).2 rfl

instance entryLt_isTrans : IsTrans WordEntry entryLt :=
  ⟨fun a b c hab hbc => tsCompareString_false_trans a.lexeme b.lexeme c.lexeme hab hbc⟩

theorem StrictSorted.pairwise {v : TSVector} (h : StrictSorted v) :
    List.Pairwise entryLt v :=
  List.chain'_iff_pairwise.1 h

theorem StrictSorted.lt_of_lt {v : TSVector} (h : StrictSorted v) {i j : Nat}
    {a b : WordEntry} (hij : i < j) (ha : v[i]? = some a) (hb : v[j]? = some b) :
    entryLt a b := by
  have hp := h.pairwise
  rw [List.pairwise_iff_getElem] at hp
  obtain ⟨hi, rfl⟩ := List.getElem?_eq_some_iff.1 ha
  obtain ⟨hj, rfl⟩ := List.getElem?_eq_some_iff.1 hb
  exact hp i j hi hj hij

/-! ## Correctness of tsvector_bsearch -/

theorem StrictSorted.index_unique {v : TSVector} (h : StrictSorted v) {i j : Nat}
    {a b : WordEntry} (ha : v[i]? = some a) (hb : v[j]? = some b)
    (hab : a.lexeme = b.lexeme) : i = j := by
  rcases Nat.lt_trichotomy i j with hij | hij | hij
  · have := h.lt_of_lt hij ha hb
    unfold entryLt at this
    rw [hab, tsCompareString_false_self] at this
    omega
  · exact hij
  · have := h.lt_of_lt hij hb ha
    unfold entryLt at this
    rw [hab, tsCompareString_false_self] at this
    omega

theorem tsvector_bsearch_loop_spec (v : TSVector) (hs : StrictSorted v) (t : List Nat) :
    ∀ (fuel lo hi : Nat), hi ≤ v.length → hi - lo ≤ fuel →
      (∀ i e, i < lo → v[i]? = some e → 0 < tsCompareString t e.lexeme false) →
      (∀ i e, hi ≤ i → v[i]? = some e → tsCompareString t e.lexeme false < 0) →
      (∃ (i : Nat) (e : WordEntry), tsvector_bsearch_loop v t fuel lo hi = some (i : Int) ∧
          lo ≤ i ∧ i < hi ∧ v[i]? = some e ∧ e.lexeme = t) ∨
      (tsvector_bsearch_loop v t fuel lo hi = some (-1) ∧ ∀ e ∈ v, e.lexeme ≠ t) := by
  intro fuel
  induction fuel with
  | zero =>
    intro lo hi hhi hfuel hlo hup
    right
    have hge : ¬ lo < hi := by omega
    refine ⟨by simp [tsvector_bsearch_loop, hge], ?_⟩
    intro e he hte
    obtain ⟨i, hi', hie⟩ := List.getElem_of_mem he
    have hsome : v[i]? = some e := by rw [List.getElem?_eq_getElem hi', hie]
    have h0 : tsCompareString t e.lexeme false = 0 := by
      rw [hte]; exact tsCompareString_false_self t
    by_cases hil : i < lo
    · have := hlo i e hil hsome; omega
    · have := hup i e (by omega) hsome; omega
  | succ fuel ih =>
    intro lo hi hhi hfuel hlo hup
    by_cases hlt : lo < hi
    · have hmid1 : lo ≤ (lo + hi) / 2 := by omega
      have hmid2 : (lo + hi) / 2 < hi := by omega
      have hmidlen : (lo + hi) / 2 < v.length := by omega
      have hget : v[(lo + hi) / 2]? = some v[(lo + hi) / 2] :=
        List.getElem?_eq_getElem hmidlen
      simp only [tsvector_bsearch_loop, hlt, if_true, hget]
      by_cases hneg : tsCompareString t v[(lo + hi) / 2].lexeme false < 0
      · simp only [hneg, if_true]
        have := ih lo ((lo + hi) / 2) (by omega) (by omega) hlo (by
          intro i e hi' hie
          rcases Nat.eq_or_lt_of_le hi' with heq | hlt'
          · rw [← heq, hget] at hie
            cases hie
            exact hneg
          · have hlt2 := hs.lt_of_lt hlt' hget hie
            exact tsCompareString_false_trans _ _ _ hneg hlt2)
        rcases this with ⟨i, e, h1, h2, h3, h4, h5⟩ | h
        · exact Or.inl ⟨i, e, h1, h2, by omega, h4, h5⟩
        · exact Or.inr h
      · simp only [hneg, if_false]
        by_cases hpos : tsCompareString t v[(lo + hi) / 2].lexeme false > 0
        · simp only [hpos, if_true]
          have := ih ((lo + hi) / 2 + 1) hi hhi (by omega) (by
            intro i e hi' hie
            rcases Nat.eq_or_lt_of_le (Nat.le_of_lt_succ hi') with heq | hlt'
            · rw [heq, hget] at hie
              cases hie
              exact hpos
            · have hlt2 := hs.lt_of_lt hlt' hie hget
              have h3 := (tsCompareString_false_swap _ _).1 hpos
              exact (tsCompareString_false_swap _ _).2
                (tsCompareString_false_trans _ _ _ hlt2 h3)) hup
          rcases this with ⟨i, e, h1, h2, h3, h4, h5⟩ | h
          · exact Or.inl ⟨i, e, h1, by omega, h3, h4, h5⟩
          · exact Or.inr h
        · simp only [hpos, if_false]
          left
          refine ⟨(lo + hi) / 2, v[(lo + hi) / 2], rfl, hmid1, hmid2, hget, ?_⟩
          have h0 : tsCompareString t v[(lo + hi) / 2].lexeme false = 0 := by omega
          exact ((tsCompareString_false_eq_zero_iff _ _).1 h0).symm
    · right
      refine ⟨by simp [tsvector_bsearch_loop, hlt], ?_⟩
      intro e he hte
      obtain ⟨i, hi', hie⟩ := List.getElem_of_mem he
      have hsome : v[i]? = some e := by rw [List.getElem?_eq_getElem hi', hie]
      have h0 : tsCompareString t e.lexeme false = 0 := by
        rw [hte]; exact tsCompareString_false_self t
      by_cases hil : i < lo
      · have := hlo i e hil hsome; omega
      · have := hup i e (by omega) hsome; omega

/-- C1: on a strictly sorted vector `tsvector_bsearch` returns a result; when
some entry has text `t` the result is the index of such an entry, and that index
is the only one holding `t`; the result is `-1` exactly when no entry of the
vector has text `t`. -/
theorem tsvector_bsearch_correct (v : TSVector) (t : List Nat) (hs : StrictSorted v) :
    ∃ r : Int, tsvector_bsearch v t = some r ∧
      ((∃ e ∈ v, e.lexeme = t) →
        ∃ i : Nat, r = (i : Int) ∧ (v[i]?).map WordEntry.lexeme = some t ∧
          ∀ j : Nat, (v[j]?).map WordEntry.lexeme = some t → j = i) ∧
      (r = -1 ↔ ¬ ∃ e ∈ v, e.lexeme = t) := by
  have h := tsvector_bsearch_loop_spec v hs t v.length 0 v.length (Nat.le_refl _)
    (by omega) (by intro i e hi; omega) (by
      intro i e hi hie
      have := (List.getElem?_eq_some_iff.1 hie).1
      omega)
  rcases h with ⟨i, e, h1, _, h3, h4, h5⟩ | ⟨h1, h2⟩
  · refine ⟨(i : Int), h1, ?_, ?_⟩
    · intro _
      refine ⟨i, rfl, by simp [h4, h5], ?_⟩
      intro j hj
      rcases hvj : v[j]? with _ | b
      · simp [hvj] at hj
      · simp [hvj] at hj
        exact hs.index_unique hvj h4 (hj.trans h5.symm)
    · constructor
      · intro hneg; omega
      · intro hno
        exact absurd ⟨e, List.getElem?_mem h4, h5⟩ hno
  · refine ⟨-1, h1, ?_, ?_⟩
    · rintro ⟨e, he, hte⟩
      exact absurd hte (h2 e he)
    · constructor
      · rintro _ ⟨e, he, hte⟩
        exact h2 e he hte
      · intro _; rfl

/-- A witness for C1: the vector `"a" < "b" < "c"`. -/
theorem tsvector_bsearch_correct_witness :
    StrictSorted [⟨[97], false, []⟩, ⟨[98], true, [1]⟩, ⟨[99], false, []⟩] ∧
    ∃ r : Int, tsvector_bsearch
        [⟨[97], false, []⟩, ⟨[98], true, [1]⟩, ⟨[99], false, []⟩] [98] = some r ∧
      ((∃ e ∈ ([⟨[97], false, []⟩, ⟨[98], true, [1]⟩, ⟨[99], false, []⟩] : TSVector),
          e.lexeme = [98]) →
        ∃ i : Nat, r = (i : Int) ∧
          (([⟨[97], false, []⟩, ⟨[98], true, [1]⟩, ⟨[99], false, []⟩] : TSVector)[i]?).map
            WordEntry.lexeme = some [98] ∧
          ∀ j : Nat,
            (([⟨[97], false, []⟩, ⟨[98], true, [1]⟩, ⟨[99], false, []⟩] : TSVector)[j]?).map
              WordEntry.lexeme = some [98] → j = i) ∧
      (r = -1 ↔ ¬ ∃ e ∈ ([⟨[97], false, []⟩, ⟨[98], true, [1]⟩, ⟨[99], false, []⟩] : TSVector),
          e.lexeme = [98]) :=
  ⟨by decide, tsvector_bsearch_correct _ _ (by decide)⟩

/-! ## The binary search of checkcondition_str -/

theorem bsearchPost_of_done (v : TSVector) (val : QueryOperand)
    (data : Option ExecPhraseData) (lo hi mid : Nat) (hhi : hi ≤ v.length)
    (hge : ¬ lo < hi)
    (hlo : ∀ i e, i < lo → v[i]? = some e → 0 < tsCompareString val.lexeme e.lexeme false)
    (hup : ∀ i e, hi ≤ i → v[i]? = some e → tsCompareString val.lexeme e.lexeme false < 0) :
    BsearchPost v val data ⟨lo, hi, mid, false, data⟩ := by
  have hs : scanStart ⟨lo, hi, mid, false, data⟩ = hi := by
    simp [scanStart]; omega
  refine ⟨by rw [hs]; exact hhi, ?_, ?_, Or.inr ⟨?_, rfl, rfl⟩⟩
  · intro i e hi' hie
    rw [hs] at hi'
    exact hlo i e (by omega) hie
  · intro i e hi' hie
    rw [hs] at hi'
    exact le_of_lt (hup i e hi' hie)
  · intro e he hte
    obtain ⟨i, hi', hie⟩ := List.getElem_of_mem he
    have hsome : v[i]? = some e := by rw [List.getElem?_eq_getElem hi', hie]
    have h0 : tsCompareString val.lexeme e.lexeme false = 0 := by
      rw [hte]; exact tsCompareString_false_self _
    by_cases hil : i < lo
    · have := hlo i e hil hsome; omega
    · have := hup i e (by omega) hsome; omega

theorem checkcondition_str_bsearch_spec (v : TSVector) (hs : StrictSorted v)
    (val : QueryOperand) (data : Option ExecPhraseData) :
    ∀ (fuel lo hi mid : Nat), hi ≤ v.length → hi - lo ≤ fuel →
      (∀ i e, i < lo → v[i]? = some e → 0 < tsCompareString val.lexeme e.lexeme false) →
      (∀ i e, hi ≤ i → v[i]? = some e → tsCompareString val.lexeme e.lexeme false < 0) →
      ∃ st, checkcondition_str_bsearch v val data fuel lo hi mid = some st ∧
        BsearchPost v val data st := by
  intro fuel
  induction fuel with
  | zero =>
    intro lo hi mid hhi hfuel hlo hup
    have hge : ¬ lo < hi := by omega
    exact ⟨⟨lo, hi, mid, false, data⟩, by simp [checkcondition_str_bsearch, hge],
      bsearchPost_of_done v val data lo hi mid hhi hge hlo hup⟩
  | succ fuel ih =>
    intro lo hi mid0 hhi hfuel hlo hup
    by_cases hlt : lo < hi
    · have hmid1 : lo ≤ lo + (hi - lo) / 2 := by omega
      have hmid2 : lo + (hi - lo) / 2 < hi := by omega
      have hmidlen : lo + (hi - lo) / 2 < v.length := by omega
      have hget : v[lo + (hi - lo) / 2]? = some v[lo + (hi - lo) / 2] :=
        List.getElem?_eq_getElem hmidlen
      simp only [checkcondition_str_bsearch, hlt, if_true, hget]
      by_cases hz : tsCompareString val.lexeme v[lo + (hi - lo) / 2].lexeme false = 0
      · simp only [hz, if_true]
        refine ⟨_, rfl, ?_⟩
        have hlex : v[lo + (hi - lo) / 2].lexeme = val.lexeme :=
          ((tsCompareString_false_eq_zero_iff _ _).1 hz).symm
        have hst : scanStart ⟨lo, hi, lo + (hi - lo) / 2,
            (checkclass_str v[lo + (hi - lo) / 2] val data).1,
            (checkclass_str v[lo + (hi - lo) / 2] val data).2⟩ = lo + (hi - lo) / 2 := by
          simp [scanStart]; omega
        refine ⟨by rw [hst]; omega, ?_, ?_, Or.inl ⟨_, by rw [hst]; exact hget, hlex, rfl, rfl⟩⟩
        · intro i e hi' hie
          rw [hst] at hi'
          have hlt2 := hs.lt_of_lt hi' hie hget
          unfold entryLt at hlt2
          rw [hlex] at hlt2
          exact (tsCompareString_false_swap _ _).2 hlt2
        · intro i e hi' hie
          rw [hst] at hi'
          rcases Nat.eq_or_lt_of_le hi' with heq | hlt'
          · rw [← heq, hget] at hie
            cases hie
            omega
          · have hlt2 := hs.lt_of_lt hlt' hget hie
            unfold entryLt at hlt2
            rw [hlex] at hlt2
            omega
      · simp only [hz, if_false]
        by_cases hpos : tsCompareString val.lexeme v[lo + (hi - lo) / 2].lexeme false > 0
        · simp only [hpos, if_true]
          exact ih (lo + (hi - lo) / 2 + 1) hi _ hhi (by omega) (by
            intro i e hi' hie
            rcases Nat.eq_or_lt_of_le (Nat.le_of_lt_succ hi') with heq | hlt'
            · rw [heq, hget] at hie
              cases hie
              exact hpos
            · have hlt2 := hs.lt_of_lt hlt' hie hget
              have h3 := (tsCompareString_false_swap _ _).1 hpos
              exact (tsCompareString_false_swap _ _).2
                (tsCompareString_false_trans _ _ _ hlt2 h3)) hup
        · simp only [hpos, if_false]
          have hneg : tsCompareString val.lexeme v[lo + (hi - lo) / 2].lexeme false < 0 := by
            omega
          exact ih lo (lo + (hi - lo) / 2) _ (by omega) (by omega) hlo (by
            intro i e hi' hie
            rcases Nat.eq_or_lt_of_le hi' with heq | hlt'
            · rw [← heq, hget] at hie
              cases hie
              exact hneg
            · have hlt2 := hs.lt_of_lt hlt' hget hie
              exact tsCompareString_false_trans _ _ _ hneg hlt2)
    · exact ⟨⟨lo, hi, mid0, false, data⟩, by simp [checkcondition_str_bsearch, hlt],
        bsearchPost_of_done v val data lo hi mid0 hhi hlt hlo hup⟩

/-- The binary search of `checkcondition_str` on the whole array. -/
theorem checkcondition_str_bsearch_total (v : TSVector) (hs : StrictSorted v)
    (val : QueryOperand) (data : Option ExecPhraseData) :
    ∃ st, checkcondition_str_bsearch v val data v.length 0 v.length v.length = some st ∧
      BsearchPost v val data st :=
  checkcondition_str_bsearch_spec v hs val data v.length 0 v.length v.length
    (Nat.le_refl _) (by omega) (by intro i e hi; omega) (by
      intro i e hi hie
      have := (List.getElem?_eq_some_iff.1 hie).1
      omega)

/-! ## Leaves without the prefix flag -/

theorem checkclass_filter_eq (w : Nat) (l : List WordEntryPos) :
    checkclass_filter w l = (l.filter (weightBitSet w)).map WEP_GETPOS := by
  induction l with
  | nil => rfl
  | cons p ps ih =>
    by_cases h : weightBitSet w p = true
    · simp [checkclass_filter, h, ih]
    · simp [checkclass_filter, h, ih]

theorem checkclass_any_iff (w : Nat) (l : List WordEntryPos) :
    checkclass_any w l = true ↔ ∃ p ∈ l, weightBitSet w p = true := by
  induction l with
  | nil => simp [checkclass_any]
  | cons p ps ih =>
    by_cases h : weightBitSet w p = true
    · simp [checkclass_any, h]
    · simp [checkclass_any, h, ih]

theorem checkclass_filter_length_pos (w : Nat) (l : List WordEntryPos) :
    0 < (checkclass_filter w l).length ↔ ∃ p ∈ l, weightBitSet w p = true := by
  induction l with
  | nil => simp [checkclass_filter]
  | cons p ps ih =>
    by_cases h : weightBitSet w p = true
    · simp [checkclass_filter, h]
    · simp [checkclass_filter, h, ih]

theorem checkclass_str_nopos (e : WordEntry) (val : QueryOperand)
    (data : Option ExecPhraseData) (hpos : e.haspos = false) :
    checkclass_str e val data = (true, data) := by
  simp [checkclass_str, hpos]

theorem checkclass_str_noweight_nodata (e : WordEntry) (val : QueryOperand)
    (hw : val.weight = 0) : checkclass_str e val none = (true, none) := by
  simp [checkclass_str, hw]

theorem checkclass_str_weight_nodata (e : WordEntry) (val : QueryOperand)
    (hpos : e.haspos = true) (hw : val.weight ≠ 0) :
    checkclass_str e val none = (checkclass_any val.weight e.posvec, none) := by
  have hw2 : (val.weight != 0) = true := by simp [hw]
  simp [checkclass_str, hpos, hw2]

theorem checkclass_str_weight_data (e : WordEntry) (val : QueryOperand)
    (d : ExecPhraseData) (hpos : e.haspos = true) (hw : val.weight ≠ 0) :
    checkclass_str e val (some d) =
      (decide ((checkclass_filter val.weight e.posvec).length > 0),
        some ⟨(checkclass_filter val.weight e.posvec).length, true,
          checkclass_filter val.weight e.posvec⟩) := by
  have hw2 : (val.weight != 0) = true := by simp [hw]
  simp [checkclass_str, hpos, hw2]

theorem checkclass_str_noweight_data (e : WordEntry) (val : QueryOperand)
    (d : ExecPhraseData) (hpos : e.haspos = true) (hw : val.weight = 0) :
    checkclass_str e val (some d) = (true, some ⟨e.posvec.length, false, e.posvec⟩) := by
  simp [checkclass_str, hpos, hw]

theorem StrictSorted.entry_unique {v : TSVector} (h : StrictSorted v) {a b : WordEntry}
    (ha : a ∈ v) (hb : b ∈ v) (hab : a.lexeme = b.lexeme) : a = b := by
  obtain ⟨i, hi⟩ := List.mem_iff_getElem?.1 ha
  obtain ⟨j, hj⟩ := List.mem_iff_getElem?.1 hb
  have hij := h.index_unique hi hj hab
  subst hij
  rw [hi] at hj
  exact Option.some.inj hj

theorem checkcondition_str_exact_eq (v : TSVector) (val : QueryOperand)
    (data : Option ExecPhraseData) (hp : val.pfx = false) :
    checkcondition_str v val data =
      (checkcondition_str_bsearch v val data v.length 0 v.length v.length).map
        (fun st => (st.res, st.data)) := by
  unfold checkcondition_str
  cases checkcondition_str_bsearch v val data v.length 0 v.length v.length with
  | none => rfl
  | some st => simp [hp]

theorem checkcondition_str_exact_found (v : TSVector) (hs : StrictSorted v)
    (val : QueryOperand) (data : Option ExecPhraseData) (hp : val.pfx = false)
    (e : WordEntry) (he : e ∈ v) (hl : e.lexeme = val.lexeme) :
    checkcondition_str v val data = some (checkclass_str e val data) := by
  obtain ⟨st, hst, _, _, _, hcase⟩ := checkcondition_str_bsearch_total v hs val data
  rw [checkcondition_str_exact_eq v val data hp, hst]
  rcases hcase with ⟨e', he', hl', hres, hdata⟩ | ⟨hno, _, _⟩
  · have : e' = e := hs.entry_unique (List.getElem?_mem he') he (hl'.trans hl.symm)
    subst this
    simp [hres, hdata]
  · exact absurd hl (hno e he)

theorem checkcondition_str_exact_notfound (v : TSVector) (hs : StrictSorted v)
    (val : QueryOperand) (data : Option ExecPhraseData) (hp : val.pfx = false)
    (hno : ∀ e ∈ v, e.lexeme ≠ val.lexeme) :
    checkcondition_str v val data = some (false, data) := by
  obtain ⟨st, hst, _, _, _, hcase⟩ := checkcondition_str_bsearch_total v hs val data
  rw [checkcondition_str_exact_eq v val data hp, hst]
  rcases hcase with ⟨e', he', hl', _, _⟩ | ⟨_, hres, hdata⟩
  · exact absurd hl' (hno e' (List.getElem?_mem he'))
  · simp [hres, hdata]

theorem tsvector_bsearch_found_iff (v : TSVector) (hs : StrictSorted v) (t : List Nat) :
    (∃ i : Int, tsvector_bsearch v t = some i ∧ i ≠ -1) ↔ ∃ e ∈ v, e.lexeme = t := by
  have h := tsvector_bsearch_loop_spec v hs t v.length 0 v.length (Nat.le_refl _)
    (by omega) (by intro i e hi; omega) (by
      intro i e hi hie
      have := (List.getElem?_eq_some_iff.1 hie).1
      omega)
  unfold tsvector_bsearch
  rcases h with ⟨i, e, h1, _, _, h4, h5⟩ | ⟨h1, h2⟩
  · constructor
    · intro _; exact ⟨e, List.getElem?_mem h4, h5⟩
    · intro _; exact ⟨(i : Int), h1, by omega⟩
  · constructor
    · rintro ⟨i, hi, hne⟩
      rw [h1] at hi
      exact absurd (Option.some.inj hi).symm hne
    · rintro ⟨e, he, hte⟩
      exact absurd hte (h2 e he)

/-! ## The forward scan for prefix matches -/

theorem WEP_GETPOS_idem (p : WordEntryPos) : WEP_GETPOS (WEP_GETPOS p) = WEP_GETPOS p := by
  unfold WEP_GETPOS
  exact Nat.mod_mod _ _

theorem checkclass_any_eq_filter (w : Nat) (l : List WordEntryPos) :
    decide ((checkclass_filter w l).length > 0) = checkclass_any w l := by
  rw [Bool.eq_iff_iff, decide_eq_true_iff, checkclass_any_iff]
  exact checkclass_filter_length_pos w l

theorem checkclass_str_none (e : WordEntry) (val : QueryOperand) :
    checkclass_str e val none = (entryMatches val e, none) := by
  by_cases hpos : e.haspos = true
  · by_cases hw : val.weight = 0
    · rw [checkclass_str_noweight_nodata e val hw]
      simp [entryMatches, hw]
    · rw [checkclass_str_weight_nodata e val hpos hw]
      simp [entryMatches, hw, hpos]
  · have hpos2 : e.haspos = false := by simpa using hpos
    rw [checkclass_str_nopos e val none hpos2]
    simp [entryMatches, hpos2]

theorem selected_zero : selected 0 = fun _ => true := by
  funext p; simp [selected]

theorem selected_of_ne (w : Nat) (hw : w ≠ 0) : selected w = weightBitSet w := by
  funext p; simp [selected, hw]

theorem WEP_GETPOS_comp : WEP_GETPOS ∘ WEP_GETPOS = WEP_GETPOS := by
  funext p; exact WEP_GETPOS_idem p

theorem checkclass_str_some (e : WordEntry) (val : QueryOperand) (d : ExecPhraseData) :
    ∃ d2 : ExecPhraseData, checkclass_str e val (some d) = (entryMatches val e, some d2) ∧
      (e.haspos = false → d2 = d) ∧
      (e.haspos = true → d2.positions.map WEP_GETPOS = contribution val.weight e) := by
  by_cases hpos : e.haspos = true
  · by_cases hw : val.weight = 0
    · refine ⟨⟨e.posvec.length, false, e.posvec⟩, ?_, ?_, ?_⟩
      · rw [checkclass_str_noweight_data e val d hpos hw]
        simp [entryMatches, hw]
      · intro h; rw [hpos] at h; cases h
      · intro _
        simp [ExecPhraseData.positions, contribution, POSDATA, hpos, hw, selected_zero]
    · refine ⟨⟨(checkclass_filter val.weight e.posvec).length, true,
          checkclass_filter val.weight e.posvec⟩, ?_, ?_, ?_⟩
      · rw [checkclass_str_weight_data e val d hpos hw, checkclass_any_eq_filter]
        simp [entryMatches, hw, hpos]
      · intro h; rw [hpos] at h; cases h
      · intro _
        simp only [ExecPhraseData.positions, contribution, POSDATA, hpos, if_true,
          selected_of_ne _ hw, checkclass_filter_eq, List.map_map, WEP_GETPOS_comp]
        rw [List.take_of_length_le (by simp), List.map_map, WEP_GETPOS_comp]
  · have hpos2 : e.haspos = false := by simpa using hpos
    refine ⟨d, ?_, fun _ => rfl, ?_⟩
    · rw [checkclass_str_nopos e val (some d) hpos2]
      simp [entryMatches, hpos2]
    · intro h; rw [hpos2] at h; cases h

theorem contribution_nopos (w : Nat) (e : WordEntry) (h : e.haspos = false) :
    contribution w e = [] := by
  simp [contribution, POSDATA, h]

theorem contribution_of_not_matches (val : QueryOperand) (e : WordEntry)
    (h : entryMatches val e = false) : contribution val.weight e = [] := by
  simp only [entryMatches, Bool.or_eq_false_iff, Bool.not_eq_false', beq_eq_false_iff_ne,
    ne_eq] at h
  obtain ⟨⟨hpos, hw⟩, hany⟩ := h
  have hnone : ∀ p ∈ e.posvec, weightBitSet val.weight p = false := by
    intro p hp
    by_contra hc
    have hc2 : weightBitSet val.weight p = true := by simpa using hc
    have := (checkclass_any_iff val.weight e.posvec).2 ⟨p, hp, hc2⟩
    rw [hany] at this
    cases this
  simp only [contribution, POSDATA, hpos, if_true, selected_of_ne _ hw]
  rw [List.filter_eq_nil_iff.2 (by
    intro p hp
    rw [hnone p hp]
    decide)]
  rfl

theorem contribution_ne_nil_of_matches (val : QueryOperand) (e : WordEntry)
    (h : entryMatches val e = true) (hne : POSDATA e ≠ []) :
    contribution val.weight e ≠ [] := by
  have hpos : e.haspos = true := by
    by_contra hc
    have hc2 : e.haspos = false := by simpa using hc
    exact hne (by simp [POSDATA, hc2])
  have hpv : e.posvec ≠ [] := by simpa [POSDATA, hpos] using hne
  by_cases hw : val.weight = 0
  · simp only [contribution, POSDATA, hpos, if_true, hw, selected_zero]
    simpa using hpv
  · have hany : checkclass_any val.weight e.posvec = true := by
      simpa [entryMatches, hpos, hw] using h
    obtain ⟨p, hp, hbit⟩ := (checkclass_any_iff _ _).1 hany
    simp only [contribution, POSDATA, hpos, if_true, selected_of_ne _ hw]
    intro hnil
    have hmem : WEP_GETPOS p ∈ (e.posvec.filter (weightBitSet val.weight)).map WEP_GETPOS :=
      List.mem_map_of_mem _ (List.mem_filter.2 ⟨hp, hbit⟩)
    rw [hnil] at hmem
    cases hmem

/-- The forward scan with a position buffer: it walks exactly the leading run of
prefix matches, and `allpos` collects the contribution of every entry of it. -/
theorem checkcondition_str_scan_data (val : QueryOperand) :
    ∀ (L : List WordEntry) (res : Bool) (d : ExecPhraseData) (allpos : List WordEntryPos),
      ∃ (res2 : Bool) (d2 : ExecPhraseData) (allpos2 : List WordEntryPos),
        checkcondition_str_scan val L res (some d) allpos = (res2, some d2, allpos2) ∧
        (∀ k ∈ allpos2.map WEP_GETPOS, k ∈ allpos.map WEP_GETPOS ∨
          k ∈ d.positions.map WEP_GETPOS ∨
          ∃ e ∈ L.takeWhile (prefixMatch val), k ∈ contribution val.weight e) ∧
        (∀ k ∈ allpos.map WEP_GETPOS, k ∈ allpos2.map WEP_GETPOS) ∧
        (∀ e ∈ L.takeWhile (prefixMatch val), ∀ k ∈ contribution val.weight e,
          k ∈ allpos2.map WEP_GETPOS) ∧
        (res2 = true → (L.takeWhile (prefixMatch val) = [] ∧ res = true) ∨
          ∃ e ∈ L.takeWhile (prefixMatch val), entryMatches val e = true) ∧
        (L.takeWhile (prefixMatch val) = [] → res2 = res ∧ d2 = d ∧ allpos2 = allpos) ∧
        (L.takeWhile (prefixMatch val) ≠ [] → val.weight = 0 → res2 = true) := by
  intro L
  induction L with
  | nil =>
    intro res d allpos
    refine ⟨res, d, allpos, rfl, ?_, ?_, ?_, ?_, ?_, ?_⟩
    · intro k hk; exact Or.inl hk
    · intro k hk; exact hk
    · intro e he; simp at he
    · intro h; exact Or.inl ⟨rfl, h⟩
    · intro _; exact ⟨rfl, rfl, rfl⟩
    · intro h; simp at h
  | cons e rest ih =>
    intro res d allpos
    by_cases hpm : prefixMatch val e = true
    · have hrun : (e :: rest).takeWhile (prefixMatch val) =
          e :: rest.takeWhile (prefixMatch val) := by
        simp [List.takeWhile, hpm]
      have hdec : decide (tsCompareString val.lexeme e.lexeme true = 0) = true := hpm
      obtain ⟨d1, hcc, hd1n, hd1p⟩ := checkclass_str_some e val d
      have hd1 : ∀ k ∈ d1.positions.map WEP_GETPOS,
          k ∈ d.positions.map WEP_GETPOS ∨ k ∈ contribution val.weight e := by
        intro k hk
        by_cases hpos : e.haspos = true
        · right; rw [← hd1p hpos]; exact hk
        · left
          have : d1 = d := hd1n (by simpa using hpos)
          rw [← this]; exact hk
      rw [hrun]
      by_cases hm : entryMatches val e = true
      · obtain ⟨res2, d2, allpos2, heq, ha, hb, hc, hd, he, hf⟩ :=
          ih true d1 (allpos ++ d1.positions)
        refine ⟨res2, d2, allpos2, ?_, ?_, ?_, ?_, ?_, ?_, ?_⟩
        · simp only [checkcondition_str_scan, Option.isSome_some, Bool.or_true, hdec,
            Bool.and_self, if_true, hcc, hm]
          exact heq
        · intro k hk
          rcases ha k hk with h | h | ⟨e2, he2, hk2⟩
          · rw [List.map_append, List.mem_append] at h
            rcases h with h | h
            · exact Or.inl h
            · rcases hd1 k h with h2 | h2
              · exact Or.inr (Or.inl h2)
              · exact Or.inr (Or.inr ⟨e, List.mem_cons_self _ _, h2⟩)
          · rcases hd1 k h with h2 | h2
            · exact Or.inr (Or.inl h2)
            · exact Or.inr (Or.inr ⟨e, List.mem_cons_self _ _, h2⟩)
          · exact Or.inr (Or.inr ⟨e2, List.mem_cons_of_mem _ he2, hk2⟩)
        · intro k hk
          exact hb k (by rw [List.map_append, List.mem_append]; exact Or.inl hk)
        · intro e2 he2 k hk
          rcases List.mem_cons.1 he2 with h | h
          · subst h
            by_cases hpos : e2.haspos = true
            · apply hb
              rw [List.map_append, List.mem_append, hd1p hpos]
              exact Or.inr hk
            · rw [contribution_nopos _ _ (by simpa using hpos)] at hk
              cases hk
          · exact hc e2 h k hk
        · intro _
          exact Or.inr ⟨e, List.mem_cons_self _ _, hm⟩
        · intro h; cases h
        · intro _ _
          by_cases hr : rest.takeWhile (prefixMatch val) = []
          · exact (he hr).1
          · rcases hres : res2 with _ | _
            · exfalso
              by_cases hr2 : rest.takeWhile (prefixMatch val) = []
              · exact hr hr2
              · have := hf hr2 (by assumption)
                rw [hres] at this
                cases this
            · rfl
      · have hm2 : entryMatches val e = false := by simpa using hm
        obtain ⟨res2, d2, allpos2, heq, ha, hb, hc, hd, he, hf⟩ := ih false d1 allpos
        refine ⟨res2, d2, allpos2, ?_, ?_, ?_, ?_, ?_, ?_, ?_⟩
        · simp only [checkcondition_str_scan, Option.isSome_some, Bool.or_true, hdec,
            Bool.and_self, if_true, hcc, hm2, Bool.false_eq_true, if_false]
          exact heq
        · intro k hk
          rcases ha k hk with h | h | ⟨e2, he2, hk2⟩
          · exact Or.inl h
          · rcases hd1 k h with h2 | h2
            · exact Or.inr (Or.inl h2)
            · exact Or.inr (Or.inr ⟨e, List.mem_cons_self _ _, h2⟩)
          · exact Or.inr (Or.inr ⟨e2, List.mem_cons_of_mem _ he2, hk2⟩)
        · exact hb
        · intro e2 he2 k hk
          rcases List.mem_cons.1 he2 with h | h
          · subst h
            rw [contribution_of_not_matches val e2 hm2] at hk
            cases hk
          · exact hc e2 h k hk
        · intro hr
          rcases hd hr with ⟨_, h⟩ | ⟨e2, he2, hm3⟩
          · cases h
          · exact Or.inr ⟨e2, List.mem_cons_of_mem _ he2, hm3⟩
        · intro h; cases h
        · intro _ hw
          have : entryMatches val e = true := by simp [entryMatches, hw]
          rw [this] at hm2
          cases hm2
    · have hpm2 : prefixMatch val e = false := by simpa using hpm
      have hrun : (e :: rest).takeWhile (prefixMatch val) = [] := by
        simp [List.takeWhile, hpm2]
      have hdec : decide (tsCompareString val.lexeme e.lexeme true = 0) = false := hpm2
      rw [hrun]
      refine ⟨res, d, allpos, ?_, ?_, ?_, ?_, ?_, ?_, ?_⟩
      · simp only [checkcondition_str_scan, hdec, Bool.and_false, Bool.false_eq_true,
          if_false]
      · intro k hk; exact Or.inl hk
      · intro k hk; exact hk
      · intro e he; simp at he
      · intro h; exact Or.inl ⟨rfl, h⟩
      · intro _; exact ⟨rfl, rfl, rfl⟩
      · intro h; exact absurd rfl h

/-! ## Prefix matches form one run of a sorted array -/

theorem tsCompareString_prefix_le (t x : List Nat) (h : tsCompareString t x true = 0) :
    tsCompareString t x false ≤ 0 := by
  induction t generalizing x with
  | nil => cases x <;> simp [tsCompareString]
  | cons a ts ih =>
    cases x with
    | nil => simp [tsCompareString] at h
    | cons b xs =>
      rw [tsCompareString_cons_cons] at h ⊢
      by_cases hab : a = b
      · simp only [hab, if_true] at h ⊢
        exact ih xs h
      · simp only [hab, if_false] at h
        omega

theorem tsCompareString_prefix_between (t e x : List Nat)
    (hte : tsCompareString t e true = 0) (htx : tsCompareString t x false ≤ 0)
    (hxe : tsCompareString x e false ≤ 0) : tsCompareString t x true = 0 := by
  induction t generalizing e x with
  | nil => simp [tsCompareString]
  | cons a ts ih =>
    cases e with
    | nil => simp [tsCompareString] at hte
    | cons b es =>
      cases x with
      | nil => simp [tsCompareString] at htx
      | cons c xs =>
        rw [tsCompareString_cons_cons] at hte htx hxe ⊢
        by_cases hab : a = b
        · subst hab
          simp only [if_true] at hte
          by_cases hac : a = c
          · subst hac
            simp only [if_true] at htx hxe ⊢
            exact ih es xs hte htx hxe
          · have hca : ¬ c = a := fun h => hac h.symm
            simp only [hac, hca, if_false] at htx hxe
            omega
        · simp only [hab, if_false] at hte
          omega

theorem prefixMatch_iff (val : QueryOperand) (e : WordEntry) :
    prefixMatch val e = true ↔ hasPrefix val.lexeme e := by
  unfold prefixMatch hasPrefix
  rw [decide_eq_true_iff]
  exact tsCompareString_true_eq_zero_iff _ _

theorem prefixMatch_eq (val : QueryOperand) :
    prefixMatch val = fun e => decide (hasPrefix val.lexeme e) := by
  funext e
  rw [Bool.eq_iff_iff, decide_eq_true_iff]
  exact prefixMatch_iff val e

theorem prefixMatch_of_lexeme_eq (val : QueryOperand) (e : WordEntry)
    (h : e.lexeme = val.lexeme) : prefixMatch val e = true := by
  rw [prefixMatch_iff]
  unfold hasPrefix
  rw [h]
  exact ⟨Nat.le_refl _, List.take_length _⟩

/-- Behind the first entry that fails the prefix test, no entry of a sorted list
of entries not below the operand passes it. -/
theorem dropWhile_prefixMatch (val : QueryOperand) :
    ∀ (L : List WordEntry), List.Pairwise entryLt L →
      (∀ e ∈ L, tsCompareString val.lexeme e.lexeme false ≤ 0) →
      ∀ e ∈ L.dropWhile (prefixMatch val), prefixMatch val e = false := by
  intro L
  induction L with
  | nil => intro _ _ e he; simp at he
  | cons x xs ih =>
    intro hpw hge e he
    have hpw2 := List.pairwise_cons.1 hpw
    by_cases hx : prefixMatch val x = true
    · rw [List.dropWhile_cons_of_pos hx] at he
      exact ih hpw2.2 (fun y hy => hge y (List.mem_cons_of_mem _ hy)) e he
    · have hx2 : prefixMatch val x = false := by simpa using hx
      rw [List.dropWhile_cons_of_neg hx] at he
      rcases List.mem_cons.1 he with h | h
      · rw [h]; exact hx2
      · by_contra hc
        have hc2 : prefixMatch val e = true := by simpa using hc
        have hlt : entryLt x e := hpw2.1 e h
        have h1 : tsCompareString val.lexeme e.lexeme true = 0 := by
          simpa [prefixMatch] using hc2
        have h2 := tsCompareString_prefix_between val.lexeme e.lexeme x.lexeme h1
          (hge x (List.mem_cons_self _ _)) (le_of_lt hlt)
        have : prefixMatch val x = true := by simpa [prefixMatch] using h2
        exact hx this

theorem BsearchPost.take_unmatched {v : TSVector} {val : QueryOperand}
    {data : Option ExecPhraseData} {st : SearchState} (h : BsearchPost v val data st) :
    ∀ e ∈ v.take (scanStart st), prefixMatch val e = false := by
  intro e he
  obtain ⟨i, hi⟩ := List.mem_iff_getElem?.1 he
  have hlt : i < scanStart st := by
    have := (List.getElem?_eq_some_iff.1 hi).1
    rw [List.length_take] at this
    omega
  rw [List.getElem?_take_of_lt hlt] at hi
  have hpos := h.2.1 i e hlt hi
  by_contra hc
  have hc2 : prefixMatch val e = true := by simpa using hc
  have h1 : tsCompareString val.lexeme e.lexeme true = 0 := by
    simpa [prefixMatch] using hc2
  have := tsCompareString_prefix_le _ _ h1
  omega

theorem BsearchPost.drop_ge {v : TSVector} {val : QueryOperand}
    {data : Option ExecPhraseData} {st : SearchState} (h : BsearchPost v val data st) :
    ∀ e ∈ v.drop (scanStart st), tsCompareString val.lexeme e.lexeme false ≤ 0 := by
  intro e he
  obtain ⟨i, hi⟩ := List.mem_iff_getElem?.1 he
  rw [List.getElem?_drop] at hi
  exact h.2.2.1 _ e (by omega) hi

/-- On a sorted array the entries passing the prefix test are exactly the run
the scan walks from its start. -/
theorem BsearchPost.run_iff {v : TSVector} (hs : StrictSorted v) {val : QueryOperand}
    {data : Option ExecPhraseData} {st : SearchState} (h : BsearchPost v val data st)
    (e : WordEntry) :
    e ∈ (v.drop (scanStart st)).takeWhile (prefixMatch val) ↔
      e ∈ v ∧ prefixMatch val e = true := by
  constructor
  · intro he
    have hmem := List.mem_takeWhile_imp he
    exact ⟨List.mem_of_mem_drop ((List.takeWhile_sublist _).subset he), hmem⟩
  · rintro ⟨he, hpm⟩
    rw [← List.take_append_drop (scanStart st) v, List.mem_append] at he
    rcases he with he | he
    · rw [h.take_unmatched e he] at hpm
      cases hpm
    · rw [← List.takeWhile_append_dropWhile (prefixMatch val) (v.drop (scanStart st)),
        List.mem_append] at he
      rcases he with he | he
      · exact he
      · have hpw : List.Pairwise entryLt (v.drop (scanStart st)) :=
          hs.pairwise.sublist (List.drop_sublist _ _)
        rw [dropWhile_prefixMatch val _ hpw h.drop_ge e he] at hpm
        cases hpm

/-! ## The forward scan without a position buffer -/

theorem checkcondition_str_scan_done (val : QueryOperand) (L : List WordEntry)
    (allpos : List WordEntryPos) :
    checkcondition_str_scan val L true none allpos = (true, none, allpos) := by
  cases L <;> simp [checkcondition_str_scan]

theorem checkcondition_str_scan_nodata (val : QueryOperand) (hw : val.weight = 0)
    (L : List WordEntry) (allpos : List WordEntryPos) :
    checkcondition_str_scan val L false none allpos =
      (decide (L.takeWhile (prefixMatch val) ≠ []), none, allpos) := by
  cases L with
  | nil => simp [checkcondition_str_scan]
  | cons e rest =>
    by_cases hpm : prefixMatch val e = true
    · have hdec : decide (tsCompareString val.lexeme e.lexeme true = 0) = true := hpm
      simp only [checkcondition_str_scan, hdec, checkclass_str_noweight_nodata e val hw,
        checkcondition_str_scan_done]
      simp [List.takeWhile, hpm]
    · have hpm2 : prefixMatch val e = false := by simpa using hpm
      have hdec : decide (tsCompareString val.lexeme e.lexeme true = 0) = false := hpm2
      simp only [checkcondition_str_scan, hdec]
      simp [List.takeWhile, hpm2]

/-! ## uniqueLongPos -/

theorem compareWordEntryPos_le (x y : WordEntryPos) :
    compareWordEntryPos x y ≤ 0 ↔ WEP_GETPOS x ≤ WEP_GETPOS y := by
  unfold compareWordEntryPos
  by_cases h1 : WEP_GETPOS x = WEP_GETPOS y
  · simp [h1]
  · by_cases h2 : WEP_GETPOS x > WEP_GETPOS y
    · simp only [h1, h2, if_false, if_true]
      constructor
      · intro h; omega
      · intro h; omega
    · simp only [h1, h2, if_false]
      constructor
      · intro _; omega
      · intro _; omega

theorem qsort_insert_mem (cmp : WordEntryPos → WordEntryPos → Int) (x a : WordEntryPos)
    (l : List WordEntryPos) : a ∈ qsort_insert cmp x l ↔ a = x ∨ a ∈ l := by
  induction l with
  | nil => simp [qsort_insert]
  | cons y ys ih =>
    by_cases h : cmp x y ≤ 0
    · simp [qsort_insert, h]
    · simp only [qsort_insert, h, if_false, List.mem_cons, ih]
      tauto

theorem qsort_mem (cmp : WordEntryPos → WordEntryPos → Int) (a : WordEntryPos)
    (l : List WordEntryPos) : a ∈ qsort cmp l ↔ a ∈ l := by
  induction l with
  | nil => simp [qsort]
  | cons y ys ih => simp [qsort, qsort_insert_mem, ih]

theorem qsort_length (cmp : WordEntryPos → WordEntryPos → Int) (l : List WordEntryPos) :
    (qsort cmp l).length = l.length := by
  have hins : ∀ (x : WordEntryPos) (m : List WordEntryPos),
      (qsort_insert cmp x m).length = m.length + 1 := by
    intro x m
    induction m with
    | nil => simp [qsort_insert]
    | cons y ys ih =>
      by_cases h : cmp x y ≤ 0
      · simp [qsort_insert, h]
      · simp [qsort_insert, h, ih]
  induction l with
  | nil => simp [qsort]
  | cons y ys ih => simp [qsort, hins, ih]

theorem qsort_insert_sorted (x : WordEntryPos) (l : List WordEntryPos)
    (h : List.Pairwise (fun a b => WEP_GETPOS a ≤ WEP_GETPOS b) l) :
    List.Pairwise (fun a b => WEP_GETPOS a ≤ WEP_GETPOS b)
      (qsort_insert compareWordEntryPos x l) := by
  induction l with
  | nil => simp [qsort_insert]
  | cons y ys ih =>
    have h2 := List.pairwise_cons.1 h
    by_cases hc : compareWordEntryPos x y ≤ 0
    · have hxy := (compareWordEntryPos_le x y).1 hc
      simp only [qsort_insert, hc, if_true]
      refine List.pairwise_cons.2 ⟨?_, h⟩
      intro a ha
      rcases List.mem_cons.1 ha with h3 | h3
      · rw [h3]; exact hxy
      · exact le_trans hxy (h2.1 a h3)
    · have hxy : WEP_GETPOS y ≤ WEP_GETPOS x := by
        have := (compareWordEntryPos_le x y).not.1 hc
        omega
      simp only [qsort_insert, hc, if_false]
      refine List.pairwise_cons.2 ⟨?_, ih h2.2⟩
      intro a ha
      rcases (qsort_insert_mem _ _ _ _).1 ha with h3 | h3
      · rw [h3]; exact hxy
      · exact h2.1 a h3

theorem qsort_sorted (l : List WordEntryPos) :
    List.Pairwise (fun a b => WEP_GETPOS a ≤ WEP_GETPOS b) (qsort compareWordEntryPos l) := by
  induction l with
  | nil => simp [qsort]
  | cons y ys ih => exact qsort_insert_sorted y _ ih

theorem uniqueLongPos_loop_spec :
    ∀ (rest : List WordEntryPos) (r : WordEntryPos),
      (∀ p ∈ rest, WEP_GETPOS r ≤ WEP_GETPOS p) →
      List.Pairwise (fun a b => WEP_GETPOS a ≤ WEP_GETPOS b) rest →
      List.Pairwise (· < ·) ((uniqueLongPos_loop r rest).map WEP_GETPOS) ∧
      (∀ k ∈ (uniqueLongPos_loop r rest).map WEP_GETPOS, WEP_GETPOS r ≤ k) ∧
      (∀ k, k ∈ (uniqueLongPos_loop r rest).map WEP_GETPOS ↔
        k = WEP_GETPOS r ∨ k ∈ rest.map WEP_GETPOS) := by
  intro rest
  induction rest with
  | nil =>
    intro r _ _
    simp [uniqueLongPos_loop]
  | cons p ps ih =>
    intro r hr hpw
    have hpw2 := List.pairwise_cons.1 hpw
    have hrp := hr p (List.mem_cons_self _ _)
    by_cases hne : WEP_GETPOS p ≠ WEP_GETPOS r
    · obtain ⟨h1, h2, h3⟩ := ih (WEP_GETPOS p)
        (by intro q hq; rw [WEP_GETPOS_idem]; exact hpw2.1 q hq) hpw2.2
      rw [WEP_GETPOS_idem] at h2 h3
      have hstep : uniqueLongPos_loop r (p :: ps) =
          r :: uniqueLongPos_loop (WEP_GETPOS p) ps := by
        simp [uniqueLongPos_loop, hne]
      rw [hstep, List.map_cons]
      refine ⟨List.pairwise_cons.2 ⟨?_, h1⟩, ?_, ?_⟩
      · intro k hk
        have := h2 k hk
        omega
      · intro k hk
        rcases List.mem_cons.1 hk with h | h
        · omega
        · have := h2 k h
          omega
      · intro k
        simp only [List.map_cons, List.mem_cons, h3 k]
    · have heq : WEP_GETPOS p = WEP_GETPOS r := by
        by_contra hc; exact hne hc
      obtain ⟨h1, h2, h3⟩ := ih r
        (fun q hq => hr q (List.mem_cons_of_mem _ hq)) hpw2.2
      have hstep : uniqueLongPos_loop r (p :: ps) = uniqueLongPos_loop r ps := by
        simp [uniqueLongPos_loop, heq]
      rw [hstep]
      refine ⟨h1, h2, ?_⟩
      intro k
      simp only [List.map_cons, List.mem_cons, h3 k, heq]
      tauto

/-- The list `uniqueLongPos` leaves behind is strictly ascending by position
value and holds the same position values as its argument. -/
theorem uniqueLongPos_spec (l : List WordEntryPos) :
    List.Pairwise (· < ·) ((uniqueLongPos l).map WEP_GETPOS) ∧
    (∀ k, k ∈ (uniqueLongPos l).map WEP_GETPOS ↔ k ∈ l.map WEP_GETPOS) := by
  unfold uniqueLongPos
  by_cases hlen : l.length ≤ 1
  · rw [if_pos hlen]
    refine ⟨?_, fun k => Iff.rfl⟩
    match l, hlen with
    | [], _ => simp
    | [x], _ => simp
    | _ :: _ :: _, h => simp at h
  · rw [if_neg hlen]
    have hmem := fun a => qsort_mem compareWordEntryPos a l
    have hsorted := qsort_sorted l
    rcases hq : qsort compareWordEntryPos l with _ | ⟨r, rest⟩
    · have hl := qsort_length compareWordEntryPos l
      rw [hq] at hl
      simp at hl
      omega
    · rw [hq] at hsorted
      have hpw := List.pairwise_cons.1 hsorted
      obtain ⟨h1, _, h3⟩ := uniqueLongPos_loop_spec rest r hpw.1 hpw.2
      refine ⟨h1, ?_⟩
      intro k
      rw [h3 k]
      have : k ∈ l.map WEP_GETPOS ↔ k ∈ (r :: rest).map WEP_GETPOS := by
        rw [← hq]
        simp only [List.mem_map]
        constructor
        · rintro ⟨a, ha, hk⟩; exact ⟨a, (hmem a).2 ha, hk⟩
        · rintro ⟨a, ha, hk⟩; exact ⟨a, (hmem a).1 ha, hk⟩
      rw [this, List.map_cons, List.mem_cons]

/-! ## Prefix leaves with a position buffer -/

/-- A prefix leaf checked with a fresh position buffer on a sorted array: the
call returns; when it reports a match the buffer holds, strictly ascending, the
position values contributed by the entries having the prefix, and one of these
entries passes `checkclass_str`. -/
theorem checkcondition_str_prefix_data (v : TSVector) (hs : StrictSorted v)
    (val : QueryOperand) (hp : val.pfx = true) :
    ∃ (r : Bool) (d : ExecPhraseData),
      checkcondition_str v val (some ExecPhraseData.init) = some (r, some d) ∧
      (r = true → List.Pairwise (· < ·) (d.positions.map WEP_GETPOS) ∧
        ∀ k, k ∈ d.positions.map WEP_GETPOS ↔
          ∃ e ∈ v, hasPrefix val.lexeme e ∧ k ∈ contribution val.weight e) ∧
      (r = true → ∃ e ∈ v, hasPrefix val.lexeme e ∧ entryMatches val e = true) ∧
      ((∀ e ∈ v, ¬ hasPrefix val.lexeme e) → r = false ∧ d = ExecPhraseData.init) ∧
      (val.weight = 0 → (∃ e ∈ v, hasPrefix val.lexeme e) → r = true) := by
  obtain ⟨st, hst, hpost⟩ := checkcondition_str_bsearch_total v hs val
    (some ExecPhraseData.init)
  have hrun := hpost.run_iff hs
  -- the buffer and the result after the binary search
  have step1 : ∃ d1, st.data = some d1 ∧
      (∀ k ∈ d1.positions.map WEP_GETPOS,
        ∃ e ∈ (v.drop (scanStart st)).takeWhile (prefixMatch val),
          k ∈ contribution val.weight e) ∧
      ((v.drop (scanStart st)).takeWhile (prefixMatch val) = [] →
        st.res = false ∧ d1 = ExecPhraseData.init) := by
    rcases hpost.2.2.2 with ⟨e, he, hl, hres, hdata⟩ | ⟨_, hres, hdata⟩
    · obtain ⟨d2, hcc, hn, hy⟩ := checkclass_str_some e val ExecPhraseData.init
      have hin : e ∈ (v.drop (scanStart st)).takeWhile (prefixMatch val) :=
        (hrun e).2 ⟨List.getElem?_mem he, prefixMatch_of_lexeme_eq val e hl⟩
      refine ⟨d2, by rw [hdata, hcc], ?_, ?_⟩
      · intro k hk
        by_cases hpos : e.haspos = true
        · exact ⟨e, hin, by rw [← hy hpos]; exact hk⟩
        · have : d2 = ExecPhraseData.init := hn (by simpa using hpos)
          rw [this] at hk
          simp [ExecPhraseData.positions, ExecPhraseData.init] at hk
      · intro hnil
        rw [hnil] at hin
        cases hin
    · refine ⟨ExecPhraseData.init, hdata, ?_, fun _ => ⟨hres, rfl⟩⟩
      intro k hk
      simp [ExecPhraseData.positions, ExecPhraseData.init] at hk
  obtain ⟨d1, hd1, hd1mem, hd1nil⟩ := step1
  obtain ⟨res2, d2, allpos2, hscan, ha, _, hc, hd, he, hf⟩ :=
    checkcondition_str_scan_data val (v.drop (scanStart st)) st.res d1 []
  have hnone : (∀ e ∈ v, ¬ hasPrefix val.lexeme e) →
      (v.drop (scanStart st)).takeWhile (prefixMatch val) = [] := by
    intro hno
    by_contra hne
    obtain ⟨e, he2⟩ := List.exists_mem_of_ne_nil _ hne
    have := (hrun e).1 he2
    exact hno e this.1 ((prefixMatch_iff val e).1 this.2)
  have hsome : (∃ e ∈ v, hasPrefix val.lexeme e) →
      (v.drop (scanStart st)).takeWhile (prefixMatch val) ≠ [] := by
    rintro ⟨e, he2, hpre⟩
    exact List.ne_nil_of_mem ((hrun e).2 ⟨he2, (prefixMatch_iff val e).2 hpre⟩)
  have hcc : checkcondition_str v val (some ExecPhraseData.init) =
      if res2 = true then
        some (true, some ⟨(uniqueLongPos allpos2).length, true, uniqueLongPos allpos2⟩)
      else some (false, some d2) := by
    unfold checkcondition_str
    rw [hst]
    simp only [hd1, hp, Option.isSome_some, Bool.or_true, Bool.and_self, if_true]
    have hsc : (if st.StopLow ≥ st.StopHigh then st.StopHigh else st.StopMiddle) =
        scanStart st := rfl
    rw [hsc, hscan]
    cases res2 <;> simp
  rcases hres2 : res2 with _ | _
  · rw [hres2] at hcc hd he hf
    refine ⟨false, d2, by rw [hcc]; simp, ?_, ?_, ?_, ?_⟩
    · intro h; cases h
    · intro h; cases h
    · intro hno
      have hnil := hnone hno
      exact ⟨rfl, by rw [(he hnil).2.1, (hd1nil hnil).2]⟩
    · intro hw hex
      exact hf (hsome hex) hw
  · rw [hres2] at hcc hd he hf
    refine ⟨true, ⟨(uniqueLongPos allpos2).length, true, uniqueLongPos allpos2⟩,
      by rw [hcc]; simp, ?_, ?_, ?_, ?_⟩
    · intro _
      have hu := uniqueLongPos_spec allpos2
      have hpos : (⟨(uniqueLongPos allpos2).length, true, uniqueLongPos allpos2⟩ :
          ExecPhraseData).positions = uniqueLongPos allpos2 := by
        simp [ExecPhraseData.positions]
      rw [hpos]
      refine ⟨hu.1, ?_⟩
      intro k
      rw [hu.2 k]
      constructor
      · intro hk
        rcases ha k hk with h | h | ⟨e, he2, hk2⟩
        · simp at h
        · obtain ⟨e, he2, hk2⟩ := hd1mem k h
          have := (hrun e).1 he2
          exact ⟨e, this.1, (prefixMatch_iff val e).1 this.2, hk2⟩
        · have := (hrun e).1 he2
          exact ⟨e, this.1, (prefixMatch_iff val e).1 this.2, hk2⟩
      · rintro ⟨e, he2, hpre, hk⟩
        exact hc e ((hrun e).2 ⟨he2, (prefixMatch_iff val e).2 hpre⟩) k hk
    · intro _
      rcases hd rfl with ⟨hnil, hres⟩ | ⟨e, he2, hm⟩
      · rw [(hd1nil hnil).1] at hres
        cases hres
      · have := (hrun e).1 he2
        exact ⟨e, this.1, (prefixMatch_iff val e).1 this.2, hm⟩
    · intro hno
      have hnil := hnone hno
      have h1 := (he hnil).1
      rw [(hd1nil hnil).1] at h1
      cases h1
    · intro _ _; rfl

/-! ## The comparator claims -/

/-- C2: without the prefix flag the sign of `tsCompareString a b` is the sign of
the lexicographic comparison of `a` and `b` as unsigned byte sequences, a proper
prefix being smaller than its extensions; the result is `0` exactly when `a` and
`b` have the same length and the same bytes. -/
theorem tsCompareString_false_lexicographic (a b : List Nat) :
    Int.sign (tsCompareString a b false) = ordSign (lexCompareBytes a b) ∧
    (tsCompareString a b false = 0 ↔ a.length = b.length ∧ a = b) := by
  refine ⟨tsCompareString_false_sign a b, ?_⟩
  rw [tsCompareString_false_eq_zero_iff]
  constructor
  · intro h; exact ⟨by rw [h], h⟩
  · intro h; exact h.2

/-- C3: with the prefix flag `tsCompareString a b` is `0` exactly when `a` is a
byte-prefix of `b` (`len a ≤ len b` and the first `len a` bytes of `b` are `a`);
the empty `a` is a prefix of every `b`, the empty one included. -/
theorem tsCompareString_prefix_mode_zero_iff :
    (∀ a b : List Nat,
      tsCompareString a b true = 0 ↔ a.length ≤ b.length ∧ b.take a.length = a) ∧
    (∀ b : List Nat, tsCompareString [] b true = 0) ∧
    tsCompareString [] [] true = 0 :=
  ⟨tsCompareString_true_eq_zero_iff, fun b => by simp [tsCompareString],
    by simp [tsCompareString]⟩

/-- C4, as stated, fails: `"ab"` is longer than `"b"` but compares below it in
prefix mode, because the first byte already decides. -/
theorem tsCompareString_true_longer_negative :
    ([97, 98] : List Nat).length > ([98] : List Nat).length ∧
    ¬ (0 < tsCompareString [97, 98] [98] true) ∧
    tsCompareString [97, 98] [98] true = -1 := by
  decide

/-- C4, amended: when `a` is longer than `b`, the prefix-mode comparison is never
`0`; it is `1` ("greater") when the first `len b` bytes of `a` equal `b`, and
otherwise it is the `memcmp` result on the first `len b` bytes, whose sign is
that of the first differing byte pair. -/
theorem tsCompareString_true_longer (a b : List Nat) (h : a.length > b.length) :
    tsCompareString a b true ≠ 0 ∧
    (a.take b.length = b → tsCompareString a b true = 1) ∧
    (a.take b.length ≠ b → tsCompareString a b true = memcmp a b b.length) := by
  have ha : a.length ≠ 0 := by omega
  by_cases hb : b.length = 0
  · have hb' : b = [] := List.length_eq_zero.1 hb
    subst hb'
    have ha' : 0 < a.length := by omega
    simp [tsCompareString, ha, ha']
  · have hmin : min a.length b.length = b.length := by omega
    have hz := memcmp_eq_zero_iff a b b.length (by omega) (Nat.le_refl _)
    rw [List.take_length] at hz
    by_cases hc : memcmp a b b.length = 0
    · have ht := hz.1 hc
      simp [tsCompareString, ha, hb, hmin, hc, h, ht]
    · have ht : a.take b.length ≠ b := fun e => hc (hz.2 e)
      simp [tsCompareString, ha, hb, hmin, hc, ht]

/-- A witness for the amended C4: `"ba"` against `"b"`. -/
theorem tsCompareString_true_longer_witness :
    ([98, 97] : List Nat).length > ([98] : List Nat).length ∧
    tsCompareString [98, 97] [98] true ≠ 0 ∧
    (([98, 97] : List Nat).take ([98] : List Nat).length = [98] →
      tsCompareString [98, 97] [98] true = 1) ∧
    (([98, 97] : List Nat).take ([98] : List Nat).length ≠ [98] →
      tsCompareString [98, 97] [98] true = memcmp [98, 97] [98] ([98] : List Nat).length) :=
  ⟨by decide, tsCompareString_true_longer [98, 97] [98] (by decide)⟩

/-! ## The leaf-matching claims, exact lexemes -/

/-- C5: on a strictly sorted vector a value leaf without prefix flag and without
weight mask, checked with `data = NULL`, yields a result, and that result is true
exactly when some entry of the vector has the leaf's lexeme as its text, that is
exactly when `tsvector_bsearch` does not return `-1`; whether the entry carries
positions plays no role. -/
theorem checkcondition_str_exact_noweight (v : TSVector) (hs : StrictSorted v)
    (val : QueryOperand) (hp : val.pfx = false) (hw : val.weight = 0) :
    ∃ r : Bool, checkcondition_str v val none = some (r, none) ∧
      (r = true ↔ ∃ e ∈ v, e.lexeme = val.lexeme) ∧
      (r = true ↔ ∃ i : Int, tsvector_bsearch v val.lexeme = some i ∧ i ≠ -1) := by
  by_cases h : ∃ e ∈ v, e.lexeme = val.lexeme
  · obtain ⟨e, he, hl⟩ := h
    refine ⟨true, ?_, ?_, ?_⟩
    · rw [checkcondition_str_exact_found v hs val none hp e he hl]
      simp [checkclass_str, hw]
    · simp only [true_iff]; exact ⟨e, he, hl⟩
    · simp only [true_iff]
      exact (tsvector_bsearch_found_iff v hs val.lexeme).2 ⟨e, he, hl⟩
  · refine ⟨false, ?_, ?_, ?_⟩
    · exact checkcondition_str_exact_notfound v hs val none hp
        (fun e he hl => h ⟨e, he, hl⟩)
    · simp only [Bool.false_eq_true, false_iff]; exact h
    · simp only [Bool.false_eq_true, false_iff]
      exact fun hb => h ((tsvector_bsearch_found_iff v hs val.lexeme).1 hb)

/-- A witness for C5: the leaf `"b"` against `"a"`, `"b"`. -/
theorem checkcondition_str_exact_noweight_witness :
    StrictSorted [⟨[97], false, []⟩, ⟨[98], true, [1]⟩] ∧
    (⟨0, false, [98]⟩ : QueryOperand).pfx = false ∧
    (⟨0, false, [98]⟩ : QueryOperand).weight = 0 ∧
    ∃ r : Bool, checkcondition_str [⟨[97], false, []⟩, ⟨[98], true, [1]⟩]
        ⟨0, false, [98]⟩ none = some (r, none) ∧
      (r = true ↔ ∃ e ∈ ([⟨[97], false, []⟩, ⟨[98], true, [1]⟩] : TSVector),
        e.lexeme = (⟨0, false, [98]⟩ : QueryOperand).lexeme) ∧
      (r = true ↔ ∃ i : Int, tsvector_bsearch [⟨[97], false, []⟩, ⟨[98], true, [1]⟩]
        (⟨0, false, [98]⟩ : QueryOperand).lexeme = some i ∧ i ≠ -1) :=
  ⟨by decide, rfl, rfl, checkcondition_str_exact_noweight _ (by decide) _ rfl rfl⟩

/-- C6, as stated, fails: the leaf `"a"` with weight mask `1` is found at an
entry that carries no positions; no position has its weight bit in the mask, yet
the leaf matches, with and without a position buffer. -/
theorem checkcondition_str_weight_without_positions :
    StrictSorted [⟨[97], false, []⟩] ∧
    (⟨1, false, [97]⟩ : QueryOperand).weight ≠ 0 ∧
    (⟨1, false, [97]⟩ : QueryOperand).pfx = false ∧
    tsvector_bsearch [⟨[97], false, []⟩] [97] = some 0 ∧
    checkcondition_str [⟨[97], false, []⟩] ⟨1, false, [97]⟩ none = some (true, none) ∧
    checkcondition_str [⟨[97], false, []⟩] ⟨1, false, [97]⟩ (some ExecPhraseData.init) =
      some (true, some ExecPhraseData.init) ∧
    ¬ (∃ p ∈ POSDATA ⟨[97], false, []⟩, weightBitSet 1 p = true) := by
  decide

/-- C6, amended: on a strictly sorted vector, for a leaf without prefix flag and
with a non-zero weight mask whose lexeme is found at an entry that has positions,
the leaf matches exactly when some position of that entry has its weight bit
`1 << weight` in the mask; this holds without a position buffer and with one, and
with a buffer the returned list is exactly the position values of the surviving
positions, in their order. -/
theorem checkcondition_str_exact_weight (v : TSVector) (hs : StrictSorted v)
    (val : QueryOperand) (hp : val.pfx = false) (hw : val.weight ≠ 0)
    (e : WordEntry) (he : e ∈ v) (hl : e.lexeme = val.lexeme) (hpos : e.haspos = true)
    (d0 : ExecPhraseData) :
    (∃ r : Bool, checkcondition_str v val none = some (r, none) ∧
      (r = true ↔ ∃ p ∈ e.posvec, weightBitSet val.weight p = true)) ∧
    (∃ (r : Bool) (d : ExecPhraseData),
      checkcondition_str v val (some d0) = some (r, some d) ∧
      (r = true ↔ ∃ p ∈ e.posvec, weightBitSet val.weight p = true) ∧
      d.positions = (e.posvec.filter (weightBitSet val.weight)).map WEP_GETPOS ∧
      (r = true ↔ d.positions ≠ [])) := by
  constructor
  · refine ⟨checkclass_any val.weight e.posvec, ?_, checkclass_any_iff _ _⟩
    rw [checkcondition_str_exact_found v hs val none hp e he hl,
      checkclass_str_weight_nodata e val hpos hw]
  · refine ⟨decide ((checkclass_filter val.weight e.posvec).length > 0),
      ⟨(checkclass_filter val.weight e.posvec).length, true,
        checkclass_filter val.weight e.posvec⟩, ?_, ?_, ?_, ?_⟩
    · rw [checkcondition_str_exact_found v hs val (some d0) hp e he hl,
        checkclass_str_weight_data e val d0 hpos hw]
    · rw [decide_eq_true_iff]
      exact checkclass_filter_length_pos _ _
    · simp [ExecPhraseData.positions, checkclass_filter_eq]
    · rw [decide_eq_true_iff]
      simp [ExecPhraseData.positions, List.length_pos]

/-- A witness for the amended C6: the leaf `"b"` with mask `8` (class A) against
an entry `"b"` holding position 1 of class A and position 2 of class D. -/
theorem checkcondition_str_exact_weight_witness :
    StrictSorted [⟨[97], false, []⟩, ⟨[98], true, [49153, 2]⟩] ∧
    (∃ r : Bool, checkcondition_str [⟨[97], false, []⟩, ⟨[98], true, [49153, 2]⟩]
        ⟨8, false, [98]⟩ none = some (r, none) ∧
      (r = true ↔ ∃ p ∈ (⟨[98], true, [49153, 2]⟩ : WordEntry).posvec,
        weightBitSet (⟨8, false, [98]⟩ : QueryOperand).weight p = true)) ∧
    (∃ (r : Bool) (d : ExecPhraseData),
      checkcondition_str [⟨[97], false, []⟩, ⟨[98], true, [49153, 2]⟩]
        ⟨8, false, [98]⟩ (some ExecPhraseData.init) = some (r, some d) ∧
      (r = true ↔ ∃ p ∈ (⟨[98], true, [49153, 2]⟩ : WordEntry).posvec,
        weightBitSet (⟨8, false, [98]⟩ : QueryOperand).weight p = true) ∧
      d.positions = ((⟨[98], true, [49153, 2]⟩ : WordEntry).posvec.filter
        (weightBitSet (⟨8, false, [98]⟩ : QueryOperand).weight)).map WEP_GETPOS ∧
      (r = true ↔ d.positions ≠ [])) :=
  ⟨by decide, checkcondition_str_exact_weight _ (by decide) ⟨8, false, [98]⟩ rfl
    (by decide) ⟨[98], true, [49153, 2]⟩ (by decide) rfl rfl ExecPhraseData.init⟩

/-- C7: on a strictly sorted vector, a leaf without prefix flag whose lexeme is
found at an entry with `haspos = false` matches, for every weight mask, without a
position buffer and with one; a buffer is left as it was handed in, so the list
read from a fresh buffer is empty. -/
theorem checkcondition_str_exact_without_positions (v : TSVector) (hs : StrictSorted v)
    (val : QueryOperand) (hp : val.pfx = false)
    (e : WordEntry) (he : e ∈ v) (hl : e.lexeme = val.lexeme) (hpos : e.haspos = false) :
    checkcondition_str v val none = some (true, none) ∧
    (∀ d0 : ExecPhraseData, checkcondition_str v val (some d0) = some (true, some d0)) ∧
    (∃ d : ExecPhraseData,
      checkcondition_str v val (some ExecPhraseData.init) = some (true, some d) ∧
      d.positions = []) := by
  refine ⟨?_, ?_, ⟨ExecPhraseData.init, ?_, rfl⟩⟩
  · rw [checkcondition_str_exact_found v hs val none hp e he hl]
    simp [checkclass_str, hpos]
  · intro d0
    rw [checkcondition_str_exact_found v hs val (some d0) hp e he hl]
    simp [checkclass_str, hpos]
  · rw [checkcondition_str_exact_found v hs val _ hp e he hl]
    simp [checkclass_str, hpos]

/-- A witness for C7: the leaf `"a"` with mask `8` against `"a"` (no positions),
`"b"`. -/
theorem checkcondition_str_exact_without_positions_witness :
    StrictSorted [⟨[97], false, []⟩, ⟨[98], true, [1]⟩] ∧
    checkcondition_str [⟨[97], false, []⟩, ⟨[98], true, [1]⟩] ⟨8, false, [97]⟩ none =
      some (true, none) ∧
    (∀ d0 : ExecPhraseData,
      checkcondition_str [⟨[97], false, []⟩, ⟨[98], true, [1]⟩] ⟨8, false, [97]⟩ (some d0) =
        some (true, some d0)) ∧
    (∃ d : ExecPhraseData,
      checkcondition_str [⟨[97], false, []⟩, ⟨[98], true, [1]⟩] ⟨8, false, [97]⟩
        (some ExecPhraseData.init) = some (true, some d) ∧
      d.positions = []) :=
  ⟨by decide, checkcondition_str_exact_without_positions _ (by decide) ⟨8, false, [97]⟩ rfl
    ⟨[97], false, []⟩ (by decide) rfl rfl⟩

/-! ## The leaf-matching claims, prefix leaves -/

/-- C8: on a strictly sorted vector a leaf with the prefix flag and without
weight mask, checked with `data = NULL`, yields a result, and that result is true
exactly when some entry has the leaf's text as a byte-prefix.  Moreover the array
splits at the point where the binary search stops into the entries before it,
none of which has the prefix, the run of entries having the prefix, and the
entries behind the run, none of which has it: the forward scan misses no prefix
match. -/
theorem checkcondition_str_prefix_noweight (v : TSVector) (hs : StrictSorted v)
    (val : QueryOperand) (hp : val.pfx = true) (hw : val.weight = 0) :
    ∃ (r : Bool) (st : SearchState),
      checkcondition_str v val none = some (r, none) ∧
      (r = true ↔ ∃ e ∈ v, hasPrefix val.lexeme e) ∧
      checkcondition_str_bsearch v val none v.length 0 v.length v.length = some st ∧
      v = v.take (scanStart st) ++
        ((v.drop (scanStart st)).takeWhile (fun e => decide (hasPrefix val.lexeme e)) ++
         (v.drop (scanStart st)).dropWhile (fun e => decide (hasPrefix val.lexeme e))) ∧
      (∀ e ∈ v.take (scanStart st), ¬ hasPrefix val.lexeme e) ∧
      (∀ e ∈ (v.drop (scanStart st)).takeWhile (fun e => decide (hasPrefix val.lexeme e)),
        hasPrefix val.lexeme e) ∧
      (∀ e ∈ (v.drop (scanStart st)).dropWhile (fun e => decide (hasPrefix val.lexeme e)),
        ¬ hasPrefix val.lexeme e) := by
  obtain ⟨st, hst, hpost⟩ := checkcondition_str_bsearch_total v hs val none
  rw [← prefixMatch_eq]
  have hrun : (∃ e ∈ v, hasPrefix val.lexeme e) ↔
      (v.drop (scanStart st)).takeWhile (prefixMatch val) ≠ [] := by
    constructor
    · rintro ⟨e, he, hpre⟩
      have := (hpost.run_iff hs e).2 ⟨he, (prefixMatch_iff val e).2 hpre⟩
      exact List.ne_nil_of_mem this
    · intro hne
      obtain ⟨e, he⟩ := List.exists_mem_of_ne_nil _ hne
      have := (hpost.run_iff hs e).1 he
      exact ⟨e, this.1, (prefixMatch_iff val e).1 this.2⟩
  have hsplit : v = v.take (scanStart st) ++
      ((v.drop (scanStart st)).takeWhile (prefixMatch val) ++
       (v.drop (scanStart st)).dropWhile (prefixMatch val)) := by
    rw [List.takeWhile_append_dropWhile, List.take_append_drop]
  have h1 : ∀ e ∈ v.take (scanStart st), ¬ hasPrefix val.lexeme e := by
    intro e he hpre
    have := hpost.take_unmatched e he
    rw [(prefixMatch_iff val e).2 hpre] at this
    cases this
  have h2 : ∀ e ∈ (v.drop (scanStart st)).takeWhile (prefixMatch val),
      hasPrefix val.lexeme e := by
    intro e he
    exact (prefixMatch_iff val e).1 (List.mem_takeWhile_imp he)
  have h3 : ∀ e ∈ (v.drop (scanStart st)).dropWhile (prefixMatch val),
      ¬ hasPrefix val.lexeme e := by
    intro e he hpre
    have hpw : List.Pairwise entryLt (v.drop (scanStart st)) :=
      hs.pairwise.sublist (List.drop_sublist _ _)
    have := dropWhile_prefixMatch val _ hpw hpost.drop_ge e he
    rw [(prefixMatch_iff val e).2 hpre] at this
    cases this
  rcases hpost.2.2.2 with ⟨e, he, hl, hres, hdata⟩ | ⟨_, hres, hdata⟩
  · rw [checkclass_str_noweight_nodata e val hw] at hres hdata
    refine ⟨true, st, ?_, ?_, hst, hsplit, h1, h2, h3⟩
    · unfold checkcondition_str
      rw [hst]
      simp [hres, hdata]
    · simp only [true_iff]
      exact ⟨e, List.getElem?_mem he, (prefixMatch_iff val e).1
        (prefixMatch_of_lexeme_eq val e hl)⟩
  · refine ⟨decide ((v.drop (scanStart st)).takeWhile (prefixMatch val) ≠ []), st,
      ?_, ?_, hst, hsplit, h1, h2, h3⟩
    · unfold checkcondition_str
      rw [hst]
      simp only [hres, hdata, hp, Bool.not_false, Option.isSome_none, Bool.or_false,
        Bool.and_self, if_true]
      have hsc : (if st.StopLow ≥ st.StopHigh then st.StopHigh else st.StopMiddle) =
          scanStart st := rfl
      rw [hsc, checkcondition_str_scan_nodata val hw]
      simp
    · rw [decide_eq_true_iff]
      exact hrun.symm

/-- A witness for C8: the leaf `"ca"` with prefix flag against `"b"`, `"cat"`,
`"dog"`. -/
theorem checkcondition_str_prefix_noweight_witness :
    StrictSorted [⟨[98], false, []⟩, ⟨[99, 97, 116], true, [1]⟩, ⟨[100, 111, 103], true, [2]⟩] ∧
    ∃ (r : Bool) (st : SearchState),
      checkcondition_str
        [⟨[98], false, []⟩, ⟨[99, 97, 116], true, [1]⟩, ⟨[100, 111, 103], true, [2]⟩]
        ⟨0, true, [99, 97]⟩ none = some (r, none) ∧
      (r = true ↔ ∃ e ∈ ([⟨[98], false, []⟩, ⟨[99, 97, 116], true, [1]⟩,
          ⟨[100, 111, 103], true, [2]⟩] : TSVector),
        hasPrefix (⟨0, true, [99, 97]⟩ : QueryOperand).lexeme e) ∧
      checkcondition_str_bsearch
        [⟨[98], false, []⟩, ⟨[99, 97, 116], true, [1]⟩, ⟨[100, 111, 103], true, [2]⟩]
        ⟨0, true, [99, 97]⟩ none 3 0 3 3 = some st ∧
      ([⟨[98], false, []⟩, ⟨[99, 97, 116], true, [1]⟩, ⟨[100, 111, 103], true, [2]⟩] :
          TSVector) =
        ([⟨[98], false, []⟩, ⟨[99, 97, 116], true, [1]⟩, ⟨[100, 111, 103], true, [2]⟩] :
          TSVector).take (scanStart st) ++
        ((([⟨[98], false, []⟩, ⟨[99, 97, 116], true, [1]⟩, ⟨[100, 111, 103], true, [2]⟩] :
            TSVector).drop (scanStart st)).takeWhile
            (fun e => decide (hasPrefix (⟨0, true, [99, 97]⟩ : QueryOperand).lexeme e)) ++
         (([⟨[98], false, []⟩, ⟨[99, 97, 116], true, [1]⟩, ⟨[100, 111, 103], true, [2]⟩] :
            TSVector).drop (scanStart st)).dropWhile
            (fun e => decide (hasPrefix (⟨0, true, [99, 97]⟩ : QueryOperand).lexeme e))) ∧
      (∀ e ∈ ([⟨[98], false, []⟩, ⟨[99, 97, 116], true, [1]⟩,
          ⟨[100, 111, 103], true, [2]⟩] : TSVector).take (scanStart st),
        ¬ hasPrefix (⟨0, true, [99, 97]⟩ : QueryOperand).lexeme e) ∧
      (∀ e ∈ (([⟨[98], false, []⟩, ⟨[99, 97, 116], true, [1]⟩,
          ⟨[100, 111, 103], true, [2]⟩] : TSVector).drop (scanStart st)).takeWhile
            (fun e => decide (hasPrefix (⟨0, true, [99, 97]⟩ : QueryOperand).lexeme e)),
        hasPrefix (⟨0, true, [99, 97]⟩ : QueryOperand).lexeme e) ∧
      (∀ e ∈ (([⟨[98], false, []⟩, ⟨[99, 97, 116], true, [1]⟩,
          ⟨[100, 111, 103], true, [2]⟩] : TSVector).drop (scanStart st)).dropWhile
            (fun e => decide (hasPrefix (⟨0, true, [99, 97]⟩ : QueryOperand).lexeme e)),
        ¬ hasPrefix (⟨0, true, [99, 97]⟩ : QueryOperand).lexeme e) :=
  ⟨by decide, checkcondition_str_prefix_noweight _ (by decide) ⟨0, true, [99, 97]⟩ rfl rfl⟩

theorem mem_contribution_iff (w : Nat) (e : WordEntry) (k : Nat) :
    k ∈ contribution w e ↔ ∃ q ∈ POSDATA e, selected w q = true ∧ WEP_GETPOS q = k := by
  simp only [contribution, List.mem_map, List.mem_filter]
  constructor
  · rintro ⟨q, ⟨hq, hsel⟩, hk⟩; exact ⟨q, hq, hsel, hk⟩
  · rintro ⟨q, hq, hsel, hk⟩; exact ⟨q, ⟨hq, hsel⟩, hk⟩

/-- C9: on a strictly sorted vector, for a leaf with the prefix flag and without
weight mask checked with a fresh position buffer, the call returns and the
position values of the returned list are strictly ascending and are exactly the
position values occurring in the position lists of the entries that have the
leaf's text as a byte-prefix; entries without that prefix contribute nothing.
The leaf matches exactly when some entry has the prefix. -/
theorem checkcondition_str_prefix_positions (v : TSVector) (hs : StrictSorted v)
    (val : QueryOperand) (hp : val.pfx = true) (hw : val.weight = 0) :
    ∃ (r : Bool) (d : ExecPhraseData),
      checkcondition_str v val (some ExecPhraseData.init) = some (r, some d) ∧
      List.Sorted (· < ·) (d.positions.map WEP_GETPOS) ∧
      (∀ k, k ∈ d.positions.map WEP_GETPOS ↔
        ∃ e ∈ v, hasPrefix val.lexeme e ∧ ∃ q ∈ POSDATA e, WEP_GETPOS q = k) ∧
      (r = true ↔ ∃ e ∈ v, hasPrefix val.lexeme e) := by
  obtain ⟨r, d, hcc, h1, h2, h3, h4⟩ := checkcondition_str_prefix_data v hs val hp
  have hcontr : ∀ (e : WordEntry) (k : Nat),
      k ∈ contribution val.weight e ↔ ∃ q ∈ POSDATA e, WEP_GETPOS q = k := by
    intro e k
    rw [mem_contribution_iff, hw]
    simp [selected_zero]
  by_cases hex : ∃ e ∈ v, hasPrefix val.lexeme e
  · have hr : r = true := h4 hw hex
    obtain ⟨hsorted, hmem⟩ := h1 hr
    refine ⟨r, d, hcc, hsorted, ?_, ?_⟩
    · intro k
      rw [hmem k]
      constructor
      · rintro ⟨e, he, hpre, hk⟩; exact ⟨e, he, hpre, (hcontr e k).1 hk⟩
      · rintro ⟨e, he, hpre, hk⟩; exact ⟨e, he, hpre, (hcontr e k).2 hk⟩
    · exact ⟨fun _ => hex, fun _ => hr⟩
  · have hno : ∀ e ∈ v, ¬ hasPrefix val.lexeme e := fun e he hpre => hex ⟨e, he, hpre⟩
    obtain ⟨hr, hd⟩ := h3 hno
    subst hd
    refine ⟨r, ExecPhraseData.init, hcc, ?_, ?_, ?_⟩
    · simp [ExecPhraseData.positions, ExecPhraseData.init]
    · intro k
      constructor
      · intro hk
        simp [ExecPhraseData.positions, ExecPhraseData.init] at hk
      · rintro ⟨e, he, hpre, _⟩
        exact absurd hpre (hno e he)
    · rw [hr]
      constructor
      · intro h; cases h
      · intro h; exact absurd h hex

/-- A witness for C9, the example of the specification: `"cat"` with the prefix
flag against `"cat"`, `"catalog"`, `"dog"` reports the position values 1, 3, 5;
the positions 2 and 7 of `"dog"` are absent. -/
theorem checkcondition_str_prefix_positions_witness :
    StrictSorted catVector ∧
    (∃ d : ExecPhraseData,
      checkcondition_str catVector (catLeaf 0) (some ExecPhraseData.init) =
        some (true, some d) ∧ d.positions.map WEP_GETPOS = [1, 3, 5]) ∧
    ∃ (r : Bool) (d : ExecPhraseData),
      checkcondition_str catVector (catLeaf 0) (some ExecPhraseData.init) =
        some (r, some d) ∧
      List.Sorted (· < ·) (d.positions.map WEP_GETPOS) ∧
      (∀ k, k ∈ d.positions.map WEP_GETPOS ↔
        ∃ e ∈ catVector, hasPrefix (catLeaf 0).lexeme e ∧
          ∃ q ∈ POSDATA e, WEP_GETPOS q = k) ∧
      (r = true ↔ ∃ e ∈ catVector, hasPrefix (catLeaf 0).lexeme e) :=
  ⟨by decide, ⟨⟨3, true, [49153, 3, 5]⟩, by decide, by decide⟩,
    checkcondition_str_prefix_positions catVector (by decide) (catLeaf 0) rfl rfl⟩

/-- C10, as stated, fails: the only entry having the prefix `"cat"` carries no
positions; the leaf matches although nothing is accumulated, the returned list
being empty. -/
theorem checkcondition_str_prefix_match_without_positions :
    StrictSorted [⟨[99, 97, 116], false, []⟩, ⟨[100, 111, 103], true, [2]⟩] ∧
    checkcondition_str [⟨[99, 97, 116], false, []⟩, ⟨[100, 111, 103], true, [2]⟩]
      (catLeaf 8) (some ExecPhraseData.init) = some (true, some ⟨0, true, []⟩) ∧
    (⟨0, true, []⟩ : ExecPhraseData).positions = [] ∧
    (∀ e ∈ ([⟨[99, 97, 116], false, []⟩, ⟨[100, 111, 103], true, [2]⟩] : TSVector),
      hasPrefix (catLeaf 8).lexeme e → contribution (catLeaf 8).weight e = []) := by
  decide

/-- The last entry of the run decides the result: `"cat"` holds position 1 with
class A, `"catalog"` only position 2 with class D; the leaf `"cat"` with prefix
flag and mask A is reported as not matching, with an empty list. -/
theorem checkcondition_str_prefix_weight_last_entry :
    checkcondition_str
      [⟨[99, 97, 116], true, [49153]⟩, ⟨[99, 97, 116, 97, 108, 111, 103], true, [2]⟩]
      (catLeaf 8) (some ExecPhraseData.init) = some (false, some ⟨0, true, []⟩) ∧
    contribution (catLeaf 8).weight ⟨[99, 97, 116], true, [49153]⟩ = [1] := by
  decide

/-- C10, amended: on a strictly sorted vector, for a leaf with the prefix flag
and any weight mask checked with a fresh position buffer, the call returns;
whenever it reports a match, the position values of the returned list are
strictly ascending and are exactly the position values of the positions that
pass the weight filter in the entries having the leaf's text as a byte-prefix;
if moreover every entry having the prefix carries a non-empty position list, a
reported match implies that this list is non-empty; and if no entry has the
prefix, no match is reported and the list is empty. -/
theorem checkcondition_str_prefix_weight_positions (v : TSVector) (hs : StrictSorted v)
    (val : QueryOperand) (hp : val.pfx = true) :
    ∃ (r : Bool) (d : ExecPhraseData),
      checkcondition_str v val (some ExecPhraseData.init) = some (r, some d) ∧
      (r = true → List.Sorted (· < ·) (d.positions.map WEP_GETPOS) ∧
        ∀ k, k ∈ d.positions.map WEP_GETPOS ↔
          ∃ e ∈ v, hasPrefix val.lexeme e ∧
            ∃ q ∈ POSDATA e, selected val.weight q = true ∧ WEP_GETPOS q = k) ∧
      (r = true → (∀ e ∈ v, hasPrefix val.lexeme e → POSDATA e ≠ []) →
        d.positions ≠ []) ∧
      ((∀ e ∈ v, ¬ hasPrefix val.lexeme e) → r = false ∧ d.positions = []) := by
  obtain ⟨r, d, hcc, h1, h2, h3, _⟩ := checkcondition_str_prefix_data v hs val hp
  refine ⟨r, d, hcc, ?_, ?_, ?_⟩
  · intro hr
    obtain ⟨hsorted, hmem⟩ := h1 hr
    refine ⟨hsorted, ?_⟩
    intro k
    rw [hmem k]
    constructor
    · rintro ⟨e, he, hpre, hk⟩
      exact ⟨e, he, hpre, (mem_contribution_iff _ e k).1 hk⟩
    · rintro ⟨e, he, hpre, hk⟩
      exact ⟨e, he, hpre, (mem_contribution_iff _ e k).2 hk⟩
  · intro hr hall hnil
    obtain ⟨e, he, hpre, hm⟩ := h2 hr
    have hne := contribution_ne_nil_of_matches val e hm (hall e he hpre)
    obtain ⟨k, hk⟩ := List.exists_mem_of_ne_nil _ hne
    have := ((h1 hr).2 k).2 ⟨e, he, hpre, hk⟩
    rw [hnil] at this
    cases this
  · intro hno
    obtain ⟨hr, hd⟩ := h3 hno
    exact ⟨hr, by rw [hd]; rfl⟩

/-- A witness for the amended C10: `"cat"` with prefix flag and mask D against
`"cat"`, `"catalog"`, `"dog"` reports the position values 3 and 5. -/
theorem checkcondition_str_prefix_weight_positions_witness :
    StrictSorted catVector ∧
    checkcondition_str catVector (catLeaf 1) (some ExecPhraseData.init) =
      some (true, some ⟨2, true, [3, 5]⟩) ∧
    ∃ (r : Bool) (d : ExecPhraseData),
      checkcondition_str catVector (catLeaf 1) (some ExecPhraseData.init) =
        some (r, some d) ∧
      (r = true → List.Sorted (· < ·) (d.positions.map WEP_GETPOS) ∧
        ∀ k, k ∈ d.positions.map WEP_GETPOS ↔
          ∃ e ∈ catVector, hasPrefix (catLeaf 1).lexeme e ∧
            ∃ q ∈ POSDATA e, selected (catLeaf 1).weight q = true ∧ WEP_GETPOS q = k) ∧
      (r = true → (∀ e ∈ catVector, hasPrefix (catLeaf 1).lexeme e → POSDATA e ≠ []) →
        d.positions ≠ []) ∧
      ((∀ e ∈ catVector, ¬ hasPrefix (catLeaf 1).lexeme e) → r = false ∧ d.positions = []) :=
  ⟨by decide, by decide,
    checkcondition_str_prefix_weight_positions catVector (by decide) (catLeaf 1) rfl⟩

/-! ## The query evaluator claims -/

/-- C11: on every query tree built from value leaves and NOT, AND, OR nodes,
for every leaf-check callback that returns, `TS_execute` returns the value of
the boolean reference: a leaf yields the callback's result, called without a
position buffer; AND is `&&`, OR is `||`, NOT negates when `calcnot` is true
and is true whatever its operand when `calcnot` is false. -/
theorem TS_execute_boolean (q : BoolQuery)
    (f : QueryOperand → Option ExecPhraseData → Bool × Option ExecPhraseData)
    (calcnot : Bool) :
    TS_execute (fun v d => some (f v d)) calcnot q.toQueryItem =
      some (q.eval (fun v => (f v none).1) calcnot) := by
  induction q with
  | val v => simp [BoolQuery.toQueryItem, TS_execute, BoolQuery.eval]
  | not c ih =>
    cases calcnot <;> simp [BoolQuery.toQueryItem, TS_execute, BoolQuery.eval, ih]
  | and l r ihl ihr =>
    simp only [BoolQuery.toQueryItem, TS_execute, BoolQuery.eval, ihl, ihr]
    cases BoolQuery.eval (fun v => (f v none).1) calcnot l <;> simp [ihr]
  | or l r ihl ihr =>
    simp only [BoolQuery.toQueryItem, TS_execute, BoolQuery.eval, ihl, ihr]
    cases BoolQuery.eval (fun v => (f v none).1) calcnot l <;> simp [ihr]

/-- C14: `tsquery_requires_match` equals the recursive reference on every query
tree: a value gives true, NOT gives false, AND and PHRASE give the disjunction
and OR the conjunction of the two sides; `x OR NOT y` gives false, `x AND NOT y`
gives true and `x OR y` gives true. -/
theorem tsquery_requires_match_eq_ref :
    (∀ q : QueryItem, tsquery_requires_match q = requiresMatchRef q) ∧
    (∀ x y : QueryOperand,
      tsquery_requires_match
        (QueryItem.or (QueryItem.val x) (QueryItem.not (QueryItem.val y))) = false ∧
      tsquery_requires_match
        (QueryItem.and (QueryItem.val x) (QueryItem.not (QueryItem.val y))) = true ∧
      tsquery_requires_match (QueryItem.or (QueryItem.val x) (QueryItem.val y)) = true) := by
  constructor
  · intro q
    induction q with
    | val v => rfl
    | not c _ => rfl
    | and l r ihl ihr =>
      simp only [tsquery_requires_match, requiresMatchRef, ihl, ihr]
      cases requiresMatchRef l <;> simp
    | or l r ihl ihr =>
      simp only [tsquery_requires_match, requiresMatchRef, ihl, ihr]
      cases requiresMatchRef l <;> simp
    | phrase l r d ihl ihr =>
      simp only [tsquery_requires_match, requiresMatchRef, ihl, ihr]
      cases requiresMatchRef l <;> simp
  · intro x y
    simp [tsquery_requires_match]

/-- C13: when both operands of a phrase node match and one of them comes back
with `npos = 0` (an empty position list), `TS_phrase_execute` returns true for
every distance, with and without a position buffer, and leaves the buffer as it
was: the proximity loop is not entered.  So does `TS_execute` on that node. -/
theorem TS_phrase_execute_degrades (chk : ChkCond) (calcnot : Bool)
    (l r : QueryItem) (Lres Rres : ExecPhraseData)
    (hl : TS_phrase_execute chk calcnot l (some ExecPhraseData.init) = some (true, some Lres))
    (hr : TS_phrase_execute chk calcnot r (some ExecPhraseData.init) = some (true, some Rres))
    (h0 : Lres.npos = 0 ∨ Rres.npos = 0) :
    ∀ distance : Nat,
      (∀ data : Option ExecPhraseData,
        TS_phrase_execute chk calcnot (QueryItem.phrase l r distance) data = some (true, data)) ∧
      TS_execute chk calcnot (QueryItem.phrase l r distance) = some true := by
  intro distance
  have key : ∀ data : Option ExecPhraseData,
      TS_phrase_execute chk calcnot (QueryItem.phrase l r distance) data =
        some (true, data) := by
    intro data
    simp only [TS_phrase_execute, hl, hr, Option.getD_some, h0, if_true]
  exact ⟨key, by simp [TS_execute, key]⟩

/-- A witness for C13: the phrase `a <3> b` against a vector that stores `"a"`
without positions and `"b"` at position 1. -/
theorem TS_phrase_execute_degrades_witness :
    TS_phrase_execute (checkcondition_str [⟨[97], false, []⟩, ⟨[98], true, [1]⟩]) true
      (QueryItem.val ⟨0, false, [97]⟩) (some ExecPhraseData.init) =
        some (true, some ExecPhraseData.init) ∧
    TS_phrase_execute (checkcondition_str [⟨[97], false, []⟩, ⟨[98], true, [1]⟩]) true
      (QueryItem.val ⟨0, false, [98]⟩) (some ExecPhraseData.init) =
        some (true, some ⟨1, false, [1]⟩) ∧
    (ExecPhraseData.init.npos = 0 ∨ (⟨1, false, [1]⟩ : ExecPhraseData).npos = 0) ∧
    (∀ data : Option ExecPhraseData,
      TS_phrase_execute
        (checkcondition_str [⟨[97], false, []⟩, ⟨[98], true, [1]⟩]) true
        (QueryItem.phrase (QueryItem.val ⟨0, false, [97]⟩) (QueryItem.val ⟨0, false, [98]⟩)
          3) data = some (true, data)) ∧
    TS_execute (checkcondition_str [⟨[97], false, []⟩, ⟨[98], true, [1]⟩]) true
      (QueryItem.phrase (QueryItem.val ⟨0, false, [97]⟩) (QueryItem.val ⟨0, false, [98]⟩)
        3) = some true :=
  ⟨by decide, by decide, Or.inl rfl,
    TS_phrase_execute_degrades (checkcondition_str [⟨[97], false, []⟩, ⟨[98], true, [1]⟩])
      true (QueryItem.val ⟨0, false, [97]⟩) (QueryItem.val ⟨0, false, [98]⟩)
      ExecPhraseData.init ⟨1, false, [1]⟩ (by decide) (by decide) (Or.inl rfl) 3⟩

theorem TS_phrase_execute_all_false (chk : ChkCond) (calcnot : Bool) :
    ∀ (t : QueryItem), t.phraseOnly = true →
      (∀ v ∈ t.leaves, ∀ data, ∃ d2, chk v data = some (false, d2)) →
      ∀ data, ∃ d2, TS_phrase_execute chk calcnot t data = some (false, d2) := by
  intro t
  induction t with
  | val v =>
    intro _ h data
    simpa [TS_phrase_execute] using h v (by simp [QueryItem.leaves]) data
  | not c _ => intro h; simp [QueryItem.phraseOnly] at h
  | and l r _ _ => intro h; simp [QueryItem.phraseOnly] at h
  | or l r _ _ => intro h; simp [QueryItem.phraseOnly] at h
  | phrase l r d ihl _ =>
    intro h hleaf data
    simp only [QueryItem.phraseOnly, Bool.and_eq_true] at h
    obtain ⟨d2, hd2⟩ := ihl h.1
      (fun v hv => hleaf v (by simp [QueryItem.leaves, hv])) (some ExecPhraseData.init)
    exact ⟨data, by simp [TS_phrase_execute, hd2]⟩

theorem TS_execute_all_false (chk : ChkCond) :
    ∀ (q : QueryItem), q.wellFormed = true →
      (∀ v ∈ q.leaves, ∀ data, ∃ d2, chk v data = some (false, d2)) →
      ∃ b, TS_execute chk true q = some b ∧ (tsquery_requires_match q = true → b = false) := by
  intro q
  induction q with
  | val v =>
    intro _ h
    obtain ⟨d2, hd2⟩ := h v (by simp [QueryItem.leaves]) none
    exact ⟨false, by simp [TS_execute, hd2], fun _ => rfl⟩
  | not c ih =>
    intro hwf h
    obtain ⟨b, hb, _⟩ := ih (by simpa [QueryItem.wellFormed] using hwf)
      (fun v hv => h v (by simpa [QueryItem.leaves] using hv))
    exact ⟨!b, by simp [TS_execute, hb], by simp [tsquery_requires_match]⟩
  | and l r ihl ihr =>
    intro hwf h
    simp only [QueryItem.wellFormed, Bool.and_eq_true] at hwf
    obtain ⟨bl, hbl, hl⟩ := ihl hwf.1 (fun v hv => h v (by simp [QueryItem.leaves, hv]))
    obtain ⟨br, hbr, hr⟩ := ihr hwf.2 (fun v hv => h v (by simp [QueryItem.leaves, hv]))
    cases bl with
    | false => exact ⟨false, by simp [TS_execute, hbl], fun _ => rfl⟩
    | true =>
      refine ⟨br, by simp [TS_execute, hbl, hbr], ?_⟩
      intro hreq
      simp only [tsquery_requires_match] at hreq
      by_cases hrl : tsquery_requires_match l = true
      · exact absurd (hl hrl) (by simp)
      · simp only [hrl, if_false] at hreq
        exact hr hreq
  | or l r ihl ihr =>
    intro hwf h
    simp only [QueryItem.wellFormed, Bool.and_eq_true] at hwf
    obtain ⟨bl, hbl, hl⟩ := ihl hwf.1 (fun v hv => h v (by simp [QueryItem.leaves, hv]))
    obtain ⟨br, hbr, hr⟩ := ihr hwf.2 (fun v hv => h v (by simp [QueryItem.leaves, hv]))
    cases bl with
    | false =>
      refine ⟨br, by simp [TS_execute, hbl, hbr], ?_⟩
      intro hreq
      simp only [tsquery_requires_match] at hreq
      by_cases hrl : tsquery_requires_match l = true
      · simp only [hrl, if_true] at hreq
        exact hr hreq
      · simp [hrl] at hreq
    | true =>
      refine ⟨true, by simp [TS_execute, hbl], ?_⟩
      intro hreq
      simp only [tsquery_requires_match] at hreq
      by_cases hrl : tsquery_requires_match l = true
      · exact absurd (hl hrl) (by simp)
      · simp [hrl] at hreq
  | phrase l r d _ _ =>
    intro hwf h
    obtain ⟨d2, hd2⟩ := TS_phrase_execute_all_false chk true (QueryItem.phrase l r d)
      (by simpa [QueryItem.wellFormed, QueryItem.phraseOnly] using hwf) h none
    exact ⟨false, by simp [TS_execute, hd2], fun _ => rfl⟩

/-- C15: for every query tree whose phrase nodes have only values and phrases
below them and for which `tsquery_requires_match` is true, and every leaf check
that returns false on every value leaf of the tree, `TS_execute` with
`calcnot = true` returns false. -/
theorem tsquery_requires_match_sound (q : QueryItem) (chk : ChkCond)
    (hwf : q.wellFormed = true) (hreq : tsquery_requires_match q = true)
    (hleaf : ∀ v ∈ q.leaves, ∀ data, ∃ d2, chk v data = some (false, d2)) :
    TS_execute chk true q = some false := by
  obtain ⟨b, hb, hfalse⟩ := TS_execute_all_false chk q hwf hleaf
  rw [hb, hfalse hreq]

/-- A witness for C15: `(NOT x) AND (y <-> z)` with a leaf check that finds
nothing. -/
theorem tsquery_requires_match_sound_witness :
    (QueryItem.and (QueryItem.not (QueryItem.val ⟨0, false, [120]⟩))
      (QueryItem.phrase (QueryItem.val ⟨0, false, [121]⟩)
        (QueryItem.val ⟨0, true, [122]⟩) 1)).wellFormed = true ∧
    tsquery_requires_match
      (QueryItem.and (QueryItem.not (QueryItem.val ⟨0, false, [120]⟩))
        (QueryItem.phrase (QueryItem.val ⟨0, false, [121]⟩)
          (QueryItem.val ⟨0, true, [122]⟩) 1)) = true ∧
    TS_execute (fun _ data => some (false, data)) true
      (QueryItem.and (QueryItem.not (QueryItem.val ⟨0, false, [120]⟩))
        (QueryItem.phrase (QueryItem.val ⟨0, false, [121]⟩)
          (QueryItem.val ⟨0, true, [122]⟩) 1)) = some false :=
  ⟨rfl, rfl, tsquery_requires_match_sound _ (fun _ data => some (false, data)) rfl rfl
    (fun _ _ data => ⟨data, rfl⟩)⟩

/-! ## The proximity matcher -/

theorem add_pos_loop_nil_src (maxpos : Nat) (dpos : List WordEntryPos) :
    add_pos_loop maxpos [] dpos = dpos := by
  simp [add_pos_loop]

theorem add_pos_loop_length_le (maxpos : Nat) :
    ∀ (src dpos : List WordEntryPos), dpos.length ≤ (add_pos_loop maxpos src dpos).length := by
  intro src
  induction src with
  | nil => intro dpos; simp [add_pos_loop]
  | cons s rest ih =>
    intro dpos
    simp only [add_pos_loop]
    split
    · have := ih (dpos ++ [WEP_SET (WEP_GETWEIGHT s) (LIMITPOS (WEP_GETPOS s + maxpos))])
      simp only [List.length_append, List.length_singleton] at this
      omega
    · exact Nat.le_refl _

theorem POSDATA_of_haspos (e : WordEntry) (h : e.haspos = true) : POSDATA e = e.posvec := by
  simp [POSDATA, h]

theorem POSDATA_of_not_haspos (e : WordEntry) (h : e.haspos = false) : POSDATA e = [] := by
  simp [POSDATA, h]

theorem concat_in1_entry (M : Nat) (e : WordEntry) (d : Nat) (maxpos : Nat) :
    (concat_in1 M e d).1.entry = mergedEntry maxpos e.lexeme e.haspos (POSDATA e) [] := by
  by_cases h : e.haspos = true
  · simp [concat_in1, mergedEntry, h, add_pos_loop_nil_src, POSDATA]
  · have h2 : e.haspos = false := by simpa using h
    simp [concat_in1, mergedEntry, h2, add_pos_loop_nil_src, POSDATA]

theorem concat_in2_entry (M maxpos : Nat) (e : WordEntry) (d : Nat) :
    (concat_in2 M maxpos e d).1.entry = mergedEntry maxpos e.lexeme false [] (POSDATA e) := by
  by_cases h : e.haspos = true
  · by_cases hz : (add_pos_loop maxpos e.posvec []).length = 0
    · simp [concat_in2, mergedEntry, h, add_pos, POSDATA, hz]
    · simp [concat_in2, mergedEntry, h, add_pos, POSDATA, hz]
  · have h2 : e.haspos = false := by simpa using h
    simp [concat_in2, mergedEntry, h2, add_pos_loop_nil_src, POSDATA]

theorem concat_both_entry (M maxpos : Nat) (e1 e2 : WordEntry) (d : Nat) :
    (concat_both M maxpos e1 e2 d).1.entry =
      mergedEntry maxpos e1.lexeme e1.haspos (POSDATA e1) (POSDATA e2) := by
  by_cases h1 : e1.haspos = true
  · by_cases h2 : e2.haspos = true
    · have hlen := add_pos_loop_length_le maxpos e2.posvec e1.posvec
      by_cases hz : (add_pos_loop maxpos e2.posvec e1.posvec).length = 0
      · simp [concat_both, mergedEntry, h1, h2, add_pos, POSDATA, hz]
      · simp [concat_both, mergedEntry, h1, h2, add_pos, POSDATA, hz]
    · have h2b : e2.haspos = false := by simpa using h2
      simp [concat_both, mergedEntry, h1, h2b, add_pos_loop_nil_src, POSDATA]
  · have h1b : e1.haspos = false := by simpa using h1
    by_cases h2 : e2.haspos = true
    · by_cases hz : (add_pos_loop maxpos e2.posvec []).length = 0
      · simp [concat_both, mergedEntry, h1b, h2, add_pos, POSDATA, hz]
      · simp [concat_both, mergedEntry, h1b, h2, add_pos, POSDATA, hz]
    · have h2b : e2.haspos = false := by simpa using h2
      simp [concat_both, mergedEntry, h1b, h2b, add_pos_loop_nil_src, POSDATA]

theorem SHORTALIGN_ge (x : Nat) : x ≤ SHORTALIGN x := by
  unfold SHORTALIGN
  omega

theorem concat_in1_lexeme (M : Nat) (e : WordEntry) (d : Nat) :
    (concat_in1 M e d).1.entry.lexeme = e.lexeme := by
  rw [concat_in1_entry M e d 0]; rfl

theorem concat_in2_lexeme (M maxpos : Nat) (e : WordEntry) (d : Nat) :
    (concat_in2 M maxpos e d).1.entry.lexeme = e.lexeme := by
  rw [concat_in2_entry]; rfl

theorem concat_both_lexeme (M maxpos : Nat) (e1 e2 : WordEntry) (d : Nat) :
    (concat_both M maxpos e1 e2 d).1.entry.lexeme = e1.lexeme := by
  rw [concat_both_entry]; rfl

theorem concat_in1_off (M : Nat) (e : WordEntry) (d : Nat) :
    (concat_in1 M e d).1.lexemeAt = d ∧ (concat_in1 M e d).1.pos = d % (M + 1) ∧
      d ≤ (concat_in1 M e d).2 := by
  have := SHORTALIGN_ge (d + e.lexeme.length)
  unfold concat_in1
  split
  · exact ⟨rfl, rfl, by simp only; omega⟩
  · exact ⟨rfl, rfl, by simp only; omega⟩

theorem concat_in2_off (M maxpos : Nat) (e : WordEntry) (d : Nat) :
    (concat_in2 M maxpos e d).1.lexemeAt = d ∧ (concat_in2 M maxpos e d).1.pos = d % (M + 1) ∧
      d ≤ (concat_in2 M maxpos e d).2 := by
  have := SHORTALIGN_ge (d + e.lexeme.length)
  unfold concat_in2
  split
  · simp only
    split
    · exact ⟨rfl, rfl, by simp only; omega⟩
    · exact ⟨rfl, rfl, by simp only; omega⟩
  · exact ⟨rfl, rfl, by simp only; omega⟩

theorem concat_both_off (M maxpos : Nat) (e1 e2 : WordEntry) (d : Nat) :
    (concat_both M maxpos e1 e2 d).1.lexemeAt = d ∧
      (concat_both M maxpos e1 e2 d).1.pos = d % (M + 1) ∧
      d ≤ (concat_both M maxpos e1 e2 d).2 := by
  have := SHORTALIGN_ge (d + e1.lexeme.length)
  unfold concat_both
  split
  · split
    · simp only
      split
      · exact ⟨rfl, rfl, by simp only; omega⟩
      · exact ⟨rfl, rfl, by simp only; omega⟩
    · simp only
      split
      · exact ⟨rfl, rfl, by simp only; omega⟩
      · exact ⟨rfl, rfl, by simp only; omega⟩
  · exact ⟨rfl, rfl, by simp only; omega⟩

/-! ## Looking up a lexeme in a vector -/

theorem lookupEntry_cons_self (e : WordEntry) (r : List WordEntry) :
    lookupEntry (e :: r) e.lexeme = some e := by
  simp [lookupEntry]

theorem lookupEntry_cons_ne (e : WordEntry) (r : List WordEntry) (x : List Nat)
    (h : e.lexeme ≠ x) : lookupEntry (e :: r) x = lookupEntry r x := by
  simp [lookupEntry, List.find?, h]

theorem lookupEntry_none (v : List WordEntry) (x : List Nat)
    (h : ∀ e ∈ v, e.lexeme ≠ x) : lookupEntry v x = none := by
  simp only [lookupEntry, List.find?_eq_none, decide_eq_true_eq]
  exact h

theorem posOf_cons_self (e : WordEntry) (r : List WordEntry) :
    posOf (e :: r) e.lexeme = POSDATA e ∧ hasposOf (e :: r) e.lexeme = e.haspos := by
  simp [posOf, hasposOf, lookupEntry_cons_self]

theorem posOf_cons_ne (e : WordEntry) (r : List WordEntry) (x : List Nat)
    (h : e.lexeme ≠ x) :
    posOf (e :: r) x = posOf r x ∧ hasposOf (e :: r) x = hasposOf r x := by
  simp [posOf, hasposOf, lookupEntry_cons_ne e r x h]

theorem posOf_none (v : List WordEntry) (x : List Nat) (h : ∀ e ∈ v, e.lexeme ≠ x) :
    posOf v x = [] ∧ hasposOf v x = false := by
  simp [posOf, hasposOf, lookupEntry_none v x h]

theorem entryLt_ne {a b : WordEntry} (h : entryLt a b) : a.lexeme ≠ b.lexeme := by
  intro heq
  unfold entryLt at h
  rw [heq, tsCompareString_false_self] at h
  omega

theorem entryLt_of_lexeme {a b a2 b2 : WordEntry} (h : entryLt a b)
    (ha : a2.lexeme = a.lexeme) (hb : b2.lexeme = b.lexeme) : entryLt a2 b2 := by
  unfold entryLt at h ⊢
  rw [ha, hb]; exact h

/-! ## The merge of tsvector_concat -/

theorem ConcatGood.nil (M maxpos d : Nat) : ConcatGood M maxpos [] [] d [] d where
  source := by intro o ho; cases ho
  left := by intro e he; cases he
  right := by intro e he; cases he
  sorted := List.Pairwise.nil
  entries := by intro o ho; cases ho
  mono := Nat.le_refl _
  offsets := by intro o ho; cases ho

/-- One step of the merge: an entry `o` for the smallest lexeme of the two inputs
is written at `d`, and the rest is merged from `dnext` on. -/
theorem ConcatGood.step {M maxpos : Nat} {in1 in2 rest1 rest2 : List WordEntry}
    {d dnext d2 : Nat} {o : OutEntry} {out : List OutEntry}
    (hgood : ConcatGood M maxpos rest1 rest2 dnext out d2)
    (hat : o.lexemeAt = d ∧ o.pos = d % (M + 1) ∧ d ≤ dnext)
    (hentry : o.entry = mergedEntry maxpos o.entry.lexeme
      (hasposOf in1 o.entry.lexeme) (posOf in1 o.entry.lexeme) (posOf in2 o.entry.lexeme))
    (hsrc : (∃ e ∈ in1, e.lexeme = o.entry.lexeme) ∨ (∃ e ∈ in2, e.lexeme = o.entry.lexeme))
    (hin1 : ∀ e, e ∈ in1 ↔ (e ∈ rest1 ∨ (e ∈ in1 ∧ e.lexeme = o.entry.lexeme)))
    (hin2 : ∀ e, e ∈ in2 ↔ (e ∈ rest2 ∨ (e ∈ in2 ∧ e.lexeme = o.entry.lexeme)))
    (hlt1 : ∀ e ∈ rest1, entryLt o.entry e)
    (hlt2 : ∀ e ∈ rest2, entryLt o.entry e)
    (hst1 : ∀ y, y ≠ o.entry.lexeme →
      posOf in1 y = posOf rest1 y ∧ hasposOf in1 y = hasposOf rest1 y)
    (hst2 : ∀ y, y ≠ o.entry.lexeme →
      posOf in2 y = posOf rest2 y ∧ hasposOf in2 y = hasposOf rest2 y) :
    ConcatGood M maxpos in1 in2 d (o :: out) d2 := by
  have hlt : ∀ o2 ∈ out, entryLt o.entry o2.entry := by
    intro o2 ho2
    rcases hgood.source o2 ho2 with ⟨e, he, hl⟩ | ⟨e, he, hl⟩
    · exact entryLt_of_lexeme (hlt1 e he) rfl hl.symm
    · exact entryLt_of_lexeme (hlt2 e he) rfl hl.symm
  refine ⟨?_, ?_, ?_, ?_, ?_, ?_, ?_⟩
  · intro o2 ho2
    rcases List.mem_cons.1 ho2 with h | h
    · rw [h]; exact hsrc
    · rcases hgood.source o2 h with ⟨e, he, hl⟩ | ⟨e, he, hl⟩
      · exact Or.inl ⟨e, (hin1 e).2 (Or.inl he), hl⟩
      · exact Or.inr ⟨e, (hin2 e).2 (Or.inl he), hl⟩
  · intro e he
    rcases (hin1 e).1 he with h | ⟨_, h⟩
    · obtain ⟨o2, ho2, hl⟩ := hgood.left e h
      exact ⟨o2, List.mem_cons_of_mem _ ho2, hl⟩
    · exact ⟨o, List.mem_cons_self _ _, h.symm⟩
  · intro e he
    rcases (hin2 e).1 he with h | ⟨_, h⟩
    · obtain ⟨o2, ho2, hl⟩ := hgood.right e h
      exact ⟨o2, List.mem_cons_of_mem _ ho2, hl⟩
    · exact ⟨o, List.mem_cons_self _ _, h.symm⟩
  · exact List.pairwise_cons.2 ⟨hlt, hgood.sorted⟩
  · intro o2 ho2
    rcases List.mem_cons.1 ho2 with h | h
    · rw [h]; exact hentry
    · have hne : o2.entry.lexeme ≠ o.entry.lexeme := fun heq =>
        entryLt_ne (hlt o2 h) heq.symm
      rw [(hst1 _ hne).1, (hst1 _ hne).2, (hst2 _ hne).1]
      exact hgood.entries o2 h
  · exact le_trans hat.2.2 hgood.mono
  · intro o2 ho2
    rcases List.mem_cons.1 ho2 with h | h
    · rw [h]
      exact ⟨by rw [hat.1], by rw [hat.1]; exact le_trans hat.2.2 hgood.mono,
        by rw [hat.2.1, hat.1]⟩
    · obtain ⟨h1, h2, h3⟩ := hgood.offsets o2 h
      exact ⟨le_trans hat.2.2 h1, h2, h3⟩

theorem ConcatGood.step_in1 {M maxpos : Nat} {e1 : WordEntry} {rest1 in2 : List WordEntry}
    {d d2 : Nat} {out : List OutEntry}
    (hs1 : List.Pairwise entryLt (e1 :: rest1))
    (hlt : ∀ e2 ∈ in2, entryLt e1 e2)
    (hgood : ConcatGood M maxpos rest1 in2 (concat_in1 M e1 d).2 out d2) :
    ConcatGood M maxpos (e1 :: rest1) in2 d ((concat_in1 M e1 d).1 :: out) d2 := by
  have hlex := concat_in1_lexeme M e1 d
  have hp := List.pairwise_cons.1 hs1
  have hno2 : ∀ e ∈ in2, e.lexeme ≠ e1.lexeme := fun e he => (entryLt_ne (hlt e he)).symm
  refine ConcatGood.step hgood (concat_in1_off M e1 d) ?_ ?_ ?_ ?_ ?_ ?_ ?_ ?_
  · rw [hlex, (posOf_cons_self e1 rest1).1, (posOf_cons_self e1 rest1).2,
      (posOf_none in2 _ hno2).1]
    exact concat_in1_entry M e1 d maxpos
  · exact Or.inl ⟨e1, List.mem_cons_self _ _, hlex.symm⟩
  · intro e
    rw [hlex, List.mem_cons]
    constructor
    · rintro (h | h)
      · exact Or.inr ⟨Or.inl h, by rw [h]⟩
      · exact Or.inl h
    · rintro (h | ⟨h, _⟩)
      · exact Or.inr h
      · exact h
  · intro e
    rw [hlex]
    constructor
    · intro h; exact Or.inl h
    · rintro (h | ⟨h, _⟩) <;> exact h
  · intro e he
    exact entryLt_of_lexeme (hp.1 e he) hlex rfl
  · intro e he
    exact entryLt_of_lexeme (hlt e he) hlex rfl
  · intro y hy
    rw [hlex] at hy
    exact posOf_cons_ne e1 rest1 y (fun h => hy h.symm)
  · intro y _
    exact ⟨rfl, rfl⟩

theorem ConcatGood.step_in2 {M maxpos : Nat} {e2 : WordEntry} {in1 rest2 : List WordEntry}
    {d d2 : Nat} {out : List OutEntry}
    (hs2 : List.Pairwise entryLt (e2 :: rest2))
    (hlt : ∀ e1 ∈ in1, entryLt e2 e1)
    (hgood : ConcatGood M maxpos in1 rest2 (concat_in2 M maxpos e2 d).2 out d2) :
    ConcatGood M maxpos in1 (e2 :: rest2) d ((concat_in2 M maxpos e2 d).1 :: out) d2 := by
  have hlex := concat_in2_lexeme M maxpos e2 d
  have hp := List.pairwise_cons.1 hs2
  have hno1 : ∀ e ∈ in1, e.lexeme ≠ e2.lexeme := fun e he => (entryLt_ne (hlt e he)).symm
  refine ConcatGood.step hgood (concat_in2_off M maxpos e2 d) ?_ ?_ ?_ ?_ ?_ ?_ ?_ ?_
  · rw [hlex, (posOf_cons_self e2 rest2).1, (posOf_none in1 _ hno1).1,
      (posOf_none in1 _ hno1).2]
    exact concat_in2_entry M maxpos e2 d
  · exact Or.inr ⟨e2, List.mem_cons_self _ _, hlex.symm⟩
  · intro e
    rw [hlex]
    constructor
    · intro h; exact Or.inl h
    · rintro (h | ⟨h, _⟩) <;> exact h
  · intro e
    rw [hlex, List.mem_cons]
    constructor
    · rintro (h | h)
      · exact Or.inr ⟨Or.inl h, by rw [h]⟩
      · exact Or.inl h
    · rintro (h | ⟨h, _⟩)
      · exact Or.inr h
      · exact h
  · intro e he
    exact entryLt_of_lexeme (hlt e he) hlex rfl
  · intro e he
    exact entryLt_of_lexeme (hp.1 e he) hlex rfl
  · intro y _
    exact ⟨rfl, rfl⟩
  · intro y hy
    rw [hlex] at hy
    exact posOf_cons_ne e2 rest2 y (fun h => hy h.symm)

theorem ConcatGood.step_both {M maxpos : Nat} {e1 e2 : WordEntry}
    {rest1 rest2 : List WordEntry} {d d2 : Nat} {out : List OutEntry}
    (hs1 : List.Pairwise entryLt (e1 :: rest1))
    (hs2 : List.Pairwise entryLt (e2 :: rest2))
    (heq : e1.lexeme = e2.lexeme)
    (hgood : ConcatGood M maxpos rest1 rest2 (concat_both M maxpos e1 e2 d).2 out d2) :
    ConcatGood M maxpos (e1 :: rest1) (e2 :: rest2) d
      ((concat_both M maxpos e1 e2 d).1 :: out) d2 := by
  have hlex := concat_both_lexeme M maxpos e1 e2 d
  have hp1 := List.pairwise_cons.1 hs1
  have hp2 := List.pairwise_cons.1 hs2
  refine ConcatGood.step hgood (concat_both_off M maxpos e1 e2 d) ?_ ?_ ?_ ?_ ?_ ?_ ?_ ?_
  · rw [hlex, (posOf_cons_self e1 rest1).1, (posOf_cons_self e1 rest1).2]
    have := (posOf_cons_self e2 rest2).1
    rw [← heq] at this
    rw [this]
    exact concat_both_entry M maxpos e1 e2 d
  · exact Or.inl ⟨e1, List.mem_cons_self _ _, hlex.symm⟩
  · intro e
    rw [hlex, List.mem_cons]
    constructor
    · rintro (h | h)
      · exact Or.inr ⟨Or.inl h, by rw [h]⟩
      · exact Or.inl h
    · rintro (h | ⟨h, _⟩)
      · exact Or.inr h
      · exact h
  · intro e
    rw [hlex, List.mem_cons]
    constructor
    · rintro (h | h)
      · exact Or.inr ⟨Or.inl h, by rw [h, heq]⟩
      · exact Or.inl h
    · rintro (h | ⟨h, _⟩)
      · exact Or.inr h
      · exact h
  · intro e he
    exact entryLt_of_lexeme (hp1.1 e he) hlex rfl
  · intro e he
    exact entryLt_of_lexeme (hp2.1 e he) (hlex.trans heq) rfl
  · intro y hy
    rw [hlex] at hy
    exact posOf_cons_ne e1 rest1 y (fun h => hy h.symm)
  · intro y hy
    rw [hlex, heq] at hy
    exact posOf_cons_ne e2 rest2 y (fun h => hy h.symm)

theorem concat_tail1_good (M maxpos : Nat) :
    ∀ (in1 : List WordEntry) (d : Nat), List.Pairwise entryLt in1 →
      ConcatGood M maxpos in1 [] d (concat_tail1 M in1 d).1 (concat_tail1 M in1 d).2 := by
  intro in1
  induction in1 with
  | nil => intro d _; exact ConcatGood.nil M maxpos d
  | cons e rest ih =>
    intro d hs
    have hp := List.pairwise_cons.1 hs
    exact ConcatGood.step_in1 hs (by intro e2 he2; cases he2) (ih _ hp.2)

theorem concat_tail2_good (M maxpos : Nat) :
    ∀ (in2 : List WordEntry) (d : Nat), List.Pairwise entryLt in2 →
      ConcatGood M maxpos [] in2 d (concat_tail2 M maxpos in2 d).1
        (concat_tail2 M maxpos in2 d).2 := by
  intro in2
  induction in2 with
  | nil => intro d _; exact ConcatGood.nil M maxpos d
  | cons e rest ih =>
    intro d hs
    have hp := List.pairwise_cons.1 hs
    exact ConcatGood.step_in2 hs (by intro e1 he1; cases he1) (ih _ hp.2)

theorem concat_tails_good (M maxpos : Nat) (in1 in2 : List WordEntry) (d : Nat)
    (hnil : in1 = [] ∨ in2 = [])
    (hs1 : List.Pairwise entryLt in1) (hs2 : List.Pairwise entryLt in2) :
    ConcatGood M maxpos in1 in2 d (concat_tails M maxpos in1 in2 d).1
      (concat_tails M maxpos in1 in2 d).2 := by
  rcases hnil with h | h
  · subst h
    have : concat_tails M maxpos [] in2 d = concat_tail2 M maxpos in2 d := by
      simp [concat_tails, concat_tail1]
    rw [this]
    exact concat_tail2_good M maxpos in2 d hs2
  · subst h
    have : concat_tails M maxpos in1 [] d = concat_tail1 M in1 d := by
      simp [concat_tails, concat_tail2]
    rw [this]
    exact concat_tail1_good M maxpos in1 d hs1

/-- The merge of two sorted entry lists ends within `in1->size + in2->size`
iterations and writes what `ConcatGood` describes. -/
theorem concat_loop_good (M maxpos : Nat) :
    ∀ (fuel : Nat) (in1 in2 : List WordEntry) (d : Nat),
      in1.length + in2.length ≤ fuel →
      List.Pairwise entryLt in1 → List.Pairwise entryLt in2 →
      ∃ out d2, concat_loop M maxpos fuel in1 in2 d = some (out, d2) ∧
        ConcatGood M maxpos in1 in2 d out d2 := by
  intro fuel
  induction fuel with
  | zero =>
    intro in1 in2 d hlen hs1 hs2
    have h1 : in1 = [] := List.length_eq_zero.1 (by omega)
    have h2 : in2 = [] := List.length_eq_zero.1 (by omega)
    subst h1; subst h2
    exact ⟨_, _, by simp [concat_loop], concat_tails_good M maxpos [] [] d (Or.inl rfl) hs1 hs2⟩
  | succ fuel ih =>
    intro in1 in2 d hlen hs1 hs2
    cases in1 with
    | nil =>
      exact ⟨_, _, by simp [concat_loop],
        concat_tails_good M maxpos [] in2 d (Or.inl rfl) hs1 hs2⟩
    | cons e1 rest1 =>
      cases in2 with
      | nil =>
        exact ⟨_, _, by simp [concat_loop],
          concat_tails_good M maxpos (e1 :: rest1) [] d (Or.inr rfl) hs1 hs2⟩
      | cons e2 rest2 =>
        have hp1 := List.pairwise_cons.1 hs1
        have hp2 := List.pairwise_cons.1 hs2
        simp only [List.length_cons] at hlen
        by_cases hneg : tsCompareString e1.lexeme e2.lexeme false < 0
        · obtain ⟨out, d2, heq, hgood⟩ := ih rest1 (e2 :: rest2) (concat_in1 M e1 d).2
            (by simp only [List.length_cons]; omega) hp1.2 hs2
          refine ⟨(concat_in1 M e1 d).1 :: out, d2, by simp [concat_loop, hneg, heq], ?_⟩
          refine ConcatGood.step_in1 hs1 ?_ hgood
          intro e he
          rcases List.mem_cons.1 he with h | h
          · rw [h]; exact hneg
          · exact tsCompareString_false_trans _ _ _ hneg (hp2.1 e h)
        · by_cases hpos : tsCompareString e1.lexeme e2.lexeme false > 0
          · have hlt21 : entryLt e2 e1 := (tsCompareString_false_swap _ _).1 hpos
            obtain ⟨out, d2, heq, hgood⟩ := ih (e1 :: rest1) rest2
              (concat_in2 M maxpos e2 d).2
              (by simp only [List.length_cons]; omega) hs1 hp2.2
            refine ⟨(concat_in2 M maxpos e2 d).1 :: out, d2,
              by simp [concat_loop, hneg, hpos, heq], ?_⟩
            refine ConcatGood.step_in2 hs2 ?_ hgood
            intro e he
            rcases List.mem_cons.1 he with h | h
            · rw [h]; exact hlt21
            · exact tsCompareString_false_trans _ _ _ hlt21 (hp1.1 e h)
          · have hz : tsCompareString e1.lexeme e2.lexeme false = 0 := by omega
            have hlex : e1.lexeme = e2.lexeme := (tsCompareString_false_eq_zero_iff _ _).1 hz
            obtain ⟨out, d2, heq, hgood⟩ := ih rest1 rest2 (concat_both M maxpos e1 e2 d).2
              (by omega) hp1.2 hp2.2
            exact ⟨(concat_both M maxpos e1 e2 d).1 :: out, d2,
              by simp [concat_loop, hneg, hpos, heq],
              ConcatGood.step_both hs1 hs2 hlex hgood⟩

/-- On sorted inputs `tsvector_concat` returns: the error when the data size
exceeds `M`, the merged entries otherwise. -/
theorem tsvector_concat_good (M : Nat) (in1 in2 : TSVector)
    (hs1 : StrictSorted in1) (hs2 : StrictSorted in2) :
    ∃ out d2, concat_loop M (concat_maxpos 0 in1) (in1.length + in2.length) in1 in2 0 =
        some (out, d2) ∧
      ConcatGood M (concat_maxpos 0 in1) in1 in2 0 out d2 ∧
      tsvector_concat M in1 in2 =
        some (if d2 > M then Except.error (TsError.programLimitExceeded d2)
          else Except.ok (out, d2)) := by
  obtain ⟨out, d2, heq, hgood⟩ := concat_loop_good M (concat_maxpos 0 in1)
    (in1.length + in2.length) in1 in2 0 (Nat.le_refl _) hs1.pairwise hs2.pairwise
  refine ⟨out, d2, heq, hgood, ?_⟩
  unfold tsvector_concat
  simp only [heq]
  split <;> rfl

/-! ## add_pos and maxpos against their references -/

theorem WEP_SET_eq_shiftRef (maxpos : Nat) (p : WordEntryPos) :
    WEP_SET (WEP_GETWEIGHT p) (LIMITPOS (WEP_GETPOS p + maxpos)) = shiftRef maxpos p := by
  unfold WEP_SET LIMITPOS shiftRef MAXENTRYPOS
  show @Eq Nat _ _
  split <;> omega

theorem shiftRef_pos (maxpos : Nat) (p : WordEntryPos) :
    WEP_GETPOS (shiftRef maxpos p) = min (WEP_GETPOS p + maxpos) 16383 ∧
    WEP_GETWEIGHT (shiftRef maxpos p) = WEP_GETWEIGHT p := by
  unfold shiftRef
  constructor
  · show (WEP_GETWEIGHT p * 16384 + min (WEP_GETPOS p + maxpos) 16383) % 16384 = _
    omega
  · show (WEP_GETWEIGHT p * 16384 + min (WEP_GETPOS p + maxpos) 16383) / 16384 = _
    omega

theorem add_pos_loop_canAdd (maxpos : Nat) (s : WordEntryPos) (rest dpos : List WordEntryPos) :
    add_pos_loop maxpos (s :: rest) dpos =
      if canAdd dpos then add_pos_loop maxpos rest (dpos ++ [shiftRef maxpos s]) else dpos := by
  have hc : (dpos.length < MAXNUMPOS ∧
      (dpos.length = 0 ∨ WEP_GETPOS (dpos.getLastD 0) ≠ MAXENTRYPOS - 1)) ↔ canAdd dpos := by
    unfold canAdd MAXNUMPOS MAXENTRYPOS
    rw [List.length_eq_zero]
  simp only [add_pos_loop, WEP_SET_eq_shiftRef, hc]

/-- The loop of `add_pos` appends the longest prefix of the source, shifted, that
can be added one position at a time. -/
theorem add_pos_loop_spec (maxpos : Nat) :
    ∀ (src dpos : List WordEntryPos),
      ∃ k, k ≤ src.length ∧
        add_pos_loop maxpos src dpos = dpos ++ (src.take k).map (shiftRef maxpos) ∧
        (∀ j, j < k → canAdd (dpos ++ (src.take j).map (shiftRef maxpos))) ∧
        (k < src.length → ¬ canAdd (dpos ++ (src.take k).map (shiftRef maxpos))) := by
  intro src
  induction src with
  | nil =>
    intro dpos
    exact ⟨0, Nat.le_refl _, by simp [add_pos_loop], by intro j hj; omega, by simp⟩
  | cons s rest ih =>
    intro dpos
    rw [add_pos_loop_canAdd]
    by_cases hc : canAdd dpos
    · obtain ⟨k, hk, heq, hall, hstop⟩ := ih (dpos ++ [shiftRef maxpos s])
      refine ⟨k + 1, by simp only [List.length_cons]; omega, ?_, ?_, ?_⟩
      · rw [if_pos hc, heq]
        simp
      · intro j hj
        cases j with
        | zero => simpa using hc
        | succ j =>
          have := hall j (by omega)
          simpa using this
      · intro hlt
        have := hstop (by simp only [List.length_cons] at hlt; omega)
        simpa using this
    · refine ⟨0, Nat.zero_le _, by rw [if_neg hc]; simp, by intro j hj; omega, ?_⟩
      intro _
      simpa using hc

theorem concat_maxpos_entry_eq (m : Nat) (l : List WordEntryPos) :
    concat_maxpos_entry m l = max m ((l.map WEP_GETPOS).foldr max 0) := by
  induction l generalizing m with
  | nil => simp [concat_maxpos_entry]
  | cons p ps ih =>
    simp only [concat_maxpos_entry, ih, List.map_cons, List.foldr_cons]
    split <;> omega

theorem concat_maxpos_eq (m : Nat) (v : List WordEntry) :
    concat_maxpos m v = max m (maxposRef v) := by
  induction v generalizing m with
  | nil => simp [concat_maxpos, maxposRef]
  | cons e es ih =>
    have hfold : ∀ (a b : List Nat), (a ++ b).foldr max 0 = max (a.foldr max 0) (b.foldr max 0) := by
      intro a b
      induction a with
      | nil => simp
      | cons x xs ihx => simp only [List.cons_append, List.foldr_cons, ihx]; omega
    have hcons : maxposRef (e :: es) =
        max (((POSDATA e).map WEP_GETPOS).foldr max 0) (maxposRef es) := by
      simp only [maxposRef, List.map_cons, List.flatten_cons, List.map_append, hfold]
    simp only [concat_maxpos, ih, hcons, concat_maxpos_entry_eq]
    split
    · omega
    · rename_i h
      have h0 : POSDATA e = [] := by
        apply List.length_eq_zero.1
        simpa using h
      simp [h0]

theorem le_maxposRef (v : List WordEntry) (e : WordEntry) (he : e ∈ v)
    (p : WordEntryPos) (hp : p ∈ POSDATA e) : WEP_GETPOS p ≤ maxposRef v := by
  have hfold : ∀ (l : List Nat) (x : Nat), x ∈ l → x ≤ l.foldr max 0 := by
    intro l
    induction l with
    | nil => intro x hx; cases hx
    | cons y ys ih =>
      intro x hx
      simp only [List.foldr_cons]
      rcases List.mem_cons.1 hx with h | h
      · omega
      · have := ih x h
        omega
  apply hfold
  simp only [List.mem_map, List.mem_flatten]
  exact ⟨p, ⟨POSDATA e, ⟨e, he, rfl⟩, hp⟩, rfl⟩

/-! ## The concatenation claims -/

theorem tsvector_concat_ok (M : Nat) (in1 in2 : TSVector)
    (hs1 : StrictSorted in1) (hs2 : StrictSorted in2) (out : List OutEntry) (d : Nat)
    (hok : tsvector_concat M in1 in2 = some (Except.ok (out, d))) :
    ConcatGood M (concat_maxpos 0 in1) in1 in2 0 out d ∧ d ≤ M := by
  obtain ⟨out2, d2, _, hgood, heq⟩ := tsvector_concat_good M in1 in2 hs1 hs2
  rw [heq] at hok
  by_cases hd : d2 > M
  · rw [if_pos hd] at hok
    cases hok
  · rw [if_neg hd] at hok
    cases hok
    exact ⟨hgood, by omega⟩

theorem lookupEntry_mem (v : TSVector) (x : List Nat) (e : WordEntry)
    (h : lookupEntry v x = some e) : e ∈ v ∧ e.lexeme = x := by
  unfold lookupEntry at h
  exact ⟨List.mem_of_find?_eq_some h, by simpa using List.find?_some h⟩

theorem POSDATA_mergedEntry (maxpos : Nat) (x : List Nat) (h1 : Bool)
    (l1 l2 : List WordEntryPos) :
    POSDATA (mergedEntry maxpos x h1 l1 l2) = add_pos_loop maxpos l2 l1 := by
  unfold POSDATA mergedEntry
  by_cases h : (h1 || decide ((add_pos_loop maxpos l2 l1).length ≠ 0)) = true
  · simp only [h, if_true]
  · simp only [h]
    simp only [Bool.or_eq_true, decide_eq_true_eq, not_or, Decidable.not_not] at h
    exact (List.length_eq_zero.1 h.2).symm

/-- A successful merge of sorted vectors is sorted and holds the lexemes of both. -/
theorem concat_result_sorted (M : Nat) (v1 v2 : TSVector)
    (hs1 : StrictSorted v1) (hs2 : StrictSorted v2) (out : List OutEntry) (d : Nat)
    (hok : tsvector_concat M v1 v2 = some (Except.ok (out, d))) :
    StrictSorted (OutEntry.toTSVector out) ∧
    ((OutEntry.toTSVector out).map WordEntry.lexeme).Nodup ∧
    (∀ x, x ∈ (OutEntry.toTSVector out).map WordEntry.lexeme ↔
      x ∈ v1.map WordEntry.lexeme ∨ x ∈ v2.map WordEntry.lexeme) := by
  obtain ⟨hgood, _⟩ := tsvector_concat_ok M v1 v2 hs1 hs2 out d hok
  have hpw : List.Pairwise entryLt (OutEntry.toTSVector out) := by
    unfold OutEntry.toTSVector
    exact List.pairwise_map.2 hgood.sorted
  refine ⟨hpw.chain', ?_, ?_⟩
  · unfold List.Nodup
    rw [List.pairwise_map]
    exact hpw.imp (fun h => entryLt_ne h)
  · intro x
    simp only [OutEntry.toTSVector, List.map_map, List.mem_map, Function.comp]
    constructor
    · rintro ⟨o, ho, hx⟩
      rcases hgood.source o ho with ⟨e, he, hl⟩ | ⟨e, he, hl⟩
      · exact Or.inl ⟨e, he, hl.trans hx⟩
      · exact Or.inr ⟨e, he, hl.trans hx⟩
    · rintro (⟨e, he, hx⟩ | ⟨e, he, hx⟩)
      · obtain ⟨o, ho, hl⟩ := hgood.left e he
        exact ⟨o, ho, hl.trans hx⟩
      · obtain ⟨o, ho, hl⟩ := hgood.right e he
        exact ⟨o, ho, hl.trans hx⟩

/-- C16: when `tsvector_concat` succeeds on two strictly sorted vectors, the
entries of the result are strictly sorted under `tsCompareString(.., false)`, no
lexeme occurs twice, and the lexemes of the result are exactly the lexemes of
the two inputs. -/
theorem tsvector_concat_sorted (M : Nat) (v1 v2 : TSVector)
    (hs1 : StrictSorted v1) (hs2 : StrictSorted v2) (out : List OutEntry) (d : Nat)
    (hok : tsvector_concat M v1 v2 = some (Except.ok (out, d))) :
    StrictSorted (OutEntry.toTSVector out) ∧
    ((OutEntry.toTSVector out).map WordEntry.lexeme).Nodup ∧
    (∀ x, x ∈ (OutEntry.toTSVector out).map WordEntry.lexeme ↔
      x ∈ v1.map WordEntry.lexeme ∨ x ∈ v2.map WordEntry.lexeme) :=
  concat_result_sorted M v1 v2 hs1 hs2 out d hok

/-- A witness for C16: the concatenation of the two example vectors holds `"a"`,
`"b"`, `"c"`, `"d"`. -/
theorem tsvector_concat_sorted_witness :
    StrictSorted exIn1 ∧ StrictSorted exIn2 ∧
    tsvector_concat 1048575 exIn1 exIn2 = some (Except.ok
      ([⟨0, 0, ⟨[97], true, [1, 49155, 5]⟩⟩, ⟨10, 10, ⟨[98], true, [8, 16383]⟩⟩,
        ⟨18, 18, ⟨[99], false, []⟩⟩, ⟨19, 19, ⟨[100], false, []⟩⟩], 20)) ∧
    (StrictSorted (OutEntry.toTSVector
        [⟨0, 0, ⟨[97], true, [1, 49155, 5]⟩⟩, ⟨10, 10, ⟨[98], true, [8, 16383]⟩⟩,
          ⟨18, 18, ⟨[99], false, []⟩⟩, ⟨19, 19, ⟨[100], false, []⟩⟩]) ∧
      ((OutEntry.toTSVector
        [⟨0, 0, ⟨[97], true, [1, 49155, 5]⟩⟩, ⟨10, 10, ⟨[98], true, [8, 16383]⟩⟩,
          ⟨18, 18, ⟨[99], false, []⟩⟩, ⟨19, 19, ⟨[100], false, []⟩⟩]).map
            WordEntry.lexeme).Nodup ∧
      (∀ x, x ∈ (OutEntry.toTSVector
        [⟨0, 0, ⟨[97], true, [1, 49155, 5]⟩⟩, ⟨10, 10, ⟨[98], true, [8, 16383]⟩⟩,
          ⟨18, 18, ⟨[99], false, []⟩⟩, ⟨19, 19, ⟨[100], false, []⟩⟩]).map
            WordEntry.lexeme ↔
        x ∈ exIn1.map WordEntry.lexeme ∨ x ∈ exIn2.map WordEntry.lexeme)) :=
  ⟨by decide, by decide, rfl,
    tsvector_concat_sorted 1048575 exIn1 exIn2 (by decide) (by decide) _ 20 rfl⟩

theorem concat_maxpos_zero (v : TSVector) : concat_maxpos 0 v = maxposRef v := by
  rw [concat_maxpos_eq]
  omega

theorem posOf_cases (v : TSVector) (x : List Nat) :
    (posOf v x = [] ∧ hasposOf v x = false) ∨
    ∃ e ∈ v, e.lexeme = x ∧ posOf v x = POSDATA e ∧ hasposOf v x = e.haspos := by
  rcases h : lookupEntry v x with _ | e
  · left
    simp [posOf, hasposOf, h]
  · right
    obtain ⟨he, hl⟩ := lookupEntry_mem v x e h
    exact ⟨e, he, hl, by simp [posOf, h], by simp [hasposOf, h]⟩

theorem posOf_wellFormed (v : TSVector) (hw : WellFormed v) (x : List Nat) :
    (posOf v x).length ≤ 256 ∧ (hasposOf v x = true → posOf v x ≠ []) := by
  rcases posOf_cases v x with ⟨h1, h2⟩ | ⟨e, he, _, h1, h2⟩
  · rw [h1, h2]
    exact ⟨by simp, by intro h; cases h⟩
  · rw [h1, h2]
    obtain ⟨hne, hlen, _, _⟩ := hw.2 e he
    refine ⟨hlen, ?_⟩
    intro hpos
    rw [POSDATA_of_haspos e hpos]
    exact hne hpos

/-- The position lists `tsvector_concat` writes, against the lists of the inputs. -/
theorem concat_poslist_spec (M : Nat) (v1 v2 : TSVector)
    (hw1 : WellFormed v1) (hw2 : WellFormed v2) (out : List OutEntry) (d : Nat)
    (hok : tsvector_concat M v1 v2 = some (Except.ok (out, d))) :
    (∀ p : WordEntryPos,
      WEP_GETPOS (shiftRef (maxposRef v1) p) = min (WEP_GETPOS p + maxposRef v1) 16383 ∧
      WEP_GETWEIGHT (shiftRef (maxposRef v1) p) = WEP_GETWEIGHT p) ∧
    ∀ o ∈ out, ∃ k, k ≤ (posOf v2 o.entry.lexeme).length ∧
      POSDATA o.entry = posOf v1 o.entry.lexeme ++
        ((posOf v2 o.entry.lexeme).take k).map (shiftRef (maxposRef v1)) ∧
      (∀ j, j < k → canAdd (posOf v1 o.entry.lexeme ++
        ((posOf v2 o.entry.lexeme).take j).map (shiftRef (maxposRef v1)))) ∧
      (k < (posOf v2 o.entry.lexeme).length → ¬ canAdd (posOf v1 o.entry.lexeme ++
        ((posOf v2 o.entry.lexeme).take k).map (shiftRef (maxposRef v1)))) ∧
      (POSDATA o.entry).length ≤ 256 ∧
      (o.entry.haspos = true ↔ POSDATA o.entry ≠ []) := by
  obtain ⟨hgood, _⟩ := tsvector_concat_ok M v1 v2 hw1.1 hw2.1 out d hok
  rw [concat_maxpos_zero] at hgood
  refine ⟨fun p => shiftRef_pos _ p, ?_⟩
  intro o ho
  have hent := hgood.entries o ho
  have hpd : POSDATA o.entry = add_pos_loop (maxposRef v1) (posOf v2 o.entry.lexeme)
      (posOf v1 o.entry.lexeme) := by
    rw [hent, POSDATA_mergedEntry]
    rw [← hent]
  have hhas : o.entry.haspos = (hasposOf v1 o.entry.lexeme ||
      decide ((add_pos_loop (maxposRef v1) (posOf v2 o.entry.lexeme)
        (posOf v1 o.entry.lexeme)).length ≠ 0)) := by
    have := congrArg WordEntry.haspos hent
    simpa [mergedEntry] using this
  obtain ⟨k, hk, heq, hall, hstop⟩ := add_pos_loop_spec (maxposRef v1)
    (posOf v2 o.entry.lexeme) (posOf v1 o.entry.lexeme)
  obtain ⟨hlen1, hne1⟩ := posOf_wellFormed v1 hw1 o.entry.lexeme
  refine ⟨k, hk, by rw [hpd, heq], hall, hstop, ?_, ?_⟩
  · rw [hpd, heq]
    cases k with
    | zero => simpa using hlen1
    | succ k =>
      have hc := (hall k (by omega)).1
      simp only [List.length_append, List.length_map, List.length_take] at hc ⊢
      omega
  · rw [hhas, ← hpd]
    constructor
    · intro h
      simp only [Bool.or_eq_true, decide_eq_true_eq] at h
      rcases h with h | h
      · intro hnil
        have h1 := hne1 h
        rw [hpd, heq] at hnil
        exact h1 (List.append_eq_nil.1 hnil).1
      · intro hnil
        rw [hnil] at h
        exact h rfl
    · intro h
      simp only [Bool.or_eq_true, decide_eq_true_eq]
      right
      intro hz
      exact h (List.length_eq_zero.1 hz)

/-- C17: when `tsvector_concat` succeeds on two well-formed vectors, the position
list of every lexeme `x` of the result is the list `v1` holds for `x` (empty if
`x` is absent from `v1` or has no positions there), unchanged, followed by the
first `k` positions of the list `v2` holds for `x`, each with its position value
replaced by `min(p + maxpos(v1), 16383)` and its weight class kept; `k` is the
largest count for which every single addition found fewer than 256 entries and
no position 16383 at the end of the list.  The list has at most 256 entries, and
`haspos` is set exactly when it is non-empty. -/
theorem tsvector_concat_positions (M : Nat) (v1 v2 : TSVector)
    (hw1 : WellFormed v1) (hw2 : WellFormed v2) (out : List OutEntry) (d : Nat)
    (hok : tsvector_concat M v1 v2 = some (Except.ok (out, d))) :
    (∀ p : WordEntryPos,
      WEP_GETPOS (shiftRef (maxposRef v1) p) = min (WEP_GETPOS p + maxposRef v1) 16383 ∧
      WEP_GETWEIGHT (shiftRef (maxposRef v1) p) = WEP_GETWEIGHT p) ∧
    ∀ o ∈ out, ∃ k, k ≤ (posOf v2 o.entry.lexeme).length ∧
      POSDATA o.entry = posOf v1 o.entry.lexeme ++
        ((posOf v2 o.entry.lexeme).take k).map (shiftRef (maxposRef v1)) ∧
      (∀ j, j < k → canAdd (posOf v1 o.entry.lexeme ++
        ((posOf v2 o.entry.lexeme).take j).map (shiftRef (maxposRef v1)))) ∧
      (k < (posOf v2 o.entry.lexeme).length → ¬ canAdd (posOf v1 o.entry.lexeme ++
        ((posOf v2 o.entry.lexeme).take k).map (shiftRef (maxposRef v1)))) ∧
      (POSDATA o.entry).length ≤ 256 ∧
      (o.entry.haspos = true ↔ POSDATA o.entry ≠ []) :=
  concat_poslist_spec M v1 v2 hw1 hw2 out d hok

/-- A witness for C17: in the concatenation of the example vectors `"a"` holds
its positions of the first operand followed by position 2 moved to 5, and `"b"`
holds 5 moved to 8 and 16383. -/
theorem tsvector_concat_positions_witness :
    WellFormed exIn1 ∧ WellFormed exIn2 ∧ maxposRef exIn1 = 3 ∧
    tsvector_concat 1048575 exIn1 exIn2 = some (Except.ok
      ([⟨0, 0, ⟨[97], true, [1, 49155, 5]⟩⟩, ⟨10, 10, ⟨[98], true, [8, 16383]⟩⟩,
        ⟨18, 18, ⟨[99], false, []⟩⟩, ⟨19, 19, ⟨[100], false, []⟩⟩], 20)) ∧
    ((∀ p : WordEntryPos,
      WEP_GETPOS (shiftRef (maxposRef exIn1) p) =
        min (WEP_GETPOS p + maxposRef exIn1) 16383 ∧
      WEP_GETWEIGHT (shiftRef (maxposRef exIn1) p) = WEP_GETWEIGHT p) ∧
    ∀ o ∈ ([⟨0, 0, ⟨[97], true, [1, 49155, 5]⟩⟩, ⟨10, 10, ⟨[98], true, [8, 16383]⟩⟩,
        ⟨18, 18, ⟨[99], false, []⟩⟩, ⟨19, 19, ⟨[100], false, []⟩⟩] : List OutEntry),
      ∃ k, k ≤ (posOf exIn2 o.entry.lexeme).length ∧
        POSDATA o.entry = posOf exIn1 o.entry.lexeme ++
          ((posOf exIn2 o.entry.lexeme).take k).map (shiftRef (maxposRef exIn1)) ∧
        (∀ j, j < k → canAdd (posOf exIn1 o.entry.lexeme ++
          ((posOf exIn2 o.entry.lexeme).take j).map (shiftRef (maxposRef exIn1)))) ∧
        (k < (posOf exIn2 o.entry.lexeme).length → ¬ canAdd (posOf exIn1 o.entry.lexeme ++
          ((posOf exIn2 o.entry.lexeme).take k).map (shiftRef (maxposRef exIn1)))) ∧
        (POSDATA o.entry).length ≤ 256 ∧
        (o.entry.haspos = true ↔ POSDATA o.entry ≠ [])) :=
  ⟨by decide, by decide, by decide, rfl,
    tsvector_concat_positions 1048575 exIn1 exIn2 (by decide) (by decide) _ 20 rfl⟩

theorem getLastD_mem_of_ne_nil (l : List WordEntryPos) (h : l ≠ []) :
    l.getLastD 0 ∈ l := by
  cases l with
  | nil => exact absurd rfl h
  | cons a t =>
    rw [List.getLastD_cons]
    exact List.getLastD_mem_cons t a

/-- When no shifted position is clamped and the two lists together respect the
cap, every position of the second list can be added. -/
theorem canAdd_all (m : Nat) (l1 l2 : List WordEntryPos)
    (hlen : l1.length + l2.length ≤ 256)
    (hl1 : ∀ q ∈ l1, WEP_GETPOS q ≤ m)
    (hl2 : ∀ p ∈ l2, 1 ≤ WEP_GETPOS p ∧ WEP_GETPOS p + m ≤ 16383)
    (hs : List.Sorted (· < ·) (l2.map WEP_GETPOS)) :
    ∀ k, k < l2.length → canAdd (l1 ++ (l2.take k).map (shiftRef m)) := by
  intro k hk
  refine ⟨?_, ?_⟩
  · simp only [List.length_append, List.length_map, List.length_take]
    omega
  · cases k with
    | zero =>
      by_cases hnil : l1 = []
      · left; simp [hnil]
      · right
        have hmem := getLastD_mem_of_ne_nil l1 hnil
        have h1 := hl1 _ hmem
        have hp := hl2 (l2[0]) (List.getElem_mem _)
        simp only [List.take_zero, List.map_nil, List.append_nil]
        omega
    | succ k =>
      right
      have hk2 : k < l2.length := by omega
      have htake : l2.take (k + 1) = l2.take k ++ [l2[k]] := by
        rw [List.take_succ, List.getElem?_eq_getElem hk2]
        rfl
      rw [htake, List.map_append, List.map_singleton, ← List.append_assoc,
        List.getLastD_concat, (shiftRef_pos m _).1]
      have hp1 := hl2 (l2[k]) (List.getElem_mem _)
      have hp2 := hl2 (l2[k + 1]) (List.getElem_mem _)
      have hlt : WEP_GETPOS (l2[k]) < WEP_GETPOS (l2[k + 1]) := by
        have hpw : List.Pairwise (fun a b => WEP_GETPOS a < WEP_GETPOS b) l2 :=
          List.pairwise_map.1 hs
        rw [List.pairwise_iff_getElem] at hpw
        exact hpw k (k + 1) hk2 hk (by omega)
      omega

/-- C18: when `tsvector_concat` succeeds on two well-formed vectors such that no
position of `v2` is clamped (`p + maxpos(v1) ≤ 16383`) and no merged list exceeds
256 entries, the position list of every lexeme of the result is the list of `v1`
followed by the whole list of `v2`, moved; every position that comes from `v2`
has the value `p + maxpos(v1)` and its weight class, and that value is strictly
greater than `maxpos(v1)`, which no position value of `v1` exceeds. -/
theorem tsvector_concat_shift (M : Nat) (v1 v2 : TSVector)
    (hw1 : WellFormed v1) (hw2 : WellFormed v2)
    (hclamp : ∀ e ∈ v2, ∀ p ∈ POSDATA e, WEP_GETPOS p + maxposRef v1 ≤ 16383)
    (hcap2 : ∀ e1 ∈ v1, ∀ e2 ∈ v2, e1.lexeme = e2.lexeme →
      (POSDATA e1).length + (POSDATA e2).length ≤ 256)
    (out : List OutEntry) (d : Nat)
    (hok : tsvector_concat M v1 v2 = some (Except.ok (out, d))) :
    (∀ e ∈ v1, ∀ q ∈ POSDATA e, WEP_GETPOS q ≤ maxposRef v1) ∧
    ∀ o ∈ out,
      POSDATA o.entry = posOf v1 o.entry.lexeme ++
        (posOf v2 o.entry.lexeme).map (shiftRef (maxposRef v1)) ∧
      ∀ p ∈ posOf v2 o.entry.lexeme,
        WEP_GETPOS (shiftRef (maxposRef v1) p) = WEP_GETPOS p + maxposRef v1 ∧
        maxposRef v1 < WEP_GETPOS (shiftRef (maxposRef v1) p) ∧
        WEP_GETWEIGHT (shiftRef (maxposRef v1) p) = WEP_GETWEIGHT p := by
  obtain ⟨_, hpos⟩ := concat_poslist_spec M v1 v2 hw1 hw2 out d hok
  have hcap : ∀ x, (posOf v1 x).length + (posOf v2 x).length ≤ 256 := by
    intro x
    have h1 := (posOf_wellFormed v1 hw1 x).1
    have h2 := (posOf_wellFormed v2 hw2 x).1
    rcases posOf_cases v1 x with ⟨e1, _⟩ | ⟨e1, he1, hx1, hp1, _⟩
    · rw [e1] at h1 ⊢
      simpa using h2
    · rcases posOf_cases v2 x with ⟨e2, _⟩ | ⟨e2, he2, hx2, hp2, _⟩
      · rw [e2] at h2 ⊢
        simpa using h1
      · rw [hp1, hp2]
        exact hcap2 e1 he1 e2 he2 (hx1.trans hx2.symm)
  refine ⟨fun e he q hq => le_maxposRef v1 e he q hq, ?_⟩
  intro o ho
  obtain ⟨k, hk, heq, _, hstop, _, _⟩ := hpos o ho
  have hl1 : ∀ q ∈ posOf v1 o.entry.lexeme, WEP_GETPOS q ≤ maxposRef v1 := by
    intro q hq
    rcases posOf_cases v1 o.entry.lexeme with ⟨h1, _⟩ | ⟨e, he, _, h1, _⟩
    · rw [h1] at hq; cases hq
    · rw [h1] at hq
      exact le_maxposRef v1 e he q hq
  have hl2 : (∀ p ∈ posOf v2 o.entry.lexeme,
        1 ≤ WEP_GETPOS p ∧ WEP_GETPOS p + maxposRef v1 ≤ 16383) ∧
      List.Sorted (· < ·) ((posOf v2 o.entry.lexeme).map WEP_GETPOS) := by
    rcases posOf_cases v2 o.entry.lexeme with ⟨h1, _⟩ | ⟨e, he, _, h1, _⟩
    · rw [h1]
      exact ⟨(by intro p hp; cases hp), (by simp)⟩
    · rw [h1]
      obtain ⟨_, _, hrange, hsorted⟩ := hw2.2 e he
      exact ⟨fun p hp => ⟨(hrange p hp).1, hclamp e he p hp⟩, hsorted⟩
  have hkfull : k = (posOf v2 o.entry.lexeme).length := by
    by_contra hne
    have hlt : k < (posOf v2 o.entry.lexeme).length := by omega
    exact hstop hlt (canAdd_all (maxposRef v1) _ _ (hcap _) hl1 hl2.1 hl2.2 k hlt)
  refine ⟨by rw [heq, hkfull, List.take_length], ?_⟩
  intro p hp
  obtain ⟨h1, h2⟩ := shiftRef_pos (maxposRef v1) p
  have := hl2.1 p hp
  refine ⟨by rw [h1]; omega, by rw [h1]; omega, h2⟩

/-- A witness for C18: the first and the third example vector; position 7 of
`"b"` becomes 10, above the largest position 3 of the first operand. -/
theorem tsvector_concat_shift_witness :
    WellFormed exIn1 ∧ WellFormed exIn3 ∧ maxposRef exIn1 = 3 ∧
    tsvector_concat 1048575 exIn1 exIn3 = some (Except.ok
      ([⟨0, 0, ⟨[97], true, [1, 49155]⟩⟩, ⟨8, 8, ⟨[98], true, [10]⟩⟩,
        ⟨14, 14, ⟨[99], false, []⟩⟩, ⟨15, 15, ⟨[101], false, []⟩⟩], 16)) ∧
    ((∀ e ∈ exIn1, ∀ q ∈ POSDATA e, WEP_GETPOS q ≤ maxposRef exIn1) ∧
    ∀ o ∈ ([⟨0, 0, ⟨[97], true, [1, 49155]⟩⟩, ⟨8, 8, ⟨[98], true, [10]⟩⟩,
        ⟨14, 14, ⟨[99], false, []⟩⟩, ⟨15, 15, ⟨[101], false, []⟩⟩] : List OutEntry),
      POSDATA o.entry = posOf exIn1 o.entry.lexeme ++
        (posOf exIn3 o.entry.lexeme).map (shiftRef (maxposRef exIn1)) ∧
      ∀ p ∈ posOf exIn3 o.entry.lexeme,
        WEP_GETPOS (shiftRef (maxposRef exIn1) p) = WEP_GETPOS p + maxposRef exIn1 ∧
        maxposRef exIn1 < WEP_GETPOS (shiftRef (maxposRef exIn1) p) ∧
        WEP_GETWEIGHT (shiftRef (maxposRef exIn1) p) = WEP_GETWEIGHT p) :=
  ⟨by decide, by decide, by decide, rfl,
    tsvector_concat_shift 1048575 exIn1 exIn3 (by decide) (by decide) (by decide)
      (by decide) _ 16 rfl⟩

/-! ## The size limit of tsvector_concat -/

theorem ConcatOffsets.cons {M d dnext d2 : Nat} {o : OutEntry} {out : List OutEntry}
    (hat : o.lexemeAt = d ∧ o.pos = d % (M + 1) ∧ d ≤ dnext)
    (h : ConcatOffsets M dnext out d2) : ConcatOffsets M d (o :: out) d2 := by
  refine ⟨le_trans hat.2.2 h.1, ?_⟩
  intro o2 ho2
  rcases List.mem_cons.1 ho2 with h2 | h2
  · rw [h2]
    exact ⟨by rw [hat.1], by rw [hat.1]; exact le_trans hat.2.2 h.1, by rw [hat.2.1, hat.1]⟩
  · obtain ⟨h3, h4, h5⟩ := h.2 o2 h2
    exact ⟨le_trans hat.2.2 h3, h4, h5⟩

theorem ConcatOffsets.append {M d d1 d2 : Nat} {out1 out2 : List OutEntry}
    (h1 : ConcatOffsets M d out1 d1) (h2 : ConcatOffsets M d1 out2 d2) :
    ConcatOffsets M d (out1 ++ out2) d2 := by
  refine ⟨le_trans h1.1 h2.1, ?_⟩
  intro o ho
  rcases List.mem_append.1 ho with h | h
  · obtain ⟨h3, h4, h5⟩ := h1.2 o h
    exact ⟨h3, le_trans h4 h2.1, h5⟩
  · obtain ⟨h3, h4, h5⟩ := h2.2 o h
    exact ⟨le_trans h1.1 h3, h4, h5⟩

theorem concat_tail1_offsets (M : Nat) :
    ∀ (in1 : List WordEntry) (d : Nat),
      ConcatOffsets M d (concat_tail1 M in1 d).1 (concat_tail1 M in1 d).2 := by
  intro in1
  induction in1 with
  | nil => intro d; exact ⟨Nat.le_refl _, by intro o ho; cases ho⟩
  | cons e rest ih => intro d; exact ConcatOffsets.cons (concat_in1_off M e d) (ih _)

theorem concat_tail2_offsets (M maxpos : Nat) :
    ∀ (in2 : List WordEntry) (d : Nat),
      ConcatOffsets M d (concat_tail2 M maxpos in2 d).1 (concat_tail2 M maxpos in2 d).2 := by
  intro in2
  induction in2 with
  | nil => intro d; exact ⟨Nat.le_refl _, by intro o ho; cases ho⟩
  | cons e rest ih => intro d; exact ConcatOffsets.cons (concat_in2_off M maxpos e d) (ih _)

theorem concat_tails_offsets (M maxpos : Nat) (in1 in2 : List WordEntry) (d : Nat) :
    ConcatOffsets M d (concat_tails M maxpos in1 in2 d).1 (concat_tails M maxpos in1 in2 d).2 :=
  ConcatOffsets.append (concat_tail1_offsets M in1 d) (concat_tail2_offsets M maxpos in2 _)

/-- The merge ends within `in1->size + in2->size` iterations on any two inputs,
and the offsets only grow. -/
theorem concat_loop_offsets (M maxpos : Nat) :
    ∀ (fuel : Nat) (in1 in2 : List WordEntry) (d : Nat),
      in1.length + in2.length ≤ fuel →
      ∃ out d2, concat_loop M maxpos fuel in1 in2 d = some (out, d2) ∧
        ConcatOffsets M d out d2 := by
  intro fuel
  induction fuel with
  | zero =>
    intro in1 in2 d hlen
    have h1 : in1 = [] := List.length_eq_zero.1 (by omega)
    have h2 : in2 = [] := List.length_eq_zero.1 (by omega)
    subst h1; subst h2
    exact ⟨_, _, by simp [concat_loop], concat_tails_offsets M maxpos [] [] d⟩
  | succ fuel ih =>
    intro in1 in2 d hlen
    cases in1 with
    | nil => exact ⟨_, _, by simp [concat_loop], concat_tails_offsets M maxpos [] in2 d⟩
    | cons e1 rest1 =>
      cases in2 with
      | nil =>
        exact ⟨_, _, by simp [concat_loop], concat_tails_offsets M maxpos (e1 :: rest1) [] d⟩
      | cons e2 rest2 =>
        simp only [List.length_cons] at hlen
        by_cases hneg : tsCompareString e1.lexeme e2.lexeme false < 0
        · obtain ⟨out, d2, heq, hoff⟩ := ih rest1 (e2 :: rest2) (concat_in1 M e1 d).2
            (by simp only [List.length_cons]; omega)
          exact ⟨(concat_in1 M e1 d).1 :: out, d2, by simp [concat_loop, hneg, heq],
            ConcatOffsets.cons (concat_in1_off M e1 d) hoff⟩
        · by_cases hpos : tsCompareString e1.lexeme e2.lexeme false > 0
          · obtain ⟨out, d2, heq, hoff⟩ := ih (e1 :: rest1) rest2
              (concat_in2 M maxpos e2 d).2 (by simp only [List.length_cons]; omega)
            exact ⟨(concat_in2 M maxpos e2 d).1 :: out, d2,
              by simp [concat_loop, hneg, hpos, heq],
              ConcatOffsets.cons (concat_in2_off M maxpos e2 d) hoff⟩
          · obtain ⟨out, d2, heq, hoff⟩ := ih rest1 rest2 (concat_both M maxpos e1 e2 d).2
              (by omega)
            exact ⟨(concat_both M maxpos e1 e2 d).1 :: out, d2,
              by simp [concat_loop, hneg, hpos, heq],
              ConcatOffsets.cons (concat_both_off M maxpos e1 e2 d) hoff⟩

/-- C19: `tsvector_concat` returns on all inputs; with `d` the size of the merged
data area, it raises the program-limit error exactly when `d` exceeds
`MAXSTRPOS` (`M`), and then returns no vector; otherwise it returns the merged
entries, and the field `pos` of every entry is the offset at which its lexeme
was written, which is at most `MAXSTRPOS`. -/
theorem tsvector_concat_limit (M : Nat) (v1 v2 : TSVector) :
    ∃ (out : List OutEntry) (d : Nat),
      concat_loop M (concat_maxpos 0 v1) (v1.length + v2.length) v1 v2 0 = some (out, d) ∧
      ((∃ err, tsvector_concat M v1 v2 = some (Except.error err)) ↔ M < d) ∧
      (M < d → tsvector_concat M v1 v2 =
        some (Except.error (TsError.programLimitExceeded d))) ∧
      (d ≤ M → tsvector_concat M v1 v2 = some (Except.ok (out, d)) ∧
        ∀ o ∈ out, o.pos = o.lexemeAt ∧ o.pos ≤ M ∧ o.lexemeAt ≤ d) := by
  obtain ⟨out, d, heq, hoff⟩ := concat_loop_offsets M (concat_maxpos 0 v1)
    (v1.length + v2.length) v1 v2 0 (Nat.le_refl _)
  have hres : tsvector_concat M v1 v2 =
      some (if d > M then Except.error (TsError.programLimitExceeded d)
        else Except.ok (out, d)) := by
    unfold tsvector_concat
    simp only [heq]
    split <;> rfl
  refine ⟨out, d, heq, ?_, ?_, ?_⟩
  · constructor
    · rintro ⟨err, herr⟩
      by_contra hle
      rw [hres, if_neg hle] at herr
      cases herr
    · intro hlt
      exact ⟨_, by rw [hres, if_pos hlt]⟩
  · intro hlt
    rw [hres, if_pos hlt]
  · intro hle
    refine ⟨by rw [hres, if_neg (by omega)], ?_⟩
    intro o ho
    obtain ⟨_, h2, h3⟩ := hoff.2 o ho
    have hmod : o.lexemeAt % (M + 1) = o.lexemeAt := Nat.mod_eq_of_lt (by omega)
    exact ⟨by rw [h3, hmod], by rw [h3, hmod]; omega, h2⟩

/-! ## Associativity of tsvector_concat on lexemes -/

instance lexLt_isAntisymm : IsAntisymm (List Nat) lexLt :=
  ⟨fun a b hab hba => by
    unfold lexLt at hab hba
    have := (tsCompareString_false_swap a b).2 hba
    omega⟩

theorem lexLt_ne {a b : List Nat} (h : lexLt a b) : a ≠ b := by
  intro heq
  unfold lexLt at h
  rw [heq, tsCompareString_false_self] at h
  omega

theorem sorted_lexemes_unique (l1 l2 : List (List Nat))
    (h1 : List.Pairwise lexLt l1) (h2 : List.Pairwise lexLt l2)
    (hmem : ∀ x, x ∈ l1 ↔ x ∈ l2) : l1 = l2 := by
  have hd1 : l1.Nodup := h1.imp (fun h => lexLt_ne h)
  have hd2 : l2.Nodup := h2.imp (fun h => lexLt_ne h)
  have hperm : l1.Perm l2 := (List.perm_ext_iff_of_nodup hd1 hd2).2 hmem
  exact List.eq_of_perm_of_sorted hperm h1 h2

theorem StrictSorted.lexemes_pairwise {v : TSVector} (h : StrictSorted v) :
    List.Pairwise lexLt (v.map WordEntry.lexeme) := by
  rw [List.pairwise_map]
  exact h.pairwise

/-- C20: for strictly sorted vectors `a`, `b`, `c` for which the four
concatenations succeed, `concat(concat(a, b), c)` and `concat(a, concat(b, c))`
hold the same sequence of lexemes. -/
theorem tsvector_concat_assoc_lexemes (M : Nat) (a b c : TSVector)
    (hsa : StrictSorted a) (hsb : StrictSorted b) (hsc : StrictSorted c)
    (ab bc abc abc2 : List OutEntry) (dab dbc d1 d2 : Nat)
    (hab : tsvector_concat M a b = some (Except.ok (ab, dab)))
    (hbc : tsvector_concat M b c = some (Except.ok (bc, dbc)))
    (h1 : tsvector_concat M (OutEntry.toTSVector ab) c = some (Except.ok (abc, d1)))
    (h2 : tsvector_concat M a (OutEntry.toTSVector bc) = some (Except.ok (abc2, d2))) :
    (OutEntry.toTSVector abc).map WordEntry.lexeme =
      (OutEntry.toTSVector abc2).map WordEntry.lexeme := by
  obtain ⟨hsab, _, hmab⟩ := concat_result_sorted M a b hsa hsb ab dab hab
  obtain ⟨hsbc, _, hmbc⟩ := concat_result_sorted M b c hsb hsc bc dbc hbc
  obtain ⟨hs1, _, hm1⟩ := concat_result_sorted M _ c hsab hsc abc d1 h1
  obtain ⟨hs2, _, hm2⟩ := concat_result_sorted M a _ hsa hsbc abc2 d2 h2
  apply sorted_lexemes_unique _ _ hs1.lexemes_pairwise hs2.lexemes_pairwise
  intro x
  rw [hm1 x, hm2 x, hmab x, hmbc x]
  tauto

/-- A witness for C20: the three example vectors; both groupings hold `"a"`,
`"b"`, `"c"`, `"d"`, `"e"`. -/
theorem tsvector_concat_assoc_lexemes_witness :
    StrictSorted exIn1 ∧ StrictSorted exIn2 ∧ StrictSorted exIn3 ∧
    tsvector_concat 1048575 exIn1 exIn2 = some (Except.ok (exOut12, 20)) ∧
    tsvector_concat 1048575 exIn2 exIn3 = some (Except.ok (exOut23, 16)) ∧
    tsvector_concat 1048575 (OutEntry.toTSVector exOut12) exIn3 =
      some (Except.ok (exOut123, 21)) ∧
    tsvector_concat 1048575 exIn1 (OutEntry.toTSVector exOut23) =
      some (Except.ok (exOut123, 21)) ∧
    (OutEntry.toTSVector exOut123).map WordEntry.lexeme =
      (OutEntry.toTSVector exOut123).map WordEntry.lexeme :=
  ⟨by decide, by decide, by decide, rfl, rfl, rfl, rfl,
    tsvector_concat_assoc_lexemes 1048575 exIn1 exIn2 exIn3 (by decide) (by decide)
      (by decide) exOut12 exOut23 exOut123 exOut123 20 16 21 21 rfl rfl rfl rfl⟩

/-! ## tsvector_strip -/

theorem strip_len_eq (v : List WordEntry) (len : Nat) :
    strip_len v len = len + (v.map (fun e => e.lexeme.length)).sum := by
  induction v generalizing len with
  | nil => simp [strip_len]
  | cons e rest ih => simp [strip_len, ih]; omega

theorem strip_loop_length (M : Nat) (v : List WordEntry) (cur : Nat) :
    (strip_loop M v cur).length = v.length := by
  induction v generalizing cur with
  | nil => simp [strip_loop]
  | cons e rest ih => simp [strip_loop, ih]

theorem strip_loop_entries (M : Nat) (v : List WordEntry) (cur : Nat) :
    OutEntry.toTSVector (strip_loop M v cur) = v.map (fun e => ⟨e.lexeme, false, []⟩) := by
  induction v generalizing cur with
  | nil => simp [strip_loop, OutEntry.toTSVector]
  | cons e rest ih =>
    have := ih (cur + e.lexeme.length)
    simp only [OutEntry.toTSVector] at this
    simp [strip_loop, OutEntry.toTSVector, this]

theorem strip_loop_getElem (M : Nat) (v : List WordEntry) :
    ∀ (cur i : Nat) (o : OutEntry), (strip_loop M v cur)[i]? = some o →
      o.lexemeAt = cur + ((v.take i).map (fun e => e.lexeme.length)).sum ∧
      o.pos = o.lexemeAt % (M + 1) := by
  induction v with
  | nil => intro cur i o h; simp [strip_loop] at h
  | cons e rest ih =>
    intro cur i o h
    cases i with
    | zero =>
      simp [strip_loop] at h
      subst h
      simp
    | succ i =>
      simp only [strip_loop, List.getElem?_cons_succ] at h
      obtain ⟨h1, h2⟩ := ih _ i o h
      refine ⟨?_, h2⟩
      rw [h1]
      simp
      omega

/-- C27: `tsvector_strip` gives a vector with as many entries as its input, with
the same lexemes in the same order, `haspos` cleared and no position data on any
entry; the lexemes lie back to back in the data area: entry `i` starts at the sum
of the lengths of the lexemes before it, which is also its field `pos` as every
such offset fits the field, and the data area has the length of all lexemes
together. -/
theorem tsvector_strip_spec (M : Nat) (v : TSVector)
    (hfit : ∀ i, i < v.length → ((v.take i).map (fun e => e.lexeme.length)).sum ≤ M) :
    (tsvector_strip M v).1.length = v.length ∧
    (tsvector_strip M v).1.map (fun o => o.entry.lexeme) = v.map (fun e => e.lexeme) ∧
    (∀ o ∈ (tsvector_strip M v).1, o.entry.haspos = false ∧ POSDATA o.entry = []) ∧
    (∀ (i : Nat) (o : OutEntry), (tsvector_strip M v).1[i]? = some o →
      o.pos = ((v.take i).map (fun e => e.lexeme.length)).sum ∧
      o.lexemeAt = ((v.take i).map (fun e => e.lexeme.length)).sum) ∧
    (tsvector_strip M v).2 = (v.map (fun e => e.lexeme.length)).sum := by
  have hent := strip_loop_entries M v 0
  simp only [OutEntry.toTSVector] at hent
  refine ⟨strip_loop_length M v 0, ?_, ?_, ?_, ?_⟩
  · have := congrArg (List.map WordEntry.lexeme) hent
    simpa [tsvector_strip, List.map_map, Function.comp] using this
  · intro o ho
    have hmem : o.entry ∈ (strip_loop M v 0).map OutEntry.entry :=
      List.mem_map_of_mem _ ho
    rw [hent] at hmem
    obtain ⟨e, _, he⟩ := List.mem_map.1 hmem
    rw [← he]
    simp [POSDATA]
  · intro i o hio
    have hlen : i < v.length := by
      have := (List.getElem?_eq_some_iff.1 hio).1
      simpa [tsvector_strip, strip_loop_length] using this
    obtain ⟨h1, h2⟩ := strip_loop_getElem M v 0 i o hio
    simp only [Nat.zero_add] at h1
    refine ⟨?_, h1⟩
    rw [h2, h1]
    exact Nat.mod_eq_of_lt (Nat.lt_succ_of_le (hfit i hlen))
  · simp [tsvector_strip, strip_len_eq]

/-- A witness for C27: the example vector `"a"`, `"c"` with `MAXSTRPOS = 2^20 - 1`. -/
theorem tsvector_strip_spec_witness :
    (∀ i, i < exIn1.length → ((exIn1.take i).map (fun e => e.lexeme.length)).sum ≤ 1048575) ∧
    (tsvector_strip 1048575 exIn1).1.length = exIn1.length ∧
    (tsvector_strip 1048575 exIn1).1.map (fun o => o.entry.lexeme) =
      exIn1.map (fun e => e.lexeme) ∧
    (tsvector_strip 1048575 exIn1).1 =
      [⟨0, 0, ⟨[97], false, []⟩⟩, ⟨1, 1, ⟨[99], false, []⟩⟩] :=
  have h : ∀ i, i < exIn1.length →
      ((exIn1.take i).map (fun e => e.lexeme.length)).sum ≤ 1048575 := by decide
  ⟨h, (tsvector_strip_spec 1048575 exIn1 h).1, (tsvector_strip_spec 1048575 exIn1 h).2.1,
    by decide⟩

/-! ## tsvector_setweight and tsvector_setweight_by_filter -/

theorem WEP_GETPOS_SETWEIGHT (p : WordEntryPos) (w : Nat) :
    WEP_GETPOS (WEP_SETWEIGHT p w) = WEP_GETPOS p := by
  unfold WEP_GETPOS WEP_SETWEIGHT
  show @Eq Nat _ _
  omega

theorem WEP_GETWEIGHT_SETWEIGHT (p : WordEntryPos) (w : Nat) :
    WEP_GETWEIGHT (WEP_SETWEIGHT p w) = w := by
  unfold WEP_GETWEIGHT WEP_SETWEIGHT
  show @Eq Nat _ _
  omega

theorem setweight_positions_eq_map (w : Nat) (l : List WordEntryPos) :
    setweight_positions w l = l.map (fun p => WEP_SETWEIGHT p w) := by
  induction l with
  | nil => rfl
  | cons p ps ih => simp [setweight_positions, ih]

theorem setweight_entries_eq_map (w : Nat) (v : List WordEntry) :
    setweight_entries w v = v.map (setweight_entry w) := by
  induction v with
  | nil => rfl
  | cons e rest ih => simp [setweight_entries, ih]

theorem setweight_entry_lexeme (w : Nat) (e : WordEntry) :
    (setweight_entry w e).lexeme = e.lexeme := by
  unfold setweight_entry
  split <;> rfl

theorem setweight_entry_haspos (w : Nat) (e : WordEntry) :
    (setweight_entry w e).haspos = e.haspos := by
  unfold setweight_entry
  split <;> rfl

theorem setweight_entry_POSDATA (w : Nat) (e : WordEntry) :
    POSDATA (setweight_entry w e) = (POSDATA e).map (fun p => WEP_SETWEIGHT p w) := by
  unfold setweight_entry
  by_cases h : (POSDATA e).length ≠ 0
  · rw [if_pos h]
    have hp : e.haspos = true := by
      by_contra hc
      simp [POSDATA, hc] at h
    simp [POSDATA, hp, setweight_positions_eq_map]
  · rw [if_neg h]
    have : POSDATA e = [] := by
      simpa using h
    simp [this]

theorem setweight_entry_of_nopos (w : Nat) (e : WordEntry) (h : (POSDATA e).length = 0) :
    setweight_entry w e = e := by
  unfold setweight_entry
  simp [h]

theorem setweight_entry_idem (w : Nat) (e : WordEntry) :
    setweight_entry w (setweight_entry w e) = setweight_entry w e := by
  by_cases h : (POSDATA e).length ≠ 0
  · have hp : e.haspos = true := by
      by_contra hc
      simp [POSDATA, hc] at h
    have h1 : setweight_entry w e =
        ⟨e.lexeme, e.haspos, setweight_positions w (POSDATA e)⟩ := by
      unfold setweight_entry
      rw [if_pos h]
    rw [h1]
    unfold setweight_entry
    simp only [POSDATA, hp, if_true, setweight_positions_eq_map, List.length_map,
      List.map_map]
    have h2 : e.posvec.length ≠ 0 := by simpa [POSDATA, hp] using h
    simp only [h2, ne_eq, not_false_eq_true, if_true]
    congr 1
    apply List.map_congr_left
    intro p _
    simp only [Function.comp, WEP_SETWEIGHT]
    show @Eq Nat _ _
    omega
  · have h0 : (POSDATA e).length = 0 := by omega
    rw [setweight_entry_of_nopos w e h0, setweight_entry_of_nopos w e h0]

theorem setweight_switch_ok {cw w : Nat} (h : (cw, w) ∈ weightLetters) :
    setweight_switch cw = Except.ok w := by
  simp only [weightLetters, List.mem_cons, Prod.mk.injEq, List.mem_singleton,
    List.mem_nil_iff, or_false] at h
  rcases h with h | h | h | h | h | h | h | h <;> obtain ⟨rfl, rfl⟩ := h <;> rfl

theorem setweight_switch_error {cw : Nat} (h : ∀ w, (cw, w) ∉ weightLetters) :
    setweight_switch cw = Except.error (TsError.unrecognizedWeight cw) := by
  have h3 := h 3
  have h2 := h 2
  have h1 := h 1
  have h0 := h 0
  simp [weightLetters] at h3 h2 h1 h0
  unfold setweight_switch
  have e1 : ¬ (cw = 65 ∨ cw = 97) := by omega
  have e2 : ¬ (cw = 66 ∨ cw = 98) := by omega
  have e3 : ¬ (cw = 67 ∨ cw = 99) := by omega
  have e4 : ¬ (cw = 68 ∨ cw = 100) := by omega
  simp only [e1, e2, e3, e4, if_false]

theorem weightLetters_cases (cw : Nat) :
    (∃ w, (cw, w) ∈ weightLetters) ∨ ∀ w, (cw, w) ∉ weightLetters := by
  by_cases h : ∃ w, (cw, w) ∈ weightLetters
  · exact Or.inl h
  · right
    intro w hw
    exact h ⟨w, hw⟩

/-- The search returns whatever the order of the entries, and a result that is
not negative is the index of an entry. -/
theorem tsvector_bsearch_loop_total (v : TSVector) (t : List Nat) :
    ∀ (fuel lo hi : Nat), hi ≤ v.length → hi - lo ≤ fuel →
      ∃ r : Int, tsvector_bsearch_loop v t fuel lo hi = some r ∧
        (r = -1 ∨ ∃ (i : Nat) (e : WordEntry), r = (i : Int) ∧ v[i]? = some e) := by
  intro fuel
  induction fuel with
  | zero =>
    intro lo hi _ hfuel
    have hge : ¬ lo < hi := by omega
    exact ⟨-1, by simp [tsvector_bsearch_loop, hge], Or.inl rfl⟩
  | succ fuel ih =>
    intro lo hi hhi hfuel
    by_cases hlt : lo < hi
    · have hmid : (lo + hi) / 2 < v.length := by omega
      have hget : v[(lo + hi) / 2]? = some (v[(lo + hi) / 2]) :=
        List.getElem?_eq_getElem hmid
      simp only [tsvector_bsearch_loop, hlt, if_true, hget]
      by_cases h1 : tsCompareString t (v[(lo + hi) / 2]).lexeme false < 0
      · simp only [h1, if_true]
        exact ih lo ((lo + hi) / 2) (by omega) (by omega)
      · simp only [h1, if_false]
        by_cases h2 : tsCompareString t (v[(lo + hi) / 2]).lexeme false > 0
        · simp only [h2, if_true]
          exact ih ((lo + hi) / 2 + 1) hi hhi (by omega)
        · simp only [h2, if_false]
          exact ⟨_, rfl, Or.inr ⟨(lo + hi) / 2, _, rfl, hget⟩⟩
    · exact ⟨-1, by simp [tsvector_bsearch_loop, hlt], Or.inl rfl⟩

theorem tsvector_bsearch_total (v : TSVector) (t : List Nat) :
    ∃ r : Int, tsvector_bsearch v t = some r ∧
      (r = -1 ∨ ∃ (i : Nat) (e : WordEntry), r = (i : Int) ∧ v[i]? = some e) :=
  tsvector_bsearch_loop_total v t v.length 0 v.length (Nat.le_refl _) (by omega)

theorem tsvector_bsearch_cases (v : TSVector) (hs : StrictSorted v) (t : List Nat) :
    (∃ (i : Nat) (e : WordEntry), tsvector_bsearch v t = some (i : Int) ∧
        v[i]? = some e ∧ e.lexeme = t) ∨
    (tsvector_bsearch v t = some (-1) ∧ ∀ e ∈ v, e.lexeme ≠ t) := by
  have h := tsvector_bsearch_loop_spec v hs t v.length 0 v.length (Nat.le_refl _)
    (by omega) (by intro i e hi; omega) (by
      intro i e hi hie
      have := (List.getElem?_eq_some_iff.1 hie).1
      omega)
  rcases h with ⟨i, e, h1, _, _, h4, h5⟩ | ⟨h1, h2⟩
  · exact Or.inl ⟨i, e, h1, h4, h5⟩
  · exact Or.inr ⟨h1, h2⟩

theorem StrictSorted.map_of_lexeme {v : TSVector} (h : StrictSorted v) (f : WordEntry → WordEntry)
    (hf : ∀ e, (f e).lexeme = e.lexeme) : StrictSorted (v.map f) := by
  unfold StrictSorted at h ⊢
  rw [List.chain'_map]
  refine List.Chain'.imp ?_ h
  intro a b hab
  unfold entryLt at hab ⊢
  rw [hf a, hf b]
  exact hab

/-- Overwriting the entry found for a lexeme is the same as rewriting every entry
with that lexeme, a strictly sorted vector holding each lexeme once. -/
theorem set_eq_map_of_sorted {v : TSVector} (hs : StrictSorted v) {i : Nat} {e : WordEntry}
    (hi : v[i]? = some e) (f : WordEntry → WordEntry) :
    v.set i (f e) = v.map (fun x => if x.lexeme = e.lexeme then f x else x) := by
  apply List.ext_getElem?
  intro j
  rw [List.getElem?_set, List.getElem?_map]
  have hlt : i < v.length := (List.getElem?_eq_some_iff.1 hi).1
  by_cases hij : i = j
  · subst hij
    simp [hlt, hi]
  · simp only [hij, if_false]
    rcases hj : v[j]? with _ | x
    · simp
    · have hne : x.lexeme ≠ e.lexeme := by
        intro hxe
        exact hij (hs.index_unique hi hj hxe.symm)
      simp [hne]

theorem setweight_filter_loop_cons_found (w : Nat) (lex : List Nat)
    (rest : List (Option (List Nat))) (tsout : TSVector) (i : Nat) (e : WordEntry)
    (hb : tsvector_bsearch tsout lex = some (i : Int)) (hi : tsout[i]? = some e) :
    setweight_filter_loop w (some lex :: rest) tsout =
      setweight_filter_loop w rest (tsout.set i (setweight_entry w e)) := by
  have hge : (i : Int) ≥ 0 := by omega
  simp only [setweight_filter_loop, hb, hge, if_true, Int.toNat_ofNat, hi]
  by_cases h : (POSDATA e).length ≠ 0
  · simp only [setweight_entry, h, ne_eq, not_false_eq_true, if_true]
  · have h0 : (POSDATA e).length = 0 := by omega
    have hset : tsout.set i e = tsout := by
      apply List.ext_getElem?
      intro j
      rw [List.getElem?_set]
      by_cases hij : i = j
      · subst hij
        have hlt : i < tsout.length := (List.getElem?_eq_some_iff.1 hi).1
        simp [hlt, hi]
      · simp [hij]
    rw [setweight_entry_of_nopos w e h0, hset]
    simp only [h, if_false]

theorem setweight_filter_loop_cons_absent (w : Nat) (lex : List Nat)
    (rest : List (Option (List Nat))) (tsout : TSVector)
    (hb : tsvector_bsearch tsout lex = some (-1)) :
    setweight_filter_loop w (some lex :: rest) tsout =
      setweight_filter_loop w rest tsout := by
  simp [setweight_filter_loop, hb]

/-- The loop of `tsvector_setweight_by_filter` on a strictly sorted vector and a
filter without nulls: every entry whose lexeme is in the filter is rewritten as
`tsvector_setweight` rewrites it, the others are left alone. -/
theorem setweight_filter_loop_spec (w : Nat) :
    ∀ (ls : List (List Nat)) (tsout : TSVector), StrictSorted tsout →
      setweight_filter_loop w (ls.map some) tsout =
        some (Except.ok
          (tsout.map (fun e => if e.lexeme ∈ ls then setweight_entry w e else e))) := by
  intro ls
  induction ls with
  | nil =>
    intro tsout _
    simp [setweight_filter_loop]
  | cons lex rest ih =>
    intro tsout hs
    rw [List.map_cons]
    rcases tsvector_bsearch_cases tsout hs lex with ⟨i, e, hb, hi, hlex⟩ | ⟨hb, hno⟩
    · rw [setweight_filter_loop_cons_found w lex _ tsout i e hb hi,
        set_eq_map_of_sorted hs hi (setweight_entry w)]
      have hs2 : StrictSorted
          (tsout.map (fun x => if x.lexeme = e.lexeme then setweight_entry w x else x)) := by
        apply hs.map_of_lexeme
        intro x
        split
        · exact setweight_entry_lexeme w x
        · rfl
      rw [ih _ hs2, List.map_map]
      congr 2
      apply List.map_congr_left
      intro x _
      simp only [Function.comp]
      by_cases hx : x.lexeme = e.lexeme
      · have hxl : x.lexeme = lex := hx.trans hlex
        simp only [hx, if_true, setweight_entry_lexeme, ← hlex, List.mem_cons, true_or]
        split
        · exact setweight_entry_idem w x
        · rfl
      · have hxl : ¬ x.lexeme = lex := fun h => hx (h.trans hlex.symm)
        simp only [hx, if_false, List.mem_cons, hxl, false_or]
    · rw [setweight_filter_loop_cons_absent w lex _ tsout hb, ih tsout hs]
      congr 2
      apply List.map_congr_left
      intro x hx
      have hxl : ¬ x.lexeme = lex := hno x hx
      simp only [List.mem_cons, hxl, false_or]

/-- The loop of `tsvector_setweight_by_filter` returns whatever the vector: with
the error for a null when the filter has one, and with a vector otherwise. -/
theorem setweight_filter_loop_total (w : Nat) :
    ∀ (lexemes : List (Option (List Nat))) (tsout : TSVector),
      (none ∈ lexemes →
        setweight_filter_loop w lexemes tsout = some (Except.error TsError.lexemeArrayNull)) ∧
      (none ∉ lexemes → ∃ out, setweight_filter_loop w lexemes tsout = some (Except.ok out)) := by
  intro lexemes
  induction lexemes with
  | nil =>
    intro tsout
    exact ⟨by simp, fun _ => ⟨tsout, by simp [setweight_filter_loop]⟩⟩
  | cons x rest ih =>
    intro tsout
    cases x with
    | none => exact ⟨fun _ => by simp [setweight_filter_loop], by simp⟩
    | some lex =>
      have hstep : ∃ t2, setweight_filter_loop w (some lex :: rest) tsout =
          setweight_filter_loop w rest t2 := by
        obtain ⟨r, hr, hcase⟩ := tsvector_bsearch_total tsout lex
        rcases hcase with rfl | ⟨i, e, rfl, hi⟩
        · exact ⟨tsout, setweight_filter_loop_cons_absent w lex rest tsout hr⟩
        · exact ⟨_, setweight_filter_loop_cons_found w lex rest tsout i e hr hi⟩
      obtain ⟨t2, ht2⟩ := hstep
      rw [ht2]
      constructor
      · intro hmem
        have : none ∈ rest := by simpa using hmem
        exact (ih t2).1 this
      · intro hmem
        have : none ∉ rest := by simpa using hmem
        exact (ih t2).2 this

theorem map_some_no_none (ls : List (List Nat)) :
    (none : Option (List Nat)) ∉ ls.map some := by
  simp

theorem setweight_entry_frame (w : Nat) (e : WordEntry) :
    (setweight_entry w e).lexeme = e.lexeme ∧ (setweight_entry w e).haspos = e.haspos ∧
    (POSDATA (setweight_entry w e)).length = (POSDATA e).length ∧
    (POSDATA (setweight_entry w e)).map WEP_GETPOS = (POSDATA e).map WEP_GETPOS ∧
    ∀ p ∈ POSDATA (setweight_entry w e), WEP_GETWEIGHT p = w := by
  refine ⟨setweight_entry_lexeme w e, setweight_entry_haspos w e, ?_, ?_, ?_⟩
  · rw [setweight_entry_POSDATA, List.length_map]
  · rw [setweight_entry_POSDATA, List.map_map]
    apply List.map_congr_left
    intro p _
    exact WEP_GETPOS_SETWEIGHT p w
  · intro p hp
    rw [setweight_entry_POSDATA] at hp
    obtain ⟨q, _, rfl⟩ := List.mem_map.1 hp
    exact WEP_GETWEIGHT_SETWEIGHT q w

/-- C25: for a strictly sorted vector and a valid weight letter of class `w`,
`tsvector_setweight` and, for every filter without nulls,
`tsvector_setweight_by_filter` return a vector with as many entries as the input
whose entry at each index has the lexeme, the `haspos` flag, the number of
positions and the position values of the input entry; in every selected entry
(all entries, or those whose lexeme is in the filter) every position has weight
class `w`, and an entry that is not selected is the input entry unchanged. -/
theorem setweight_frame (v : TSVector) (cw w : Nat) (hs : StrictSorted v)
    (hcw : (cw, w) ∈ weightLetters) :
    (∃ out, tsvector_setweight v cw = Except.ok out ∧ out.length = v.length ∧
      ∀ (i : Nat) (e : WordEntry), v[i]? = some e →
        ∃ o, out[i]? = some o ∧ o.lexeme = e.lexeme ∧ o.haspos = e.haspos ∧
          (POSDATA o).length = (POSDATA e).length ∧
          (POSDATA o).map WEP_GETPOS = (POSDATA e).map WEP_GETPOS ∧
          ∀ p ∈ POSDATA o, WEP_GETWEIGHT p = w) ∧
    ∀ ls : List (List Nat),
      ∃ out, tsvector_setweight_by_filter v cw (ls.map some) = some (Except.ok out) ∧
        out.length = v.length ∧
        ∀ (i : Nat) (e : WordEntry), v[i]? = some e →
          ∃ o, out[i]? = some o ∧ o.lexeme = e.lexeme ∧ o.haspos = e.haspos ∧
            (POSDATA o).length = (POSDATA e).length ∧
            (POSDATA o).map WEP_GETPOS = (POSDATA e).map WEP_GETPOS ∧
            (e.lexeme ∈ ls → ∀ p ∈ POSDATA o, WEP_GETWEIGHT p = w) ∧
            (e.lexeme ∉ ls → o = e) := by
  have hsw := setweight_switch_ok hcw
  constructor
  · refine ⟨v.map (setweight_entry w), ?_, by simp, ?_⟩
    · simp [tsvector_setweight, hsw, setweight_entries_eq_map]
    · intro i e hie
      refine ⟨setweight_entry w e, by simp [hie], ?_⟩
      exact setweight_entry_frame w e
  · intro ls
    refine ⟨v.map (fun e => if e.lexeme ∈ ls then setweight_entry w e else e), ?_,
      by simp, ?_⟩
    · simp only [tsvector_setweight_by_filter, hsw]
      exact setweight_filter_loop_spec w ls v hs
    · intro i e hie
      refine ⟨if e.lexeme ∈ ls then setweight_entry w e else e, by simp [hie], ?_⟩
      by_cases hmem : e.lexeme ∈ ls
      · simp only [hmem, if_true]
        obtain ⟨h1, h2, h3, h4, h5⟩ := setweight_entry_frame w e
        exact ⟨h1, h2, h3, h4, fun _ => h5, fun hn => absurd trivial hn⟩
      · rw [if_neg hmem]
        exact ⟨rfl, rfl, rfl, rfl, fun h => absurd h hmem, fun _ => rfl⟩

/-- A witness for C25: the example vector `"a"`, `"b"`, `"d"` and the letter `B`;
with the filter `"b"`, `"x"` only the positions of `"b"` change their class. -/
theorem setweight_frame_witness :
    StrictSorted exIn2 ∧ (66, 2) ∈ weightLetters ∧
    (∃ out, tsvector_setweight exIn2 66 = Except.ok out ∧ out.length = exIn2.length) ∧
    (∃ out, tsvector_setweight_by_filter exIn2 66 ([[98], [120]].map some) =
        some (Except.ok out) ∧ out.length = exIn2.length) ∧
    tsvector_setweight_by_filter exIn2 66 [some [98], some [120]] =
      some (Except.ok [⟨[97], true, [2]⟩, ⟨[98], true, [32773, 49151]⟩,
        ⟨[100], false, []⟩]) :=
  have h1 : StrictSorted exIn2 := by decide
  have h2 : (66, 2) ∈ weightLetters := by decide
  ⟨h1, h2, (setweight_frame exIn2 66 2 h1 h2).1.imp (fun _ h => ⟨h.1, h.2.1⟩),
    ((setweight_frame exIn2 66 2 h1 h2).2 [[98], [120]]).imp (fun _ h => ⟨h.1, h.2.1⟩),
    rfl⟩

/-- C26, as stated, fails: with the weight byte `x` and a filter that holds a
null, `tsvector_setweight_by_filter` raises the error of its `switch`,
"unrecognized weight", which is an internal error and not the
invalid-parameter error for the null: the `switch` comes first. -/
theorem setweight_by_filter_null_after_switch :
    tsvector_setweight_by_filter exIn2 120 [none] =
      some (Except.error (TsError.unrecognizedWeight 120)) ∧
    (TsError.unrecognizedWeight 120).errcode = ErrCode.internalError ∧
    (TsError.unrecognizedWeight 120).errcode ≠ ErrCode.invalidParameterValue :=
  ⟨rfl, rfl, by decide⟩

/-- C26, amended: `tsvector_setweight` raises an error exactly when the weight
byte is none of `A`, `B`, `C`, `D`, `a`, `b`, `c`, `d`, and so does
`tsvector_setweight_by_filter` on a filter without nulls (it returns in every
case).  For such a byte the error is the one of the `switch`, whatever the input
vector and the filter, also a filter with a null: the check comes first.  With
a valid letter and a filter that holds a null, `tsvector_setweight_by_filter`
raises "lexeme array may not contain nulls", an error of class invalid
parameter value, while the error of the `switch` is an internal error. -/
theorem setweight_errors (v : TSVector) (cw : Nat) (ls : List (List Nat))
    (lexemes : List (Option (List Nat))) :
    ((∃ err, tsvector_setweight v cw = Except.error err) ↔
      ∀ w, (cw, w) ∉ weightLetters) ∧
    (∃ r, tsvector_setweight_by_filter v cw (ls.map some) = some r ∧
      ((∃ err, r = Except.error err) ↔ ∀ w, (cw, w) ∉ weightLetters)) ∧
    ((∀ w, (cw, w) ∉ weightLetters) →
      tsvector_setweight v cw = Except.error (TsError.unrecognizedWeight cw) ∧
      tsvector_setweight_by_filter v cw lexemes =
        some (Except.error (TsError.unrecognizedWeight cw))) ∧
    ((∃ w, (cw, w) ∈ weightLetters) → none ∈ lexemes →
      tsvector_setweight_by_filter v cw lexemes =
        some (Except.error TsError.lexemeArrayNull)) ∧
    TsError.lexemeArrayNull.errcode = ErrCode.invalidParameterValue ∧
    (TsError.unrecognizedWeight cw).errcode = ErrCode.internalError := by
  have hbad : (∀ w, (cw, w) ∉ weightLetters) →
      tsvector_setweight v cw = Except.error (TsError.unrecognizedWeight cw) ∧
      ∀ l, tsvector_setweight_by_filter v cw l =
        some (Except.error (TsError.unrecognizedWeight cw)) := by
    intro h
    have hsw := setweight_switch_error h
    exact ⟨by simp [tsvector_setweight, hsw],
      fun l => by simp [tsvector_setweight_by_filter, hsw]⟩
  refine ⟨?_, ?_, fun h => ⟨(hbad h).1, (hbad h).2 lexemes⟩, ?_, rfl, rfl⟩
  · rcases weightLetters_cases cw with ⟨w, hw⟩ | hno
    · have hsw := setweight_switch_ok hw
      constructor
      · rintro ⟨err, herr⟩
        simp [tsvector_setweight, hsw] at herr
      · intro h
        exact absurd hw (h w)
    · exact ⟨fun _ => hno, fun _ => ⟨_, (hbad hno).1⟩⟩
  · rcases weightLetters_cases cw with ⟨w, hw⟩ | hno
    · have hsw := setweight_switch_ok hw
      obtain ⟨out, hout⟩ := (setweight_filter_loop_total w (ls.map some) v).2
        (map_some_no_none ls)
      refine ⟨Except.ok out, by simp [tsvector_setweight_by_filter, hsw, hout], ?_⟩
      constructor
      · rintro ⟨err, herr⟩
        cases herr
      · intro h
        exact absurd hw (h w)
    · exact ⟨_, (hbad hno).2 _, fun _ => hno, fun _ => ⟨_, rfl⟩⟩
  · rintro ⟨w, hw⟩ hnull
    have hsw := setweight_switch_ok hw
    simp only [tsvector_setweight_by_filter, hsw]
    exact (setweight_filter_loop_total w lexemes v).1 hnull

/-- A witness for the amended C26: the letter `B` with a filter that holds a null
after the lexeme `"b"`, and the byte `x` with the same filter. -/
theorem setweight_errors_witness :
    tsvector_setweight_by_filter exIn2 66 [some [98], none] =
      some (Except.error TsError.lexemeArrayNull) ∧
    tsvector_setweight exIn2 120 = Except.error (TsError.unrecognizedWeight 120) ∧
    tsvector_setweight_by_filter exIn2 120 [some [98], none] =
      some (Except.error (TsError.unrecognizedWeight 120)) :=
  ⟨(setweight_errors exIn2 66 [] [some [98], none]).2.2.2.1 ⟨2, by decide⟩ (by decide),
    ((setweight_errors exIn2 120 [] [some [98], none]).2.2.1
      (by intro w h; simp [weightLetters] at h)).1,
    ((setweight_errors exIn2 120 [] [some [98], none]).2.2.1
      (by intro w h; simp [weightLetters] at h)).2⟩

theorem setweight_entries_of_nopos (w : Nat) (v : TSVector)
    (h : ∀ e ∈ v, (POSDATA e).length = 0) : setweight_entries w v = v := by
  rw [setweight_entries_eq_map]
  conv_rhs => rw [← List.map_id v]
  apply List.map_congr_left
  intro e he
  exact setweight_entry_of_nopos w e (h e he)

theorem setweight_filter_loop_of_nopos (w : Nat) :
    ∀ (ls : List (List Nat)) (tsout : TSVector), (∀ e ∈ tsout, (POSDATA e).length = 0) →
      setweight_filter_loop w (ls.map some) tsout = some (Except.ok tsout) := by
  intro ls
  induction ls with
  | nil => intro tsout _; simp [setweight_filter_loop]
  | cons lex rest ih =>
    intro tsout h
    rw [List.map_cons]
    obtain ⟨r, hr, hcase⟩ := tsvector_bsearch_total tsout lex
    rcases hcase with rfl | ⟨i, e, rfl, hi⟩
    · rw [setweight_filter_loop_cons_absent w lex _ tsout hr]
      exact ih tsout h
    · rw [setweight_filter_loop_cons_found w lex _ tsout i e hr hi,
        setweight_entry_of_nopos w e (h e (List.getElem?_mem hi))]
      have hset : tsout.set i e = tsout := by
        apply List.ext_getElem?
        intro j
        rw [List.getElem?_set]
        by_cases hij : i = j
        · subst hij
          have hlt : i < tsout.length := (List.getElem?_eq_some_iff.1 hi).1
          simp [hlt, hi]
        · simp [hij]
      rw [hset]
      exact ih tsout h

/-- C28: for every vector, every valid weight letter and every filter of lexemes,
setting weights on the stripped vector changes nothing: `tsvector_setweight` and
`tsvector_setweight_by_filter` both return the stripped vector itself. -/
theorem setweight_strip_noop (M : Nat) (v : TSVector) (cw w : Nat)
    (hcw : (cw, w) ∈ weightLetters) (ls : List (List Nat)) :
    tsvector_setweight (OutEntry.toTSVector (tsvector_strip M v).1) cw =
      Except.ok (OutEntry.toTSVector (tsvector_strip M v).1) ∧
    tsvector_setweight_by_filter (OutEntry.toTSVector (tsvector_strip M v).1) cw
        (ls.map some) =
      some (Except.ok (OutEntry.toTSVector (tsvector_strip M v).1)) := by
  have hsw := setweight_switch_ok hcw
  have hno : ∀ e ∈ OutEntry.toTSVector (tsvector_strip M v).1, (POSDATA e).length = 0 := by
    intro e he
    simp only [tsvector_strip, strip_loop_entries] at he
    obtain ⟨x, _, rfl⟩ := List.mem_map.1 he
    simp [POSDATA]
  constructor
  · simp only [tsvector_setweight, hsw]
    rw [setweight_entries_of_nopos w _ hno]
  · simp only [tsvector_setweight_by_filter, hsw]
    exact setweight_filter_loop_of_nopos w ls _ hno

/-- A witness for C28: the example vector `"a"`, `"b"`, `"d"`, the letter `a` and
a filter naming `"b"` and `"x"`. -/
theorem setweight_strip_noop_witness :
    (97, 3) ∈ weightLetters ∧
    tsvector_setweight (OutEntry.toTSVector (tsvector_strip 1048575 exIn2).1) 97 =
      Except.ok (OutEntry.toTSVector (tsvector_strip 1048575 exIn2).1) ∧
    tsvector_setweight_by_filter (OutEntry.toTSVector (tsvector_strip 1048575 exIn2).1) 97
        ([[98], [120]].map some) =
      some (Except.ok (OutEntry.toTSVector (tsvector_strip 1048575 exIn2).1)) :=
  ⟨by decide, setweight_strip_noop 1048575 exIn2 97 3 (by decide) [[98], [120]]⟩

/-! ## tsvector_filter -/

theorem weightBitSet_iff_testBit (m : Nat) (p : WordEntryPos) :
    weightBitSet m p = true ↔ m.testBit (WEP_GETWEIGHT p) = true := by
  unfold weightBitSet
  rw [Nat.one_shiftLeft, Nat.and_two_pow]
  cases h : m.testBit (WEP_GETWEIGHT p) <;> simp [h]

theorem filter_positions_eq_filter (mask : Nat) (l : List WordEntryPos) :
    filter_positions mask l = l.filter (weightBitSet mask) := by
  induction l with
  | nil => rfl
  | cons p ps ih =>
    by_cases h : weightBitSet mask p = true
    · simp [filter_positions, h, ih]
    · simp [filter_positions, h, ih]

theorem filter_length_eq_zero_iff (mask : Nat) (l : List WordEntryPos) :
    (l.filter (weightBitSet mask)).length = 0 ↔ l.any (weightBitSet mask) = false := by
  rw [List.length_eq_zero, List.filter_eq_nil_iff]
  simp

/-- The entries `tsvector_filter` writes: the entries with positions of which at
least one has its weight bit in the mask, each with the positions that have. -/
theorem filter_loop_entries (M mask : Nat) (v : List WordEntry) (cur_pos : Nat) :
    OutEntry.toTSVector (filter_loop M mask v cur_pos).1 =
      (v.filter (fun e => e.haspos && (POSDATA e).any (weightBitSet mask))).map
        (fun e => ⟨e.lexeme, true, (POSDATA e).filter (weightBitSet mask)⟩) := by
  induction v generalizing cur_pos with
  | nil => simp [filter_loop, OutEntry.toTSVector]
  | cons e rest ih =>
    by_cases hp : e.haspos = true
    · have hpd : POSDATA e = e.posvec := by simp [POSDATA, hp]
      by_cases hany : e.posvec.any (weightBitSet mask) = true
      · have hlen : ¬ (e.posvec.filter (weightBitSet mask)).length = 0 := by
          rw [filter_length_eq_zero_iff]
          simp [hany]
        have hstep : filter_loop M mask (e :: rest) cur_pos =
            (⟨cur_pos % (M + 1), cur_pos,
                ⟨e.lexeme, true, e.posvec.filter (weightBitSet mask)⟩⟩ ::
              (filter_loop M mask rest (cur_pos + SHORTALIGN e.lexeme.length +
                ((e.posvec.filter (weightBitSet mask)).length * 2 + 2))).1,
             (filter_loop M mask rest (cur_pos + SHORTALIGN e.lexeme.length +
                ((e.posvec.filter (weightBitSet mask)).length * 2 + 2))).2) := by
          simp only [filter_loop, hp, Bool.not_true, filter_positions_eq_filter, hlen,
            if_false]
          simp
        rw [hstep]
        have hih := ih (cur_pos + SHORTALIGN e.lexeme.length +
          ((e.posvec.filter (weightBitSet mask)).length * 2 + 2))
        simp only [OutEntry.toTSVector] at hih ⊢
        simp [hih, hp, hpd, hany]
      · have hlen : (e.posvec.filter (weightBitSet mask)).length = 0 := by
          rw [filter_length_eq_zero_iff]
          simpa using hany
        have hstep : filter_loop M mask (e :: rest) cur_pos =
            filter_loop M mask rest cur_pos := by
          simp only [filter_loop, hp, Bool.not_true, filter_positions_eq_filter, hlen,
            if_true]
          simp
        rw [hstep, ih cur_pos]
        simp [hp, hpd, hany]
    · have hstep : filter_loop M mask (e :: rest) cur_pos =
          filter_loop M mask rest cur_pos := by
        simp [filter_loop, hp]
      rw [hstep, ih cur_pos]
      simp [hp]

theorem SHORTALIGN_even (x : Nat) : SHORTALIGN x % 2 = 0 := by
  unfold SHORTALIGN
  omega

theorem SHORTALIGN_add_even (c x : Nat) (hc : c % 2 = 0) :
    SHORTALIGN (c + x) = c + SHORTALIGN x := by
  unfold SHORTALIGN
  omega

/-- In `tsvector_filter` the offset `cur_pos` stays even, so the place
`SHORTALIGN(cur_pos + len)` where the position vector of an entry is written is
the place `cur_pos + SHORTALIGN(len)` behind which `cur_pos` goes on. -/
theorem filter_loop_even (M mask : Nat) (v : List WordEntry) :
    ∀ cur_pos : Nat, cur_pos % 2 = 0 →
      (filter_loop M mask v cur_pos).2 % 2 = 0 ∧
      ∀ o ∈ (filter_loop M mask v cur_pos).1,
        o.lexemeAt % 2 = 0 ∧ o.pos = o.lexemeAt % (M + 1) ∧
        SHORTALIGN (o.lexemeAt + o.entry.lexeme.length) =
          o.lexemeAt + SHORTALIGN o.entry.lexeme.length := by
  induction v with
  | nil => intro cur_pos h; simp [filter_loop, h]
  | cons e rest ih =>
    intro cur_pos h
    by_cases hp : e.haspos = true
    · by_cases hlen : (filter_positions mask e.posvec).length = 0
      · have hstep : filter_loop M mask (e :: rest) cur_pos =
            filter_loop M mask rest cur_pos := by
          simp [filter_loop, hp, hlen]
        rw [hstep]
        exact ih cur_pos h
      · have hstep : filter_loop M mask (e :: rest) cur_pos =
            (⟨cur_pos % (M + 1), cur_pos, ⟨e.lexeme, true, filter_positions mask e.posvec⟩⟩ ::
              (filter_loop M mask rest (cur_pos + SHORTALIGN e.lexeme.length +
                ((filter_positions mask e.posvec).length * 2 + 2))).1,
             (filter_loop M mask rest (cur_pos + SHORTALIGN e.lexeme.length +
                ((filter_positions mask e.posvec).length * 2 + 2))).2) := by
          simp [filter_loop, hp, hlen]
        rw [hstep]
        have hev : (cur_pos + SHORTALIGN e.lexeme.length +
            ((filter_positions mask e.posvec).length * 2 + 2)) % 2 = 0 := by
          have := SHORTALIGN_even e.lexeme.length
          omega
        obtain ⟨h1, h2⟩ := ih _ hev
        refine ⟨h1, ?_⟩
        intro o ho
        rcases List.mem_cons.1 ho with rfl | ho
        · exact ⟨h, rfl, SHORTALIGN_add_even _ _ h⟩
        · exact h2 o ho
    · have hstep : filter_loop M mask (e :: rest) cur_pos =
          filter_loop M mask rest cur_pos := by
        simp [filter_loop, hp]
      rw [hstep]
      exact ih cur_pos h

theorem weightLetters_class (c k : Nat) :
    (c, k) ∈ weightLetters ↔
      ((c = 65 ∨ c = 97) ∧ k = 3) ∨ ((c = 66 ∨ c = 98) ∧ k = 2) ∨
      ((c = 67 ∨ c = 99) ∧ k = 1) ∨ ((c = 68 ∨ c = 100) ∧ k = 0) := by
  simp only [weightLetters, List.mem_cons, Prod.mk.injEq, List.mem_singleton,
    List.mem_nil_iff, or_false]
  constructor
  · rintro (h | h | h | h | h | h | h | h) <;> omega
  · rintro (h | h | h | h) <;> omega

theorem testBit_lor_two_pow (mask j k : Nat) :
    (mask ||| 2 ^ j).testBit k = true ↔ mask.testBit k = true ∨ j = k := by
  rw [Nat.testBit_lor, Nat.testBit_two_pow]
  simp

/-- The mask `tsvector_filter` computes from its array of weights: the bit
`1 << k` is set exactly when it was set before or the array names a letter of
class `k`. -/
theorem filter_mask_spec :
    ∀ (weights : List (Option Nat)) (mask m : Nat), filter_mask weights mask = Except.ok m →
      ∀ k, m.testBit k = true ↔
        (mask.testBit k = true ∨ ∃ c, some c ∈ weights ∧ (c, k) ∈ weightLetters) := by
  intro weights
  induction weights with
  | nil =>
    intro mask m h k
    simp only [filter_mask, Except.ok.injEq] at h
    subst h
    simp
  | cons x rest ih =>
    intro mask m h k
    cases x with
    | none => simp [filter_mask] at h
    | some c =>
      have hmem : (∃ c2, some c2 ∈ some c :: rest ∧ (c2, k) ∈ weightLetters) ↔
          ((c, k) ∈ weightLetters ∨ ∃ c2, some c2 ∈ rest ∧ (c2, k) ∈ weightLetters) := by
        constructor
        · rintro ⟨c2, h1, h2⟩
          rcases List.mem_cons.1 h1 with h1 | h1
          · left
            have : c2 = c := by simpa using h1
            rw [← this]; exact h2
          · exact Or.inr ⟨c2, h1, h2⟩
        · rintro (h1 | ⟨c2, h1, h2⟩)
          · exact ⟨c, by simp, h1⟩
          · exact ⟨c2, List.mem_cons_of_mem _ h1, h2⟩
      rw [hmem, weightLetters_class]
      simp only [filter_mask] at h
      by_cases e1 : c = 65 ∨ c = 97
      · rw [if_pos e1] at h
        have := ih (mask ||| 2 ^ 3) m h k
        rw [this, testBit_lor_two_pow]
        constructor
        · rintro ((h1 | h1) | h1)
          · exact Or.inl h1
          · exact Or.inr (Or.inl (Or.inl ⟨e1, h1.symm⟩))
          · exact Or.inr (Or.inr h1)
        · rintro (h1 | (h1 | h1 | h1 | h1) | h1)
          · exact Or.inl (Or.inl h1)
          · exact Or.inl (Or.inr h1.2.symm)
          · omega
          · omega
          · omega
          · exact Or.inr h1
      · rw [if_neg e1] at h
        by_cases e2 : c = 66 ∨ c = 98
        · rw [if_pos e2] at h
          have := ih (mask ||| 2 ^ 2) m h k
          rw [this, testBit_lor_two_pow]
          constructor
          · rintro ((h1 | h1) | h1)
            · exact Or.inl h1
            · exact Or.inr (Or.inl (Or.inr (Or.inl ⟨e2, h1.symm⟩)))
            · exact Or.inr (Or.inr h1)
          · rintro (h1 | (h1 | h1 | h1 | h1) | h1)
            · exact Or.inl (Or.inl h1)
            · omega
            · exact Or.inl (Or.inr h1.2.symm)
            · omega
            · omega
            · exact Or.inr h1
        · rw [if_neg e2] at h
          by_cases e3 : c = 67 ∨ c = 99
          · rw [if_pos e3] at h
            have := ih (mask ||| 2 ^ 1) m h k
            rw [this, testBit_lor_two_pow]
            constructor
            · rintro ((h1 | h1) | h1)
              · exact Or.inl h1
              · exact Or.inr (Or.inl (Or.inr (Or.inr (Or.inl ⟨e3, h1.symm⟩))))
              · exact Or.inr (Or.inr h1)
            · rintro (h1 | (h1 | h1 | h1 | h1) | h1)
              · exact Or.inl (Or.inl h1)
              · omega
              · omega
              · exact Or.inl (Or.inr h1.2.symm)
              · omega
              · exact Or.inr h1
          · rw [if_neg e3] at h
            by_cases e4 : c = 68 ∨ c = 100
            · rw [if_pos e4] at h
              have := ih (mask ||| 2 ^ 0) m h k
              rw [this, testBit_lor_two_pow]
              constructor
              · rintro ((h1 | h1) | h1)
                · exact Or.inl h1
                · exact Or.inr (Or.inl (Or.inr (Or.inr (Or.inr ⟨e4, h1.symm⟩))))
                · exact Or.inr (Or.inr h1)
              · rintro (h1 | (h1 | h1 | h1 | h1) | h1)
                · exact Or.inl (Or.inl h1)
                · omega
                · omega
                · omega
                · exact Or.inl (Or.inr h1.2.symm)
                · exact Or.inr h1
            · rw [if_neg e4] at h
              cases h

/-- On an array of weight letters without nulls the computation of the mask
raises no error. -/
theorem filter_mask_ok :
    ∀ (weights : List (Option Nat)) (mask : Nat),
      (∀ x ∈ weights, ∃ c k, x = some c ∧ (c, k) ∈ weightLetters) →
      ∃ m, filter_mask weights mask = Except.ok m := by
  intro weights
  induction weights with
  | nil => intro mask _; exact ⟨mask, rfl⟩
  | cons x rest ih =>
    intro mask h
    obtain ⟨c, k, rfl, hck⟩ := h x (by simp)
    have hrest : ∀ x ∈ rest, ∃ c k, x = some c ∧ (c, k) ∈ weightLetters :=
      fun y hy => h y (List.mem_cons_of_mem _ hy)
    rw [weightLetters_class] at hck
    simp only [filter_mask]
    by_cases e1 : c = 65 ∨ c = 97
    · rw [if_pos e1]; exact ih _ hrest
    · rw [if_neg e1]
      by_cases e2 : c = 66 ∨ c = 98
      · rw [if_pos e2]; exact ih _ hrest
      · rw [if_neg e2]
        by_cases e3 : c = 67 ∨ c = 99
        · rw [if_pos e3]; exact ih _ hrest
        · rw [if_neg e3]
          by_cases e4 : c = 68 ∨ c = 100
          · rw [if_pos e4]; exact ih _ hrest
          · exfalso
            rcases hck with h1 | h1 | h1 | h1
            · exact e1 h1.1
            · exact e2 h1.1
            · exact e3 h1.1
            · exact e4 h1.1

/-- C21: when the array of weights gives the mask `m` (the bit `1 << k` of `m` is
set exactly when the array names a letter of class `k`), `tsvector_filter`
returns the entries of its input, in their order, that have positions of which at
least one has its weight bit in `m`; each keeps its lexeme and exactly those of
its positions, unchanged and in their order, whose weight bit is in `m`; entries
without positions or without a surviving position are absent, and every entry of
the result has `haspos` set and a position. -/
theorem tsvector_filter_spec (M : Nat) (v : TSVector) (weights : List (Option Nat)) (m : Nat)
    (hm : filter_mask weights 0 = Except.ok m) :
    (∀ p : WordEntryPos, weightBitSet m p = true ↔
      ∃ c, some c ∈ weights ∧ (c, WEP_GETWEIGHT p) ∈ weightLetters) ∧
    ∃ out cur_pos, tsvector_filter M v weights = Except.ok (out, cur_pos) ∧
      OutEntry.toTSVector out =
        (v.filter (fun e => e.haspos && (POSDATA e).any (weightBitSet m))).map
          (fun e => ⟨e.lexeme, true, (POSDATA e).filter (weightBitSet m)⟩) ∧
      ∀ o ∈ out, o.entry.haspos = true ∧ POSDATA o.entry ≠ [] := by
  constructor
  · intro p
    rw [weightBitSet_iff_testBit, filter_mask_spec weights 0 m hm]
    simp
  · have hent := filter_loop_entries M m v 0
    refine ⟨(filter_loop M m v 0).1, (filter_loop M m v 0).2, ?_, hent, ?_⟩
    · simp [tsvector_filter, hm]
    · intro o ho
      have hmem : o.entry ∈ OutEntry.toTSVector (filter_loop M m v 0).1 :=
        List.mem_map_of_mem _ ho
      rw [hent] at hmem
      obtain ⟨e, he, heq⟩ := List.mem_map.1 hmem
      have hcond := (List.mem_filter.1 he).2
      rw [← heq]
      simp only [Bool.and_eq_true, List.any_eq_true] at hcond
      obtain ⟨_, p, hp, hbit⟩ := hcond
      refine ⟨rfl, ?_⟩
      simp only [POSDATA, if_true]
      intro hnil
      have : p ∈ List.filter (weightBitSet m) (if e.haspos = true then e.posvec else []) :=
        List.mem_filter.2 ⟨hp, hbit⟩
      rw [hnil] at this
      cases this

/-- A witness for C21: the weights `A` and `b` give the mask 12; of `"a"` with the
positions 1 (class D) and 3 (class A) only the latter stays, and `"c"`, which has
no positions, is dropped. -/
theorem tsvector_filter_spec_witness :
    filter_mask [some 65, some 98] 0 = Except.ok 12 ∧
    ∃ out cur_pos, tsvector_filter 1048575 exIn1 [some 65, some 98] =
        Except.ok (out, cur_pos) ∧
      OutEntry.toTSVector out =
        (exIn1.filter (fun e => e.haspos && (POSDATA e).any (weightBitSet 12))).map
          (fun e => ⟨e.lexeme, true, (POSDATA e).filter (weightBitSet 12)⟩) ∧
      ∀ o ∈ out, o.entry.haspos = true ∧ POSDATA o.entry ≠ [] :=
  ⟨rfl, (tsvector_filter_spec 1048575 exIn1 [some 65, some 98] 12 rfl).2⟩

theorem weightBitSet_of_all (weights : List (Option Nat)) (m : Nat)
    (hm : filter_mask weights 0 = Except.ok m)
    (hall : ∀ k, k ≤ 3 → ∃ c, some c ∈ weights ∧ (c, k) ∈ weightLetters)
    (p : WordEntryPos) (hp : WEP_GETWEIGHT p ≤ 3) : weightBitSet m p = true := by
  rw [weightBitSet_iff_testBit, filter_mask_spec weights 0 m hm]
  exact Or.inr (hall _ hp)

/-- C22: on a well-formed vector in which every entry has positions, with an array
of weight letters that names all four classes, `tsvector_filter` returns the
entries of its input: the same lexemes, flags and position lists in the same
order. -/
theorem tsvector_filter_full (M : Nat) (v : TSVector) (weights : List (Option Nat))
    (hwf : WellFormed v) (hpos : ∀ e ∈ v, e.haspos = true)
    (hw : ∀ x ∈ weights, ∃ c k, x = some c ∧ (c, k) ∈ weightLetters)
    (hall : ∀ k, k ≤ 3 → ∃ c, some c ∈ weights ∧ (c, k) ∈ weightLetters) :
    ∃ out cur_pos, tsvector_filter M v weights = Except.ok (out, cur_pos) ∧
      OutEntry.toTSVector out = v := by
  obtain ⟨m, hm⟩ := filter_mask_ok weights 0 hw
  refine ⟨(filter_loop M m v 0).1, (filter_loop M m v 0).2, by simp [tsvector_filter, hm], ?_⟩
  rw [filter_loop_entries]
  have hbit : ∀ e ∈ v, ∀ p ∈ POSDATA e, weightBitSet m p = true := by
    intro e he p hp
    exact weightBitSet_of_all weights m hm hall p ((hwf.2 e he).2.2.1 p hp).2
  have hkeep : v.filter (fun e => e.haspos && (POSDATA e).any (weightBitSet m)) = v := by
    rw [List.filter_eq_self]
    intro e he
    have hp := hpos e he
    have hne : e.posvec ≠ [] := (hwf.2 e he).1 hp
    obtain ⟨p, hpm⟩ := List.exists_mem_of_ne_nil _ hne
    have hpd : POSDATA e = e.posvec := by simp [POSDATA, hp]
    simp only [Bool.and_eq_true, List.any_eq_true]
    exact ⟨hp, p, by rw [hpd]; exact hpm, hbit e he p (by rw [hpd]; exact hpm)⟩
  rw [hkeep]
  conv_rhs => rw [← List.map_id v]
  apply List.map_congr_left
  intro e he
  have hp := hpos e he
  have hpd : POSDATA e = e.posvec := by simp [POSDATA, hp]
  have hf : (POSDATA e).filter (weightBitSet m) = POSDATA e := by
    rw [List.filter_eq_self]
    exact hbit e he
  rw [hf, hpd, ← hp]
  rfl

/-- A witness for C22: the example vector in which `"a"` and `"b"` both have
positions, filtered with the weights `A`, `B`, `C`, `D`. -/
theorem tsvector_filter_full_witness :
    WellFormed exPos ∧ (∀ e ∈ exPos, e.haspos = true) ∧
    ∃ out cur_pos, tsvector_filter 1048575 exPos [some 65, some 66, some 67, some 68] =
        Except.ok (out, cur_pos) ∧
      OutEntry.toTSVector out = exPos :=
  ⟨by decide, by decide,
    tsvector_filter_full 1048575 exPos [some 65, some 66, some 67, some 68] (by decide)
      (by decide)
      (by
        intro x hx
        simp only [List.mem_cons, List.mem_singleton, List.mem_nil_iff, or_false] at hx
        rcases hx with rfl | rfl | rfl | rfl
        · exact ⟨65, 3, rfl, by decide⟩
        · exact ⟨66, 2, rfl, by decide⟩
        · exact ⟨67, 1, rfl, by decide⟩
        · exact ⟨68, 0, rfl, by decide⟩)
      (by
        intro k hk
        have hcases : k = 0 ∨ k = 1 ∨ k = 2 ∨ k = 3 := by omega
        rcases hcases with rfl | rfl | rfl | rfl
        · exact ⟨68, by decide, by decide⟩
        · exact ⟨67, by decide, by decide⟩
        · exact ⟨66, by decide, by decide⟩
        · exact ⟨65, by decide, by decide⟩)⟩

/-! ## tsvector_delete_by_indices, tsvector_delete_str, tsvector_delete_arr -/

/-- With no index to delete the loop of `tsvector_delete_by_indices` copies every
entry and leaves `k` at 0. -/
theorem delete_loop_no_indices (M : Nat) (v : List WordEntry) :
    ∀ (i curoff : Nat),
      (delete_loop M [] v i 0 curoff).2.1 = 0 ∧
      OutEntry.toTSVector (delete_loop M [] v i 0 curoff).1 =
        v.map (fun e => ⟨e.lexeme, e.haspos, POSDATA e⟩) := by
  induction v with
  | nil => intro i curoff; simp [delete_loop, OutEntry.toTSVector]
  | cons e rest ih =>
    intro i curoff
    have hstep : delete_loop M [] (e :: rest) i 0 curoff =
        (⟨curoff % (M + 1), curoff, ⟨e.lexeme, e.haspos, POSDATA e⟩⟩ ::
          (delete_loop M [] rest (i + 1) 0
            (if e.haspos then SHORTALIGN (curoff + e.lexeme.length) +
              ((POSDATA e).length * 2 + 2) else curoff + e.lexeme.length)).1,
         (delete_loop M [] rest (i + 1) 0
            (if e.haspos then SHORTALIGN (curoff + e.lexeme.length) +
              ((POSDATA e).length * 2 + 2) else curoff + e.lexeme.length)).2) := by
      simp [delete_loop]
    rw [hstep]
    obtain ⟨h1, h2⟩ := ih (i + 1) (if e.haspos then SHORTALIGN (curoff + e.lexeme.length) +
      ((POSDATA e).length * 2 + 2) else curoff + e.lexeme.length)
    refine ⟨h1, ?_⟩
    simp only [OutEntry.toTSVector] at h2 ⊢
    simp [h2]

theorem tsvector_delete_by_indices_nil (M : Nat) (v : TSVector) :
    ∃ out, tsvector_delete_by_indices M v [] = some out ∧
      out.size = (v.length : Int) ∧
      OutEntry.toTSVector out.arrout = v.map (fun e => ⟨e.lexeme, e.haspos, POSDATA e⟩) := by
  obtain ⟨h1, h2⟩ := delete_loop_no_indices M v 0 0
  refine ⟨(delete_by_indices_pass M v []).1, ?_, ?_, ?_⟩
  · simp [tsvector_delete_by_indices, delete_by_indices_pass, h1]
  · simp [delete_by_indices_pass]
  · simpa [delete_by_indices_pass] using h2

theorem delete_arr_loop_absent (v : TSVector) (hs : StrictSorted v) :
    ∀ (ts : List (List Nat)) (skip_indices : List Int),
      (∀ x ∈ ts, ∀ e ∈ v, e.lexeme ≠ x) →
      delete_arr_loop v (ts.map some) skip_indices = some (Except.ok skip_indices) := by
  intro ts
  induction ts with
  | nil => intro skip _; simp [delete_arr_loop]
  | cons x rest ih =>
    intro skip h
    rcases tsvector_bsearch_cases v hs x with ⟨i, e, _, hi, hlex⟩ | ⟨hb, _⟩
    · exact absurd hlex (h x (by simp) e (List.getElem?_mem hi))
    · simp only [List.map_cons, delete_arr_loop, hb]
      have hneg : ¬ ((-1 : Int) ≥ 0) := by omega
      simp only [hneg, if_false]
      exact ih skip (fun y hy => h y (List.mem_cons_of_mem _ hy))

/-- C24: on a strictly sorted vector, `tsvector_delete_str` with a lexeme that no
entry holds returns its argument itself, and `tsvector_delete_arr` with an array
of lexemes none of which is held raises no error and returns a vector with as
many entries as the input, each with the lexeme, the `haspos` flag and the
position list of the input entry at its index. -/
theorem tsvector_delete_absent (M : Nat) (v : TSVector) (hs : StrictSorted v)
    (t : List Nat) (ts : List (List Nat))
    (ht : ∀ e ∈ v, e.lexeme ≠ t) (hts : ∀ x ∈ ts, ∀ e ∈ v, e.lexeme ≠ x) :
    tsvector_delete_str M v t = some (DeleteResult.input v) ∧
    ∃ out, tsvector_delete_arr M v (ts.map some) = some (Except.ok out) ∧
      out.size = (v.length : Int) ∧ out.arrout.length = v.length ∧
      OutEntry.toTSVector out.arrout = v.map (fun e => ⟨e.lexeme, e.haspos, POSDATA e⟩) := by
  constructor
  · rcases tsvector_bsearch_cases v hs t with ⟨i, e, _, hi, hlex⟩ | ⟨hb, _⟩
    · exact absurd hlex (ht e (List.getElem?_mem hi))
    · simp [tsvector_delete_str, hb]
  · obtain ⟨out, h1, h2, h3⟩ := tsvector_delete_by_indices_nil M v
    refine ⟨out, ?_, h2, ?_, h3⟩
    · simp [tsvector_delete_arr, delete_arr_loop_absent v hs ts [] hts, h1]
    · have := congrArg List.length h3
      simpa [OutEntry.toTSVector] using this

/-- A witness for C24: the vector `"a"`, `"b"`, `"c"` and the lexemes `"x"` and
`"y"`, which it does not hold. -/
theorem tsvector_delete_absent_witness :
    StrictSorted exAbc ∧ (∀ e ∈ exAbc, e.lexeme ≠ [120]) ∧
    (∀ x ∈ [[120], [121]], ∀ e ∈ exAbc, e.lexeme ≠ x) ∧
    tsvector_delete_str 1048575 exAbc [120] = some (DeleteResult.input exAbc) ∧
    ∃ out, tsvector_delete_arr 1048575 exAbc ([[120], [121]].map some) =
        some (Except.ok out) ∧
      out.size = (exAbc.length : Int) ∧ out.arrout.length = exAbc.length ∧
      OutEntry.toTSVector out.arrout =
        exAbc.map (fun e => ⟨e.lexeme, e.haspos, POSDATA e⟩) :=
  have h1 : StrictSorted exAbc := by decide
  have h2 : ∀ e ∈ exAbc, e.lexeme ≠ [120] := by decide
  have h3 : ∀ x ∈ [[120], [121]], ∀ e ∈ exAbc, e.lexeme ≠ x := by decide
  ⟨h1, h2, h3, tsvector_delete_absent 1048575 exAbc h1 [120] [[120], [121]] h2 h3⟩

/-- C23, at the input that fails: the vector `"a"`, `"b"`, `"c"` with the index 1
given twice, as `tsvector_delete_arr` passes it for the array `"b"`, `"b"`.  The
field `size` is set to `3 - 2 = 1`, the loop skips entry 1 once and leaves `k`
at 1, two entries are written, and `Assert(k == indices_count)` fails.  With
the indices 1, 1, 2 the entry `"c"` at index 2 is not deleted either. -/
theorem tsvector_delete_by_indices_repeated :
    delete_by_indices_pass 1048575 exAbc [1, 1] =
      (⟨1, [⟨0, 0, ⟨[97], false, []⟩⟩, ⟨1, 1, ⟨[99], false, []⟩⟩], 2⟩, 1) ∧
    tsvector_delete_by_indices 1048575 exAbc [1, 1] = none ∧
    tsvector_delete_arr 1048575 exAbc [some [98], some [98]] = none ∧
    delete_by_indices_pass 1048575 exAbc [1, 1, 2] =
      (⟨0, [⟨0, 0, ⟨[97], false, []⟩⟩, ⟨1, 1, ⟨[99], false, []⟩⟩], 2⟩, 1) := by
  refine ⟨by decide, by decide, rfl, by decide⟩

theorem compareint_le_iff (a b : Int) : compareint a b ≤ 0 ↔ a ≤ b := by
  unfold compareint
  by_cases h1 : a = b
  · simp [h1]
  · by_cases h2 : a > b
    · simp only [h1, h2, if_false, if_true]; omega
    · simp only [h1, h2, if_false]; omega

theorem qsort_int_insert_perm (x : Int) (l : List Int) :
    (qsort_int_insert compareint x l).Perm (x :: l) := by
  induction l with
  | nil => simp [qsort_int_insert]
  | cons y ys ih =>
    simp only [qsort_int_insert]
    split
    · exact List.Perm.refl _
    · exact (List.Perm.cons y ih).trans (List.Perm.swap x y ys)

theorem qsort_int_perm (l : List Int) : (qsort_int compareint l).Perm l := by
  induction l with
  | nil => simp [qsort_int]
  | cons x xs ih =>
    simp only [qsort_int]
    exact (qsort_int_insert_perm x _).trans (List.Perm.cons x ih)

theorem qsort_int_insert_sorted (x : Int) (l : List Int) (h : List.Sorted (· ≤ ·) l) :
    List.Sorted (· ≤ ·) (qsort_int_insert compareint x l) := by
  induction l with
  | nil => simp [qsort_int_insert]
  | cons y ys ih =>
    simp only [qsort_int_insert]
    have hy := List.sorted_cons.1 h
    split
    · rename_i hle
      rw [compareint_le_iff] at hle
      refine List.sorted_cons.2 ⟨?_, h⟩
      intro z hz
      rcases List.mem_cons.1 hz with rfl | hz
      · exact hle
      · exact le_trans hle (hy.1 z hz)
    · rename_i hle
      rw [compareint_le_iff] at hle
      refine List.sorted_cons.2 ⟨?_, ih hy.2⟩
      intro z hz
      rcases List.mem_cons.1 ((qsort_int_insert_perm x ys).mem_iff.1 hz) with rfl | hz
      · omega
      · exact hy.1 z hz

theorem qsort_int_sorted (l : List Int) : List.Sorted (· ≤ ·) (qsort_int compareint l) := by
  induction l with
  | nil => simp [qsort_int]
  | cons x xs ih => exact qsort_int_insert_sorted x _ ih

/-- The loop of `tsvector_delete_by_indices` on strictly increasing indices that
lie in the range still to be read: every index is met, so `k` ends at
`indices_count`, and the entries written are those whose index is not listed. -/
theorem delete_loop_sorted (M : Nat) (idx : List Int) :
    ∀ (rest : List WordEntry) (i k curoff : Nat), k ≤ idx.length →
      List.Sorted (· < ·) (idx.drop k) →
      (∀ x ∈ idx.drop k, (i : Int) ≤ x ∧ x < (i : Int) + (rest.length : Int)) →
      (delete_loop M idx rest i k curoff).2.1 = idx.length ∧
      OutEntry.toTSVector (delete_loop M idx rest i k curoff).1 =
        ((rest.enumFrom i).filter (fun p => decide ((p.1 : Int) ∉ idx.drop k))).map
          (fun p => ⟨p.2.lexeme, p.2.haspos, POSDATA p.2⟩) := by
  intro rest
  induction rest with
  | nil =>
    intro i k curoff hk _ hrange
    have hk2 : k = idx.length := by
      by_contra hne
      have hlt : k < idx.length := by omega
      have hmem : idx[k] ∈ idx.drop k := by
        rw [List.drop_eq_getElem_cons hlt]
        exact List.mem_cons_self _ _
      have := hrange _ hmem
      simp at this
      omega
    simp [delete_loop, OutEntry.toTSVector, hk2]
  | cons e rest ih =>
    intro i k curoff hk hsorted hrange
    by_cases hcond : k < idx.length ∧ idx[k]? = some (i : Int)
    · obtain ⟨hlt, hget⟩ := hcond
      have hik : idx[k] = (i : Int) := by
        have := List.getElem?_eq_getElem hlt
        rw [this] at hget
        exact Option.some.inj hget
      have hdrop : idx.drop k = (i : Int) :: idx.drop (k + 1) := by
        rw [List.drop_eq_getElem_cons hlt, hik]
      rw [hdrop] at hsorted hrange
      have hs := List.sorted_cons.1 hsorted
      have hstep : delete_loop M idx (e :: rest) i k curoff =
          delete_loop M idx rest (i + 1) (k + 1) curoff := by
        simp [delete_loop, hlt, hget]
      obtain ⟨h1, h2⟩ := ih (i + 1) (k + 1) curoff (by omega) hs.2 (by
        intro x hx
        have h3 := hs.1 x hx
        have h4 := hrange x (List.mem_cons_of_mem _ hx)
        simp only [List.length_cons] at h4
        push_cast at h4 ⊢
        omega)
      rw [hstep]
      refine ⟨h1, ?_⟩
      rw [h2, List.enumFrom_cons, hdrop]
      rw [List.filter_cons_of_neg (by simp)]
      congr 1
      apply List.filter_congr
      rintro ⟨j, x⟩ hjx
      have hj := (List.mem_enumFrom hjx).1
      have hne : ¬ ((j : Int) = (i : Int)) := by omega
      simp [hne]
    · have hnot : ∀ x ∈ idx.drop k, (i : Int) < x := by
        intro x hx
        by_cases hlt : k < idx.length
        · have hdrop := List.drop_eq_getElem_cons hlt
          rw [hdrop] at hx hsorted hrange
          have hs := List.sorted_cons.1 hsorted
          have hhead : idx[k] ≠ (i : Int) := by
            intro heq
            apply hcond
            refine ⟨hlt, ?_⟩
            rw [List.getElem?_eq_getElem hlt, heq]
          have hr := (hrange idx[k] (List.mem_cons_self _ _)).1
          rcases List.mem_cons.1 hx with rfl | hx
          · omega
          · have := hs.1 x hx
            omega
        · have : idx.drop k = [] := List.drop_eq_nil_of_le (by omega)
          rw [this] at hx
          cases hx
      have hstep : delete_loop M idx (e :: rest) i k curoff =
          (⟨curoff % (M + 1), curoff, ⟨e.lexeme, e.haspos, POSDATA e⟩⟩ ::
            (delete_loop M idx rest (i + 1) k
              (if e.haspos then SHORTALIGN (curoff + e.lexeme.length) +
                ((POSDATA e).length * 2 + 2) else curoff + e.lexeme.length)).1,
           (delete_loop M idx rest (i + 1) k
              (if e.haspos then SHORTALIGN (curoff + e.lexeme.length) +
                ((POSDATA e).length * 2 + 2) else curoff + e.lexeme.length)).2) := by
        simp only [delete_loop, hcond, if_false]
      obtain ⟨h1, h2⟩ := ih (i + 1) k (if e.haspos then SHORTALIGN (curoff + e.lexeme.length) +
          ((POSDATA e).length * 2 + 2) else curoff + e.lexeme.length) hk hsorted (by
        intro x hx
        have h3 := hnot x hx
        have h4 := hrange x hx
        simp only [List.length_cons] at h4
        push_cast at h4 ⊢
        omega)
      rw [hstep]
      refine ⟨h1, ?_⟩
      have hi : (i : Int) ∉ idx.drop k := fun hmem => by
        have := hnot _ hmem
        omega
      rw [List.enumFrom_cons, List.filter_cons_of_pos (by simpa using hi)]
      simp only [OutEntry.toTSVector] at h2 ⊢
      simp [h2]

/-- On a list of valid indices without repetition `tsvector_delete_by_indices`
passes its `Assert` and returns the entries whose index is not listed; the field
`size` is the size of the input minus the number of indices. -/
theorem tsvector_delete_by_indices_nodup (M : Nat) (v : TSVector) (idx : List Int)
    (hvalid : ∀ x ∈ idx, 0 ≤ x ∧ x < (v.length : Int)) (hnodup : idx.Nodup) :
    ∃ out, tsvector_delete_by_indices M v idx = some out ∧
      out.size = (v.length : Int) - (idx.length : Int) ∧
      OutEntry.toTSVector out.arrout =
        ((v.enum.filter (fun p => decide ((p.1 : Int) ∉ idx))).map
          (fun p => ⟨p.2.lexeme, p.2.haspos, POSDATA p.2⟩)) := by
  have hsort : ∃ s : List Int, s.Perm idx ∧ List.Sorted (· ≤ ·) s ∧
      (if idx.length > 1 then qsort_int compareint idx else idx) = s := by
    by_cases h : idx.length > 1
    · exact ⟨_, qsort_int_perm idx, qsort_int_sorted idx, by simp [h]⟩
    · refine ⟨idx, List.Perm.refl _, ?_, by simp [h]⟩
      match idx, h with
      | [], _ => simp
      | [_], _ => simp
      | _ :: _ :: _, h => simp at h
  obtain ⟨s, hperm, hsorted, hs⟩ := hsort
  have hlen : s.length = idx.length := hperm.length_eq
  have hstrict : List.Sorted (· < ·) s := hsorted.lt_of_le (hperm.nodup_iff.2 hnodup)
  obtain ⟨h1, h2⟩ := delete_loop_sorted M s v 0 0 0 (by omega) (by simpa using hstrict) (by
    intro x hx
    have := hvalid x (hperm.mem_iff.1 (by simpa using hx))
    push_cast
    omega)
  refine ⟨(delete_by_indices_pass M v idx).1, ?_, ?_, ?_⟩
  · simp only [tsvector_delete_by_indices, delete_by_indices_pass, hs, h1, hlen, if_true]
  · simp [delete_by_indices_pass]
  · simp only [delete_by_indices_pass, hs, h2, List.drop_zero, List.enum]
    congr 1
    apply List.filter_congr
    intro p _
    simp [hperm.mem_iff]

/-! ## Three-way comparisons -/

theorem ThreeWay.zero_symm {α : Type} {c : α → α → Int} (h : ThreeWay c) {a b : α}
    (hab : c a b = 0) : c b a = 0 := by
  have h1 := h.anti a b
  have h2 := h.anti b a
  omega

theorem ThreeWay.lt_of_lt_of_le {α : Type} {c : α → α → Int} (h : ThreeWay c) {a b d : α}
    (hab : c a b < 0) (hbd : c b d ≤ 0) : c a d < 0 := by
  by_contra hn
  have hda : c d a ≤ 0 := by
    have := h.anti d a
    have := h.anti a d
    omega
  have hdb : c d b ≤ 0 := h.trans d a b hda (by omega)
  have hba : c b a ≤ 0 := h.trans b d a hbd hda
  have := h.anti a b
  omega

theorem ThreeWay.lt_of_le_of_lt {α : Type} {c : α → α → Int} (h : ThreeWay c) {a b d : α}
    (hab : c a b ≤ 0) (hbd : c b d < 0) : c a d < 0 := by
  by_contra hn
  have hda : c d a ≤ 0 := by
    have := h.anti d a
    have := h.anti a d
    omega
  have hdb : c d b ≤ 0 := h.trans d a b hda hab
  have := h.anti b d
  omega

theorem ThreeWay.zero_trans {α : Type} {c : α → α → Int} (h : ThreeWay c) {a b d : α}
    (hab : c a b = 0) (hbd : c b d = 0) : c a d = 0 := by
  have h1 : c a d ≤ 0 := h.trans a b d (by omega) (by omega)
  have h2 : c d a ≤ 0 := h.trans d b a (by rw [h.zero_symm hbd]) (by rw [h.zero_symm hab])
  have := h.anti a d
  have := h.anti d a
  omega

/-- A comparison that first asks `c1` and, where `c1` gives `0`, asks `c2` is
three-way when `c1` is, `c2` reverses its sign under a swap and is transitive on
arguments that `c1` does not tell apart. -/
theorem ThreeWay.lex_of {α : Type} {c1 c2 : α → α → Int} (h1 : ThreeWay c1)
    (anti2 : ∀ a b, c2 a b < 0 ↔ 0 < c2 b a)
    (trans2 : ∀ a b d, c1 a b = 0 → c1 b d = 0 → c2 a b ≤ 0 → c2 b d ≤ 0 → c2 a d ≤ 0) :
    ThreeWay (fun a b => if c1 a b ≠ 0 then c1 a b else c2 a b) := by
  constructor
  · intro a b
    show (if c1 a b ≠ 0 then c1 a b else c2 a b) < 0 ↔
      0 < (if c1 b a ≠ 0 then c1 b a else c2 b a)
    have hanti := h1.anti a b
    have hanti2 := h1.anti b a
    by_cases hab : c1 a b = 0
    · have hba := h1.zero_symm hab
      simp only [hab, hba, ne_eq, not_true_eq_false, if_false]
      exact anti2 a b
    · have hba : c1 b a ≠ 0 := fun h0 => hab (h1.zero_symm h0)
      simp only [hab, hba, ne_eq, not_false_eq_true, if_true]
      omega
  · intro a b d
    show (if c1 a b ≠ 0 then c1 a b else c2 a b) ≤ 0 →
      (if c1 b d ≠ 0 then c1 b d else c2 b d) ≤ 0 →
      (if c1 a d ≠ 0 then c1 a d else c2 a d) ≤ 0
    intro hab hbd
    by_cases e1 : c1 a b = 0
    · by_cases e2 : c1 b d = 0
      · have e3 := h1.zero_trans e1 e2
        simp only [e1, e2, e3, ne_eq, not_true_eq_false, if_false] at hab hbd ⊢
        exact trans2 a b d e1 e2 hab hbd
      · simp only [e2, ne_eq, not_false_eq_true, if_true] at hbd
        have hx : c1 a b ≤ 0 := by omega
        have hy : c1 b d < 0 := by omega
        have e3 : c1 a d < 0 := h1.lt_of_le_of_lt hx hy
        have e4 : c1 a d ≠ 0 := by omega
        simp only [e4, ne_eq, not_false_eq_true, if_true]
        omega
    · simp only [e1, ne_eq, not_false_eq_true, if_true] at hab
      have hbd2 : c1 b d ≤ 0 := by
        by_cases e2 : c1 b d = 0
        · omega
        · simp only [e2, ne_eq, not_false_eq_true, if_true] at hbd
          exact hbd
      have hx : c1 a b < 0 := by omega
      have e3 : c1 a d < 0 := h1.lt_of_lt_of_le hx hbd2
      have e4 : c1 a d ≠ 0 := by omega
      simp only [e4, ne_eq, not_false_eq_true, if_true]
      omega

theorem ThreeWay.lex {α : Type} {c1 c2 : α → α → Int} (h1 : ThreeWay c1) (h2 : ThreeWay c2) :
    ThreeWay (fun a b => if c1 a b ≠ 0 then c1 a b else c2 a b) :=
  h1.lex_of h2.anti (fun a b d _ _ => h2.trans a b d)

theorem ThreeWay.comap {α β : Type} {c : α → α → Int} (h : ThreeWay c) (f : β → α) :
    ThreeWay (fun a b => c (f a) (f b)) :=
  ⟨fun a b => h.anti (f a) (f b), fun a b d => h.trans (f a) (f b) (f d)⟩

theorem lexList_anti {α : Type} {c : α → α → Int} (h : ThreeWay c) :
    ∀ l1 l2 : List α, lexList c l1 l2 < 0 ↔ 0 < lexList c l2 l1 := by
  intro l1
  induction l1 with
  | nil => intro l2; cases l2 <;> simp [lexList]
  | cons a as ih =>
    intro l2
    cases l2 with
    | nil => simp [lexList]
    | cons b bs =>
      simp only [lexList]
      have hanti := h.anti a b
      have hanti2 := h.anti b a
      by_cases hab : c a b = 0
      · have hba := h.zero_symm hab
        simp only [hab, hba, ne_eq, not_true_eq_false, if_false]
        exact ih bs
      · have hba : c b a ≠ 0 := fun h0 => hab (h.zero_symm h0)
        simp only [hab, hba, ne_eq, not_false_eq_true, if_true]
        omega

theorem lexList_trans {α : Type} {c : α → α → Int} (h : ThreeWay c) :
    ∀ l1 l2 l3 : List α, l1.length = l2.length → l2.length = l3.length →
      lexList c l1 l2 ≤ 0 → lexList c l2 l3 ≤ 0 → lexList c l1 l3 ≤ 0 := by
  intro l1
  induction l1 with
  | nil => intro l2 l3 _ _ _ _; simp [lexList]
  | cons a as ih =>
    intro l2 l3 h12 h23 hab hbd
    cases l2 with
    | nil => simp at h12
    | cons b bs =>
      cases l3 with
      | nil => simp at h23
      | cons d ds =>
        simp only [lexList] at hab hbd ⊢
        simp only [List.length_cons, Nat.add_right_cancel_iff] at h12 h23
        by_cases e1 : c a b = 0
        · by_cases e2 : c b d = 0
          · have e3 := h.zero_trans e1 e2
            simp only [e1, e2, e3, ne_eq, not_true_eq_false, if_false] at hab hbd ⊢
            exact ih bs ds h12 h23 hab hbd
          · simp only [e2, ne_eq, not_false_eq_true, if_true] at hbd
            have hx : c a b ≤ 0 := by omega
            have hy : c b d < 0 := by omega
            have e3 : c a d < 0 := h.lt_of_le_of_lt hx hy
            have e4 : c a d ≠ 0 := by omega
            simp only [e4, ne_eq, not_false_eq_true, if_true]
            omega
        · simp only [e1, ne_eq, not_false_eq_true, if_true] at hab
          have hbd2 : c b d ≤ 0 := by
            by_cases e2 : c b d = 0
            · omega
            · simp only [e2, ne_eq, not_false_eq_true, if_true] at hbd
              exact hbd
          have hx : c a b < 0 := by omega
          have e3 : c a d < 0 := h.lt_of_lt_of_le hx hbd2
          have e4 : c a d ≠ 0 := by omega
          simp only [e4, ne_eq, not_false_eq_true, if_true]
          omega

/-- A comparison of two lists that first compares their lengths with `g` and,
for equal lengths, goes through them pair by pair is three-way. -/
theorem ThreeWay.guardList {α : Type} {g : Nat → Nat → Int} {c : α → α → Int}
    (hg : ThreeWay g) (hg0 : ∀ m n, g m n = 0 → m = n) (hc : ThreeWay c) :
    ThreeWay (fun l1 l2 : List α =>
      if g l1.length l2.length ≠ 0 then g l1.length l2.length else lexList c l1 l2) :=
  ThreeWay.lex_of (hg.comap List.length) (lexList_anti hc)
    (fun l1 l2 l3 h12 h23 => lexList_trans hc l1 l2 l3 (hg0 _ _ h12) (hg0 _ _ h23))

theorem ThreeWay.congr {α : Type} {c1 c2 : α → α → Int} (h : ThreeWay c1)
    (heq : ∀ a b, c2 a b = c1 a b) : ThreeWay c2 :=
  ⟨fun a b => by rw [heq a b, heq b a]; exact h.anti a b,
    fun a b d => by rw [heq a b, heq b d, heq a d]; exact h.trans a b d⟩

/-! ## silly_cmp_tsvector -/

theorem silly_cmp_pos_threeWay : ThreeWay silly_cmp_pos := by
  constructor
  · intro a b
    unfold silly_cmp_pos
    split_ifs <;> omega
  · intro a b d
    unfold silly_cmp_pos
    split_ifs <;> omega

theorem silly_cmp_positions_eq_lexList (l1 l2 : List WordEntryPos) :
    silly_cmp_positions l1 l2 = lexList silly_cmp_pos l1 l2 := by
  induction l1 generalizing l2 with
  | nil => cases l2 <;> simp [silly_cmp_positions, lexList]
  | cons a as ih =>
    cases l2 with
    | nil => simp [silly_cmp_positions, lexList]
    | cons b bs => simp only [silly_cmp_positions, lexList, ih]

theorem silly_cmp_entries_eq_lexList (l1 l2 : List WordEntry) :
    silly_cmp_entries l1 l2 = lexList silly_cmp_entry l1 l2 := by
  induction l1 generalizing l2 with
  | nil => cases l2 <;> simp [silly_cmp_entries, lexList]
  | cons a as ih =>
    cases l2 with
    | nil => simp [silly_cmp_entries, lexList]
    | cons b bs => simp only [silly_cmp_entries, lexList, ih]

theorem natDesc_threeWay :
    ThreeWay (fun m n : Nat => if m ≠ n then (if m > n then (-1 : Int) else 1) else 0) := by
  constructor
  · intro a b
    show (if a ≠ b then (if a > b then (-1 : Int) else 1) else 0) < 0 ↔
      0 < (if b ≠ a then (if b > a then (-1 : Int) else 1) else 0)
    split_ifs <;> omega
  · intro a b d
    show (if a ≠ b then (if a > b then (-1 : Int) else 1) else 0) ≤ 0 →
      (if b ≠ d then (if b > d then (-1 : Int) else 1) else 0) ≤ 0 →
      (if a ≠ d then (if a > d then (-1 : Int) else 1) else 0) ≤ 0
    split_ifs <;> omega

theorem natAsc_threeWay :
    ThreeWay (fun m n : Nat => if m < n then (-1 : Int) else if m > n then 1 else 0) := by
  constructor
  · intro a b
    show (if a < b then (-1 : Int) else if a > b then 1 else 0) < 0 ↔
      0 < (if b < a then (-1 : Int) else if b > a then 1 else 0)
    split_ifs <;> omega
  · intro a b d
    show (if a < b then (-1 : Int) else if a > b then 1 else 0) ≤ 0 →
      (if b < d then (-1 : Int) else if b > d then 1 else 0) ≤ 0 →
      (if a < d then (-1 : Int) else if a > d then 1 else 0) ≤ 0
    split_ifs <;> omega

theorem boolDesc_threeWay :
    ThreeWay (fun a b : Bool => if a ≠ b then (if a > b then (-1 : Int) else 1) else 0) := by
  constructor
  · intro a b
    cases a <;> cases b <;> decide
  · intro a b d
    cases a <;> cases b <;> cases d <;> decide

theorem tsCompareString_false_threeWay :
    ThreeWay (fun a b : List Nat => tsCompareString a b false) := by
  constructor
  · intro a b
    exact (tsCompareString_false_swap b a).symm
  · intro a b d hab hbd
    show tsCompareString a d false ≤ 0
    rcases lt_or_eq_of_le hab with h1 | h1
    · rcases lt_or_eq_of_le hbd with h2 | h2
      · exact Int.le_of_lt (tsCompareString_false_trans a b d h1 h2)
      · have := (tsCompareString_false_eq_zero_iff b d).1 h2
        subst this
        exact hab
    · have := (tsCompareString_false_eq_zero_iff a b).1 h1
      subst this
      exact hbd

/-- The comparison of two position lists in `silly_cmp_tsvector`: the longer list
first, then the positions pair by pair. -/
theorem silly_cmp_poslist_threeWay :
    ThreeWay (fun l1 l2 : List WordEntryPos =>
      if (if l1.length ≠ l2.length then (if l1.length > l2.length then (-1 : Int) else 1)
          else 0) ≠ 0
      then (if l1.length ≠ l2.length then (if l1.length > l2.length then (-1 : Int) else 1)
          else 0)
      else lexList silly_cmp_pos l1 l2) :=
  ThreeWay.guardList natDesc_threeWay
    (by
      intro m n h
      by_contra hne
      simp only [hne, ne_eq, not_false_eq_true, if_true] at h
      split_ifs at h
      omega)
    silly_cmp_pos_threeWay

theorem silly_cmp_entry_eq (a b : WordEntry) :
    silly_cmp_entry a b =
      (if (if a.haspos ≠ b.haspos then (if a.haspos > b.haspos then (-1 : Int) else 1)
          else 0) ≠ 0
       then (if a.haspos ≠ b.haspos then (if a.haspos > b.haspos then (-1 : Int) else 1)
          else 0)
       else if tsCompareString a.lexeme b.lexeme false ≠ 0
         then tsCompareString a.lexeme b.lexeme false
         else
          (if (if (POSDATA a).length ≠ (POSDATA b).length then
                (if (POSDATA a).length > (POSDATA b).length then (-1 : Int) else 1)
              else 0) ≠ 0
           then (if (POSDATA a).length ≠ (POSDATA b).length then
                (if (POSDATA a).length > (POSDATA b).length then (-1 : Int) else 1)
              else 0)
           else lexList silly_cmp_pos (POSDATA a) (POSDATA b))) := by
  unfold silly_cmp_entry
  by_cases hh : a.haspos = b.haspos
  · simp only [hh, ne_eq, not_true_eq_false, if_false]
    by_cases hts : tsCompareString a.lexeme b.lexeme false = 0
    · simp only [hts, ne_eq, not_true_eq_false, if_false]
      by_cases hb : b.haspos = true
      · simp only [hb, if_true]
        by_cases hl : (POSDATA a).length = (POSDATA b).length
        · simp only [hl, ne_eq, not_true_eq_false, if_false]
          exact silly_cmp_positions_eq_lexList _ _
        · simp only [hl, ne_eq, not_false_eq_true, if_true]
          split_ifs <;> simp_all
      · have ha : a.haspos = false := by
          rw [hh]; simpa using hb
        have hb2 : b.haspos = false := by simpa using hb
        simp [POSDATA, ha, hb2, lexList]
    · simp only [hts, ne_eq, not_false_eq_true, if_true]
  · simp only [hh, ne_eq, not_false_eq_true, if_true]
    split_ifs <;> simp_all

theorem silly_cmp_entry_threeWay : ThreeWay silly_cmp_entry := by
  have h := ThreeWay.lex (boolDesc_threeWay.comap WordEntry.haspos)
    (ThreeWay.lex (tsCompareString_false_threeWay.comap WordEntry.lexeme)
      (silly_cmp_poslist_threeWay.comap POSDATA))
  exact h.congr silly_cmp_entry_eq

theorem silly_cmp_tsvector_eq (a b : TSVectorData) :
    silly_cmp_tsvector a b =
      (if (if a.varsize < b.varsize then (-1 : Int) else if a.varsize > b.varsize then 1
          else 0) ≠ 0
       then (if a.varsize < b.varsize then (-1 : Int) else if a.varsize > b.varsize then 1
          else 0)
       else
        (if (if a.entries.length < b.entries.length then (-1 : Int)
              else if a.entries.length > b.entries.length then 1 else 0) ≠ 0
         then (if a.entries.length < b.entries.length then (-1 : Int)
              else if a.entries.length > b.entries.length then 1 else 0)
         else lexList silly_cmp_entry a.entries b.entries)) := by
  unfold silly_cmp_tsvector
  rw [silly_cmp_entries_eq_lexList]
  split_ifs <;> simp_all

/-- The function `silly_cmp_tsvector` is a three-way comparison for a total
preorder of all vectors. -/
theorem silly_cmp_tsvector_threeWay : ThreeWay silly_cmp_tsvector := by
  have hsize := ThreeWay.guardList natAsc_threeWay
    (by
      intro m n h
      split_ifs at h <;> omega)
    silly_cmp_entry_threeWay
  have h := ThreeWay.lex (natAsc_threeWay.comap TSVectorData.varsize)
    (hsize.comap TSVectorData.entries)
  exact h.congr silly_cmp_tsvector_eq

/-- C30: `silly_cmp_tsvector` orders all vectors totally: the sign of
`cmp(x, y)` is the negation of the sign of `cmp(y, x)`; `cmp(x, y) <= 0` and
`cmp(y, z) <= 0` give `cmp(x, z) <= 0`; of the operators `lt`, `eq` and `gt`
built on it exactly one holds for every pair, `lt(x, y)` is `gt(y, x)`, and the
three-way operator `cmp` returns the value of `silly_cmp_tsvector`. -/
theorem silly_cmp_tsvector_total_order :
    (∀ x y : TSVectorData,
      Int.sign (silly_cmp_tsvector x y) = - Int.sign (silly_cmp_tsvector y x)) ∧
    (∀ x y z : TSVectorData, silly_cmp_tsvector x y ≤ 0 → silly_cmp_tsvector y z ≤ 0 →
      silly_cmp_tsvector x z ≤ 0) ∧
    (∀ x y : TSVectorData,
      (tsvector_lt x y = true ∧ tsvector_eq x y = false ∧ tsvector_gt x y = false) ∨
      (tsvector_lt x y = false ∧ tsvector_eq x y = true ∧ tsvector_gt x y = false) ∨
      (tsvector_lt x y = false ∧ tsvector_eq x y = false ∧ tsvector_gt x y = true)) ∧
    (∀ x y : TSVectorData, tsvector_lt x y = tsvector_gt y x ∧
      tsvector_eq x y = tsvector_eq y x ∧ tsvector_le x y = tsvector_ge y x ∧
      tsvector_ne x y = !tsvector_eq x y ∧
      tsvector_cmp x y = silly_cmp_tsvector x y) := by
  have h := silly_cmp_tsvector_threeWay
  have hsign : ∀ x y : TSVectorData,
      (silly_cmp_tsvector x y < 0 ↔ 0 < silly_cmp_tsvector y x) ∧
      (silly_cmp_tsvector x y = 0 ↔ silly_cmp_tsvector y x = 0) ∧
      (0 < silly_cmp_tsvector x y ↔ silly_cmp_tsvector y x < 0) := by
    intro x y
    have h1 := h.anti x y
    have h2 := h.anti y x
    refine ⟨h1, ?_, h2.symm⟩
    constructor <;> intro h0 <;> omega
  refine ⟨?_, h.trans, ?_, ?_⟩
  · intro x y
    obtain ⟨h1, h2, h3⟩ := hsign x y
    rcases lt_trichotomy (silly_cmp_tsvector x y) 0 with hlt | heq | hgt
    · rw [Int.sign_eq_neg_one_of_neg hlt, Int.sign_eq_one_of_pos (h1.1 hlt)]
    · rw [heq, h2.1 heq]
      rfl
    · rw [Int.sign_eq_one_of_pos hgt, Int.sign_eq_neg_one_of_neg (h3.1 hgt)]
      rfl
  · intro x y
    unfold tsvector_lt tsvector_eq tsvector_gt
    rcases lt_trichotomy (silly_cmp_tsvector x y) 0 with hlt | heq | hgt
    · left
      refine ⟨by simpa using hlt, ?_, ?_⟩
      · simp only [decide_eq_false_iff_not]; omega
      · simp only [decide_eq_false_iff_not]; omega
    · right; left
      refine ⟨?_, by simpa using heq, ?_⟩
      · simp only [decide_eq_false_iff_not]; omega
      · simp only [decide_eq_false_iff_not]; omega
    · right; right
      refine ⟨?_, ?_, by simpa using hgt⟩
      · simp only [decide_eq_false_iff_not]; omega
      · simp only [decide_eq_false_iff_not]; omega
  · intro x y
    obtain ⟨h1, h2, h3⟩ := hsign x y
    unfold tsvector_lt tsvector_eq tsvector_gt tsvector_le tsvector_ge tsvector_ne
      tsvector_cmp
    refine ⟨?_, ?_, ?_, ?_, by omega⟩
    · exact decide_eq_decide.2 h1
    · exact decide_eq_decide.2 h2
    · apply decide_eq_decide.2
      constructor <;> intro h0 <;> omega
    · by_cases h0 : silly_cmp_tsvector x y = 0 <;> simp [h0]

theorem silly_cmp_pos_eq_zero_iff (a b : WordEntryPos) :
    silly_cmp_pos a b = 0 ↔
      WEP_GETPOS a = WEP_GETPOS b ∧ WEP_GETWEIGHT a = WEP_GETWEIGHT b := by
  unfold silly_cmp_pos
  split_ifs <;> simp_all

theorem silly_cmp_positions_eq_zero_iff :
    ∀ l1 l2 : List WordEntryPos, l1.length = l2.length →
      (silly_cmp_positions l1 l2 = 0 ↔
        l1.map WEP_GETPOS = l2.map WEP_GETPOS ∧
        l1.map WEP_GETWEIGHT = l2.map WEP_GETWEIGHT) := by
  intro l1
  induction l1 with
  | nil =>
    intro l2 h
    cases l2 with
    | nil => simp [silly_cmp_positions]
    | cons b bs => simp at h
  | cons a as ih =>
    intro l2 h
    cases l2 with
    | nil => simp at h
    | cons b bs =>
      simp only [List.length_cons, Nat.add_right_cancel_iff] at h
      simp only [silly_cmp_positions, List.map_cons, List.cons.injEq]
      by_cases h0 : silly_cmp_pos a b = 0
      · simp only [h0, ne_eq, not_true_eq_false, if_false]
        rw [ih bs h]
        have := (silly_cmp_pos_eq_zero_iff a b).1 h0
        constructor
        · rintro ⟨h1, h2⟩
          exact ⟨⟨this.1, h1⟩, ⟨this.2, h2⟩⟩
        · rintro ⟨⟨_, h1⟩, ⟨_, h2⟩⟩
          exact ⟨h1, h2⟩
      · simp only [h0, ne_eq, not_false_eq_true, if_true]
        constructor
        · intro h1
          exact h1.elim
        · rintro ⟨⟨h1, _⟩, ⟨h2, _⟩⟩
          exact absurd ((silly_cmp_pos_eq_zero_iff a b).2 ⟨h1, h2⟩) h0

theorem silly_cmp_entry_eq_zero_iff (a b : WordEntry) :
    silly_cmp_entry a b = 0 ↔ entriesMatch a b := by
  unfold silly_cmp_entry entriesMatch
  by_cases hh : a.haspos = b.haspos
  · rw [if_neg (not_not.2 hh)]
    by_cases hts : tsCompareString a.lexeme b.lexeme false = 0
    · have hlex := (tsCompareString_false_eq_zero_iff a.lexeme b.lexeme).1 hts
      rw [if_neg (not_not.2 hts)]
      by_cases ha : a.haspos = true
      · rw [if_pos ha]
        by_cases hl : (POSDATA a).length = (POSDATA b).length
        · rw [if_neg (not_not.2 hl), silly_cmp_positions_eq_zero_iff _ _ hl]
          exact ⟨fun h => ⟨hh, hlex, fun _ => h⟩, fun h => h.2.2 ha⟩
        · rw [if_pos hl]
          constructor
          · intro h
            split_ifs at h
            omega
          · rintro ⟨_, _, h⟩
            have := congrArg List.length (h ha).1
            simp only [List.length_map] at this
            exact absurd this hl
      · rw [if_neg ha]
        exact ⟨fun _ => ⟨hh, hlex, fun h => absurd h ha⟩, fun _ => rfl⟩
    · rw [if_pos hts]
      constructor
      · intro h
        exact absurd h hts
      · rintro ⟨_, hlex, _⟩
        exact absurd ((tsCompareString_false_eq_zero_iff a.lexeme b.lexeme).2 hlex) hts
  · rw [if_pos hh]
    constructor
    · intro h
      split_ifs at h
      omega
    · rintro ⟨h, _⟩
      exact absurd h hh

theorem silly_cmp_entries_eq_zero_iff :
    ∀ l1 l2 : List WordEntry, l1.length = l2.length →
      (silly_cmp_entries l1 l2 = 0 ↔
        ∀ (i : Nat) (a b : WordEntry), l1[i]? = some a → l2[i]? = some b →
          entriesMatch a b) := by
  intro l1
  induction l1 with
  | nil =>
    intro l2 h
    cases l2 with
    | nil => simp [silly_cmp_entries]
    | cons b bs => simp at h
  | cons a as ih =>
    intro l2 h
    cases l2 with
    | nil => simp at h
    | cons b bs =>
      simp only [List.length_cons, Nat.add_right_cancel_iff] at h
      simp only [silly_cmp_entries]
      by_cases h0 : silly_cmp_entry a b = 0
      · simp only [h0, ne_eq, not_true_eq_false, if_false]
        rw [ih bs h]
        constructor
        · intro hall i x y hx hy
          cases i with
          | zero =>
            simp only [List.getElem?_cons_zero, Option.some.injEq] at hx hy
            subst hx; subst hy
            exact (silly_cmp_entry_eq_zero_iff _ _).1 h0
          | succ i =>
            simp only [List.getElem?_cons_succ] at hx hy
            exact hall i x y hx hy
        · intro hall i x y hx hy
          exact hall (i + 1) x y (by simpa using hx) (by simpa using hy)
      · simp only [h0, ne_eq, not_false_eq_true, if_true, false_iff]
        intro hall
        exact h0 ((silly_cmp_entry_eq_zero_iff a b).2 (hall 0 a b (by simp) (by simp)))

/-- C29: `silly_cmp_tsvector(x, y)` is `0` exactly when the two vectors have the
same `VARSIZE`, the same number of entries, and at every index entries that match:
the same `haspos` flag, the same lexeme bytes and, when positions are present, the
same position values and the same weight classes, element by element. -/
theorem silly_cmp_tsvector_eq_zero_iff (x y : TSVectorData) :
    silly_cmp_tsvector x y = 0 ↔
      x.varsize = y.varsize ∧ x.entries.length = y.entries.length ∧
      ∀ (i : Nat) (a b : WordEntry), x.entries[i]? = some a → y.entries[i]? = some b →
        entriesMatch a b := by
  unfold silly_cmp_tsvector
  by_cases h1 : x.varsize < y.varsize
  · simp only [h1, if_true]
    constructor
    · intro h; omega
    · rintro ⟨h, _⟩; omega
  · by_cases h2 : x.varsize > y.varsize
    · simp only [h1, h2, if_false, if_true]
      constructor
      · intro h; omega
      · rintro ⟨h, _⟩; omega
    · have hv : x.varsize = y.varsize := by omega
      by_cases h3 : x.entries.length < y.entries.length
      · simp only [h1, h2, h3, if_false, if_true]
        constructor
        · intro h; omega
        · rintro ⟨_, h, _⟩; omega
      · by_cases h4 : x.entries.length > y.entries.length
        · simp only [h1, h2, h3, h4, if_false, if_true]
          constructor
          · intro h; omega
          · rintro ⟨_, h, _⟩; omega
        · have hl : x.entries.length = y.entries.length := by omega
          rw [if_neg h1, if_neg h2, if_neg h3, if_neg h4,
            silly_cmp_entries_eq_zero_iff _ _ hl]
          exact ⟨fun h => ⟨hv, hl, h⟩, fun h => h.2.2⟩

/-! ## The order of silly_cmp_tsvector -/

/-- A pair-by-pair comparison gives the value of the first pair that `c` tells
apart. -/
theorem lexList_first_diff {α : Type} (c : α → α → Int) :
    ∀ (i : Nat) (l1 l2 : List α) (a b : α), l1[i]? = some a → l2[i]? = some b →
      (∀ (k : Nat) (a2 b2 : α), k < i → l1[k]? = some a2 → l2[k]? = some b2 → c a2 b2 = 0) →
      c a b ≠ 0 → lexList c l1 l2 = c a b := by
  intro i
  induction i with
  | zero =>
    intro l1 l2 a b h1 h2 _ hne
    cases l1 with
    | nil => simp at h1
    | cons x xs =>
      cases l2 with
      | nil => simp at h2
      | cons y ys =>
        simp only [List.getElem?_cons_zero, Option.some.injEq] at h1 h2
        subst h1; subst h2
        simp only [lexList]
        rw [if_pos hne]
  | succ i ih =>
    intro l1 l2 a b h1 h2 hall hne
    cases l1 with
    | nil => simp at h1
    | cons x xs =>
      cases l2 with
      | nil => simp at h2
      | cons y ys =>
        simp only [List.getElem?_cons_succ] at h1 h2
        have h0 : c x y = 0 := hall 0 x y (by omega) (by simp) (by simp)
        simp only [lexList]
        rw [if_neg (not_not.2 h0)]
        apply ih xs ys a b h1 h2 _ hne
        intro k a2 b2 hk hx hy
        exact hall (k + 1) a2 b2 (by omega) (by simpa using hx) (by simpa using hy)

theorem silly_cmp_pos_values (p q : WordEntryPos) :
    (WEP_GETPOS p > WEP_GETPOS q → silly_cmp_pos p q = -1) ∧
    (WEP_GETPOS p < WEP_GETPOS q → silly_cmp_pos p q = 1) ∧
    (WEP_GETPOS p = WEP_GETPOS q → WEP_GETWEIGHT p > WEP_GETWEIGHT q →
      silly_cmp_pos p q = -1) ∧
    (WEP_GETPOS p = WEP_GETPOS q → WEP_GETWEIGHT p < WEP_GETWEIGHT q →
      silly_cmp_pos p q = 1) := by
  unfold silly_cmp_pos
  refine ⟨?_, ?_, ?_, ?_⟩
  · intro h
    rw [if_pos (by omega), if_pos h]
  · intro h
    rw [if_pos (by omega), if_neg (by omega)]
  · intro h1 h2
    rw [if_neg (not_not.2 h1), if_pos (by omega), if_pos h2]
  · intro h1 h2
    rw [if_neg (not_not.2 h1), if_pos (by omega), if_neg (by omega)]

theorem silly_cmp_entry_haspos (a b : WordEntry) :
    (a.haspos = true → b.haspos = false → silly_cmp_entry a b = -1) ∧
    (a.haspos = false → b.haspos = true → silly_cmp_entry a b = 1) := by
  unfold silly_cmp_entry
  constructor
  · intro h1 h2
    rw [h1, h2]
    rfl
  · intro h1 h2
    rw [h1, h2]
    rfl

theorem silly_cmp_entry_lexeme (a b : WordEntry) (hh : a.haspos = b.haspos)
    (hl : a.lexeme ≠ b.lexeme) :
    silly_cmp_entry a b = tsCompareString a.lexeme b.lexeme false := by
  unfold silly_cmp_entry
  have hts : tsCompareString a.lexeme b.lexeme false ≠ 0 := fun h =>
    hl ((tsCompareString_false_eq_zero_iff _ _).1 h)
  rw [if_neg (not_not.2 hh), if_pos hts]

theorem silly_cmp_entry_positions (a b : WordEntry) (hh : a.haspos = b.haspos)
    (hl : a.lexeme = b.lexeme) (ha : a.haspos = true) :
    silly_cmp_entry a b =
      if (POSDATA a).length ≠ (POSDATA b).length then
        (if (POSDATA a).length > (POSDATA b).length then -1 else 1)
      else silly_cmp_positions (POSDATA a) (POSDATA b) := by
  unfold silly_cmp_entry
  have hts : tsCompareString a.lexeme b.lexeme false = 0 :=
    (tsCompareString_false_eq_zero_iff _ _).2 hl
  rw [if_neg (not_not.2 hh), if_neg (not_not.2 hts), if_pos ha]

theorem haspos_of_not_entriesMatch (a b : WordEntry) (hh : a.haspos = b.haspos)
    (hl : a.lexeme = b.lexeme) (hne : ¬ entriesMatch a b) : a.haspos = true := by
  by_contra hc
  exact hne ⟨hh, hl, fun h => absurd h hc⟩

/-- C31: `silly_cmp_tsvector(x, y)` is decided by the first key that differs.  The
vector with the smaller `VARSIZE` comes first; at equal `VARSIZE` the one with
fewer entries; otherwise the first index at which the entries do not match
decides, by the comparison of these two entries: an entry with positions comes
before one without; else differing lexemes decide by `tsCompareString(.., false)`;
else both have positions and the longer position list comes first; else the first
pair of positions that differ decides, the greater position value coming first
and, at equal values, the greater weight class. -/
theorem silly_cmp_tsvector_priority (x y : TSVectorData) :
    (x.varsize < y.varsize → silly_cmp_tsvector x y = -1) ∧
    (x.varsize > y.varsize → silly_cmp_tsvector x y = 1) ∧
    (x.varsize = y.varsize → x.entries.length < y.entries.length →
      silly_cmp_tsvector x y = -1) ∧
    (x.varsize = y.varsize → x.entries.length > y.entries.length →
      silly_cmp_tsvector x y = 1) ∧
    (x.varsize = y.varsize → x.entries.length = y.entries.length →
      ∀ (i : Nat) (a b : WordEntry), x.entries[i]? = some a → y.entries[i]? = some b →
        (∀ (k : Nat) (a2 b2 : WordEntry), k < i → x.entries[k]? = some a2 →
          y.entries[k]? = some b2 → entriesMatch a2 b2) →
        ¬ entriesMatch a b →
        silly_cmp_tsvector x y = silly_cmp_entry a b ∧
        (a.haspos = true → b.haspos = false → silly_cmp_tsvector x y = -1) ∧
        (a.haspos = false → b.haspos = true → silly_cmp_tsvector x y = 1) ∧
        (a.haspos = b.haspos → a.lexeme ≠ b.lexeme →
          silly_cmp_tsvector x y = tsCompareString a.lexeme b.lexeme false) ∧
        (a.haspos = b.haspos → a.lexeme = b.lexeme →
          a.haspos = true ∧
          ((POSDATA a).length > (POSDATA b).length → silly_cmp_tsvector x y = -1) ∧
          ((POSDATA a).length < (POSDATA b).length → silly_cmp_tsvector x y = 1) ∧
          ((POSDATA a).length = (POSDATA b).length →
            ∀ (j : Nat) (p q : WordEntryPos), (POSDATA a)[j]? = some p →
              (POSDATA b)[j]? = some q →
              (∀ (k : Nat) (p2 q2 : WordEntryPos), k < j → (POSDATA a)[k]? = some p2 →
                (POSDATA b)[k]? = some q2 →
                WEP_GETPOS p2 = WEP_GETPOS q2 ∧ WEP_GETWEIGHT p2 = WEP_GETWEIGHT q2) →
              ¬ (WEP_GETPOS p = WEP_GETPOS q ∧ WEP_GETWEIGHT p = WEP_GETWEIGHT q) →
              silly_cmp_tsvector x y = silly_cmp_pos p q ∧
              (WEP_GETPOS p > WEP_GETPOS q → silly_cmp_tsvector x y = -1) ∧
              (WEP_GETPOS p < WEP_GETPOS q → silly_cmp_tsvector x y = 1) ∧
              (WEP_GETPOS p = WEP_GETPOS q → WEP_GETWEIGHT p > WEP_GETWEIGHT q →
                silly_cmp_tsvector x y = -1) ∧
              (WEP_GETPOS p = WEP_GETPOS q → WEP_GETWEIGHT p < WEP_GETWEIGHT q →
                silly_cmp_tsvector x y = 1)))) := by
  refine ⟨?_, ?_, ?_, ?_, ?_⟩
  · intro h
    unfold silly_cmp_tsvector
    rw [if_pos h]
  · intro h
    unfold silly_cmp_tsvector
    rw [if_neg (by omega), if_pos h]
  · intro hv h
    unfold silly_cmp_tsvector
    rw [if_neg (by omega), if_neg (by omega), if_pos h]
  · intro hv h
    unfold silly_cmp_tsvector
    rw [if_neg (by omega), if_neg (by omega), if_neg (by omega), if_pos h]
  · intro hv hlen i a b hia hib hbefore hdiff
    have hE : silly_cmp_tsvector x y = silly_cmp_entry a b := by
      have h1 : silly_cmp_tsvector x y = silly_cmp_entries x.entries y.entries := by
        unfold silly_cmp_tsvector
        rw [if_neg (by omega), if_neg (by omega), if_neg (by omega), if_neg (by omega)]
      rw [h1, silly_cmp_entries_eq_lexList]
      apply lexList_first_diff silly_cmp_entry i _ _ a b hia hib
      · intro k a2 b2 hk h2 h3
        exact (silly_cmp_entry_eq_zero_iff a2 b2).2 (hbefore k a2 b2 hk h2 h3)
      · intro h0
        exact hdiff ((silly_cmp_entry_eq_zero_iff a b).1 h0)
    refine ⟨hE, ?_, ?_, ?_, ?_⟩
    · intro h1 h2
      rw [hE]
      exact (silly_cmp_entry_haspos a b).1 h1 h2
    · intro h1 h2
      rw [hE]
      exact (silly_cmp_entry_haspos a b).2 h1 h2
    · intro hh hl
      rw [hE]
      exact silly_cmp_entry_lexeme a b hh hl
    · intro hh hl
      have ha := haspos_of_not_entriesMatch a b hh hl hdiff
      have hP := silly_cmp_entry_positions a b hh hl ha
      refine ⟨ha, ?_, ?_, ?_⟩
      · intro h
        rw [hE, hP, if_pos (by omega), if_pos h]
      · intro h
        rw [hE, hP, if_pos (by omega), if_neg (by omega)]
      · intro hl2 j p q hjp hjq hpre hpq
        have hQ : silly_cmp_tsvector x y = silly_cmp_pos p q := by
          rw [hE, hP, if_neg (not_not.2 hl2), silly_cmp_positions_eq_lexList]
          apply lexList_first_diff silly_cmp_pos j _ _ p q hjp hjq
          · intro k p2 q2 hk h2 h3
            exact (silly_cmp_pos_eq_zero_iff p2 q2).2 (hpre k p2 q2 hk h2 h3)
          · intro h0
            exact hpq ((silly_cmp_pos_eq_zero_iff p q).1 h0)
        obtain ⟨v1, v2, v3, v4⟩ := silly_cmp_pos_values p q
        refine ⟨hQ, ?_, ?_, ?_, ?_⟩
        · intro h; rw [hQ]; exact v1 h
        · intro h; rw [hQ]; exact v2 h
        · intro h1 h2; rw [hQ]; exact v3 h1 h2
        · intro h1 h2; rw [hQ]; exact v4 h1 h2

/-! ## The result buffer of TS_phrase_execute -/

/-- The loop of `TS_phrase_execute` writes at most one position for each position
of the right operand. -/
theorem TS_phrase_execute_loop_length_le (distance : Nat) (hasData : Bool) :
    ∀ (R Lcur : List WordEntryPos),
      (TS_phrase_execute_loop distance hasData R Lcur).2.length ≤ R.length := by
  intro R
  induction R with
  | nil => intro Lcur; simp [TS_phrase_execute_loop]
  | cons r rest ih =>
    intro Lcur
    simp only [TS_phrase_execute_loop]
    split
    · split
      · have := ih (TS_phrase_execute_inner distance r Lcur).2
        simp only [List.length_cons]
        omega
      · simp
    · have := ih (TS_phrase_execute_inner distance r Lcur).2
      simp only [List.length_cons]
      omega

/-- C32, at the input that fails: `"a"` at position 1 and `"b"` at positions 2
and 3, the phrase of `"a"` and `"b"` with distance 2, evaluated with a position
buffer (as the left operand of an enclosing phrase is).  Both leaves report
their positions borrowed from the vector (`allocated` is false), so the buffer
gets `Min(1, 2) = 1` slot; the left position 1 matches both right positions,
because `Lpos` is not advanced after a match, and two positions are written. -/
theorem TS_phrase_execute_overrun :
    checkcondition_str exPhrase ⟨0, false, [97]⟩ (some ExecPhraseData.init) =
      some (true, some ⟨1, false, [1]⟩) ∧
    checkcondition_str exPhrase ⟨0, false, [98]⟩ (some ExecPhraseData.init) =
      some (true, some ⟨2, false, [2, 3]⟩) ∧
    TS_phrase_execute_palloc ⟨1, false, [1]⟩ ⟨2, false, [2, 3]⟩ = 1 ∧
    TS_phrase_execute_loop 2 true [2, 3] [1] = (false, [2, 3]) ∧
    TS_phrase_execute (checkcondition_str exPhrase) true
        (QueryItem.phrase (QueryItem.val ⟨0, false, [97]⟩) (QueryItem.val ⟨0, false, [98]⟩) 2)
        (some ExecPhraseData.init) =
      some (true, some ⟨2, true, [2, 3]⟩) ∧
    ¬ (2 ≤ TS_phrase_execute_palloc ⟨1, false, [1]⟩ ⟨2, false, [2, 3]⟩) := by
  refine ⟨by decide, by decide, by decide, by decide, by decide, by decide⟩

/-! ## array_to_tsvector -/

theorem array_to_tsvector_datalen_ok :
    ∀ (ls : List (List Nat)) (datalen : Nat),
      array_to_tsvector_datalen (ls.map some) datalen =
        Except.ok (datalen + (ls.map List.length).sum) := by
  intro ls
  induction ls with
  | nil => intro datalen; simp [array_to_tsvector_datalen]
  | cons x rest ih =>
    intro datalen
    simp only [List.map_cons, array_to_tsvector_datalen, ih, List.sum_cons]
    rw [Nat.add_assoc]

theorem array_to_tsvector_loop_entries (M L : Nat) :
    ∀ (ls : List (List Nat)) (cur : Nat), (∀ x ∈ ls, x.length ≤ L) →
      OutEntry.toTSVector (array_to_tsvector_loop M L (ls.map some) cur) =
        ls.map (fun x => ⟨x, false, []⟩) := by
  intro ls
  induction ls with
  | nil => intro cur _; simp [array_to_tsvector_loop, OutEntry.toTSVector]
  | cons x rest ih =>
    intro cur hlen
    have := ih (cur + x.length) (fun y hy => hlen y (List.mem_cons_of_mem _ hy))
    have hx : x.length % (L + 1) = x.length :=
      Nat.mod_eq_of_lt (Nat.lt_succ_of_le (hlen x (List.mem_cons_self _ _)))
    simp only [OutEntry.toTSVector] at this ⊢
    simp [array_to_tsvector_loop, this, hx]

/-- On an array without nulls whose lexemes fit the field `len`,
`array_to_tsvector` returns one entry for each element, in the order of the
array: it neither sorts nor removes repetitions. -/
theorem array_to_tsvector_entries (M L : Nat) (ls : List (List Nat))
    (hlen : ∀ x ∈ ls, x.length ≤ L) :
    ∃ out, array_to_tsvector M L (ls.map some) = Except.ok (out, (ls.map List.length).sum) ∧
      OutEntry.toTSVector out = ls.map (fun x => ⟨x, false, []⟩) := by
  refine ⟨array_to_tsvector_loop M L (ls.map some) 0, ?_,
    array_to_tsvector_loop_entries M L ls 0 hlen⟩
  simp [array_to_tsvector, array_to_tsvector_datalen_ok]

/-- C33, at the inputs that fail: for the array `"b"`, `"a"` the function
`array_to_tsvector` returns the entries `"b"`, `"a"` in this order, which is not
sorted, and `tsvector_bsearch` does not find `"b"` in the result; for the array
`"a"`, `"a"` it returns the lexeme twice. -/
theorem array_to_tsvector_unsorted :
    array_to_tsvector 1048575 2047 [some [98], some [97]] =
      Except.ok ([⟨0, 0, ⟨[98], false, []⟩⟩, ⟨1, 1, ⟨[97], false, []⟩⟩], 2) ∧
    ¬ StrictSorted [⟨[98], false, []⟩, ⟨[97], false, []⟩] ∧
    tsvector_bsearch [⟨[98], false, []⟩, ⟨[97], false, []⟩] [98] = some (-1) ∧
    array_to_tsvector 1048575 2047 [some [97], some [97]] =
      Except.ok ([⟨0, 0, ⟨[97], false, []⟩⟩, ⟨1, 1, ⟨[97], false, []⟩⟩], 2) ∧
    ¬ StrictSorted [⟨[97], false, []⟩, ⟨[97], false, []⟩] := by
  refine ⟨rfl, by decide, by decide, rfl, by decide⟩

/-! ## The position-list invariant under tsvector_concat -/

theorem sorted_le_getLastD :
    ∀ (l : List WordEntryPos) (d q : WordEntryPos),
      List.Pairwise (fun a b => WEP_GETPOS a < WEP_GETPOS b) l → q ∈ l →
      WEP_GETPOS q ≤ WEP_GETPOS (l.getLastD d) := by
  intro l
  induction l with
  | nil => intro d q _ hq; cases hq
  | cons a t ih =>
    intro d q hpw hq
    rw [List.getLastD_cons]
    have hpw2 := List.pairwise_cons.1 hpw
    rcases List.mem_cons.1 hq with rfl | hq
    · rcases List.mem_cons.1 (List.getLastD_mem_cons t q) with h | h
      · rw [h]
      · exact Nat.le_of_lt (hpw2.1 _ h)
    · exact ih a q hpw2.2 hq

theorem posListOK_nil : PosListOK [] := by
  refine ⟨by simp, by simp, ?_⟩
  intro p hp
  cases hp

/-- The loop of `add_pos` keeps the invariant of the destination list, when the
positions to add are ascending and each of them, moved by `maxpos`, lies above
the positions already there. -/
theorem add_pos_loop_PosListOK (m : Nat) :
    ∀ (src dpos : List WordEntryPos), PosListOK dpos →
      List.Pairwise (fun a b => WEP_GETPOS a < WEP_GETPOS b) src →
      (∀ s ∈ src, 1 ≤ WEP_GETPOS s) →
      (∀ q ∈ dpos, ∀ s ∈ src, WEP_GETPOS q < WEP_GETPOS s + m) →
      PosListOK (add_pos_loop m src dpos) := by
  intro src
  induction src with
  | nil => intro dpos h _ _ _; simpa [add_pos_loop] using h
  | cons s rest ih =>
    intro dpos hok hsrc hpos hlt
    rw [add_pos_loop_canAdd]
    have hsrc2 := List.pairwise_cons.1 hsrc
    by_cases hc : canAdd dpos
    · rw [if_pos hc]
      have hx := (shiftRef_pos m s).1
      have hs1 := hpos s (List.mem_cons_self _ _)
      apply ih _ _ hsrc2.2 (fun t ht => hpos t (List.mem_cons_of_mem _ ht))
      · intro q hq t ht
        have hst := hsrc2.1 t ht
        rcases List.mem_append.1 hq with hq | hq
        · exact hlt q hq t (List.mem_cons_of_mem _ ht)
        · have : q = shiftRef m s := by simpa using hq
          rw [this, hx]
          omega
      · obtain ⟨hsorted, hlen, hval⟩ := hok
        refine ⟨?_, ?_, ?_⟩
        · unfold List.Sorted at hsorted ⊢
          rw [List.map_append, List.pairwise_append]
          refine ⟨hsorted, by simp, ?_⟩
          intro a ha b hb
          obtain ⟨q, hq, rfl⟩ := List.mem_map.1 ha
          have hb2 : b = WEP_GETPOS (shiftRef m s) := by simpa using hb
          rw [hb2, hx]
          have h1 := hlt q hq s (List.mem_cons_self _ _)
          have hne : dpos ≠ [] := List.ne_nil_of_mem hq
          have hlast : WEP_GETPOS (dpos.getLastD 0) ≠ 16383 := by
            rcases hc.2 with h | h
            · exact absurd h hne
            · exact h
          have hle := sorted_le_getLastD dpos 0 q (List.pairwise_map.1 hsorted) hq
          have hmem := getLastD_mem_of_ne_nil dpos hne
          have h2 := (hval _ hmem).2
          omega
        · have := hc.1
          simp only [List.length_append, List.length_singleton]
          omega
        · intro p hp
          rcases List.mem_append.1 hp with hp | hp
          · exact hval p hp
          · have : p = shiftRef m s := by simpa using hp
            rw [this, hx]
            omega
    · rw [if_neg hc]
      exact hok

theorem add_pos_loop_PosListOK_of (m : Nat) (l1 l2 : List WordEntryPos)
    (h1 : PosListOK l1) (h2 : PosListOK l2) (hm : ∀ q ∈ l1, WEP_GETPOS q ≤ m) :
    PosListOK (add_pos_loop m l2 l1) := by
  apply add_pos_loop_PosListOK m l2 l1 h1 (List.pairwise_map.1 h2.1)
    (fun s hs => (h2.2.2 s hs).1)
  intro q hq s hs
  have := hm q hq
  have := (h2.2.2 s hs).1
  omega

theorem concatSources_cons {maxpos : Nat} {in1 in2 r1 r2 : List WordEntry} {o : OutEntry}
    {out : List OutEntry} (l1 l2 : List WordEntryPos)
    (hl1 : l1 = [] ∨ ∃ e ∈ in1, l1 = POSDATA e) (hl2 : l2 = [] ∨ ∃ e ∈ in2, l2 = POSDATA e)
    (ho : POSDATA o.entry = add_pos_loop maxpos l2 l1)
    (hsub1 : ∀ e ∈ r1, e ∈ in1) (hsub2 : ∀ e ∈ r2, e ∈ in2)
    (hrest : ConcatSources maxpos r1 r2 out) :
    ConcatSources maxpos in1 in2 (o :: out) := by
  intro x hx
  rcases List.mem_cons.1 hx with rfl | hx
  · exact ⟨l1, l2, hl1, hl2, ho⟩
  · obtain ⟨a, b, ha, hb, hab⟩ := hrest x hx
    refine ⟨a, b, ?_, ?_, hab⟩
    · rcases ha with h | ⟨e, he, h⟩
      · exact Or.inl h
      · exact Or.inr ⟨e, hsub1 e he, h⟩
    · rcases hb with h | ⟨e, he, h⟩
      · exact Or.inl h
      · exact Or.inr ⟨e, hsub2 e he, h⟩

theorem concat_in1_POSDATA (M maxpos : Nat) (e : WordEntry) (d : Nat) :
    POSDATA (concat_in1 M e d).1.entry = add_pos_loop maxpos [] (POSDATA e) := by
  rw [concat_in1_entry M e d maxpos, POSDATA_mergedEntry]

theorem concat_in2_POSDATA (M maxpos : Nat) (e : WordEntry) (d : Nat) :
    POSDATA (concat_in2 M maxpos e d).1.entry = add_pos_loop maxpos (POSDATA e) [] := by
  rw [concat_in2_entry, POSDATA_mergedEntry]

theorem concat_both_POSDATA (M maxpos : Nat) (e1 e2 : WordEntry) (d : Nat) :
    POSDATA (concat_both M maxpos e1 e2 d).1.entry =
      add_pos_loop maxpos (POSDATA e2) (POSDATA e1) := by
  rw [concat_both_entry, POSDATA_mergedEntry]

theorem concat_tail1_sources (M maxpos : Nat) :
    ∀ (in1 : List WordEntry) (d : Nat),
      ConcatSources maxpos in1 [] (concat_tail1 M in1 d).1 := by
  intro in1
  induction in1 with
  | nil => intro d o ho; simp [concat_tail1] at ho
  | cons e rest ih =>
    intro d
    simp only [concat_tail1]
    exact concatSources_cons (POSDATA e) [] (Or.inr ⟨e, List.mem_cons_self _ _, rfl⟩)
      (Or.inl rfl) (concat_in1_POSDATA M maxpos e d)
      (fun x hx => List.mem_cons_of_mem _ hx) (fun x hx => hx) (ih _)

theorem concat_tail2_sources (M maxpos : Nat) :
    ∀ (in2 : List WordEntry) (d : Nat),
      ConcatSources maxpos [] in2 (concat_tail2 M maxpos in2 d).1 := by
  intro in2
  induction in2 with
  | nil => intro d o ho; simp [concat_tail2] at ho
  | cons e rest ih =>
    intro d
    simp only [concat_tail2]
    exact concatSources_cons [] (POSDATA e) (Or.inl rfl)
      (Or.inr ⟨e, List.mem_cons_self _ _, rfl⟩) (concat_in2_POSDATA M maxpos e d)
      (fun x hx => hx) (fun x hx => List.mem_cons_of_mem _ hx) (ih _)

theorem concat_tails_sources (M maxpos : Nat) (in1 in2 : List WordEntry) (d : Nat) :
    ConcatSources maxpos in1 in2 (concat_tails M maxpos in1 in2 d).1 := by
  intro o ho
  simp only [concat_tails, List.mem_append] at ho
  rcases ho with ho | ho
  · obtain ⟨a, b, ha, hb, hab⟩ := concat_tail1_sources M maxpos in1 d o ho
    refine ⟨a, b, ha, Or.inl ?_, hab⟩
    rcases hb with h | ⟨e, he, _⟩
    · exact h
    · cases he
  · obtain ⟨a, b, ha, hb, hab⟩ := concat_tail2_sources M maxpos in2 _ o ho
    refine ⟨a, b, Or.inl ?_, hb, hab⟩
    rcases ha with h | ⟨e, he, _⟩
    · exact h
    · cases he

/-- On any two inputs the merge ends and every entry it writes has the position
list `add_pos` makes of a list of `in1` and a list of `in2`. -/
theorem concat_loop_sources (M maxpos : Nat) :
    ∀ (fuel : Nat) (in1 in2 : List WordEntry) (d : Nat),
      in1.length + in2.length ≤ fuel →
      ∃ out d2, concat_loop M maxpos fuel in1 in2 d = some (out, d2) ∧
        ConcatSources maxpos in1 in2 out := by
  intro fuel
  induction fuel with
  | zero =>
    intro in1 in2 d hlen
    have h1 : in1 = [] := List.length_eq_zero.1 (by omega)
    have h2 : in2 = [] := List.length_eq_zero.1 (by omega)
    subst h1; subst h2
    exact ⟨(concat_tails M maxpos [] [] d).1, (concat_tails M maxpos [] [] d).2,
      by simp [concat_loop], concat_tails_sources M maxpos [] [] d⟩
  | succ fuel ih =>
    intro in1 in2 d hlen
    cases in1 with
    | nil =>
      exact ⟨(concat_tails M maxpos [] in2 d).1, (concat_tails M maxpos [] in2 d).2,
        by simp [concat_loop], concat_tails_sources M maxpos [] in2 d⟩
    | cons e1 rest1 =>
      cases in2 with
      | nil =>
        exact ⟨(concat_tails M maxpos (e1 :: rest1) [] d).1,
          (concat_tails M maxpos (e1 :: rest1) [] d).2, by simp [concat_loop],
          concat_tails_sources M maxpos (e1 :: rest1) [] d⟩
      | cons e2 rest2 =>
        simp only [List.length_cons] at hlen
        by_cases hneg : tsCompareString e1.lexeme e2.lexeme false < 0
        · obtain ⟨out, d2, heq, hsrc⟩ := ih rest1 (e2 :: rest2) (concat_in1 M e1 d).2
            (by simp only [List.length_cons]; omega)
          exact ⟨(concat_in1 M e1 d).1 :: out, d2, by simp [concat_loop, hneg, heq],
            concatSources_cons (POSDATA e1) [] (Or.inr ⟨e1, List.mem_cons_self _ _, rfl⟩)
              (Or.inl rfl) (concat_in1_POSDATA M maxpos e1 d)
              (fun x hx => List.mem_cons_of_mem _ hx) (fun x hx => hx) hsrc⟩
        · by_cases hpos : tsCompareString e1.lexeme e2.lexeme false > 0
          · obtain ⟨out, d2, heq, hsrc⟩ := ih (e1 :: rest1) rest2
              (concat_in2 M maxpos e2 d).2 (by simp only [List.length_cons]; omega)
            exact ⟨(concat_in2 M maxpos e2 d).1 :: out, d2,
              by simp [concat_loop, hneg, hpos, heq],
              concatSources_cons [] (POSDATA e2) (Or.inl rfl)
                (Or.inr ⟨e2, List.mem_cons_self _ _, rfl⟩) (concat_in2_POSDATA M maxpos e2 d)
                (fun x hx => hx) (fun x hx => List.mem_cons_of_mem _ hx) hsrc⟩
          · obtain ⟨out, d2, heq, hsrc⟩ := ih rest1 rest2 (concat_both M maxpos e1 e2 d).2
              (by omega)
            exact ⟨(concat_both M maxpos e1 e2 d).1 :: out, d2,
              by simp [concat_loop, hneg, hpos, heq],
              concatSources_cons (POSDATA e1) (POSDATA e2)
                (Or.inr ⟨e1, List.mem_cons_self _ _, rfl⟩)
                (Or.inr ⟨e2, List.mem_cons_self _ _, rfl⟩)
                (concat_both_POSDATA M maxpos e1 e2 d)
                (fun x hx => List.mem_cons_of_mem _ hx)
                (fun x hx => List.mem_cons_of_mem _ hx) hsrc⟩

/-- C34: for all vectors `v1` and `v2` in which every position list is strictly
ascending by position value, has at most 256 entries and has all values in
`[1, 16383]`, the merge of `tsvector_concat` ends with entries `out` and a data
size `d`, the function returns `out` when `d` is within `MAXSTRPOS`, and every
position list of `out` is again strictly ascending, has at most 256 entries and
has all values in `[1, 16383]`. -/
theorem tsvector_concat_poslist_invariant (M : Nat) (v1 v2 : TSVector)
    (h1 : ∀ e ∈ v1, PosListOK (POSDATA e)) (h2 : ∀ e ∈ v2, PosListOK (POSDATA e)) :
    ∃ (out : List OutEntry) (d : Nat),
      concat_loop M (concat_maxpos 0 v1) (v1.length + v2.length) v1 v2 0 = some (out, d) ∧
      (d ≤ M → tsvector_concat M v1 v2 = some (Except.ok (out, d))) ∧
      (∀ out2 d2, tsvector_concat M v1 v2 = some (Except.ok (out2, d2)) → out2 = out) ∧
      ∀ o ∈ out, PosListOK (POSDATA o.entry) := by
  obtain ⟨out, d, heq, hsrc⟩ := concat_loop_sources M (concat_maxpos 0 v1)
    (v1.length + v2.length) v1 v2 0 (Nat.le_refl _)
  have hres : tsvector_concat M v1 v2 =
      some (if d > M then Except.error (TsError.programLimitExceeded d)
        else Except.ok (out, d)) := by
    unfold tsvector_concat
    simp only [heq]
    split <;> rfl
  refine ⟨out, d, heq, ?_, ?_, ?_⟩
  · intro hle
    rw [hres, if_neg (by omega)]
  · intro out2 d2 hok
    rw [hres] at hok
    by_cases hd : d > M
    · rw [if_pos hd] at hok
      cases hok
    · rw [if_neg hd] at hok
      cases hok
      rfl
  · intro o ho
    obtain ⟨l1, l2, hl1, hl2, hpd⟩ := hsrc o ho
    rw [hpd]
    apply add_pos_loop_PosListOK_of
    · rcases hl1 with h | ⟨e, he, h⟩
      · rw [h]; exact posListOK_nil
      · rw [h]; exact h1 e he
    · rcases hl2 with h | ⟨e, he, h⟩
      · rw [h]; exact posListOK_nil
      · rw [h]; exact h2 e he
    · intro q hq
      rcases hl1 with h | ⟨e, he, h⟩
      · rw [h] at hq; cases hq
      · rw [h] at hq
        rw [concat_maxpos_zero]
        exact le_maxposRef v1 e he q hq

/-- A witness for C34: the example vectors, whose concatenation holds `"a"` with
the positions 1, 3, 5 and `"b"` with the positions 8 and 16383. -/
theorem tsvector_concat_poslist_invariant_witness :
    (∀ e ∈ exIn1, PosListOK (POSDATA e)) ∧ (∀ e ∈ exIn2, PosListOK (POSDATA e)) ∧
    tsvector_concat 1048575 exIn1 exIn2 = some (Except.ok (exOut12, 20)) ∧
    ∃ (out : List OutEntry) (d : Nat),
      concat_loop 1048575 (concat_maxpos 0 exIn1) (exIn1.length + exIn2.length)
        exIn1 exIn2 0 = some (out, d) ∧
      (d ≤ 1048575 → tsvector_concat 1048575 exIn1 exIn2 = some (Except.ok (out, d))) ∧
      (∀ out2 d2, tsvector_concat 1048575 exIn1 exIn2 = some (Except.ok (out2, d2)) →
        out2 = out) ∧
      ∀ o ∈ out, PosListOK (POSDATA o.entry) :=
  ⟨by decide, by decide, rfl,
    tsvector_concat_poslist_invariant 1048575 exIn1 exIn2 (by decide) (by decide)⟩

/-! ## Concatenation with the empty vector -/

theorem shiftRef_zero (p : WordEntryPos) : shiftRef 0 p = p := by
  unfold shiftRef WEP_GETWEIGHT WEP_GETPOS
  show @Eq Nat _ _
  omega

/-- With `maxpos = 0` the loop of `add_pos` appends the whole source, when the
list that results keeps the invariant of position lists. -/
theorem add_pos_loop_zero :
    ∀ (src dpos : List WordEntryPos), PosListOK (dpos ++ src) →
      add_pos_loop 0 src dpos = dpos ++ src := by
  intro src
  induction src with
  | nil => intro dpos _; simp [add_pos_loop]
  | cons s rest ih =>
    intro dpos hok
    rw [add_pos_loop_canAdd]
    have hc : canAdd dpos := by
      obtain ⟨hsorted, hlen, hval⟩ := hok
      refine ⟨?_, ?_⟩
      · simp only [List.length_append, List.length_cons] at hlen
        omega
      · by_cases hnil : dpos = []
        · exact Or.inl hnil
        · right
          have hmem := getLastD_mem_of_ne_nil dpos hnil
          have hpw : List.Pairwise (fun a b => WEP_GETPOS a < WEP_GETPOS b) (dpos ++ s :: rest) :=
            List.pairwise_map.1 hsorted
          have hlt := (List.pairwise_append.1 hpw).2.2 _ hmem s (List.mem_cons_self _ _)
          have := (hval s (by simp)).2
          omega
    rw [if_pos hc, shiftRef_zero]
    have := ih (dpos ++ [s]) (by simpa using hok)
    simpa using this

theorem concat_in2_zero_eq_in1 (M : Nat) (e : WordEntry) (d : Nat)
    (hne : e.haspos = true → e.posvec ≠ []) (hok : PosListOK (POSDATA e)) :
    concat_in2 M 0 e d = concat_in1 M e d := by
  by_cases hp : e.haspos = true
  · have hpd : POSDATA e = e.posvec := POSDATA_of_haspos e hp
    have hloop : add_pos_loop 0 e.posvec [] = e.posvec := by
      have := add_pos_loop_zero e.posvec [] (by simpa [hpd] using hok)
      simpa using this
    have hlen : e.posvec.length ≠ 0 := by
      intro h
      exact hne hp (List.length_eq_zero.1 h)
    simp [concat_in2, concat_in1, hp, add_pos, hpd, hloop, hlen]
  · have hp2 : e.haspos = false := by simpa using hp
    simp [concat_in2, concat_in1, hp2]

theorem concat_tail2_zero_eq_tail1 (M : Nat) :
    ∀ (v : List WordEntry) (d : Nat),
      (∀ e ∈ v, e.haspos = true → e.posvec ≠ []) → (∀ e ∈ v, PosListOK (POSDATA e)) →
      concat_tail2 M 0 v d = concat_tail1 M v d := by
  intro v
  induction v with
  | nil => intro d _ _; rfl
  | cons e rest ih =>
    intro d hne hok
    simp only [concat_tail2, concat_tail1]
    rw [concat_in2_zero_eq_in1 M e d (hne e (List.mem_cons_self _ _))
      (hok e (List.mem_cons_self _ _)),
      ih _ (fun x hx => hne x (List.mem_cons_of_mem _ hx))
        (fun x hx => hok x (List.mem_cons_of_mem _ hx))]

theorem concat_tail1_entries (M : Nat) :
    ∀ (v : List WordEntry) (d : Nat),
      OutEntry.toTSVector (concat_tail1 M v d).1 =
        v.map (fun e => ⟨e.lexeme, e.haspos, POSDATA e⟩) := by
  intro v
  induction v with
  | nil => intro d; rfl
  | cons e rest ih =>
    intro d
    have hih := ih (concat_in1 M e d).2
    simp only [OutEntry.toTSVector] at hih ⊢
    simp only [concat_tail1, List.map_cons, hih]
    congr 1
    by_cases hp : e.haspos = true
    · simp [concat_in1, hp, POSDATA]
    · have hp2 : e.haspos = false := by simpa using hp
      simp [concat_in1, hp2, POSDATA]

theorem concat_loop_nil_right (M maxpos fuel : Nat) (v : List WordEntry) (d : Nat) :
    concat_loop M maxpos fuel v [] d = some (concat_tails M maxpos v [] d) := by
  cases fuel <;> cases v <;> simp [concat_loop]

theorem concat_loop_nil_left (M maxpos fuel : Nat) (v : List WordEntry) (d : Nat) :
    concat_loop M maxpos fuel [] v d = some (concat_tails M maxpos [] v d) := by
  cases fuel <;> cases v <;> simp [concat_loop]

theorem concat_tail1_dataSize (M : Nat) :
    ∀ (v : List WordEntry) (d : Nat), (concat_tail1 M v d).2 = dataSizeFrom v d := by
  intro v
  induction v with
  | nil => intro d; rfl
  | cons e rest ih =>
    intro d
    simp only [concat_tail1, dataSizeFrom]
    rw [ih]
    by_cases hp : e.haspos = true
    · have harith : (POSDATA e).length * 2 + 2 = 2 + 2 * (POSDATA e).length := by omega
      simp only [concat_in1, hp, if_true, harith]
    · have hp2 : e.haspos = false := by simpa using hp
      simp [concat_in1, hp2]

theorem concat_empty_right (M : Nat) (v : TSVector) :
    tsvector_concat M v [] =
      some (if dataSize v > M then Except.error (TsError.programLimitExceeded (dataSize v))
        else Except.ok ((concat_tail1 M v 0).1, dataSize v)) := by
  unfold tsvector_concat dataSize
  rw [← concat_tail1_dataSize M v 0]
  simp only [concat_loop_nil_right, concat_tails, concat_tail2, List.append_nil]
  split <;> rfl

theorem concat_empty_left (M : Nat) (v : TSVector)
    (hne : ∀ e ∈ v, e.haspos = true → e.posvec ≠ [])
    (hpos : ∀ e ∈ v, PosListOK (POSDATA e)) :
    tsvector_concat M [] v =
      some (if dataSize v > M then Except.error (TsError.programLimitExceeded (dataSize v))
        else Except.ok ((concat_tail1 M v 0).1, dataSize v)) := by
  unfold tsvector_concat dataSize
  rw [← concat_tail1_dataSize M v 0]
  have hmax : concat_maxpos 0 [] = 0 := rfl
  simp only [concat_loop_nil_left, hmax, concat_tails, concat_tail1, List.nil_append,
    concat_tail2_zero_eq_tail1 M v 0 hne hpos]
  split <;> rfl

/-- When the data of `v` does not fit, both concatenations with the empty vector
raise the program-limit error. -/
theorem concat_empty_limit (M : Nat) (v : TSVector)
    (hne : ∀ e ∈ v, e.haspos = true → e.posvec ≠ [])
    (hpos : ∀ e ∈ v, PosListOK (POSDATA e)) (hbig : M < dataSize v) :
    tsvector_concat M v [] =
      some (Except.error (TsError.programLimitExceeded (dataSize v))) ∧
    ∃ d, M < d ∧
      tsvector_concat M [] v = some (Except.error (TsError.programLimitExceeded d)) := by
  refine ⟨?_, dataSize v, hbig, ?_⟩
  · rw [concat_empty_right, if_pos hbig]
  · rw [concat_empty_left M v hne hpos, if_pos hbig]

/-- C35: the empty vector is a two-sided identity of `tsvector_concat` on vectors
whose position lists are non-empty where present, strictly ascending, at most 256
long and within `[1, 16383]`, and whose data fits the addressable range
(`dataSize v` is at most `MAXSTRPOS`).  Both `tsvector_concat(v, empty)` and
`tsvector_concat(empty, v)` return, without an error, the same result `out`
with a data area of `dataSize v` bytes; `out` has exactly the entries of `v`:
the same lexemes, `haspos` flags and position lists, position values and
weights included, in the same order, and the field `pos` of every entry is the
offset at which its lexeme was stored. -/
theorem tsvector_concat_empty (M : Nat) (v : TSVector)
    (hne : ∀ e ∈ v, e.haspos = true → e.posvec ≠ [])
    (hpos : ∀ e ∈ v, PosListOK (POSDATA e))
    (hfit : dataSize v ≤ M) :
    ∃ out : List OutEntry,
      tsvector_concat M v [] = some (Except.ok (out, dataSize v)) ∧
      tsvector_concat M [] v = some (Except.ok (out, dataSize v)) ∧
      OutEntry.toTSVector out = v.map (fun e => ⟨e.lexeme, e.haspos, POSDATA e⟩) ∧
      ∀ o ∈ out, o.pos = o.lexemeAt := by
  have hnot : ¬ dataSize v > M := Nat.not_lt.2 hfit
  refine ⟨(concat_tail1 M v 0).1, ?_, ?_, concat_tail1_entries M v 0, ?_⟩
  · rw [concat_empty_right, if_neg hnot]
  · rw [concat_empty_left M v hne hpos, if_neg hnot]
  · intro o ho
    obtain ⟨_, hle, hp⟩ := (concat_tail1_offsets M v 0).2 o ho
    rw [concat_tail1_dataSize M v 0] at hle
    rw [hp]
    exact Nat.mod_eq_of_lt (Nat.lt_succ_of_le (le_trans hle hfit))

/-- A witness for C35: the example vector `"a"`, `"b"`, `"d"`, whose data takes 15
bytes, concatenated with the empty vector on either side gives the three entries
of the vector back. -/
theorem tsvector_concat_empty_witness :
    (∀ e ∈ exIn2, e.haspos = true → e.posvec ≠ []) ∧
    (∀ e ∈ exIn2, PosListOK (POSDATA e)) ∧
    dataSize exIn2 = 15 ∧
    tsvector_concat 1048575 exIn2 [] = some (Except.ok
      ([⟨0, 0, ⟨[97], true, [2]⟩⟩, ⟨6, 6, ⟨[98], true, [5, 16383]⟩⟩,
        ⟨14, 14, ⟨[100], false, []⟩⟩], 15)) ∧
    tsvector_concat 1048575 [] exIn2 = some (Except.ok
      ([⟨0, 0, ⟨[97], true, [2]⟩⟩, ⟨6, 6, ⟨[98], true, [5, 16383]⟩⟩,
        ⟨14, 14, ⟨[100], false, []⟩⟩], 15)) ∧
    OutEntry.toTSVector ([⟨0, 0, ⟨[97], true, [2]⟩⟩, ⟨6, 6, ⟨[98], true, [5, 16383]⟩⟩,
        ⟨14, 14, ⟨[100], false, []⟩⟩] : List OutEntry) = exIn2 ∧
    ∃ out : List OutEntry,
      tsvector_concat 1048575 exIn2 [] = some (Except.ok (out, dataSize exIn2)) ∧
      tsvector_concat 1048575 [] exIn2 = some (Except.ok (out, dataSize exIn2)) ∧
      OutEntry.toTSVector out = exIn2.map (fun e => ⟨e.lexeme, e.haspos, POSDATA e⟩) ∧
      ∀ o ∈ out, o.pos = o.lexemeAt :=
  ⟨by decide, by decide, by decide, rfl, rfl, rfl,
    tsvector_concat_empty 1048575 exIn2 (by decide) (by decide) (by decide)⟩

/-! ## A phrase match implies the conjunction -/

/-- The forward scan without a position buffer stops at the first entry of the
run of prefix matches that passes `checkclass_str`. -/
theorem checkcondition_str_scan_nodata_any (val : QueryOperand) :
    ∀ (L : List WordEntry) (allpos : List WordEntryPos),
      checkcondition_str_scan val L false none allpos =
        ((L.takeWhile (prefixMatch val)).any (entryMatches val), none, allpos) := by
  intro L
  induction L with
  | nil => intro allpos; simp [checkcondition_str_scan]
  | cons e rest ih =>
    intro allpos
    by_cases hpm : prefixMatch val e = true
    · have hdec : decide (tsCompareString val.lexeme e.lexeme true = 0) = true := hpm
      simp only [checkcondition_str_scan, hdec, checkclass_str_none]
      by_cases hm : entryMatches val e = true
      · simp [hm, checkcondition_str_scan_done, List.takeWhile, hpm]
      · have hm2 : entryMatches val e = false := by simpa using hm
        simp [hm2, ih, List.takeWhile, hpm]
    · have hpm2 : prefixMatch val e = false := by simpa using hpm
      have hdec : decide (tsCompareString val.lexeme e.lexeme true = 0) = false := hpm2
      simp only [checkcondition_str_scan, hdec]
      simp [List.takeWhile, hpm2]

/-- A leaf checked without a position buffer on a sorted array: the call
returns, and reports a match exactly when some entry is a hit for the leaf. -/
theorem checkcondition_str_nodata_spec (v : TSVector) (hs : StrictSorted v)
    (val : QueryOperand) :
    ∃ r : Bool, checkcondition_str v val none = some (r, none) ∧
      (r = true ↔ ∃ e ∈ v, leafHit val e) := by
  by_cases hp : val.pfx = true
  · obtain ⟨st, hst, hpost⟩ := checkcondition_str_bsearch_total v hs val none
    have hrun := hpost.run_iff hs
    have hdata : st.data = none := by
      rcases hpost.2.2.2 with ⟨e, _, _, _, hd⟩ | ⟨_, _, hd⟩
      · rw [hd, checkclass_str_none]
      · exact hd
    by_cases hres : st.res = true
    · refine ⟨true, ?_, ?_⟩
      · unfold checkcondition_str
        simp [hst, hres, hdata]
      · refine ⟨fun _ => ?_, fun _ => rfl⟩
        rcases hpost.2.2.2 with ⟨e, he, hl, hr, _⟩ | ⟨_, hr, _⟩
        · refine ⟨e, List.getElem?_mem he, ?_, ?_⟩
          · rw [if_pos hp]
            exact (prefixMatch_iff val e).1 (prefixMatch_of_lexeme_eq val e hl)
          · rw [checkclass_str_none] at hr
            have hr2 : st.res = entryMatches val e := hr
            rw [← hr2]; exact hres
        · rw [hr] at hres
          cases hres
    · have hres2 : st.res = false := by simpa using hres
      refine ⟨((v.drop (scanStart st)).takeWhile (prefixMatch val)).any (entryMatches val),
        ?_, ?_⟩
      · unfold checkcondition_str
        simp only [hst, hres2, hdata, hp]
        have hs2 : (if st.StopLow ≥ st.StopHigh then st.StopHigh else st.StopMiddle) =
            scanStart st := rfl
        simp [hs2, checkcondition_str_scan_nodata_any]
      · rw [List.any_eq_true]
        constructor
        · rintro ⟨e, he, hm⟩
          exact ⟨e, ((hrun e).1 he).1, by
            rw [leafHit, if_pos hp]
            exact ⟨(prefixMatch_iff val e).1 ((hrun e).1 he).2, hm⟩⟩
        · rintro ⟨e, he, hh, hm⟩
          rw [if_pos hp] at hh
          exact ⟨e, (hrun e).2 ⟨he, (prefixMatch_iff val e).2 hh⟩, hm⟩
  · have hp2 : val.pfx = false := by simpa using hp
    by_cases hex : ∃ e ∈ v, e.lexeme = val.lexeme
    · obtain ⟨e, he, hl⟩ := hex
      refine ⟨entryMatches val e, ?_, ?_⟩
      · rw [checkcondition_str_exact_found v hs val none hp2 e he hl, checkclass_str_none]
      · constructor
        · intro hm
          exact ⟨e, he, by rw [leafHit, if_neg hp]; exact ⟨hl, hm⟩⟩
        · rintro ⟨e2, he2, hh, hm⟩
          rw [if_neg hp] at hh
          have : e2 = e := hs.entry_unique he2 he (hh.trans hl.symm)
          rw [← this]; exact hm
    · have hno : ∀ e ∈ v, e.lexeme ≠ val.lexeme := fun e he hl => hex ⟨e, he, hl⟩
      refine ⟨false, checkcondition_str_exact_notfound v hs val none hp2 hno, ?_⟩
      constructor
      · intro h; cases h
      · rintro ⟨e, he, hh, _⟩
        rw [if_neg hp] at hh
        exact absurd hh (hno e he)

/-- A leaf checked with a fresh position buffer on a sorted array: the call
returns, and when it reports a match some entry is a hit for the leaf. -/
theorem checkcondition_str_data_hit (v : TSVector) (hs : StrictSorted v)
    (val : QueryOperand) :
    ∃ (r : Bool) (d : ExecPhraseData),
      checkcondition_str v val (some ExecPhraseData.init) = some (r, some d) ∧
      (r = true → ∃ e ∈ v, leafHit val e) := by
  by_cases hp : val.pfx = true
  · obtain ⟨r, d, hcc, _, h2, _, _⟩ := checkcondition_str_prefix_data v hs val hp
    refine ⟨r, d, hcc, ?_⟩
    intro hr
    obtain ⟨e, he, hh, hm⟩ := h2 hr
    exact ⟨e, he, by rw [leafHit, if_pos hp]; exact ⟨hh, hm⟩⟩
  · have hp2 : val.pfx = false := by simpa using hp
    by_cases hex : ∃ e ∈ v, e.lexeme = val.lexeme
    · obtain ⟨e, he, hl⟩ := hex
      obtain ⟨d2, hcc, _, _⟩ := checkclass_str_some e val ExecPhraseData.init
      refine ⟨entryMatches val e, d2, ?_, ?_⟩
      · rw [checkcondition_str_exact_found v hs val _ hp2 e he hl, hcc]
      · intro hm
        exact ⟨e, he, by rw [leafHit, if_neg hp]; exact ⟨hl, hm⟩⟩
    · have hno : ∀ e ∈ v, e.lexeme ≠ val.lexeme := fun e he hl => hex ⟨e, he, hl⟩
      refine ⟨false, ExecPhraseData.init,
        checkcondition_str_exact_notfound v hs val _ hp2 hno, ?_⟩
      intro h; cases h

/-- The phrase of two value leaves, evaluated from `TS_execute`: the call returns
when both leaf checks do, and it reports a match only if both leaves do. -/
theorem TS_phrase_execute_leaves (chkcond : ChkCond) (calcnot : Bool)
    (l r : QueryOperand) (distance : Nat) (rl rr : Bool) (dl dr : ExecPhraseData)
    (hl : chkcond l (some ExecPhraseData.init) = some (rl, some dl))
    (hr : chkcond r (some ExecPhraseData.init) = some (rr, some dr)) :
    ∃ b : Bool, TS_execute chkcond calcnot
        (QueryItem.phrase (QueryItem.val l) (QueryItem.val r) distance) = some b ∧
      (b = true → rl = true ∧ rr = true) := by
  cases rl with
  | false =>
    refine ⟨false, ?_, by intro h; cases h⟩
    simp [TS_execute, TS_phrase_execute, hl]
  | true =>
    cases rr with
    | false =>
      refine ⟨false, ?_, by intro h; cases h⟩
      simp [TS_execute, TS_phrase_execute, hl, hr]
    | true =>
      by_cases hz : dl.npos = 0 ∨ dr.npos = 0
      · refine ⟨true, ?_, fun _ => ⟨rfl, rfl⟩⟩
        simp [TS_execute, TS_phrase_execute, hl, hr, hz]
      · refine ⟨(TS_phrase_execute_loop distance false dr.positions dl.positions).1, ?_,
          fun _ => ⟨rfl, rfl⟩⟩
        simp [TS_execute, TS_phrase_execute, hl, hr, hz]

/-- C36: on a strictly sorted vector, for all value leaves `l` and `r` and every
distance, `TS_execute` returns on the phrase of `l` and `r`, on their
conjunction and on each leaf; the conjunction has the value of both leaves
together; if the phrase evaluates to true, so does the conjunction; a leaf
evaluates to true exactly when some entry is a hit for it; and a phrase one of
whose leaves has no hit in the vector evaluates to false. -/
theorem TS_execute_phrase_imp_and (v : TSVector) (hs : StrictSorted v)
    (l r : QueryOperand) (distance : Nat) (calcnot : Bool) :
    ∃ (bp bl br : Bool),
      TS_execute (checkcondition_str v) calcnot
        (QueryItem.phrase (QueryItem.val l) (QueryItem.val r) distance) = some bp ∧
      TS_execute (checkcondition_str v) calcnot (QueryItem.val l) = some bl ∧
      TS_execute (checkcondition_str v) calcnot (QueryItem.val r) = some br ∧
      TS_execute (checkcondition_str v) calcnot
        (QueryItem.and (QueryItem.val l) (QueryItem.val r)) = some (bl && br) ∧
      (bp = true → (bl && br) = true) ∧
      (bl = true ↔ ∃ e ∈ v, leafHit l e) ∧
      (br = true ↔ ∃ e ∈ v, leafHit r e) ∧
      ((¬ ∃ e ∈ v, leafHit l e) ∨ (¬ ∃ e ∈ v, leafHit r e) → bp = false) := by
  obtain ⟨bl, hbl, hbl2⟩ := checkcondition_str_nodata_spec v hs l
  obtain ⟨br, hbr, hbr2⟩ := checkcondition_str_nodata_spec v hs r
  obtain ⟨rl, dl, hdl, hdl2⟩ := checkcondition_str_data_hit v hs l
  obtain ⟨rr, dr, hdr, hdr2⟩ := checkcondition_str_data_hit v hs r
  obtain ⟨bp, hbp, hbp2⟩ := TS_phrase_execute_leaves (checkcondition_str v) calcnot l r
    distance rl rr dl dr hdl hdr
  have himp : bp = true → bl = true ∧ br = true := by
    intro h
    obtain ⟨h1, h2⟩ := hbp2 h
    exact ⟨hbl2.2 (hdl2 h1), hbr2.2 (hdr2 h2)⟩
  refine ⟨bp, bl, br, hbp, ?_, ?_, ?_, ?_, hbl2, hbr2, ?_⟩
  · simp [TS_execute, hbl]
  · simp [TS_execute, hbr]
  · cases hb : bl with
    | false => simp [TS_execute, hbl, hb]
    | true => simp [TS_execute, hbl, hbr, hb]
  · intro h
    obtain ⟨h1, h2⟩ := himp h
    simp [h1, h2]
  · intro h
    cases hb : bp with
    | false => rfl
    | true =>
      obtain ⟨h1, h2⟩ := himp hb
      rcases h with h | h
      · exact absurd (hbl2.1 h1) h
      · exact absurd (hbr2.1 h2) h

/-- A witness for C36: on `"cat"`, `"catalog"`, `"dog"` the phrase of `"cat"`
(with prefix flag) and `"dog"` at distance 1 evaluates to true, and so does the
conjunction; the phrase of `"cat"` and the absent `"emu"` evaluates to false. -/
theorem TS_execute_phrase_imp_and_witness :
    StrictSorted catVector ∧
    TS_execute (checkcondition_str catVector) true
      (QueryItem.phrase (QueryItem.val (catLeaf 0)) (QueryItem.val ⟨0, false, [100, 111, 103]⟩)
        1) = some true ∧
    TS_execute (checkcondition_str catVector) true
      (QueryItem.phrase (QueryItem.val (catLeaf 0)) (QueryItem.val ⟨0, false, [101, 109, 117]⟩)
        1) = some false ∧
    ∃ (bp bl br : Bool),
      TS_execute (checkcondition_str catVector) true
        (QueryItem.phrase (QueryItem.val (catLeaf 0))
          (QueryItem.val ⟨0, false, [100, 111, 103]⟩) 1) = some bp ∧
      TS_execute (checkcondition_str catVector) true (QueryItem.val (catLeaf 0)) = some bl ∧
      TS_execute (checkcondition_str catVector) true
        (QueryItem.val ⟨0, false, [100, 111, 103]⟩) = some br ∧
      TS_execute (checkcondition_str catVector) true
        (QueryItem.and (QueryItem.val (catLeaf 0))
          (QueryItem.val ⟨0, false, [100, 111, 103]⟩)) = some (bl && br) ∧
      (bp = true → (bl && br) = true) ∧
      (bl = true ↔ ∃ e ∈ catVector, leafHit (catLeaf 0) e) ∧
      (br = true ↔ ∃ e ∈ catVector, leafHit ⟨0, false, [100, 111, 103]⟩ e) ∧
      ((¬ ∃ e ∈ catVector, leafHit (catLeaf 0) e) ∨
        (¬ ∃ e ∈ catVector, leafHit ⟨0, false, [100, 111, 103]⟩ e) → bp = false) :=
  ⟨by decide, by decide, by decide,
    TS_execute_phrase_imp_and catVector (by decide) (catLeaf 0) ⟨0, false, [100, 111, 103]⟩ 1
      true⟩

/-! ## ts_match_vq -/

/-- C37: `ts_match_vq` returns false when the vector has no entries or the query
has no items, without evaluating the tree: it does so also for a tree on which
`TS_execute` yields no result; for the empty vector and the query `NOT x` it
returns false although `TS_execute` returns true on `NOT x` there, the leaf
check finding nothing; for a vector with entries and a query with items it
returns what `TS_execute` returns with `calcnot = true` and
`checkcondition_str` as the leaf check. -/
theorem ts_match_vq_spec (v : TSVector) (q : QueryItem) (x : QueryOperand) :
    (∀ query : Option QueryItem, ts_match_vq [] query = some false) ∧
    ts_match_vq v none = some false ∧
    ts_match_vq [] (some (QueryItem.not (QueryItem.val x))) = some false ∧
    checkcondition_str [] x none = some (false, none) ∧
    TS_execute (checkcondition_str []) true (QueryItem.not (QueryItem.val x)) = some true ∧
    TS_execute (checkcondition_str []) true
      (QueryItem.phrase (QueryItem.not (QueryItem.val x)) (QueryItem.val x) 1) = none ∧
    ts_match_vq []
      (some (QueryItem.phrase (QueryItem.not (QueryItem.val x)) (QueryItem.val x) 1)) =
      some false ∧
    (v ≠ [] → ts_match_vq v (some q) = TS_execute (checkcondition_str v) true q) := by
  have hleaf : checkcondition_str [] x none = some (false, none) := by
    simp [checkcondition_str, checkcondition_str_bsearch, checkcondition_str_scan]
  refine ⟨?_, ?_, ?_, hleaf, ?_, ?_, ?_, ?_⟩
  · intro query
    simp [ts_match_vq]
  · simp [ts_match_vq]
  · simp [ts_match_vq]
  · simp [TS_execute, hleaf]
  · simp [TS_execute, TS_phrase_execute]
  · simp [ts_match_vq]
  · intro hv
    have hlen : ¬ v.length = 0 := fun h => hv (List.length_eq_zero.1 h)
    simp [ts_match_vq, hlen]

end TsvectorOp
